import Mathlib

/-!
# xjs: a shallow embedding of the streaming JSON reader (`xjs.c`, `xjs.h`)

The C functions are translated one by one, state passing made explicit.

* The cursor `*jsp` is the list of characters of the current chunk from the
  cursor on; the chunk terminator is the end of the list (a NUL character
  inside the list also terminates: the cursor never moves past it).
* The three callbacks are deterministic functions of what they have been
  handed so far: the sink answers from the list of earlier events, the
  allocator from the list of earlier requests, the refill callback from the
  number of earlier calls.
* Pointers returned by the allocator and parent handles are natural numbers,
  `0` standing for `NULL`.
* `XJSSize` and `int` counters are natural numbers: they count characters of
  the input and stay far below the machine limits.
* Loops and the mutual recursion of the container parsers run on a fuel
  counter; `none` means that the fuel ran out, never a C result.
-/

namespace XJS

/-! ## xjs.h: status codes, node kinds, callbacks -/

abbrev XJS_OK : Int := 0
abbrev XJS_NOPE : Int := 1
abbrev XJS_END : Int := 2
abbrev XJS_ERR : Int := 3
abbrev XJS_ERR_NO_INPUT : Int := 4
abbrev XJS_ERR_BAD_INPUT : Int := 5
abbrev XJS_ERR_EXP_COLON : Int := 6
abbrev XJS_ERR_EXP_COMMA : Int := 7
abbrev XJS_ERR_EXP_END_STRING : Int := 8
abbrev XJS_ERR_EXP_ESCAPE : Int := 9
abbrev XJS_ERR_EXP_ESCAPE_HEX : Int := 10
abbrev XJS_ERR_EXP_DIGIT : Int := 11
abbrev XJS_ERR_USAGE : Int := 12
abbrev XJS_ERR_MEM_MISSING : Int := 13
abbrev XJS_ERR_MEM_ALLOC : Int := 14
abbrev XJS_ERR_BAD_LITERAL : Int := 15
abbrev XJS_ERR_CONTROL_CHAR : Int := 16
abbrev XJS_ERR_MORE_INPUT : Int := 17
abbrev XJS_ERR_BLOCK_ARRAY_SIZE : Int := 100

/-- Memory manager action request codes. -/
inductive XJSMemReq
  | XJS_free
  | XJS_alloc
deriving DecidableEq, Repr

/-- Node type values (the block kinds exist under XJS_CFLAG_ENABLE_BLOCKS). -/
inductive XJSType
  | XJS_unknown
  | XJS_array
  | XJS_object
  | XJS_number
  | XJS_string
  | XJS_true
  | XJS_false
  | XJS_null
  | XJS_name
  | XJS_block
  | XJS_block_end
  | XJS_block_header
  | XJS_block_header_end
  | XJS_block_array
  | XJS_block_array_end
  | XJS_array_end
  | XJS_object_end
deriving DecidableEq, Repr

open XJSMemReq XJSType

/-- One call of the node callback: the handle presented in `*parent`, the
kind, and the two C strings (`none` for a NULL pointer). -/
structure Event where
  parent : Nat
  kind : XJSType
  name : Option (List Char)
  value : Option (List Char)
deriving DecidableEq, Repr

/-- One call of the memory callback (`actsz` is an out parameter only). -/
structure MemCall where
  action : XJSMemReq
  context : XJSType
  prev : Nat
  size : Nat
deriving DecidableEq, Repr

/-- XJSNodeCB: from the earlier events and the present one to the returned
status and the handle left in `*parent`. -/
abbrev XJSNodeCB := List Event → Event → Int × Nat

/-- XJSInputCB: the k-th call (k counted from 0) returns a status and leaves
the cursor on a NUL terminated buffer. -/
abbrev XJSInputCB := Nat → Int × List Char

/-- XJSMemCB: the memory manager. `call` maps the earlier requests and the
present one to the returned pointer (0 for NULL) and the value left in
`*actsz`. `wild h p i` is what a read of slot `i` of the block at `p` finds,
after the requests `h`, when the parser has stored nothing in that slot: a
pointer and the C string behind it. C leaves the content of such memory open
(it is uninitialised, or it lies past the end of the block granted), so it
comes with the memory the manager hands out and every value is possible. -/
structure XJSMemCB where
  call : List MemCall → MemCall → Nat × Nat
  wild : List MemCall → Nat → Nat → Nat × Option (List Char)

/-- The memory manager is called as the function it is in C. -/
instance : CoeFun XJSMemCB (fun _ => List MemCall → MemCall → Nat × Nat) := ⟨XJSMemCB.call⟩

/-- One read of a slot of the block header table: the index, the number of
slots filled at that time, and whether the slot read was filled. -/
structure HdrRead where
  index : Nat
  stored : Nat
  filled : Bool
deriving DecidableEq, Repr

/-- What a call of the parser threads through: the cursor, and the record of
the calls made to the three callbacks and of the stores made into buffers
(index written, capacity `mxsz` at that time). -/
structure State where
  js : List Char
  calls : Nat
  events : List Event
  mem : List MemCall
  writes : List (Nat × Nat)
  hdrReads : List HdrRead
deriving DecidableEq, Repr

/-- The callbacks handed to xjs_parse, the memory callback already resolved,
and the compile time flag XJS_CFLAG_ENABLE_BLOCKS. -/
structure Env where
  blocks : Bool
  node_cb : XJSNodeCB
  inp_cb : Option XJSInputCB
  mem_cb : XJSMemCB

/-- A growable output buffer: the pointer `*to` (0 for NULL), `*mxsz`, and the bytes
stored so far at the indices below `*used`. -/
structure Buf where
  ptr : Nat
  mxsz : Nat
  data : List Char
deriving DecidableEq, Repr

/-- The counter `*used`: the number of bytes stored. -/
def Buf.used (b : Buf) : Nat := b.data.length

/-- The buffer of a production that has not stored anything yet. -/
def Buf.empty : Buf := { ptr := 0, mxsz := 0, data := [] }

/-- The terminator. -/
def NUL : Char := Char.ofNat 0

/-- The C string a buffer pointer designates: NULL, or the bytes up to the
first NUL. -/
def Buf.cstr (b : Buf) : Option (List Char) :=
  if b.ptr = 0 then none else some (b.data.takeWhile (fun c => c != NUL))

/-- The header table of a block: the pointer `hdr` of i_parse_block and the
slots written through it (`none` for a slot never written); a filled slot
holds the pointer and the C string of a name. -/
structure Hdr where
  ptr : Nat
  slots : List (Option (Nat × Option (List Char)))
deriving DecidableEq, Repr

def IXJS_MEM_STR_BLOCK_SIZE : Nat := 256
def IXJS_MEM_HEADER_BLOCK_SIZE : Nat := 256

/-- The value of sizeof(char*) on the target. -/
def sizeof_ptr : Nat := 8

/-! ## ctype.h in the C locale -/

def isdigit (c : Char) : Bool := decide ('0' ≤ c) && decide (c ≤ '9')

def isspace (c : Char) : Bool :=
  c == ' ' || c == '\t' || c == '\n' || c == Char.ofNat 11 || c == Char.ofNat 12 || c == '\r'

def isalnum (c : Char) : Bool :=
  isdigit c || (decide ('a' ≤ c) && decide (c ≤ 'z')) || (decide ('A' ≤ c) && decide (c ≤ 'Z'))

def isxdigit (c : Char) : Bool :=
  isdigit c || (decide ('a' ≤ c) && decide (c ≤ 'f')) || (decide ('A' ≤ c) && decide (c ≤ 'F'))

/-! ## xjs.c: cursor and buffer primitives -/

/-- The character under the cursor, `**jsp`. -/
def peek (js : List Char) : Char := js.headD NUL

def i_noend (r : Int) : Int := if r = XJS_END then XJS_ERR_BAD_INPUT else r

/-- Calls node_cb and records the event. -/
def call_node (env : Env) (np : Nat) (kind : XJSType) (name value : Option (List Char))
    (s : State) : Int × Nat × State :=
  let ev : Event := { parent := np, kind := kind, name := name, value := value }
  let res := env.node_cb s.events ev
  (res.1, res.2, { s with events := s.events ++ [ev] })

/-- Calls mem_cb and records the request. -/
def call_mem (env : Env) (req : MemCall) (s : State) : (Nat × Nat) × State :=
  (env.mem_cb s.mem req, { s with mem := s.mem ++ [req] })

/-- Issues `mem_cb(XJS_free, context, p, 0, NULL)`. -/
def mem_free (env : Env) (context : XJSType) (p : Nat) (s : State) : State :=
  (call_mem env { action := XJS_free, context := context, prev := p, size := 0 } s).2

/-- The function i_advance called with `ew = 0`: one character forward, a
refill when the terminator is reached. The callback is taken to honour its
contract (it leaves the cursor on a buffer), so XJS_ERR_USAGE does not
arise. -/
def i_advance0 (env : Env) (s : State) : Int × State :=
  let s1 : State := if peek s.js ≠ NUL then { s with js := s.js.tail } else s
  if peek s1.js = NUL then
    match env.inp_cb with
    | some cb =>
      let res := cb s1.calls
      let s2 : State := { s1 with js := res.2, calls := s1.calls + 1 }
      if res.1 ≠ XJS_OK then (res.1, s2)
      else if peek s2.js = NUL then (XJS_END, s2)
      else (XJS_OK, s2)
    | none => (XJS_END, s1)
  else (XJS_OK, s1)

/-- Consume the white space in the input stream. -/
def i_eatwhite (env : Env) : Nat → State → Option (Int × State)
  | 0, _ => none
  | fuel + 1, s =>
    if isspace (peek s.js) then
      match i_advance0 env s with
      | (r, s1) => if r ≠ XJS_OK then some (r, s1) else i_eatwhite env fuel s1
    else some (XJS_OK, s)

/-- Advance the input stream one character, through white space if `ew`. -/
def i_advance (env : Env) (fuel : Nat) (ew : Bool) (s : State) : Option (Int × State) :=
  match i_advance0 env s with
  | (r, s1) =>
    if r ≠ XJS_OK then some (r, s1)
    else if ew then i_eatwhite env fuel s1 else some (XJS_OK, s1)

/-- Lines 456 to 458 of i_assign: the control character test, the store and
the advance. -/
def i_assign_store (env : Env) (b : Buf) (s : State) : Int × Buf × State :=
  let c := peek s.js
  if c = Char.ofNat 8 ∨ c = Char.ofNat 12 ∨ c = '\n' ∨ c = '\r' ∨ c = '\t' then
    (XJS_ERR_CONTROL_CHAR, b, s)
  else
    let s1 : State := { s with writes := s.writes ++ [(b.used, b.mxsz)] }
    let b1 : Buf := { b with data := b.data ++ [c] }
    match i_advance0 env s1 with
    | (r, s2) => (r, b1, s2)

/-- Place the current input character into the output buffer, growing the
buffer when it has run out of space. -/
def i_assign (env : Env) (context : XJSType) (b : Buf) (s : State) : Int × Buf × State :=
  if b.ptr = 0 ∨ b.mxsz = 0 ∨ 1 + b.used ≥ b.mxsz then
    match call_mem env ⟨XJS_alloc, context, b.ptr, b.mxsz + IXJS_MEM_STR_BLOCK_SIZE⟩ s with
    | (res, s1) =>
      if res.1 = 0 ∨ res.2 ≤ b.mxsz then (XJS_ERR_MEM_ALLOC, { b with ptr := res.1 }, s1)
      else i_assign_store env { b with ptr := res.1, mxsz := res.2 } s1
  else i_assign_store env b s

/-- The store `if (*value) (*value)[(*used)++]=0;` closing a string or a
number. -/
def terminate (b : Buf) (s : State) : Buf × State :=
  if b.ptr ≠ 0 then
    ({ b with data := b.data ++ [NUL] }, { s with writes := s.writes ++ [(b.used, b.mxsz)] })
  else (b, s)

/-! ## xjs.c: the value lexers -/

/-- The loop `for (i=0;i<4;i++)` of i_parse_escape, `n` iterations left. -/
def i_parse_escape_hex (env : Env) (context : XJSType) : Nat → Buf → State → Int × Buf × State
  | 0, b, s => (XJS_OK, b, s)
  | n + 1, b, s =>
    if !isxdigit (peek s.js) then (XJS_ERR_EXP_ESCAPE_HEX, b, s)
    else
      match i_assign env context b s with
      | (r, b1, s1) => if r ≠ XJS_OK then (r, b1, s1) else i_parse_escape_hex env context n b1 s1

/-- Parse a JSON escaped character sequence; the sequence is copied as it
stands. -/
def i_parse_escape (env : Env) (context : XJSType) (b : Buf) (s : State) : Int × Buf × State :=
  if peek s.js ≠ '\\' then (XJS_NOPE, b, s)
  else
    match i_assign env context b s with
    | (r, b1, s1) =>
      if r ≠ XJS_OK then (r, b1, s1)
      else
        let c := peek s1.js
        if c ≠ '"' ∧ c ≠ '\\' ∧ c ≠ '/' ∧ c ≠ 'b' ∧ c ≠ 'f' ∧ c ≠ 'n' ∧ c ≠ 'r' ∧ c ≠ 't' ∧ c ≠ 'u'
        then (XJS_ERR_EXP_ESCAPE, b1, s1)
        else
          match i_assign env context b1 s1 with
          | (r2, b2, s2) =>
            if r2 ≠ XJS_OK then (r2, b2, s2)
            else if c = 'u' then i_parse_escape_hex env context 4 b2 s2
            else (XJS_OK, b2, s2)

/-- The loop `while ((**jsp)&&((**jsp)!='"'))` of i_parse_string; it ends
with XJS_OK when the cursor stands on the terminator or on a quote. -/
def i_parse_string_loop (env : Env) (context : XJSType) : Nat → Buf → State → Option (Int × Buf × State)
  | 0, _, _ => none
  | fuel + 1, b, s =>
    if peek s.js ≠ NUL ∧ peek s.js ≠ '"' then
      match (if peek s.js ≠ '\\' then i_assign env context b s else i_parse_escape env context b s) with
      | (r, b1, s1) => if r ≠ XJS_OK then some (r, b1, s1) else i_parse_string_loop env context fuel b1 s1
    else some (XJS_OK, b, s)

/-- Parse a string node. -/
def i_parse_string (env : Env) (fuel : Nat) (context : XJSType) (b : Buf) (s : State) :
    Option (Int × Buf × State) :=
  match i_eatwhite env fuel s with
  | none => none
  | some (r, s1) =>
    if r ≠ XJS_OK then some (r, b, s1)
    else if peek s1.js ≠ '"' then some (XJS_NOPE, b, s1)
    else
      match i_advance0 env s1 with
      | (r2, s2) =>
        if r2 ≠ XJS_OK then some (r2, b, s2)
        else
          match i_parse_string_loop env context fuel b s2 with
          | none => none
          | some (r3, b3, s3) =>
            if r3 ≠ XJS_OK then some (r3, b3, s3)
            else if peek s3.js ≠ '"' then some (XJS_ERR_EXP_END_STRING, b3, s3)
            else
              match i_advance0 env s3 with
              | (r4, s4) =>
                if r4 ≠ XJS_OK then some (r4, b3, s4)
                else
                  match terminate b3 s4 with
                  | (b5, s5) => some (XJS_OK, b5, s5)

/-- The loop `for (i=0;(lit[i]!=0);i++)` of i_parse_literal over the
characters of `lit` still to be matched. -/
def i_parse_literal_loop (env : Env) : List Char → State → Int × State
  | [], s => (XJS_OK, s)
  | l :: rest, s =>
    if peek s.js ≠ l then (XJS_ERR_BAD_LITERAL, s)
    else
      match i_advance0 env s with
      | (r, s1) => if r ≠ XJS_OK then (r, s1) else i_parse_literal_loop env rest s1

/-- Determine if the literal `lit` is the next node and parse it if it is.
The output buffer is not touched. -/
def i_parse_literal (env : Env) (fuel : Nat) (lit : List Char) (s : State) : Option (Int × State) :=
  match i_eatwhite env fuel s with
  | none => none
  | some (r, s1) =>
    if r ≠ XJS_OK then some (r, s1)
    else if peek s1.js ≠ peek lit then some (XJS_NOPE, s1)
    else
      match i_parse_literal_loop env lit s1 with
      | (r2, s2) =>
        if r2 ≠ XJS_OK then some (r2, s2)
        else if isalnum (peek s2.js) then some (XJS_ERR_BAD_LITERAL, s2)
        else some (XJS_OK, s2)

/-- The loop `while (isdigit(**jsp)) if ((r=i_assign(...))!=XJS_OK) return r;`
of i_parse_number. -/
def i_parse_number_digits (env : Env) : Nat → Buf → State → Option (Int × Buf × State)
  | 0, _, _ => none
  | fuel + 1, b, s =>
    if isdigit (peek s.js) then
      match i_assign env XJS_number b s with
      | (r, b1, s1) => if r ≠ XJS_OK then some (r, b1, s1) else i_parse_number_digits env fuel b1 s1
    else some (XJS_OK, b, s)

/-- The exponent part of i_parse_number (lines 412 to 419). -/
def i_parse_number_exp (env : Env) (fuel : Nat) (b : Buf) (s : State) : Option (Int × Buf × State) :=
  if peek s.js = 'e' ∨ peek s.js = 'E' then
    match i_assign env XJS_number b s with
    | (r, b1, s1) =>
      if r ≠ XJS_OK then some (r, b1, s1)
      else
        match (if peek s1.js = '+' ∨ peek s1.js = '-' then i_assign env XJS_number b1 s1
               else (XJS_OK, b1, s1)) with
        | (r2, b2, s2) =>
          if r2 ≠ XJS_OK then some (r2, b2, s2)
          else if !isdigit (peek s2.js) then some (XJS_ERR_EXP_DIGIT, b2, s2)
          else
            match i_parse_number_digits env fuel b2 s2 with
            | none => none
            | some (r3, b3, s3) =>
              if r3 ≠ XJS_OK then some (r3, b3, s3)
              else match terminate b3 s3 with
                | (b4, s4) => some (XJS_OK, b4, s4)
  else
    match terminate b s with
    | (b4, s4) => some (XJS_OK, b4, s4)

/-- The fraction part of i_parse_number (lines 407 to 411), followed by the
exponent part. -/
def i_parse_number_frac (env : Env) (fuel : Nat) (b : Buf) (s : State) : Option (Int × Buf × State) :=
  if peek s.js = '.' then
    match i_assign env XJS_number b s with
    | (r, b1, s1) =>
      if r ≠ XJS_OK then some (r, b1, s1)
      else if !isdigit (peek s1.js) then some (XJS_ERR_EXP_DIGIT, b1, s1)
      else
        match i_parse_number_digits env fuel b1 s1 with
        | none => none
        | some (r2, b2, s2) =>
          if r2 ≠ XJS_OK then some (r2, b2, s2) else i_parse_number_exp env fuel b2 s2
  else i_parse_number_exp env fuel b s

/-- Parse a JSON number node. -/
def i_parse_number (env : Env) (fuel : Nat) (b : Buf) (s : State) : Option (Int × Buf × State) :=
  match i_eatwhite env fuel s with
  | none => none
  | some (r, s1) =>
    if r ≠ XJS_OK then some (r, b, s1)
    else
      match (if peek s1.js = '-' then i_assign env XJS_number b s1 else (XJS_OK, b, s1)) with
      | (r2, b2, s2) =>
        if r2 ≠ XJS_OK then some (r2, b2, s2)
        else if !isdigit (peek s2.js) then some (XJS_NOPE, b2, s2)
        else
          match (if peek s2.js = '0' then some (i_assign env XJS_number b2 s2)
                 else if !isdigit (peek s2.js) then some (XJS_ERR_EXP_DIGIT, b2, s2)
                 else i_parse_number_digits env fuel b2 s2) with
          | none => none
          | some (r3, b3, s3) =>
            if r3 ≠ XJS_OK then some (r3, b3, s3) else i_parse_number_frac env fuel b3 s3

/-- Parse a value node (literal, number or string); returns the status, the
kind and the value buffer. -/
def i_parse_value (env : Env) (fuel : Nat) (b : Buf) (s : State) :
    Option (Int × XJSType × Buf × State) :=
  match i_eatwhite env fuel s with
  | none => none
  | some (r, s1) =>
    if r ≠ XJS_OK then some (r, XJS_unknown, b, s1)
    else
      match i_parse_literal env fuel "true".toList s1 with
      | none => none
      | some (r1, s2) =>
        if r1 = XJS_OK then some (XJS_OK, XJS_true, b, s2)
        else if r1 ≠ XJS_NOPE then some (r1, XJS_unknown, b, s2)
        else
          match i_parse_literal env fuel "false".toList s2 with
          | none => none
          | some (r2, s3) =>
            if r2 = XJS_OK then some (XJS_OK, XJS_false, b, s3)
            else if r2 ≠ XJS_NOPE then some (r2, XJS_unknown, b, s3)
            else
              match i_parse_literal env fuel "null".toList s3 with
              | none => none
              | some (r3, s4) =>
                if r3 = XJS_OK then some (XJS_OK, XJS_null, b, s4)
                else if r3 ≠ XJS_NOPE then some (r3, XJS_unknown, b, s4)
                else
                  match i_parse_number env fuel b s4 with
                  | none => none
                  | some (r4, b4, s5) =>
                    if r4 = XJS_OK then some (XJS_OK, XJS_number, b4, s5)
                    else if r4 ≠ XJS_NOPE then some (r4, XJS_unknown, b4, s5)
                    else
                      match i_parse_string env fuel XJS_string b4 s5 with
                      | none => none
                      | some (r5, b5, s6) =>
                        if r5 = XJS_OK then some (XJS_OK, XJS_string, b5, s6)
                        else some (r5, XJS_unknown, b5, s6)

/-! ## xjs.c: the header table of a block -/

/-- The store `(*hdr)[i] = value`. -/
def Hdr.store (H : Hdr) (i : Nat) (v : Nat × Option (List Char)) : Hdr :=
  { H with slots := H.slots.take i ++ List.replicate (i - H.slots.length) none ++ [some v]
                      ++ H.slots.drop (i + 1) }

/-- The read `(*hdr)[i]`, recorded. A slot that was written holds what was
stored; of a slot never written the read finds what the memory holds there,
`wild`, which nothing in the parser determines. -/
def hdr_read (env : Env) (H : Hdr) (i : Nat) (s : State) : (Nat × Option (List Char)) × State :=
  ((H.slots.getD i none).getD (env.mem_cb.wild s.mem H.ptr i),
   { s with hdrReads := s.hdrReads ++
       [⟨i, (H.slots.filter Option.isSome).length, (H.slots.getD i none).isSome⟩] })

/-- The request for header storage of i_parse_array (lines 209 to 213):
returns whether `hdr` is still non NULL, the table and `tcnt`. -/
def hdr_grow (env : Env) (hl : Bool) (H : Hdr) (cnt tcnt : Nat) (s : State) :
    Bool × Hdr × Nat × State :=
  if hl ∧ (cnt = 0 ∨ cnt + 1 ≥ tcnt) then
    match call_mem env ⟨XJS_alloc, XJS_block_header, H.ptr,
            (cnt + IXJS_MEM_HEADER_BLOCK_SIZE) * sizeof_ptr⟩ s with
    | (res, s1) =>
      if res.1 = 0 then (false, { ptr := 0, slots := [] }, 0, s1)
      else (true, { ptr := res.1, slots := H.slots.take (res.2 / sizeof_ptr) },
            res.2 / sizeof_ptr, s1)
  else (hl, H, tcnt, s)

/-- The clean up of the header storage in i_parse_block (lines 285 to 288):
when the pointer of the table is not NULL, a free request for what each of
the slots below `cnt` holds, read as hdr_read reads it, written or not, then
one for the table. -/
def hdr_cleanup (env : Env) (H : Hdr) (cnt : Nat) (s : State) : State :=
  if H.ptr ≠ 0 then
    mem_free env XJS_block_header H.ptr
      ((List.range cnt).foldl
        (fun st i => match hdr_read env H i st with
          | (v, st1) => mem_free env XJS_name v.1 st1) s)
  else s

/-- The kind of the end event of i_parse_array. -/
def array_end_kind (kind : XJSType) : XJSType :=
  if kind = XJS_block_header then XJS_block_header_end
  else if kind = XJS_block_array then XJS_block_array_end
  else XJS_array_end

/-! ## xjs.c: the container parsers and the dispatcher -/

mutual

/-- Determine the next node in the input stream and parse it accordingly. -/
def r_parse_any (env : Env) : Nat → Bool → Nat → Option (List Char) → State → Option (Int × State)
  | 0, _, _, _, _ => none
  | fuel + 1, top, parent, name, s =>
    match i_eatwhite env fuel s with
    | none => none
    | some (r, s1) =>
      if r ≠ XJS_OK then some (r, s1)
      else if peek s1.js = '{' then i_parse_object env fuel parent name s1
      else if peek s1.js = '[' then
        match i_parse_array env fuel none XJS_array none parent name s1 with
        | none => none
        | some (r1, _, _, s2) => some (r1, s2)
      else if env.blocks = true ∧ peek s1.js = '(' then i_parse_block env fuel parent name s1
      else if top then some (XJS_ERR_BAD_INPUT, s1)
      else
        match i_parse_value env fuel Buf.empty s1 with
        | none => none
        | some (r1, kind, b, s2) =>
          if r1 = XJS_OK then
            match call_node env parent kind name b.cstr s2 with
            | (r2, _, s3) => some (r2, mem_free env kind b.ptr s3)
          else some (r1, mem_free env kind b.ptr s2)
termination_by structural fuel => fuel

/-- Parse a JSON array; also the header array and the record arrays of a
block. `hdr` and `cnt` are `none` for the NULL pointers of a plain array;
the table and the count are returned. -/
def i_parse_array (env : Env) : Nat → Option Hdr → XJSType → Option Nat → Nat →
    Option (List Char) → State → Option (Int × Hdr × Nat × State)
  | 0, _, _, _, _, _, _ => none
  | fuel + 1, hdr, kind, cnt, parent, name, s =>
    match i_eatwhite env fuel s with
    | none => none
    | some (r, s1) =>
      if r ≠ XJS_OK then some (r, hdr.getD ⟨0, []⟩, 0, s1)
      else if peek s1.js ≠ '[' then some (XJS_NOPE, hdr.getD ⟨0, []⟩, 0, s1)
      else
        match call_node env parent kind name none s1 with
        | (r2, np, s2) =>
          if r2 ≠ XJS_OK then some (r2, hdr.getD ⟨0, []⟩, 0, s2)
          else
            match i_advance env fuel true s2 with
            | none => none
            | some (r3, s3) =>
              if r3 ≠ XJS_OK then some (i_noend r3, hdr.getD ⟨0, []⟩, 0, s3)
              else
                i_parse_array_loop env fuel
                  (hdr.isSome && !(decide (kind = XJS_block_array) && decide ((hdr.getD ⟨0, []⟩).ptr = 0)))
                  (hdr.getD ⟨0, []⟩) kind cnt.isSome 0 0 0 np name s3
termination_by structural fuel => fuel

/-- The loop `while ((**jsp)!=']')` of i_parse_array and what follows it.
`hl` tells whether the local `hdr` is non NULL, `H` is the table, `hc`
whether `cnt` is non NULL, `cnt` its value, `i` the number of elements seen,
`tcnt` the capacity of the table. -/
def i_parse_array_loop (env : Env) : Nat → Bool → Hdr → XJSType → Bool → Nat → Nat → Nat → Nat →
    Option (List Char) → State → Option (Int × Hdr × Nat × State)
  | 0, _, _, _, _, _, _, _, _, _, _ => none
  | fuel + 1, hl, H, kind, hc, cnt, i, tcnt, np, name, s =>
    if peek s.js ≠ ']' then
      if i ≠ 0 ∧ peek s.js ≠ ',' then some (XJS_ERR_EXP_COMMA, H, cnt, s)
      else
        match (if i ≠ 0 then i_advance0 env s else (XJS_OK, s)) with
        | (r, s1) =>
          if r ≠ XJS_OK then some (i_noend r, H, cnt, s1)
          else if kind = XJS_block_header then
            match hdr_grow env hl H cnt tcnt s1 with
            | (hl1, H1, tcnt1, s2) =>
              match i_parse_string env fuel XJS_name Buf.empty s2 with
              | none => none
              | some (r2, v, s3) =>
                if r2 ≠ XJS_OK then some (i_noend r2, H1, cnt, s3)
                else
                  match call_node env np XJS_name (some (Nat.toDigits 10 (i + 1))) v.cstr s3 with
                  | (r3, np1, s4) =>
                    match (if hl1 = true ∧ tcnt1 > cnt then (H1.store cnt (v.ptr, v.cstr), s4)
                           else (H1, mem_free env XJS_name v.ptr s4)) with
                    | (H2, s5) =>
                      if r3 ≠ XJS_OK then some (i_noend r3, H2, cnt, s5)
                      else
                        match i_eatwhite env fuel s5 with
                        | none => none
                        | some (r4, s6) =>
                          if r4 ≠ XJS_OK then some (i_noend r4, H2, if hc then cnt + 1 else cnt, s6)
                          else i_parse_array_loop env fuel hl1 H2 kind hc
                                 (if hc then cnt + 1 else cnt) (i + 1) tcnt1 np1 name s6
          else
            match (if hl = false ∨ kind = XJS_array then ((0, some (Nat.toDigits 10 (i + 1))), s1)
                   else hdr_read env H cnt s1) with
            | (nm, s2) =>
              match r_parse_any env fuel false np nm.2 s2 with
              | none => none
              | some (r2, s3) =>
                if r2 ≠ XJS_OK then some (i_noend r2, H, cnt, s3)
                else
                  match i_eatwhite env fuel s3 with
                  | none => none
                  | some (r4, s4) =>
                    if r4 ≠ XJS_OK then some (i_noend r4, H, if hc then cnt + 1 else cnt, s4)
                    else i_parse_array_loop env fuel hl H kind hc
                           (if hc then cnt + 1 else cnt) (i + 1) tcnt np name s4
    else
      match i_advance0 env s with
      | (r, s1) =>
        if r ≠ XJS_OK ∧ r ≠ XJS_END then some (i_noend r, H, cnt, s1)
        else
          match call_node env np (array_end_kind kind) name none s1 with
          | (r2, _, s2) => some (r2, H, cnt, s2)
termination_by structural fuel => fuel

/-- Parse a JSON object. -/
def i_parse_object (env : Env) : Nat → Nat → Option (List Char) → State → Option (Int × State)
  | 0, _, _, _ => none
  | fuel + 1, parent, name, s =>
    if peek s.js ≠ '{' then some (XJS_NOPE, s)
    else
      match call_node env parent XJS_object name none s with
      | (r, np, s1) =>
        if r ≠ XJS_OK then some (r, s1)
        else
          match i_advance env fuel true s1 with
          | none => none
          | some (r2, s2) =>
            if r2 ≠ XJS_OK then some (r2, s2)
            else i_parse_object_loop env fuel 0 np name s2
termination_by structural fuel => fuel

/-- The loop `while ((**jsp)!='}')` of i_parse_object and what follows it;
`i` is the number of members seen. -/
def i_parse_object_loop (env : Env) : Nat → Nat → Nat → Option (List Char) → State →
    Option (Int × State)
  | 0, _, _, _, _ => none
  | fuel + 1, i, np, name, s =>
    if peek s.js ≠ '}' then
      if i ≠ 0 ∧ peek s.js ≠ ',' then some (XJS_ERR_EXP_COMMA, s)
      else
        match (if i ≠ 0 then i_advance0 env s else (XJS_OK, s)) with
        | (r, s1) =>
          if r ≠ XJS_OK then some (i_noend r, s1)
          else
            match i_parse_string env fuel XJS_name Buf.empty s1 with
            | none => none
            | some (r1, nb, s2) =>
              match (if r1 = XJS_OK then i_eatwhite env fuel s2 else some (r1, s2)) with
              | none => none
              | some (r2, s3) =>
                match (if r2 = XJS_OK then
                         (if peek s3.js ≠ ':' then (XJS_ERR_EXP_COLON, s3) else i_advance0 env s3)
                       else (r2, s3)) with
                | (r3, s4) =>
                  match (if r3 = XJS_OK then r_parse_any env fuel false np nb.cstr s4
                         else some (r3, s4)) with
                  | none => none
                  | some (r4, s5) =>
                    match (if nb.ptr ≠ 0 then mem_free env XJS_name nb.ptr s5 else s5) with
                    | s6 =>
                      if r4 ≠ XJS_OK then some (i_noend r4, s6)
                      else
                        match i_eatwhite env fuel s6 with
                        | none => none
                        | some (r5, s7) =>
                          if r5 ≠ XJS_OK then some (i_noend r5, s7)
                          else i_parse_object_loop env fuel (i + 1) np name s7
    else
      match i_advance0 env s with
      | (r, s1) =>
        if r ≠ XJS_OK ∧ r ≠ XJS_END then some (r, s1)
        else
          match call_node env np XJS_object_end name none s1 with
          | (r2, _, s2) => some (r2, s2)
termination_by structural fuel => fuel

/-- Parse a block (not standard JSON). -/
def i_parse_block (env : Env) : Nat → Nat → Option (List Char) → State → Option (Int × State)
  | 0, _, _, _ => none
  | fuel + 1, parent, name, s =>
    if peek s.js ≠ '(' then some (XJS_NOPE, s)
    else
      match call_node env parent XJS_block name none s with
      | (r, np, s1) =>
        if r ≠ XJS_OK then some (r, s1)
        else
          match i_advance env fuel true s1 with
          | none => none
          | some (r2, s2) =>
            if r2 ≠ XJS_OK then some (i_noend r2, s2)
            else
              match (if peek s2.js ≠ ')' then
                       i_parse_array env fuel (some ⟨0, []⟩) XJS_block_header (some 0) np none s2
                     else some (XJS_OK, ⟨0, []⟩, 0, s2)) with
              | none => none
              | some (r3, H, cnt, s3) => i_parse_block_loop env fuel r3 H cnt 0 np name s3
termination_by structural fuel => fuel

/-- The loop `while ((r==XJS_OK)&&(**jsp!=')'))` of i_parse_block and what
follows it; `cnt` is the element count of the header, `i` the number of
iterations made. -/
def i_parse_block_loop (env : Env) : Nat → Int → Hdr → Nat → Nat → Nat → Option (List Char) →
    State → Option (Int × State)
  | 0, _, _, _, _, _, _, _ => none
  | fuel + 1, r, H, cnt, i, np, name, s =>
    if r = XJS_OK ∧ peek s.js ≠ ')' then
      if i ≠ 0 ∧ peek s.js ≠ ',' then some (XJS_ERR_EXP_COMMA, s)
      else
        match (if i ≠ 0 then i_advance0 env s else (r, s)) with
        | (r1, s1) =>
          match (if r1 = XJS_OK then
                   i_parse_array env fuel (some H) XJS_block_array (some 0) np none s1
                 else some (r1, H, cnt, s1)) with
          | none => none
          | some (r2, H2, tmpcnt, s2) =>
            i_parse_block_loop env fuel
              (if r2 = XJS_OK ∧ tmpcnt ≠ cnt then XJS_ERR_BLOCK_ARRAY_SIZE else r2)
              H2 cnt (i + 1) np name s2
    else
      match hdr_cleanup env H cnt s with
      | s1 =>
        if r ≠ XJS_OK then some (i_noend r, s1)
        else
          match i_advance0 env s1 with
          | (r1, s2) =>
            if r1 ≠ XJS_OK ∧ r1 ≠ XJS_END then some (r1, s2)
            else
              match call_node env np XJS_block_end name none s2 with
              | (r2, _, s3) => some (r2, s3)
termination_by structural fuel => fuel

end

/-! ## xjs.c: the entry point -/

/-- The state in which xjs_parse starts on the buffer `js`. -/
def State.init (js : List Char) (calls : Nat) : State :=
  { js := js, calls := calls, events := [], mem := [], writes := [], hdrReads := [] }

/-- Lines 177 and 179 of xjs_parse: the status returned when r_parse_any
has returned `r` and the cursor, white space skipped, stands on `c`. -/
def final_status (r : Int) (c : Char) : Int :=
  if (if c ≠ NUL then XJS_ERR_MORE_INPUT else r) = XJS_END then XJS_OK
  else (if c ≠ NUL then XJS_ERR_MORE_INPUT else r)

/-- The part of xjs_parse from the call of r_parse_any on (lines 175 to
179): returns the status, `*errpos` and the final state. -/
def xjs_parse_from (env : Env) (fuel : Nat) (s : State) : Option (Int × Option (List Char) × State) :=
  match r_parse_any env fuel true 0 none s with
  | none => none
  | some (r, s1) =>
    match (if peek s1.js ≠ NUL then i_eatwhite env fuel s1 else some (XJS_OK, s1)) with
    | none => none
    | some (_, s2) => some (final_status r (peek s2.js), some s2.js, s2)

/-- The entry point. `json` and `mem_cb` are `none` for NULL; `fallback` is
i_mem_fallback, `none` under XJS_CFLAG_DISABLE_MEM_FALLBACK. Returns the
status, `*errpos` (`none` for NULL) and the final state. -/
def xjs_parse (blocks : Bool) (fallback : Option XJSMemCB) (fuel : Nat) (json : Option (List Char))
    (node_cb : XJSNodeCB) (inp_cb : Option XJSInputCB) (mem_cb : Option XJSMemCB) :
    Option (Int × Option (List Char) × State) :=
  match (if mem_cb.isSome then mem_cb else fallback) with
  | none => some (XJS_ERR_MEM_MISSING, none, State.init (json.getD []) 0)
  | some m =>
    match json with
    | some js => xjs_parse_from ⟨blocks, node_cb, inp_cb, m⟩ fuel (State.init js 0)
    | none =>
      match inp_cb with
      | none => some (XJS_ERR_NO_INPUT, none, State.init [] 0)
      | some cb =>
        if (cb 0).1 ≠ XJS_OK then some ((cb 0).1, none, State.init (cb 0).2 1)
        else xjs_parse_from ⟨blocks, node_cb, inp_cb, m⟩ fuel (State.init (cb 0).2 1)

/-! ## The JSON grammar, as data

The texts of the claims are generated from syntax trees: a tree fixes the
white space around every token, `text` writes it out. -/

/-- A number lexeme: sign, digits of the integer part, digits of the
fraction, and sign and digits of the exponent with its marker. -/
structure JNumber where
  neg : Bool
  int : List Char
  frac : Option (List Char)
  exp : Option (Char × Option Char × List Char)
deriving DecidableEq, Repr

/-- The JSON number grammar: the integer part is `0` or starts with a digit
other than `0`; a fraction and an exponent have at least one digit. -/
def JNumber.wf (n : JNumber) : Prop :=
  n.int ≠ [] ∧ (∀ c ∈ n.int, isdigit c = true) ∧ (peek n.int = '0' → n.int = ['0']) ∧
  (∀ f, n.frac = some f → f ≠ [] ∧ ∀ c ∈ f, isdigit c = true) ∧
  (∀ m sg e, n.exp = some (m, sg, e) →
     (m = 'e' ∨ m = 'E') ∧ (∀ g, sg = some g → g = '+' ∨ g = '-') ∧ e ≠ [] ∧ ∀ c ∈ e, isdigit c = true)

def JNumber.fracText (n : JNumber) : List Char :=
  match n.frac with
  | none => []
  | some f => '.' :: f

def JNumber.expText (n : JNumber) : List Char :=
  match n.exp with
  | none => []
  | some (m, sg, e) => m :: (sg.toList ++ e)

def JNumber.text (n : JNumber) : List Char :=
  (if n.neg then ['-'] else []) ++ n.int ++ n.fracText ++ n.expText

/-- The five control characters i_assign refuses. -/
def isctl5 (c : Char) : Bool :=
  c == Char.ofNat 8 || c == Char.ofNat 12 || c == '\n' || c == '\r' || c == '\t'

/-- One item of a string body: a plain character, a two character escape,
or a unicode escape. -/
inductive StrItem
  | ch (c : Char)
  | esc (c : Char)
  | uni (h1 h2 h3 h4 : Char)
deriving DecidableEq, Repr

def StrItem.wf : StrItem → Prop
  | .ch c => c ≠ NUL ∧ c ≠ '"' ∧ c ≠ '\\' ∧ isctl5 c = false
  | .esc c => c = '"' ∨ c = '\\' ∨ c = '/' ∨ c = 'b' ∨ c = 'f' ∨ c = 'n' ∨ c = 'r' ∨ c = 't'
  | .uni h1 h2 h3 h4 => isxdigit h1 = true ∧ isxdigit h2 = true ∧ isxdigit h3 = true ∧ isxdigit h4 = true

def StrItem.text : StrItem → List Char
  | .ch c => [c]
  | .esc c => ['\\', c]
  | .uni h1 h2 h3 h4 => ['\\', 'u', h1, h2, h3, h4]

/-- The characters between the quotes of a string literal. -/
def bodyText : List StrItem → List Char
  | [] => []
  | it :: rest => it.text ++ bodyText rest

/-- A string literal, quotes included. -/
def strText (body : List StrItem) : List Char := '"' :: (bodyText body ++ ['"'])

/-- White space: every character is one that isspace accepts. -/
def isWs (ws : List Char) : Prop := ∀ c ∈ ws, isspace c = true

mutual

/-- A JSON value. The white space fields are the white space that follows
the opening bracket, a comma, a member name, a colon, and a value. -/
inductive JValue
  | num (n : JNumber)
  | str (body : List StrItem)
  | tru
  | fls
  | nul
  | arr (ws : List Char) (items : JItems)
  | obj (ws : List Char) (members : JMembers)

/-- The elements of an array: white space after the comma (not written for
the first element), the element, white space after it. -/
inductive JItems
  | nil
  | cons (pre : List Char) (v : JValue) (post : List Char) (tl : JItems)

/-- The members of an object: white space after the comma (not written for
the first member), the name, white space before and after the colon, the
value, white space after it. -/
inductive JMembers
  | nil
  | cons (pre : List Char) (name : List StrItem) (ws1 ws2 : List Char) (v : JValue)
      (post : List Char) (tl : JMembers)

end

mutual

def JValue.text : JValue → List Char
  | .num n => n.text
  | .str body => strText body
  | .tru => "true".toList
  | .fls => "false".toList
  | .nul => "null".toList
  | .arr ws items => '[' :: (ws ++ (items.text true ++ [']']))
  | .obj ws members => '\x7b' :: (ws ++ (members.text true ++ ['\x7d']))

def JItems.text : JItems → Bool → List Char
  | .nil, _ => []
  | .cons pre v post tl, first =>
    (if first then [] else ',' :: pre) ++ (v.text ++ (post ++ tl.text false))

def JMembers.text : JMembers → Bool → List Char
  | .nil, _ => []
  | .cons pre name ws1 ws2 v post tl, first =>
    (if first then [] else ',' :: pre) ++
      (strText name ++ (ws1 ++ (':' :: (ws2 ++ (v.text ++ (post ++ tl.text false))))))

end

mutual

def JValue.wf : JValue → Prop
  | .num n => n.wf
  | .str body => ∀ it ∈ body, it.wf
  | .tru => True
  | .fls => True
  | .nul => True
  | .arr ws items => isWs ws ∧ items.wf
  | .obj ws members => isWs ws ∧ members.wf

def JItems.wf : JItems → Prop
  | .nil => True
  | .cons pre v post tl => isWs pre ∧ v.wf ∧ isWs post ∧ tl.wf

def JMembers.wf : JMembers → Prop
  | .nil => True
  | .cons pre name ws1 ws2 v post tl =>
    isWs pre ∧ (∀ it ∈ name, it.wf) ∧ isWs ws1 ∧ isWs ws2 ∧ v.wf ∧ isWs post ∧ tl.wf

end

/-- A value that is an object or an array. -/
def JValue.isContainer : JValue → Bool
  | .arr _ _ => true
  | .obj _ _ => true
  | _ => false

/-- What an event shows of a node: kind, name and value. -/
def Event.view (e : Event) : XJSType × Option (List Char) × Option (List Char) :=
  (e.kind, e.name, e.value)

/-- The C string of a decoded string body: the body as it stands in the
source, NULL when the body is empty (no buffer is ever requested). -/
def bodyCstr (body : List StrItem) : Option (List Char) :=
  if body = [] then none else some (bodyText body)

mutual

/-- The document order traversal of a value reported under `name`: what each
event shows. A number carries its lexeme, a string its body, a literal is
told by its kind alone. -/
def JValue.events : JValue → Option (List Char) →
    List (XJSType × Option (List Char) × Option (List Char))
  | .num n, name => [(XJS_number, name, some n.text)]
  | .str body, name => [(XJS_string, name, bodyCstr body)]
  | .tru, name => [(XJS_true, name, none)]
  | .fls, name => [(XJS_false, name, none)]
  | .nul, name => [(XJS_null, name, none)]
  | .arr _ items, name => (XJS_array, name, none) :: (items.events 1 ++ [(XJS_array_end, name, none)])
  | .obj _ members, name =>
    (XJS_object, name, none) :: (members.events ++ [(XJS_object_end, name, none)])

/-- The events of the elements of an array, the first of them at the
ordinal `i`. -/
def JItems.events : JItems → Nat → List (XJSType × Option (List Char) × Option (List Char))
  | .nil, _ => []
  | .cons _ v _ tl, i => v.events (some (Nat.toDigits 10 i)) ++ tl.events (i + 1)

def JMembers.events : JMembers → List (XJSType × Option (List Char) × Option (List Char))
  | .nil => []
  | .cons _ name _ _ v _ tl => v.events (bodyCstr name) ++ tl.events

end

/-- A sink that returns XJS_OK on every event. -/
def SinkOk (node_cb : XJSNodeCB) : Prop := ∀ h e, (node_cb h e).1 = XJS_OK

/-- An allocator that serves every allocation request with a non NULL
pointer and at least the requested size. -/
def MemGrants (mem_cb : XJSMemCB) : Prop :=
  ∀ h req, req.action = XJS_alloc → (mem_cb h req).1 ≠ 0 ∧ req.size ≤ (mem_cb h req).2

/-- A call that returns `x` whenever it is given enough fuel. -/
def Runs {α : Type} (f : Nat → Option α) (x : α) : Prop :=
  ∃ N, ∀ fuel, N ≤ fuel → f fuel = some x

/-- The state `s'` differs from `s` by the cursor, now at `js`, and by
allocator requests and stores only. -/
def Adv (s s' : State) (js : List Char) : Prop :=
  s'.js = js ∧ s'.events = s.events ∧ s'.calls = s.calls ∧ s'.hdrReads = s.hdrReads

/-! ## Concrete callbacks for the worked examples -/

/-- An allocator that grants every request: a fresh pointer and the
requested size; its memory reads as zero where nothing was stored. -/
def memGrant : XJSMemCB :=
  ⟨fun h req => (h.length + 1, req.size), fun _ _ _ => (0, none)⟩

/-- A sink that accepts every event and leaves the handle as it is. -/
def sinkOk : XJSNodeCB := fun _ e => (XJS_OK, e.parent)

/-- One buffer, no refill callback, blocks disabled. -/
def envPlain : Env := { blocks := false, node_cb := sinkOk, inp_cb := none, mem_cb := memGrant }

/-- A character that ends a value inside a container: white space, a comma
or a closing bracket. -/
def isDelim (d : Char) : Prop := isspace d = true ∨ d = ',' ∨ d = ']' ∨ d = '\x7d'

/-- The callbacks under which a well formed text is read to its end: one
buffer and no refill callback, an allocator that grants, a sink that returns
XJS_OK. -/
def GoodEnv (env : Env) : Prop :=
  env.inp_cb = none ∧ MemGrants env.mem_cb ∧ SinkOk env.node_cb

/-- The run from `s` to `s'` has left the cursor on `rest` and handed the
sink the events that show `evs`, in this order. -/
def Parsed (s s' : State) (rest : List Char)
    (evs : List (XJSType × Option (List Char) × Option (List Char))) : Prop :=
  s'.js = rest ∧ s'.events.map Event.view = s.events.map Event.view ++ evs

/-- The dispatcher reads the value `v` to its end, whatever white space
precedes it; a scalar has to be followed by a delimiter and is no top level
value. -/
def ValueOk (env : Env) (v : JValue) : Prop :=
  ∀ (top : Bool) (ws rest : List Char), isWs ws →
    (v.isContainer = false → top = false ∧ ∃ d r, rest = d :: r ∧ isDelim d) →
    ∀ (parent : Nat) (name : Option (List Char)) (s : State), s.js = ws ++ (v.text ++ rest) →
      ∃ s', Runs (fun fuel => r_parse_any env fuel top parent name s) (XJS_OK, s') ∧
        Parsed s s' rest (v.events name)

/-- The array loop, `i` elements seen, reads the remaining elements and the
closing bracket. -/
def ItemsOk (env : Env) (items : JItems) : Prop :=
  ∀ (i : Nat) (rest : List Char) (np : Nat) (name : Option (List Char)) (s : State),
    s.js = items.text (decide (i = 0)) ++ ']' :: rest →
      ∃ s', Runs (fun fuel => i_parse_array_loop env fuel false ⟨0, []⟩ XJS_array false 0 i 0 np name s)
          (XJS_OK, ⟨0, []⟩, 0, s') ∧
        Parsed s s' rest (items.events (i + 1) ++ [(XJS_array_end, name, none)])

/-- The object loop, `i` members seen, reads the remaining members and the
closing bracket. -/
def MembersOk (env : Env) (members : JMembers) : Prop :=
  ∀ (i : Nat) (rest : List Char) (np : Nat) (name : Option (List Char)) (s : State),
    s.js = members.text (decide (i = 0)) ++ '\x7d' :: rest →
      ∃ s', Runs (fun fuel => i_parse_object_loop env fuel i np name s) (XJS_OK, s') ∧
        Parsed s s' rest (members.events ++ [(XJS_object_end, name, none)])

def JItems.length : JItems → Nat
  | .nil => 0
  | .cons _ _ _ tl => tl.length + 1

def JMembers.length : JMembers → Nat
  | .nil => 0
  | .cons _ _ _ _ _ _ tl => tl.length + 1

/-- A comma or a closing bracket. -/
def isSep (c : Char) : Prop := c = ',' ∨ c = ']' ∨ c = '\x7d'

/-- The array loop, `i` elements seen, reads the elements `items` in front
of a comma or a bracket and goes on as the loop that has seen them. -/
def ItemsRun (env : Env) (items : JItems) : Prop :=
  ∀ (i : Nat) (c : Char) (t : List Char) (np : Nat) (name : Option (List Char)) (s : State),
    isSep c → s.js = items.text (decide (i = 0)) ++ c :: t →
      ∃ s', Parsed s s' (c :: t) (items.events (i + 1)) ∧
        ∀ x, Runs (fun fuel => i_parse_array_loop env fuel false ⟨0, []⟩ XJS_array false 0
                 (i + items.length) 0 np name s') x →
             Runs (fun fuel => i_parse_array_loop env fuel false ⟨0, []⟩ XJS_array false 0
                 i 0 np name s) x

/-- The object loop, `i` members seen, reads the members `members` in front
of a comma or a bracket and goes on as the loop that has seen them. -/
def MembersRun (env : Env) (members : JMembers) : Prop :=
  ∀ (i : Nat) (c : Char) (t : List Char) (np : Nat) (name : Option (List Char)) (s : State),
    isSep c → s.js = members.text (decide (i = 0)) ++ c :: t →
      ∃ s', Parsed s s' (c :: t) members.events ∧
        ∀ x, Runs (fun fuel => i_parse_object_loop env fuel (i + members.length) np name s') x →
             Runs (fun fuel => i_parse_object_loop env fuel i np name s) x

/-- The document of the worked example, as a syntax tree:
an object with the members a (the number 1) and b (an array of the three
literals), no white space. -/
def docExample : JValue :=
  .obj [] (.cons [] [.ch 'a'] [] [] (.num ⟨false, ['1'], none, none⟩) []
    (.cons [] [.ch 'b'] [] []
      (.arr [] (.cons [] .tru [] (.cons [] .fls [] (.cons [] .nul [] .nil)))) [] .nil))

/-- What stands between the elements read so far and the next element: a
comma and white space, or nothing in front of the first element. -/
def JItems.holeSep : JItems → List Char → List Char
  | .nil, _ => []
  | .cons _ _ _ _, pre => ',' :: pre

def JMembers.holeSep : JMembers → List Char → List Char
  | .nil, _ => []
  | .cons _ _ _ _ _ _ _, pre => ',' :: pre

/-- The text of an array up to one of its value positions: the opening
bracket, well formed elements, and the comma and white space in front of
the position. -/
def arrUpTo (ws0 : List Char) (items : JItems) (pre : List Char) (X : List Char) : List Char :=
  '[' :: (ws0 ++ (items.text true ++ (items.holeSep pre ++ X)))

/-- The text of an object up to the value position of one of its members. -/
def objUpTo (ws0 : List Char) (members : JMembers) (pre : List Char) (name : List StrItem)
    (ws1 ws2 : List Char) (X : List Char) : List Char :=
  '\x7b' :: (ws0 ++ (members.text true ++ (members.holeSep pre ++
    (strText name ++ (ws1 ++ (':' :: (ws2 ++ X)))))))

/-- The texts that start with a container of the family `B`, or with a
container that holds such a text at one of its value positions, the
elements and members in front of it being well formed. -/
inductive Nested (B : List Char → Prop) : List Char → Prop
  | base (X : List Char) : B X → Nested B X
  | arr (ws0 : List Char) (items : JItems) (pre : List Char) (X : List Char) :
      isWs ws0 → items.wf → isWs pre → Nested B X → Nested B (arrUpTo ws0 items pre X)
  | obj (ws0 : List Char) (members : JMembers) (pre : List Char) (name : List StrItem)
      (ws1 ws2 : List Char) (X : List Char) :
      isWs ws0 → members.wf → isWs pre → (∀ it ∈ name, it.wf) → isWs ws1 → isWs ws2 →
      Nested B X → Nested B (objUpTo ws0 members pre name ws1 ws2 X)

/-- The dispatcher fails on the text `X`, whatever white space precedes it:
it returns a status that is neither XJS_OK nor XJS_END, and `X` starts with
an opening bracket. -/
def Fails (env : Env) (X : List Char) : Prop :=
  (∃ xr, X = '[' :: xr ∨ X = '\x7b' :: xr) ∧
  ∀ (top : Bool) (ws : List Char), isWs ws → ∀ (parent : Nat) (name : Option (List Char))
    (s : State), s.js = ws ++ X →
      ∃ r s', Runs (fun fuel => r_parse_any env fuel top parent name s) (r, s') ∧
        r ≠ XJS_OK ∧ r ≠ XJS_END

/-- The array loop, having seen the elements `items`, fails on the text
`Y` that follows them and their comma. -/
def ArrLoopFails (env : Env) (items : JItems) (pre : List Char) (Y : List Char) : Prop :=
  ∀ (np : Nat) (name : Option (List Char)) (s : State), s.js = items.holeSep pre ++ Y →
    ∃ r H cnt s', Runs (fun fuel => i_parse_array_loop env fuel false ⟨0, []⟩ XJS_array false 0
        items.length 0 np name s) (r, H, cnt, s') ∧ r ≠ XJS_OK ∧ r ≠ XJS_END

/-- The object loop, having seen the members `members`, fails on the text
`Y` that follows them and their comma. -/
def ObjLoopFails (env : Env) (members : JMembers) (pre : List Char) (Y : List Char) : Prop :=
  ∀ (np : Nat) (name : Option (List Char)) (s : State), s.js = members.holeSep pre ++ Y →
    ∃ r s', Runs (fun fuel => i_parse_object_loop env fuel members.length np name s) (r, s') ∧
      r ≠ XJS_OK ∧ r ≠ XJS_END

/-- The texts that start with an array or an object in which a comma is
followed, after optional white space, by the closing bracket; the elements
or members in front of the comma are well formed. -/
def TrailingComma (X : List Char) : Prop :=
  (∃ (ws0 : List Char) (items : JItems) (ws rest : List Char), isWs ws0 ∧ items.wf ∧ isWs ws ∧
    X = '[' :: (ws0 ++ (items.text true ++ (',' :: (ws ++ ']' :: rest))))) ∨
  (∃ (ws0 : List Char) (members : JMembers) (ws rest : List Char), isWs ws0 ∧ members.wf ∧
    isWs ws ∧
    X = '\x7b' :: (ws0 ++ (members.text true ++ (',' :: (ws ++ '\x7d' :: rest)))))

/-- A number whose integer part is `0`, optionally after a minus sign,
followed immediately by the digit `d`. -/
def zeroText (neg : Bool) (d : Char) (more : List Char) : List Char :=
  (if neg then ['-'] else []) ++ '0' :: d :: more

/-- The texts that start with an array or an object one of whose value
positions holds a number with a leading zero; the elements or members in
front of it are well formed. -/
def LeadingZero (X : List Char) : Prop :=
  (∃ (ws0 : List Char) (items : JItems) (pre : List Char) (neg : Bool) (d : Char)
      (more : List Char), isWs ws0 ∧ items.wf ∧ isWs pre ∧ isdigit d = true ∧
    X = arrUpTo ws0 items pre (zeroText neg d more)) ∨
  (∃ (ws0 : List Char) (members : JMembers) (pre : List Char) (name : List StrItem)
      (ws1 ws2 : List Char) (neg : Bool) (d : Char) (more : List Char),
    isWs ws0 ∧ members.wf ∧ isWs pre ∧ (∀ it ∈ name, it.wf) ∧ isWs ws1 ∧ isWs ws2 ∧
    isdigit d = true ∧ X = objUpTo ws0 members pre name ws1 ws2 (zeroText neg d more))

/-- Every event of the list was answered with XJS_OK by the sink. -/
def AllOk (cb : XJSNodeCB) (evs : List Event) : Prop :=
  ∀ pre e post, evs = pre ++ e :: post → (cb pre e).1 = XJS_OK

/-- Every event of the list that is followed by another event was answered
with XJS_OK: the sink was not invoked again after a status other than
XJS_OK. -/
def Halts (cb : XJSNodeCB) (evs : List Event) : Prop :=
  ∀ pre e post, evs = pre ++ e :: post → post ≠ [] → (cb pre e).1 = XJS_OK

/-- The state of the event record when a production returns `r`: the sink
was not invoked after a refusal, and a return of XJS_OK means that the sink
accepted every event. -/
def EvInv (cb : XJSNodeCB) (evs : List Event) (r : Int) : Prop :=
  Halts cb evs ∧ (r = XJS_OK → AllOk cb evs)

/-- The record of events kept by the container parsers run with fuel `fuel`:
started after events that were all accepted, each of them returns with the
sink not invoked after a refusal, and returns XJS_OK only when every event
was accepted. The loop of a block starts from the status `r0` of the header
array. -/
structure EvStep (env : Env) (fuel : Nat) : Prop where
  any : ∀ top p n s r s', AllOk env.node_cb s.events →
    r_parse_any env fuel top p n s = some (r, s') → EvInv env.node_cb s'.events r
  arr : ∀ hdr k cnt p n s r H c s', AllOk env.node_cb s.events →
    i_parse_array env fuel hdr k cnt p n s = some (r, H, c, s') → EvInv env.node_cb s'.events r
  arrl : ∀ hl H k hc cnt i tcnt np n s r H' c s', AllOk env.node_cb s.events →
    i_parse_array_loop env fuel hl H k hc cnt i tcnt np n s = some (r, H', c, s') →
    EvInv env.node_cb s'.events r
  obj : ∀ p n s r s', AllOk env.node_cb s.events →
    i_parse_object env fuel p n s = some (r, s') → EvInv env.node_cb s'.events r
  objl : ∀ i np n s r s', AllOk env.node_cb s.events →
    i_parse_object_loop env fuel i np n s = some (r, s') → EvInv env.node_cb s'.events r
  blk : ∀ p n s r s', AllOk env.node_cb s.events →
    i_parse_block env fuel p n s = some (r, s') → EvInv env.node_cb s'.events r
  blkl : ∀ r0 H cnt i np n s r s', EvInv env.node_cb s.events r0 →
    i_parse_block_loop env fuel r0 H cnt i np n s = some (r, s') → EvInv env.node_cb s'.events r

/-- A sink that accepts every event but the one invoked after `k` earlier
events, at which it returns XJS_ERR. -/
def sinkRefuseAt (k : Nat) : XJSNodeCB :=
  fun h e => (if h.length = k then XJS_ERR else XJS_OK, e.parent)

/-- The refill callback that delivers the chunks `cs` one per call and
signals XJS_END once they are used up. -/
def refillOf (cs : List (List Char)) : XJSInputCB :=
  fun k => match cs[k]? with
    | some c => (XJS_OK, c)
    | none => (XJS_END, [])

/-- Chunks as the contract of the refill callback wants them: none is empty
and, being C strings, none holds the terminator. -/
def GoodChunks (cs : List (List Char)) : Prop := ∀ c ∈ cs, c ≠ [] ∧ NUL ∉ c

/-- The same environment without a refill callback. -/
def Env.noRefill (env : Env) : Env := { env with inp_cb := none }

/-- The state of the run on one buffer that stands for the state `t` of a
run fed by `refillOf cs`: the cursor sees the rest of the current chunk
followed by the chunks not yet delivered. -/
def whole (cs : List (List Char)) (t : State) : State :=
  { t with js := t.js ++ (cs.drop t.calls).join, calls := 0 }

/-- The states a run fed by `refillOf cs` can be in: the cursor stands on the
terminator only when every chunk was delivered. -/
def StreamInv (cs : List (List Char)) (t : State) : Prop :=
  NUL ∉ t.js ∧ (t.js = [] → cs.length ≤ t.calls)

/-- The setting of the comparison: the callback of `env` is `refillOf cs`
for good chunks. -/
structure Sim (env : Env) (cs : List (List Char)) : Prop where
  good : GoodChunks cs
  cb : env.inp_cb = some (refillOf cs)

/-- An allocator in the manner of memcb_static: a fresh request is served
with a buffer of the fixed size `S`, a request to grow a buffer is refused,
nothing is done on a free request. -/
def memFixed (S : Nat) : XJSMemCB :=
  ⟨fun h req => if req.action = XJS_alloc ∧ req.prev = 0 then (h.length + 1, S) else (0, 0),
   fun _ _ _ => (0, none)⟩

/-- Blocks enabled, one buffer, a sink that accepts, an allocator that
grants. -/
def envBlocks : Env := { blocks := true, node_cb := sinkOk, inp_cb := none, mem_cb := memGrant }

/-- What the events of one node show when the node is reported under
`name`: the single event of a scalar, or the events of a container from its
start to its end, the start and the end both carrying `name`. -/
def NamedNode (name : Option (List Char))
    (seg : List (XJSType × Option (List Char) × Option (List Char))) : Prop :=
  (∃ k val, seg = [(k, name, val)] ∧
      (k = XJS_string ∨ k = XJS_number ∨ k = XJS_true ∨ k = XJS_false ∨ k = XJS_null)) ∨
  (∃ mid, seg = (XJS_array, name, none) :: (mid ++ [(XJS_array_end, name, none)])) ∨
  (∃ mid, seg = (XJS_object, name, none) :: (mid ++ [(XJS_object_end, name, none)]))

/-- The kinds of the events of scalars. -/
def isScalarKind (k : XJSType) : Prop :=
  k = XJS_string ∨ k = XJS_number ∨ k = XJS_true ∨ k = XJS_false ∨ k = XJS_null

mutual

/-- The events of one node of plain JSON, handed to the sink `cb` after the
events `h`, with the handle `p` presented in `*parent`: nothing (the node was
not reached), the event of a scalar, or the start of a container, the events
of its children and, unless the run stopped before, its end. The start is
presented `p`; the children and the end are presented the handle the sink
left at the start, `(cb h e).2`. -/
inductive Threaded (cb : XJSNodeCB) : List Event → Nat → List Event → Prop
  | empty (h : List Event) (p : Nat) : Threaded cb h p []
  | scalar (h : List Event) (p : Nat) (e : Event) : e.parent = p → isScalarKind e.kind →
      Threaded cb h p [e]
  | opened (h : List Event) (p : Nat) (e : Event) (kids : List Event) : e.parent = p →
      (e.kind = XJS_array ∨ e.kind = XJS_object) → Kids cb (h ++ [e]) (cb h e).2 kids →
      Threaded cb h p (e :: kids)
  | closed (h : List Event) (p : Nat) (e : Event) (kids : List Event) (e' : Event) :
      e.parent = p →
      ((e.kind = XJS_array ∧ e'.kind = XJS_array_end) ∨
        (e.kind = XJS_object ∧ e'.kind = XJS_object_end)) →
      Kids cb (h ++ [e]) (cb h e).2 kids → e'.parent = (cb h e).2 →
      Threaded cb h p (e :: (kids ++ [e']))

/-- The events of the children of one container, each child presented the
handle `q`. -/
inductive Kids (cb : XJSNodeCB) : List Event → Nat → List Event → Prop
  | nil (h : List Event) (q : Nat) : Kids cb h q []
  | cons (h : List Event) (q : Nat) (seg rest : List Event) : Threaded cb h q seg →
      Kids cb (h ++ seg) q rest → Kids cb h q (seg ++ rest)

end

/-- What the loop of a container adds to the events `h`: the events of
children presented `np` and, unless the run stopped before, the end event of
kind `kEnd`, presented `np` too. -/
def LoopRes (cb : XJSNodeCB) (h : List Event) (np : Nat) (kEnd : XJSType) (evs : List Event) :
    Prop :=
  ∃ kids close, evs = h ++ (kids ++ close) ∧ Kids cb h np kids ∧
    (close = [] ∨ ∃ e', close = [e'] ∧ e'.parent = np ∧ e'.kind = kEnd)

/-- The threading of the handle by the parsers of plain JSON run with fuel
`fuel`. -/
structure ThStep (env : Env) (fuel : Nat) : Prop where
  any : ∀ top p n s r s' hist, s.events = hist →
    r_parse_any env fuel top p n s = some (r, s') →
    ∃ seg, s'.events = hist ++ seg ∧ Threaded env.node_cb hist p seg
  arr : ∀ hdr cnt p n s r H c s' hist, s.events = hist →
    i_parse_array env fuel hdr XJS_array cnt p n s = some (r, H, c, s') →
    ∃ seg, s'.events = hist ++ seg ∧ Threaded env.node_cb hist p seg
  arrl : ∀ hl H hc cnt i tcnt np n s r H' c s' hist, s.events = hist →
    i_parse_array_loop env fuel hl H XJS_array hc cnt i tcnt np n s = some (r, H', c, s') →
    LoopRes env.node_cb hist np XJS_array_end s'.events
  obj : ∀ p n s r s' hist, s.events = hist →
    i_parse_object env fuel p n s = some (r, s') →
    ∃ seg, s'.events = hist ++ seg ∧ Threaded env.node_cb hist p seg
  objl : ∀ i np n s r s' hist, s.events = hist →
    i_parse_object_loop env fuel i np n s = some (r, s') →
    LoopRes env.node_cb hist np XJS_object_end s'.events

/-- A sink that accepts every event and leaves in `*parent` a handle that
tells the events apart: the number of the event. -/
def sinkCount : XJSNodeCB := fun h _ => (XJS_OK, h.length + 1)

/-- The state in which xjs_parse ends on the object with the member a, the
array of the number 1, and the member b, the number 2, with the sink
sinkCount and the allocator memGrant. -/
def threadRun : State :=
  { js := [], calls := 0,
    events := [⟨0, XJS_object, none, none⟩, ⟨1, XJS_array, some ['a'], none⟩,
      ⟨2, XJS_number, some ['1'], some ['1']⟩, ⟨2, XJS_array_end, some ['a'], none⟩,
      ⟨1, XJS_number, some ['b'], some ['2']⟩, ⟨1, XJS_object_end, none, none⟩],
    mem := [⟨XJS_alloc, XJS_name, 0, 256⟩, ⟨XJS_alloc, XJS_number, 0, 256⟩,
      ⟨XJS_free, XJS_number, 2, 0⟩, ⟨XJS_free, XJS_name, 1, 0⟩, ⟨XJS_alloc, XJS_name, 0, 256⟩,
      ⟨XJS_alloc, XJS_number, 0, 256⟩, ⟨XJS_free, XJS_number, 6, 0⟩, ⟨XJS_free, XJS_name, 5, 0⟩],
    writes := [(0, 256), (1, 256), (0, 256), (1, 256), (0, 256), (1, 256), (0, 256), (1, 256)],
    hdrReads := [] }

/-- The state `t` of a run on a text that was cut off, seen as a state of
the run on the whole text: `more` is the part that was cut off. -/
def cut (more : List Char) (t : State) : State := { t with js := t.js ++ more }

/-- How the result `x` of a production on a text that was cut off compares
with its result `y` on the whole text: either the cut run has met the end of
the input, it returns XJS_END with the cursor on the terminator, or the two
runs have done the same and the cut run has input left. -/
def CutRes {α : Type} (status : α → Int) (state : α → State) (lift : α → α)
    (x y : Option α) : Prop :=
  (∃ v, x = some v ∧ status v = XJS_END ∧ (state v).js = []) ∨
  (y = x.map lift ∧ ∀ v, x = some v → (state v).js ≠ [])

/-- The comparison for results made of a status and a state. -/
def CutRes2 (more : List Char) (x y : Option (Int × State)) : Prop :=
  CutRes (fun v => v.1) (fun v => v.2) (fun v => (v.1, cut more v.2)) x y

/-- The comparison for results made of a status, a buffer and a state. -/
def CutRes3 (more : List Char) (x y : Option (Int × Buf × State)) : Prop :=
  CutRes (fun v => v.1) (fun v => v.2.2) (fun v => (v.1, v.2.1, cut more v.2.2)) x y

/-- The comparison for the results of i_parse_value. -/
def CutRes4 (more : List Char) (x y : Option (Int × XJSType × Buf × State)) : Prop :=
  CutRes (fun v => v.1) (fun v => v.2.2.2) (fun v => (v.1, v.2.1, v.2.2.1, cut more v.2.2.2)) x y

/-- The texts that are a well formed string, number or literal cut off
after at least one character (the whole scalar counts too). -/
def CutScalar (T : List Char) : Prop :=
  T ≠ [] ∧ ∃ (v : JValue) (q : List Char), v.wf ∧ v.isContainer = false ∧ T ++ q = v.text

/-- The kind of the end event that closes the node opened by an event of
the kind `k`; `none` for a kind that opens nothing. -/
def closerOf : XJSType → Option XJSType
  | XJS_object => some XJS_object_end
  | XJS_array => some XJS_array_end
  | XJS_block => some XJS_block_end
  | XJS_block_header => some XJS_block_header_end
  | XJS_block_array => some XJS_block_array_end
  | _ => none

/-- The kinds of the end events. -/
def isEndKind (k : XJSType) : Bool :=
  decide (k = XJS_object_end) || decide (k = XJS_array_end) || decide (k = XJS_block_end) ||
    decide (k = XJS_block_header_end) || decide (k = XJS_block_array_end)

/-- One event met with the start events `st` still open, the most recent
first: a start event is opened, an end event closes the most recent open
start event if it is of the matching kind and is refused otherwise (`none`),
any other event leaves the open events as they are. -/
def nestStep (st : List XJSType) (k : XJSType) : Option (List XJSType) :=
  if (closerOf k).isSome then some (k :: st)
  else if isEndKind k then
    match st with
    | [] => none
    | o :: rest => if closerOf o = some k then some rest else none
  else some st

/-- The start events left open by a sequence of events met with `st` open;
`none` when an end event of the sequence closes no open start event, or one
of another kind. -/
def nesting : List XJSType → List Event → Option (List XJSType)
  | st, [] => some st
  | st, e :: es =>
    match nestStep st e.kind with
    | none => none
    | some st1 => nesting st1 es

/-- The events `evs` recorded when a production returns `r` are a prefix of
a well nested sequence, and on XJS_OK the start events left open are `st`. -/
def NestRes (evs : List Event) (r : Int) (st : List XJSType) : Prop :=
  ∃ st1, nesting [] evs = some st1 ∧ (r = XJS_OK → st1 = st)

/-- The record of events kept by the container parsers run with fuel `fuel`:
each of them adds a well nested sequence when it returns XJS_OK, and a
prefix of one otherwise. A loop starts with the start event of its container
open; the loop of a block starts from the status `r0` of the header
array. -/
structure NestStep (env : Env) (fuel : Nat) : Prop where
  any : ∀ top p n s r s' st, nesting [] s.events = some st →
    r_parse_any env fuel top p n s = some (r, s') → NestRes s'.events r st
  arr : ∀ hdr k cnt p n s r H c s' st, closerOf k = some (array_end_kind k) →
    nesting [] s.events = some st →
    i_parse_array env fuel hdr k cnt p n s = some (r, H, c, s') → NestRes s'.events r st
  arrl : ∀ hl H k hc cnt i tcnt np n s r H' c s' st, closerOf k = some (array_end_kind k) →
    nesting [] s.events = some (k :: st) →
    i_parse_array_loop env fuel hl H k hc cnt i tcnt np n s = some (r, H', c, s') →
    NestRes s'.events r st
  obj : ∀ p n s r s' st, nesting [] s.events = some st →
    i_parse_object env fuel p n s = some (r, s') → NestRes s'.events r st
  objl : ∀ i np n s r s' st, nesting [] s.events = some (XJS_object :: st) →
    i_parse_object_loop env fuel i np n s = some (r, s') → NestRes s'.events r st
  blk : ∀ p n s r s' st, nesting [] s.events = some st →
    i_parse_block env fuel p n s = some (r, s') → NestRes s'.events r st
  blkl : ∀ r0 H cnt i np n s r s' st, NestRes s.events r0 (XJS_block :: st) →
    i_parse_block_loop env fuel r0 H cnt i np n s = some (r, s') → NestRes s'.events r st

/-- The state in which the run on `[{"a":[]},x` ends. -/
def nestRun : State :=
  { js := ['x'], calls := 0,
    events := [⟨0, XJS_array, none, none⟩, ⟨0, XJS_object, some ['1'], none⟩,
               ⟨0, XJS_array, some ['a'], none⟩, ⟨0, XJS_array_end, some ['a'], none⟩,
               ⟨0, XJS_object_end, some ['1'], none⟩],
    mem := [⟨XJS_alloc, XJS_name, 0, 256⟩, ⟨XJS_free, XJS_name, 1, 0⟩,
            ⟨XJS_free, XJS_unknown, 0, 0⟩],
    writes := [(0, 256), (1, 256)], hdrReads := [] }

/-- The container parsers run with fuel `fuel` and no refill callback
return when the fuel is at least three times the length of what is left of
the input, plus a constant; the cursor does not move backwards, and it has
moved forwards when a value, an array, an object or a block was read with
XJS_OK. The loop of a block that starts from a status other than XJS_OK needs
one unit of fuel. -/
structure TermStep (env : Env) (fuel : Nat) : Prop where
  any : ∀ top p n s, 3 * s.js.length + 4 ≤ fuel →
    ∃ r s', r_parse_any env fuel top p n s = some (r, s') ∧ s'.js.length ≤ s.js.length ∧
      (r = XJS_OK → s'.js.length < s.js.length)
  arr : ∀ hdr k cnt p n s, 3 * s.js.length + 3 ≤ fuel →
    ∃ r H c s', i_parse_array env fuel hdr k cnt p n s = some (r, H, c, s') ∧
      s'.js.length ≤ s.js.length ∧ (r = XJS_OK → s'.js.length < s.js.length)
  arrl : ∀ hl H k hc cnt i tcnt np n s, 3 * s.js.length + 5 ≤ fuel →
    ∃ r H' c s', i_parse_array_loop env fuel hl H k hc cnt i tcnt np n s = some (r, H', c, s') ∧
      s'.js.length ≤ s.js.length
  obj : ∀ p n s, 3 * s.js.length + 3 ≤ fuel →
    ∃ r s', i_parse_object env fuel p n s = some (r, s') ∧ s'.js.length ≤ s.js.length ∧
      (r = XJS_OK → s'.js.length < s.js.length)
  objl : ∀ i np n s, 3 * s.js.length + 5 ≤ fuel →
    ∃ r s', i_parse_object_loop env fuel i np n s = some (r, s') ∧ s'.js.length ≤ s.js.length
  blk : ∀ p n s, 3 * s.js.length + 3 ≤ fuel →
    ∃ r s', i_parse_block env fuel p n s = some (r, s') ∧ s'.js.length ≤ s.js.length ∧
      (r = XJS_OK → s'.js.length < s.js.length)
  blkl : ∀ r0 H cnt i np n s, 1 ≤ fuel → (r0 = XJS_OK → 3 * s.js.length + 5 ≤ fuel) →
    ∃ r s', i_parse_block_loop env fuel r0 H cnt i np n s = some (r, s') ∧
      s'.js.length ≤ s.js.length

/-- How the result `x` of a run on one buffer compares with the result `y`
of the run fed in chunks, for results made of a status and a state: the same
status, and the state of `x` stands for the state of `y`. -/
def SimRes2 (cs : List (List Char)) (x y : Option (Int × State)) : Prop :=
  x = y.map (fun v => (v.1, whole cs v.2)) ∧ ∀ v, y = some v → StreamInv cs v.2

/-- The comparison for the results of i_parse_array. -/
def SimRes4 (cs : List (List Char)) (x y : Option (Int × Hdr × Nat × State)) : Prop :=
  x = y.map (fun v => (v.1, v.2.1, v.2.2.1, whole cs v.2.2.2)) ∧
    ∀ v, y = some v → StreamInv cs v.2.2.2

/-- The container parsers with the fuel `fuel` do the same on one buffer as
fed in chunks. -/
structure SimStep (env : Env) (cs : List (List Char)) (fuel : Nat) : Prop where
  any : ∀ top p n t, StreamInv cs t →
    SimRes2 cs (r_parse_any env.noRefill fuel top p n (whole cs t)) (r_parse_any env fuel top p n t)
  arr : ∀ hdr k cnt p n t, StreamInv cs t →
    SimRes4 cs (i_parse_array env.noRefill fuel hdr k cnt p n (whole cs t))
      (i_parse_array env fuel hdr k cnt p n t)
  arrl : ∀ hl H k hc cnt i tcnt np n t, StreamInv cs t →
    SimRes4 cs (i_parse_array_loop env.noRefill fuel hl H k hc cnt i tcnt np n (whole cs t))
      (i_parse_array_loop env fuel hl H k hc cnt i tcnt np n t)
  obj : ∀ p n t, StreamInv cs t →
    SimRes2 cs (i_parse_object env.noRefill fuel p n (whole cs t)) (i_parse_object env fuel p n t)
  objl : ∀ i np n t, StreamInv cs t →
    SimRes2 cs (i_parse_object_loop env.noRefill fuel i np n (whole cs t))
      (i_parse_object_loop env fuel i np n t)
  blk : ∀ p n t, StreamInv cs t →
    SimRes2 cs (i_parse_block env.noRefill fuel p n (whole cs t)) (i_parse_block env fuel p n t)
  blkl : ∀ r0 H cnt i np n t, StreamInv cs t →
    SimRes2 cs (i_parse_block_loop env.noRefill fuel r0 H cnt i np n (whole cs t))
      (i_parse_block_loop env fuel r0 H cnt i np n t)

/-- The texts that are a well formed string literal cut off after at least
one character (the whole literal counts too). -/
def CutStr (T : List Char) : Prop :=
  T ≠ [] ∧ ∃ (body : List StrItem) (q : List Char), (∀ it ∈ body, it.wf) ∧ T ++ q = strText body

/-- What stands at an element position of an array when the input ends
there: nothing (the input ends after the opening bracket, or after a comma,
and the white space that follows it), or a well formed element and the white
space, not empty, after it. -/
def ElemCut (Y : List Char) : Prop :=
  Y = [] ∨ ∃ (v : JValue) (post : List Char), v.wf ∧ isWs post ∧ post ≠ [] ∧ Y = v.text ++ post

/-- What stands at a member position of an object when the input ends
there: nothing (the input ends after the opening brace, or after a comma,
and the white space that follows it); the name, cut off or whole; the name
and white space, not empty; the name, the colon and the white space around
it; or all of a well formed member and the white space, not empty, after
its value. -/
def MemberCut (Y : List Char) : Prop :=
  Y = [] ∨ CutStr Y ∨
  (∃ (nm : List StrItem) (ws1 : List Char), (∀ it ∈ nm, it.wf) ∧ isWs ws1 ∧ ws1 ≠ [] ∧
    Y = strText nm ++ ws1) ∨
  (∃ (nm : List StrItem) (ws1 ws2 : List Char), (∀ it ∈ nm, it.wf) ∧ isWs ws1 ∧ isWs ws2 ∧
    Y = strText nm ++ (ws1 ++ ':' :: ws2)) ∨
  (∃ (nm : List StrItem) (ws1 ws2 : List Char) (v : JValue) (post : List Char),
    (∀ it ∈ nm, it.wf) ∧ isWs ws1 ∧ isWs ws2 ∧ v.wf ∧ isWs post ∧ post ≠ [] ∧
    Y = strText nm ++ (ws1 ++ (':' :: (ws2 ++ (v.text ++ post)))))

/-- The text of an object up to one of its member positions: the opening
brace, well formed members, and the comma and white space in front of the
position. -/
def objUpToMember (ws0 : List Char) (members : JMembers) (pre : List Char) (Y : List Char) :
    List Char :=
  '\x7b' :: (ws0 ++ (members.text true ++ (members.holeSep pre ++ Y)))

/-- The arrays cut off by the end of the input between two tokens: after
well formed elements, at an element position, stands an `ElemCut`. -/
def ArrCut (X : List Char) : Prop :=
  ∃ (ws0 : List Char) (items : JItems) (pre Y : List Char), isWs ws0 ∧ items.wf ∧ isWs pre ∧
    ElemCut Y ∧ X = arrUpTo ws0 items pre Y

/-- The objects cut off by the end of the input outside the value of a
member: after well formed members, at a member position, stands a
`MemberCut`. -/
def ObjCut (X : List Char) : Prop :=
  ∃ (ws0 : List Char) (members : JMembers) (pre Y : List Char), isWs ws0 ∧ members.wf ∧
    isWs pre ∧ MemberCut Y ∧ X = objUpToMember ws0 members pre Y

/-- The values cut off by the end of the input, the cut not inside a value
nested in them: a scalar cut off, an array cut off between two tokens, an
object cut off outside the values of its members. -/
def CutHere (X : List Char) : Prop := CutScalar X ∨ ArrCut X ∨ ObjCut X

/-- The opening brace of an object and white space, nothing else. -/
def BraceOnly (X : List Char) : Prop := ∃ ws0, isWs ws0 ∧ X = '\x7b' :: ws0

/-- The elements `items` and one more element after them. -/
def JItems.snoc : JItems → List Char → JValue → List Char → JItems
  | .nil, pre, v, post => .cons pre v post .nil
  | .cons p w q tl, pre, v, post => .cons p w q (tl.snoc pre v post)

/-- The members `members` and one more member after them. -/
def JMembers.snoc : JMembers → List Char → List StrItem → List Char → List Char → JValue →
    List Char → JMembers
  | .nil, pre, nm, ws1, ws2, v, post => .cons pre nm ws1 ws2 v post .nil
  | .cons p n w1 w2 w q tl, pre, nm, ws1, ws2, v, post =>
    .cons p n w1 w2 w q (tl.snoc pre nm ws1 ws2 v post)

/-- The texts of the well formed arrays and objects, from the opening to the
closing bracket. -/
def Closed (T : List Char) : Prop := ∃ (w : JValue), w.wf ∧ w.isContainer = true ∧ T = w.text

/-- Every prefix of the text of `v` that is not empty is a value cut off by
the end of the input, or ends right after the closing bracket of `v` or of
an array or object nested in it. -/
def CoverV (v : JValue) : Prop :=
  ∀ (P q : List Char), P ++ q = v.text → P ≠ [] → Nested CutHere P ∨ Nested Closed P

/-- The same for the tail `tl` of the elements of an array whose elements
`front` are in front of the tail: `R` is what the input holds of the tail. -/
def CoverI (tl : JItems) : Prop :=
  ∀ (ws0 : List Char) (front : JItems), isWs ws0 → front.wf → ∀ (R q : List Char), R ≠ [] →
    q ≠ [] → R ++ q = tl.text (decide (front.length = 0)) ++ [']'] →
    Nested CutHere ('[' :: (ws0 ++ (front.text true ++ R))) ∨
      Nested Closed ('[' :: (ws0 ++ (front.text true ++ R)))

/-- The same for the tail `tl` of the members of an object. -/
def CoverM (tl : JMembers) : Prop :=
  ∀ (ws0 : List Char) (front : JMembers), isWs ws0 → front.wf → ∀ (R q : List Char), R ≠ [] →
    q ≠ [] → R ++ q = tl.text (decide (front.length = 0)) ++ ['\x7d'] →
    Nested CutHere ('\x7b' :: (ws0 ++ (front.text true ++ R))) ∨
      Nested Closed ('\x7b' :: (ws0 ++ (front.text true ++ R)))

/-! ## The cursor and the buffer on well formed input -/

@[simp] theorem peek_cons (c : Char) (r : List Char) : peek (c :: r) = c := rfl
@[simp] theorem peek_nil : peek [] = NUL := rfl

theorem isspace_ne_NUL {c : Char} (h : isspace c = true) : c ≠ NUL := by
  rintro rfl; exact absurd h (by decide)

theorem i_advance0_cons2 (env : Env) (s : State) (c d : Char) (r : List Char)
    (hs : s.js = c :: d :: r) (hc : c ≠ NUL) (hd : d ≠ NUL) :
    i_advance0 env s = (XJS_OK, { s with js := d :: r }) := by
  simp [i_advance0, hs, hc, hd]

theorem i_advance0_last (env : Env) (s : State) (c : Char)
    (hinp : env.inp_cb = none) (hs : s.js = [c]) (hc : c ≠ NUL) :
    i_advance0 env s = (XJS_END, { s with js := [] }) := by
  simp [i_advance0, hs, hc, hinp]

/-- White space in front of a character that is neither white space nor the
terminator is skipped. -/
theorem i_eatwhite_skip (env : Env) (ws : List Char) (hws : isWs ws) (c : Char) (r : List Char)
    (hc : isspace c = false) (hc0 : c ≠ NUL) :
    ∀ (s : State), s.js = ws ++ c :: r →
      ∀ fuel, ws.length + 1 ≤ fuel → i_eatwhite env fuel s = some (XJS_OK, { s with js := c :: r }) := by
  induction ws with
  | nil =>
    intro s hs fuel hf
    obtain ⟨k, rfl⟩ : ∃ k, fuel = k + 1 := ⟨fuel - 1, by simp at hf; omega⟩
    simp at hs
    simp [i_eatwhite, hs, hc]
    rw [← hs]
  | cons w ws ih =>
    intro s hs fuel hf
    obtain ⟨k, rfl⟩ : ∃ k, fuel = k + 1 := ⟨fuel - 1, by simp at hf; omega⟩
    have hw : isspace w = true := hws w (by simp)
    have hws' : isWs ws := fun x hx => hws x (by simp [hx])
    have hnext : ∃ d r', ws ++ c :: r = d :: r' ∧ d ≠ NUL := by
      cases ws with
      | nil => exact ⟨c, r, rfl, hc0⟩
      | cons d ws' => exact ⟨d, ws' ++ c :: r, rfl, isspace_ne_NUL (hws' d (by simp))⟩
    obtain ⟨d, r', hdr, hd⟩ := hnext
    have hs' : s.js = w :: d :: r' := by rw [hs, ← hdr]; rfl
    simp only [i_eatwhite, hs', peek_cons, hw, if_true]
    rw [i_advance0_cons2 env s w d r' hs' (isspace_ne_NUL hw) hd]
    simp only [ne_eq, not_true_eq_false, if_false]
    rw [ih hws' { s with js := d :: r' } (by simp [hdr]) k (by simp at hf ⊢; omega)]

theorem Adv.trans {s s1 s2 : State} {js1 js2 : List Char} (h1 : Adv s s1 js1) (h2 : Adv s1 s2 js2) :
    Adv s s2 js2 :=
  ⟨h2.1, h2.2.1.trans h1.2.1, h2.2.2.1.trans h1.2.2.1, h2.2.2.2.trans h1.2.2.2⟩

theorem Adv.refl (s : State) : Adv s s s.js := ⟨rfl, rfl, rfl, rfl⟩

theorem isctl5_iff (c : Char) :
    (c = Char.ofNat 8 ∨ c = Char.ofNat 12 ∨ c = '\n' ∨ c = '\r' ∨ c = '\t') ↔ isctl5 c = true := by
  simp [isctl5, or_assoc]

theorem i_assign_store_ok (env : Env) (b : Buf) (s : State) (c d : Char) (r : List Char)
    (hs : s.js = c :: d :: r) (hc : c ≠ NUL) (hctl : isctl5 c = false) (hd : d ≠ NUL) :
    ∃ s', i_assign_store env b s = (XJS_OK, { b with data := b.data ++ [c] }, s') ∧
      Adv s s' (d :: r) := by
  have h5 : ¬ (c = Char.ofNat 8 ∨ c = Char.ofNat 12 ∨ c = '\n' ∨ c = '\r' ∨ c = '\t') := by
    rw [isctl5_iff]; simp [hctl]
  refine ⟨{ s with writes := s.writes ++ [(b.used, b.mxsz)], js := d :: r }, ?_, rfl, rfl, rfl, rfl⟩
  unfold i_assign_store
  simp only [hs, peek_cons, h5, if_false]
  rw [i_advance0_cons2 env _ c d r rfl hc hd]

/-- With an allocator that grants, a plain character followed by another
character is stored and the cursor moves on. -/
theorem i_assign_ok (env : Env) (hm : MemGrants env.mem_cb) (context : XJSType) (b : Buf)
    (s : State) (c d : Char) (r : List Char)
    (hs : s.js = c :: d :: r) (hc : c ≠ NUL) (hctl : isctl5 c = false) (hd : d ≠ NUL) :
    ∃ b' s', i_assign env context b s = (XJS_OK, b', s') ∧ b'.data = b.data ++ [c] ∧
      b'.ptr ≠ 0 ∧ Adv s s' (d :: r) := by
  unfold i_assign
  by_cases hg : b.ptr = 0 ∨ b.mxsz = 0 ∨ 1 + b.used ≥ b.mxsz
  · simp only [hg, if_true, call_mem]
    have hgr := hm s.mem ⟨XJS_alloc, context, b.ptr, b.mxsz + IXJS_MEM_STR_BLOCK_SIZE⟩ rfl
    have h1 : ¬ ((env.mem_cb s.mem ⟨XJS_alloc, context, b.ptr, b.mxsz + IXJS_MEM_STR_BLOCK_SIZE⟩).1 = 0 ∨
        (env.mem_cb s.mem ⟨XJS_alloc, context, b.ptr, b.mxsz + IXJS_MEM_STR_BLOCK_SIZE⟩).2 ≤ b.mxsz) := by
      have := hgr.2
      simp only [IXJS_MEM_STR_BLOCK_SIZE] at this ⊢
      rintro (h | h)
      · exact hgr.1 h
      · omega
    simp only [h1, if_false]
    obtain ⟨s', h, hadv⟩ := i_assign_store_ok env
      { b with ptr := (env.mem_cb s.mem ⟨XJS_alloc, context, b.ptr, b.mxsz + IXJS_MEM_STR_BLOCK_SIZE⟩).1,
               mxsz := (env.mem_cb s.mem ⟨XJS_alloc, context, b.ptr, b.mxsz + IXJS_MEM_STR_BLOCK_SIZE⟩).2 }
      { s with mem := s.mem ++ [⟨XJS_alloc, context, b.ptr, b.mxsz + IXJS_MEM_STR_BLOCK_SIZE⟩] }
      c d r hs hc hctl hd
    exact ⟨_, s', h, rfl, hgr.1, hadv⟩
  · simp only [hg, if_false]
    obtain ⟨s', h, hadv⟩ := i_assign_store_ok env b s c d r hs hc hctl hd
    refine ⟨_, s', h, rfl, ?_, hadv⟩
    simp only [not_or] at hg
    exact hg.1

theorem isxdigit_facts {c : Char} (h : isxdigit c = true) : c ≠ NUL ∧ isctl5 c = false := by
  constructor
  · rintro rfl; exact absurd h (by decide)
  · cases hc : isctl5 c with
    | false => rfl
    | true =>
      rw [← isctl5_iff] at hc
      rcases hc with rfl | rfl | rfl | rfl | rfl <;> exact absurd h (by decide)

theorem isdigit_facts {c : Char} (h : isdigit c = true) : c ≠ NUL ∧ isctl5 c = false := by
  constructor
  · rintro rfl; exact absurd h (by decide)
  · cases hc : isctl5 c with
    | false => rfl
    | true =>
      rw [← isctl5_iff] at hc
      rcases hc with rfl | rfl | rfl | rfl | rfl <;> exact absurd h (by decide)

/-- The first character of a non empty run of characters that are not the
terminator, followed by such a character. -/
theorem head_ne_NUL (xs : List Char) (hxs : ∀ c ∈ xs, c ≠ NUL) (x : Char) (r : List Char)
    (hx : x ≠ NUL) : ∃ d r', xs ++ x :: r = d :: r' ∧ d ≠ NUL := by
  cases xs with
  | nil => exact ⟨x, r, rfl, hx⟩
  | cons d xs' => exact ⟨d, xs' ++ x :: r, rfl, hxs d (by simp)⟩

/-- The hexadecimal digits `hs` in front of a character are stored by as
many iterations of the loop of i_parse_escape. -/
theorem i_parse_escape_hex_run (env : Env) (hm : MemGrants env.mem_cb) (context : XJSType)
    (x : Char) (r : List Char) (hx : x ≠ NUL) :
    ∀ (hs : List Char), (∀ h ∈ hs, isxdigit h = true) → ∀ (b : Buf) (s : State),
      s.js = hs ++ x :: r → ∃ b' s', b'.data = b.data ++ hs ∧ (hs ≠ [] → b'.ptr ≠ 0) ∧
        (hs = [] → b' = b) ∧ Adv s s' (x :: r) ∧
        ∀ n, i_parse_escape_hex env context (hs.length + n) b s =
             i_parse_escape_hex env context n b' s' := by
  intro hs
  induction hs with
  | nil =>
    intro _ b s hs
    exact ⟨b, s, by simp, by simp, by simp, ⟨by simpa using hs, rfl, rfl, rfl⟩, by simp⟩
  | cons h hs ih =>
    intro hhex b s hjs
    have hh : isxdigit h = true := hhex h (by simp)
    have hhs : ∀ h' ∈ hs, isxdigit h' = true := fun h' hh' => hhex h' (by simp [hh'])
    obtain ⟨d, r', hdr, hd⟩ := head_ne_NUL hs (fun c hc => (isxdigit_facts (hhs c hc)).1) x r hx
    have hjs' : s.js = h :: d :: r' := by rw [hjs, ← hdr]; rfl
    obtain ⟨b1, s1, h1, hdata1, hptr1, hadv1⟩ :=
      i_assign_ok env hm context b s h d r' hjs' (isxdigit_facts hh).1 (isxdigit_facts hh).2 hd
    obtain ⟨b2, s2, hdata2, _, hsame2, hadv2, hrun2⟩ := ih hhs b1 s1 (by rw [hadv1.1, hdr])
    refine ⟨b2, s2, by simp [hdata2, hdata1], ?_, by simp, hadv1.trans hadv2, ?_⟩
    · intro _
      cases hs with
      | nil => rw [hsame2 rfl]; exact hptr1
      | cons _ _ => exact ‹_ ≠ [] → b2.ptr ≠ 0› (by simp)
    · intro n
      have : (h :: hs).length + n = (hs.length + n) + 1 := by simp; omega
      rw [this, i_parse_escape_hex]
      simp only [hjs', peek_cons, hh, Bool.not_true, Bool.false_eq_true, if_false, h1,
        ne_eq, not_true_eq_false]
      exact hrun2 n

theorem backslash_facts : ('\\' : Char) ≠ NUL ∧ isctl5 '\\' = false := by decide

/-- A two character escape followed by another character is copied. -/
theorem i_parse_escape_simple (env : Env) (hm : MemGrants env.mem_cb) (context : XJSType)
    (b : Buf) (s : State) (c x : Char) (r : List Char)
    (hc : c = '"' ∨ c = '\\' ∨ c = '/' ∨ c = 'b' ∨ c = 'f' ∨ c = 'n' ∨ c = 'r' ∨ c = 't')
    (hs : s.js = '\\' :: c :: x :: r) (hx : x ≠ NUL) :
    ∃ b' s', i_parse_escape env context b s = (XJS_OK, b', s') ∧
      b'.data = b.data ++ ['\\', c] ∧ b'.ptr ≠ 0 ∧ Adv s s' (x :: r) := by
  have hc0 : c ≠ NUL ∧ isctl5 c = false ∧ c ≠ 'u' := by
    rcases hc with rfl | rfl | rfl | rfl | rfl | rfl | rfl | rfl <;> decide
  obtain ⟨b1, s1, h1, hd1, _, ha1⟩ :=
    i_assign_ok env hm context b s '\\' c (x :: r) hs backslash_facts.1 backslash_facts.2 hc0.1
  obtain ⟨b2, s2, h2, hd2, hp2, ha2⟩ :=
    i_assign_ok env hm context b1 s1 c x r ha1.1 hc0.1 hc0.2.1 hx
  refine ⟨b2, s2, ?_, by simp [hd2, hd1], hp2, ha1.trans ha2⟩
  have : ¬ (¬c = '"' ∧ ¬c = '\\' ∧ ¬c = '/' ∧ ¬c = 'b' ∧ ¬c = 'f' ∧ ¬c = 'n' ∧ ¬c = 'r' ∧
      ¬c = 't' ∧ ¬c = 'u') := by
    rcases hc with rfl | rfl | rfl | rfl | rfl | rfl | rfl | rfl <;> decide
  unfold i_parse_escape
  simp only [hs, peek_cons, ne_eq, not_true_eq_false, if_false, h1, ha1.1, h2, this]
  simp [hc0.2.2]

/-- A unicode escape followed by another character is copied. -/
theorem i_parse_escape_uni (env : Env) (hm : MemGrants env.mem_cb) (context : XJSType)
    (b : Buf) (s : State) (h1 h2 h3 h4 x : Char) (r : List Char)
    (hh : isxdigit h1 = true ∧ isxdigit h2 = true ∧ isxdigit h3 = true ∧ isxdigit h4 = true)
    (hs : s.js = '\\' :: 'u' :: h1 :: h2 :: h3 :: h4 :: x :: r) (hx : x ≠ NUL) :
    ∃ b' s', i_parse_escape env context b s = (XJS_OK, b', s') ∧
      b'.data = b.data ++ ['\\', 'u', h1, h2, h3, h4] ∧ b'.ptr ≠ 0 ∧ Adv s s' (x :: r) := by
  obtain ⟨b1, s1, e1, hd1, _, ha1⟩ :=
    i_assign_ok env hm context b s '\\' 'u' _ hs backslash_facts.1 backslash_facts.2 (by decide)
  obtain ⟨b2, s2, e2, hd2, _, ha2⟩ :=
    i_assign_ok env hm context b1 s1 'u' h1 _ ha1.1 (by decide) (by decide) (isxdigit_facts hh.1).1
  obtain ⟨b3, s3, hd3, hp3, _, ha3, hrun⟩ :=
    i_parse_escape_hex_run env hm context x r hx [h1, h2, h3, h4]
      (by intro h hmem; simp at hmem; rcases hmem with rfl | rfl | rfl | rfl <;> simp [hh])
      b2 s2 (by rw [ha2.1]; rfl)
  refine ⟨b3, s3, ?_, by simp [hd3, hd2, hd1], hp3 (by simp), (ha1.trans ha2).trans ha3⟩
  have h4 : i_parse_escape_hex env context 4 b2 s2 = (XJS_OK, b3, s3) := hrun 0
  unfold i_parse_escape
  simp only [hs, peek_cons, ne_eq, not_true_eq_false, if_false, e1, ha1.1, e2, h4]
  simp

/-- The characters of a well formed string body are none of them the
terminator. -/
theorem StrItem.item_text_ne_NUL {it : StrItem} (h : it.wf) : ∀ c ∈ it.text, c ≠ NUL := by
  cases it with
  | ch c => intro x hx; simp [StrItem.text] at hx; subst hx; exact h.1
  | esc c =>
    intro x hx; simp [StrItem.text] at hx
    rcases hx with rfl | rfl
    · decide
    · rcases h with rfl | rfl | rfl | rfl | rfl | rfl | rfl | rfl <;> decide
  | uni h1 h2 h3 h4 =>
    intro x hx; simp [StrItem.text] at hx
    rcases hx with rfl | rfl | rfl | rfl | rfl | rfl
    · decide
    · decide
    · exact (isxdigit_facts h.1).1
    · exact (isxdigit_facts h.2.1).1
    · exact (isxdigit_facts h.2.2.1).1
    · exact (isxdigit_facts h.2.2.2).1

theorem bodyText_ne_NUL : ∀ (body : List StrItem), (∀ it ∈ body, it.wf) →
    ∀ c ∈ bodyText body, c ≠ NUL
  | [], _ => by simp [bodyText]
  | it :: rest, h => by
    intro c hc
    simp only [bodyText, List.mem_append] at hc
    rcases hc with hc | hc
    · exact StrItem.item_text_ne_NUL (h it (by simp)) c hc
    · exact bodyText_ne_NUL rest (fun i hi => h i (by simp [hi])) c hc

/-- One item of a string body, followed by another character, is copied by
one iteration of the loop of i_parse_string. -/
theorem string_item_step (env : Env) (hm : MemGrants env.mem_cb) (context : XJSType)
    (it : StrItem) (hit : it.wf) (b : Buf) (s : State) (x : Char) (r : List Char)
    (hs : s.js = it.text ++ x :: r) (hx : x ≠ NUL) :
    ∃ b' s', b'.data = b.data ++ it.text ∧ b'.ptr ≠ 0 ∧ Adv s s' (x :: r) ∧
      ∀ fuel, i_parse_string_loop env context (fuel + 1) b s =
              i_parse_string_loop env context fuel b' s' := by
  cases it with
  | ch c =>
    simp only [StrItem.text, List.singleton_append] at hs
    obtain ⟨b1, s1, e1, hd1, hp1, ha1⟩ := i_assign_ok env hm context b s c x r hs hit.1 hit.2.2.2 hx
    refine ⟨b1, s1, hd1, hp1, ha1, fun fuel => ?_⟩
    rw [i_parse_string_loop]
    simp [hs, hit.1, hit.2.1, hit.2.2.1, e1]
  | esc c =>
    simp only [StrItem.text, List.cons_append, List.nil_append] at hs
    obtain ⟨b1, s1, e1, hd1, hp1, ha1⟩ := i_parse_escape_simple env hm context b s c x r hit hs hx
    refine ⟨b1, s1, hd1, hp1, ha1, fun fuel => ?_⟩
    rw [i_parse_string_loop]
    have h0 : ('\\' : Char) ≠ NUL ∧ ('\\' : Char) ≠ '"' := by decide
    simp [hs, h0.1, h0.2, e1]
  | uni h1 h2 h3 h4 =>
    simp only [StrItem.text, List.cons_append, List.nil_append] at hs
    obtain ⟨b1, s1, e1, hd1, hp1, ha1⟩ :=
      i_parse_escape_uni env hm context b s h1 h2 h3 h4 x r hit hs hx
    refine ⟨b1, s1, hd1, hp1, ha1, fun fuel => ?_⟩
    rw [i_parse_string_loop]
    have h0 : ('\\' : Char) ≠ NUL ∧ ('\\' : Char) ≠ '"' := by decide
    simp [hs, h0.1, h0.2, e1]

/-- A well formed string body in front of a character is copied by as many
iterations of the loop of i_parse_string as it has items. -/
theorem i_parse_string_loop_run (env : Env) (hm : MemGrants env.mem_cb) (context : XJSType)
    (x : Char) (r : List Char) (hx : x ≠ NUL) :
    ∀ (body : List StrItem), (∀ it ∈ body, it.wf) → ∀ (b : Buf) (s : State),
      s.js = bodyText body ++ x :: r →
      ∃ b' s', b'.data = b.data ++ bodyText body ∧ (body ≠ [] → b'.ptr ≠ 0) ∧
        (body = [] → b' = b ∧ s' = s) ∧ Adv s s' (x :: r) ∧
        ∀ fuel, i_parse_string_loop env context (fuel + body.length) b s =
                i_parse_string_loop env context fuel b' s' := by
  intro body
  induction body with
  | nil =>
    intro _ b s hs
    exact ⟨b, s, by simp [bodyText], by simp, by simp, ⟨by simpa [bodyText] using hs, rfl, rfl, rfl⟩,
      by simp⟩
  | cons it rest ih =>
    intro hwf b s hs
    have hit : it.wf := hwf it (by simp)
    have hrest : ∀ i ∈ rest, i.wf := fun i hi => hwf i (by simp [hi])
    obtain ⟨d, r', hdr, hd⟩ := head_ne_NUL (bodyText rest) (bodyText_ne_NUL rest hrest) x r hx
    obtain ⟨b1, s1, hd1, hp1, ha1, hrun1⟩ :=
      string_item_step env hm context it hit b s d r'
        (by rw [hs, bodyText, List.append_assoc, hdr]) hd
    obtain ⟨b2, s2, hd2, hp2, hsame2, ha2, hrun2⟩ := ih hrest b1 s1 (by rw [ha1.1, hdr])
    refine ⟨b2, s2, by simp [hd2, hd1, bodyText], ?_, by simp, ha1.trans ha2, ?_⟩
    · intro _
      cases rest with
      | nil => rw [(hsame2 rfl).1]; exact hp1
      | cons _ _ => exact hp2 (by simp)
    · intro fuel
      have : fuel + (it :: rest).length = (fuel + rest.length) + 1 := by simp; omega
      rw [this, hrun1, hrun2]

theorem isctl5_ne_NUL {c : Char} (h : isctl5 c = true) : c ≠ NUL := by
  rintro rfl; exact absurd h (by decide)

/-- With an allocator that grants, i_assign on one of the five control
characters returns XJS_ERR_CONTROL_CHAR and leaves the cursor in place. -/
theorem i_assign_ctl (env : Env) (hm : MemGrants env.mem_cb) (context : XJSType) (b : Buf)
    (s : State) (hc : isctl5 (peek s.js) = true) :
    ∃ b' s', i_assign env context b s = (XJS_ERR_CONTROL_CHAR, b', s') ∧ Adv s s' s.js := by
  have h5 := (isctl5_iff (peek s.js)).mpr hc
  unfold i_assign
  by_cases hg : b.ptr = 0 ∨ b.mxsz = 0 ∨ 1 + b.used ≥ b.mxsz
  · simp only [hg, if_true, call_mem]
    have hgr := hm s.mem ⟨XJS_alloc, context, b.ptr, b.mxsz + IXJS_MEM_STR_BLOCK_SIZE⟩ rfl
    have h1 : ¬ ((env.mem_cb s.mem ⟨XJS_alloc, context, b.ptr, b.mxsz + IXJS_MEM_STR_BLOCK_SIZE⟩).1 = 0 ∨
        (env.mem_cb s.mem ⟨XJS_alloc, context, b.ptr, b.mxsz + IXJS_MEM_STR_BLOCK_SIZE⟩).2 ≤ b.mxsz) := by
      have := hgr.2
      simp only [IXJS_MEM_STR_BLOCK_SIZE] at this ⊢
      rintro (h | h)
      · exact hgr.1 h
      · omega
    simp only [h1, if_false, i_assign_store, h5, if_true]
    exact ⟨_, _, rfl, rfl, rfl, rfl, rfl⟩
  · simp only [hg, if_false, i_assign_store, h5, if_true]
    exact ⟨_, _, rfl, Adv.refl s⟩

theorem quote_facts : ('"' : Char) ≠ NUL ∧ isspace '"' = false := by decide

/-- A well formed string literal followed by another character: the body is
copied and, when a buffer was obtained, closed by a NUL. -/
theorem i_parse_string_ok (env : Env) (hm : MemGrants env.mem_cb) (context : XJSType)
    (ws : List Char) (hws : isWs ws) (body : List StrItem) (hbody : ∀ it ∈ body, it.wf)
    (x : Char) (r : List Char) (hx : x ≠ NUL) (b : Buf) (s : State)
    (hs : s.js = ws ++ (strText body ++ x :: r)) :
    ∃ b' s', Runs (fun fuel => i_parse_string env fuel context b s) (XJS_OK, b', s') ∧
      Adv s s' (x :: r) ∧
      (body ≠ [] → b'.ptr ≠ 0 ∧ b'.data = b.data ++ bodyText body ++ [NUL]) ∧
      (body = [] → b'.ptr = b.ptr ∧ (b.ptr = 0 → b' = b)) := by
  have hs0 : s.js = ws ++ '"' :: (bodyText body ++ '"' :: x :: r) := by
    rw [hs]; simp [strText]
  have hq : ('"' : Char) ≠ NUL := by decide
  obtain ⟨d, r', hdr, hd⟩ :=
    head_ne_NUL (bodyText body) (bodyText_ne_NUL body hbody) '"' (x :: r) hq
  have e1 := i_eatwhite_skip env ws hws '"' (bodyText body ++ '"' :: x :: r) (by decide) hq s hs0
  have e2 := i_advance0_cons2 env { s with js := '"' :: (bodyText body ++ '"' :: x :: r) } '"' d r'
    (by simp [hdr]) hq hd
  obtain ⟨b3, s3, hd3, hp3, hsame3, ha3, hrun3⟩ :=
    i_parse_string_loop_run env hm context '"' (x :: r) hq body hbody b
      { s with js := d :: r' } (by simp [hdr])
  have e4 := i_advance0_cons2 env s3 '"' x r ha3.1 hq hx
  refine ⟨(terminate b3 { s3 with js := x :: r }).1, (terminate b3 { s3 with js := x :: r }).2,
    ⟨ws.length + body.length + 2, fun fuel hf => ?_⟩, ?_, ?_, ?_⟩
  · have hloop : i_parse_string_loop env context fuel b { s with js := d :: r' } =
        some (XJS_OK, b3, s3) := by
      obtain ⟨k, rfl⟩ : ∃ k, fuel = (k + 1) + body.length := ⟨fuel - body.length - 1, by omega⟩
      rw [hrun3, i_parse_string_loop]
      simp [ha3.1]
    show i_parse_string env fuel context b s = _
    unfold i_parse_string
    rw [e1 fuel (by omega)]
    simp only [ne_eq, not_true_eq_false, if_false, peek_cons, e2, hloop, ha3.1, e4]
  · unfold terminate
    split <;> exact ⟨rfl, ha3.2.1, ha3.2.2.1, ha3.2.2.2⟩
  · intro hne
    have := hp3 hne
    simp [terminate, this, hd3]
  · intro he
    obtain ⟨rfl, _⟩ := hsame3 he
    unfold terminate
    split
    · exact ⟨rfl, fun h0 => absurd h0 ‹_›⟩
    · exact ⟨rfl, fun _ => rfl⟩

/-- C9: a string literal whose body holds a raw backspace, form feed, line
feed, carriage return or tab after a valid part (plain characters and
complete escapes), read with an allocator that grants: i_parse_string
returns XJS_ERR_CONTROL_CHAR with the cursor left on that character. -/
theorem C9_raw_control_char (env : Env) (hm : MemGrants env.mem_cb) (context : XJSType)
    (ws : List Char) (hws : isWs ws) (body : List StrItem) (hbody : ∀ it ∈ body, it.wf)
    (c : Char) (hc : isctl5 c = true) (r : List Char) (b : Buf) (s : State)
    (hs : s.js = ws ++ '"' :: (bodyText body ++ c :: r)) :
    ∃ b' s', Runs (fun fuel => i_parse_string env fuel context b s)
        (XJS_ERR_CONTROL_CHAR, b', s') ∧ s'.js = c :: r ∧ s'.events = s.events := by
  have hq : ('"' : Char) ≠ NUL := by decide
  have hc0 := isctl5_ne_NUL hc
  obtain ⟨d, r', hdr, hd⟩ := head_ne_NUL (bodyText body) (bodyText_ne_NUL body hbody) c r hc0
  have e1 := i_eatwhite_skip env ws hws '"' (bodyText body ++ c :: r) (by decide) hq s hs
  have e2 := i_advance0_cons2 env { s with js := '"' :: (bodyText body ++ c :: r) } '"' d r'
    (by simp [hdr]) hq hd
  obtain ⟨b3, s3, _, _, _, ha3, hrun3⟩ :=
    i_parse_string_loop_run env hm context c r hc0 body hbody b
      { s with js := d :: r' } (by simp [hdr])
  obtain ⟨b4, s4, e4, ha4⟩ := i_assign_ctl env hm context b3 s3 (by rw [ha3.1]; exact hc)
  have hcq : c ≠ '"' ∧ c ≠ '\\' := by
    constructor <;> (rintro rfl; exact absurd hc (by decide))
  refine ⟨b4, s4, ⟨ws.length + body.length + 2, fun fuel hf => ?_⟩, ?_, ?_⟩
  · have hloop : i_parse_string_loop env context fuel b { s with js := d :: r' } =
        some (XJS_ERR_CONTROL_CHAR, b4, s4) := by
      obtain ⟨k, rfl⟩ : ∃ k, fuel = (k + 1) + body.length := ⟨fuel - body.length - 1, by omega⟩
      rw [hrun3, i_parse_string_loop]
      simp [ha3.1, hc0, hcq.1, hcq.2, e4]
    show i_parse_string env fuel context b s = _
    unfold i_parse_string
    rw [e1 fuel (by omega)]
    simp only [ne_eq, not_true_eq_false, if_false, peek_cons, e2, hloop]
    simp
  · rw [ha4.1, ha3.1]
  · rw [ha4.2.1, ha3.2.1]

theorem memGrant_grants : MemGrants memGrant := by
  intro h req _
  exact ⟨by simp [memGrant], by simp [memGrant]⟩

theorem sinkOk_ok : SinkOk sinkOk := fun _ _ => rfl

/-- C9 at the literal `"a<TAB>b"`. -/
theorem C9_raw_control_char_witness :
    ∃ b' s', Runs (fun fuel => i_parse_string envPlain fuel XJS_string Buf.empty
        (State.init ['"', 'a', '\t', 'b', '"', ']'] 0)) (XJS_ERR_CONTROL_CHAR, b', s') ∧
      s'.js = ['\t', 'b', '"', ']'] ∧ s'.events = [] :=
  C9_raw_control_char envPlain memGrant_grants XJS_string [] (by simp [isWs]) [StrItem.ch 'a']
    (by intro it hit; simp at hit; subst hit; simp [StrItem.wf]; decide) '\t' (by decide)
    ['b', '"', ']'] Buf.empty (State.init ['"', 'a', '\t', 'b', '"', ']'] 0) rfl

/-- C10, as amended: with an allocator that grants, i_parse_escape started
on a backslash returns XJS_OK when the next character is one of the eight
escape letters, or is `u` followed by four hexadecimal digits, provided one
more character follows in the buffer; it returns XJS_ERR_EXP_ESCAPE for any
other character after the backslash, and XJS_ERR_EXP_ESCAPE_HEX when fewer
than four hexadecimal digits after `u` are followed by a character that is
not one. -/
theorem C10_escape_bodies (env : Env) (hm : MemGrants env.mem_cb) (context : XJSType) (b : Buf)
    (s : State) :
    (∀ c x r, (c = '"' ∨ c = '\\' ∨ c = '/' ∨ c = 'b' ∨ c = 'f' ∨ c = 'n' ∨ c = 'r' ∨ c = 't') →
      x ≠ NUL → s.js = '\\' :: c :: x :: r →
      ∃ b' s', i_parse_escape env context b s = (XJS_OK, b', s') ∧ s'.js = x :: r) ∧
    (∀ h1 h2 h3 h4 x r,
      (isxdigit h1 = true ∧ isxdigit h2 = true ∧ isxdigit h3 = true ∧ isxdigit h4 = true) →
      x ≠ NUL → s.js = '\\' :: 'u' :: h1 :: h2 :: h3 :: h4 :: x :: r →
      ∃ b' s', i_parse_escape env context b s = (XJS_OK, b', s') ∧ s'.js = x :: r) ∧
    (∀ c r, c ≠ NUL →
      ¬ (c = '"' ∨ c = '\\' ∨ c = '/' ∨ c = 'b' ∨ c = 'f' ∨ c = 'n' ∨ c = 'r' ∨ c = 't') →
      c ≠ 'u' → s.js = '\\' :: c :: r →
      (i_parse_escape env context b s).1 = XJS_ERR_EXP_ESCAPE) ∧
    (∀ hs x r, hs.length < 4 → (∀ h ∈ hs, isxdigit h = true) → isxdigit x = false → x ≠ NUL →
      s.js = '\\' :: 'u' :: (hs ++ x :: r) →
      (i_parse_escape env context b s).1 = XJS_ERR_EXP_ESCAPE_HEX) := by
  refine ⟨?_, ?_, ?_, ?_⟩
  · intro c x r hc hx hs
    obtain ⟨b', s', h, _, _, ha⟩ := i_parse_escape_simple env hm context b s c x r hc hs hx
    exact ⟨b', s', h, ha.1⟩
  · intro h1 h2 h3 h4 x r hh hx hs
    obtain ⟨b', s', h, _, _, ha⟩ := i_parse_escape_uni env hm context b s h1 h2 h3 h4 x r hh hs hx
    exact ⟨b', s', h, ha.1⟩
  · intro c r hc hn hu hs
    obtain ⟨b1, s1, e1, _, _, ha1⟩ := i_assign_ok env hm context b s '\\' c r hs
      backslash_facts.1 backslash_facts.2 hc
    simp only [not_or] at hn
    unfold i_parse_escape
    simp only [hs, peek_cons, ne_eq, not_true_eq_false, if_false, e1, ha1.1]
    simp [hn, hu]
  · intro hs x r hlen hhex hxh hx hjs
    obtain ⟨d, r', hdr, hd⟩ := head_ne_NUL hs (fun c hc => (isxdigit_facts (hhex c hc)).1) x r hx
    obtain ⟨b1, s1, e1, _, _, ha1⟩ := i_assign_ok env hm context b s '\\' 'u' _ hjs
      backslash_facts.1 backslash_facts.2 (by decide)
    obtain ⟨b2, s2, e2, _, _, ha2⟩ := i_assign_ok env hm context b1 s1 'u' d r'
      (by rw [ha1.1, hdr]) (by decide) (by decide) hd
    obtain ⟨b3, s3, _, _, _, ha3, hrun⟩ :=
      i_parse_escape_hex_run env hm context x r hx hs hhex b2 s2 (by rw [ha2.1, hdr])
    have h4 : i_parse_escape_hex env context 4 b2 s2 = (XJS_ERR_EXP_ESCAPE_HEX, b3, s3) := by
      obtain ⟨k, hk⟩ : ∃ k, 4 = hs.length + (k + 1) := ⟨3 - hs.length, by omega⟩
      rw [hk, hrun, i_parse_escape_hex]
      simp [ha3.1, hxh]
    unfold i_parse_escape
    simp only [hjs, peek_cons, ne_eq, not_true_eq_false, if_false, e1, ha1.1, e2, h4]
    simp

/-- C10 at `\u12"`: two hexadecimal digits, then the closing quote. -/
theorem C10_escape_bodies_witness :
    (i_parse_escape envPlain XJS_string Buf.empty
      (State.init ['\\', 'u', '1', '2', '"', ']'] 0)).1 = XJS_ERR_EXP_ESCAPE_HEX :=
  (C10_escape_bodies envPlain memGrant_grants XJS_string Buf.empty
    (State.init ['\\', 'u', '1', '2', '"', ']'] 0)).2.2.2 ['1', '2'] '"' [']']
    (by decide) (by intro h hh; simp at hh; rcases hh with rfl | rfl <;> decide) (by decide)
    (by decide) rfl

/-- C10 as stated fails where the escape ends the buffer: on `\n` with
nothing after it i_parse_escape returns XJS_END, not XJS_OK. -/
theorem C10_escape_at_end_of_input :
    (i_parse_escape envPlain XJS_string Buf.empty (State.init ['\\', 'n'] 0)).1 = XJS_END ∧
      XJS_END ≠ XJS_OK := by
  decide

theorem isspace_iff (c : Char) : isspace c = true ↔
    (c = ' ' ∨ c = '\t' ∨ c = '\n' ∨ c = Char.ofNat 11 ∨ c = Char.ofNat 12 ∨ c = '\r') := by
  simp [isspace, or_assoc]

/-- What the lexers need to know of a delimiter. -/
theorem isDelim_facts {d : Char} (h : isDelim d) :
    d ≠ NUL ∧ isdigit d = false ∧ d ≠ '.' ∧ d ≠ 'e' ∧ d ≠ 'E' ∧ isalnum d = false := by
  rcases h with h | h | h | h
  · rw [isspace_iff] at h
    rcases h with rfl | rfl | rfl | rfl | rfl | rfl <;> decide
  · subst h; decide
  · subst h; decide
  · subst h; decide

/-- A run of digits in front of a character that is not a digit is copied
by the digit loop of i_parse_number. -/
theorem i_parse_number_digits_run (env : Env) (hm : MemGrants env.mem_cb)
    (x : Char) (r : List Char) (hx : x ≠ NUL) (hxd : isdigit x = false) :
    ∀ (ds : List Char), (∀ c ∈ ds, isdigit c = true) → ∀ (b : Buf) (s : State),
      s.js = ds ++ x :: r →
      ∃ b' s', b'.data = b.data ++ ds ∧ (ds ≠ [] → b'.ptr ≠ 0) ∧ (ds = [] → b' = b) ∧
        Adv s s' (x :: r) ∧
        ∀ fuel, ds.length + 1 ≤ fuel →
          i_parse_number_digits env fuel b s = some (XJS_OK, b', s') := by
  intro ds
  induction ds with
  | nil =>
    intro _ b s hs
    refine ⟨b, s, by simp, by simp, by simp, ⟨by simpa using hs, rfl, rfl, rfl⟩, fun fuel hf => ?_⟩
    obtain ⟨k, rfl⟩ : ∃ k, fuel = k + 1 := ⟨fuel - 1, by simp at hf; omega⟩
    simp at hs
    simp [i_parse_number_digits, hs, hxd]
  | cons c ds ih =>
    intro hds b s hs
    have hc : isdigit c = true := hds c (by simp)
    have hds' : ∀ c' ∈ ds, isdigit c' = true := fun c' h' => hds c' (by simp [h'])
    obtain ⟨d, r', hdr, hd⟩ := head_ne_NUL ds (fun c hc => (isdigit_facts (hds' c hc)).1) x r hx
    have hs' : s.js = c :: d :: r' := by rw [hs, ← hdr]; rfl
    obtain ⟨b1, s1, e1, hd1, hp1, ha1⟩ :=
      i_assign_ok env hm XJS_number b s c d r' hs' (isdigit_facts hc).1 (isdigit_facts hc).2 hd
    obtain ⟨b2, s2, hd2, _, hsame2, ha2, hrun2⟩ := ih hds' b1 s1 (by rw [ha1.1, hdr])
    refine ⟨b2, s2, by simp [hd2, hd1], ?_, by simp, ha1.trans ha2, fun fuel hf => ?_⟩
    · intro _
      cases ds with
      | nil => rw [hsame2 rfl]; exact hp1
      | cons _ _ => exact ‹_ ≠ [] → b2.ptr ≠ 0› (by simp)
    · obtain ⟨k, rfl⟩ : ∃ k, fuel = k + 1 := ⟨fuel - 1, by simp at hf; omega⟩
      rw [i_parse_number_digits]
      simp only [hs', peek_cons, hc, if_true, e1, ne_eq, not_true_eq_false, if_false]
      exact hrun2 k (by simp at hf; omega)

theorem terminate_of_ptr (b : Buf) (s : State) (hp : b.ptr ≠ 0) :
    terminate b s = ({ b with data := b.data ++ [NUL] },
      { s with writes := s.writes ++ [(b.used, b.mxsz)] }) := by
  simp [terminate, hp]

/-- The exponent part of a number, in front of a delimiter. -/
theorem i_parse_number_exp_ok (env : Env) (hm : MemGrants env.mem_cb) (n : JNumber) (hn : n.wf)
    (d : Char) (r : List Char) (hd : isDelim d) (b : Buf) (hb : b.ptr ≠ 0) (s : State)
    (hs : s.js = n.expText ++ d :: r) :
    ∃ b' s', b'.data = b.data ++ n.expText ++ [NUL] ∧ b'.ptr ≠ 0 ∧ Adv s s' (d :: r) ∧
      Runs (fun fuel => i_parse_number_exp env fuel b s) (XJS_OK, b', s') := by
  obtain ⟨hd0, hdd, _, hde, hdE, _⟩ := isDelim_facts hd
  cases hexp : n.exp with
  | none =>
    simp only [JNumber.expText, hexp, List.nil_append] at hs
    refine ⟨{ b with data := b.data ++ [NUL] }, { s with writes := s.writes ++ [(b.used, b.mxsz)] },
      ?_, ?_, ?_, ⟨0, fun fuel _ => ?_⟩⟩
    rotate_left 3
    · show i_parse_number_exp env fuel b s = _
      unfold i_parse_number_exp
      simp only [hs, peek_cons, hde, hdE, or_self, if_false, terminate_of_ptr b s hb]
    · simp [JNumber.expText, hexp]
    · exact hb
    · exact ⟨hs, rfl, rfl, rfl⟩
  | some t =>
    obtain ⟨m, sg, e⟩ := t
    obtain ⟨hm', hsg, hne, hed⟩ := hn.2.2.2.2 m sg e hexp
    simp only [JNumber.expText, hexp] at hs
    have hm0 : m ≠ NUL ∧ isctl5 m = false := by rcases hm' with rfl | rfl <;> decide
    obtain ⟨e0, e', rfl⟩ : ∃ e0 e', e = e0 :: e' := by
      cases e with
      | nil => exact absurd rfl hne
      | cons a l => exact ⟨a, l, rfl⟩
    have he0 : isdigit e0 = true := hed e0 (by simp)
    cases sg with
    | none =>
      simp only [Option.toList, List.nil_append, List.cons_append] at hs
      obtain ⟨b1, s1, e1, hd1, hp1, ha1⟩ := i_assign_ok env hm XJS_number b s m e0 _ hs hm0.1 hm0.2
        (isdigit_facts he0).1
      obtain ⟨b2, s2, hd2, hp2, _, ha2, hrun2⟩ :=
        i_parse_number_digits_run env hm d r hd0 hdd (e0 :: e') hed b1 s1 (by rw [ha1.1]; rfl)
      have hp2' := hp2 (by simp)
      refine ⟨{ b2 with data := b2.data ++ [NUL] },
        { s2 with writes := s2.writes ++ [(b2.used, b2.mxsz)] },
        ?_, ?_, ?_, ⟨(e0 :: e').length + 1, fun fuel hf => ?_⟩⟩
      rotate_left 3
      · show i_parse_number_exp env fuel b s = _
        have hpm : e0 ≠ '+' ∧ e0 ≠ '-' := by
          constructor <;> (rintro rfl; exact absurd he0 (by decide))
        unfold i_parse_number_exp
        simp only [hs, peek_cons, hm', if_true, e1, ne_eq, not_true_eq_false, if_false, ha1.1,
          hpm.1, hpm.2, or_self, he0, Bool.not_true, Bool.false_eq_true, hrun2 fuel hf,
          terminate_of_ptr b2 s2 hp2']
      · simp [hd2, hd1, JNumber.expText, hexp]
      · exact hp2'
      · exact ⟨ha2.1, ha2.2.1.trans ha1.2.1, ha2.2.2.1.trans ha1.2.2.1, ha2.2.2.2.trans ha1.2.2.2⟩
    | some g =>
      have hg := hsg g rfl
      have hg0 : g ≠ NUL ∧ isctl5 g = false := by rcases hg with rfl | rfl <;> decide
      simp only [Option.toList, List.cons_append, List.nil_append] at hs
      obtain ⟨b1, s1, e1, hd1, hp1, ha1⟩ := i_assign_ok env hm XJS_number b s m g _ hs hm0.1 hm0.2
        hg0.1
      obtain ⟨b1', s1', e1', hd1', hp1', ha1'⟩ := i_assign_ok env hm XJS_number b1 s1 g e0 _ ha1.1
        hg0.1 hg0.2 (isdigit_facts he0).1
      obtain ⟨b2, s2, hd2, hp2, _, ha2, hrun2⟩ :=
        i_parse_number_digits_run env hm d r hd0 hdd (e0 :: e') hed b1' s1' (by rw [ha1'.1]; rfl)
      have hp2' := hp2 (by simp)
      refine ⟨{ b2 with data := b2.data ++ [NUL] },
        { s2 with writes := s2.writes ++ [(b2.used, b2.mxsz)] },
        ?_, ?_, ?_, ⟨(e0 :: e').length + 1, fun fuel hf => ?_⟩⟩
      rotate_left 3
      · show i_parse_number_exp env fuel b s = _
        unfold i_parse_number_exp
        simp only [hs, peek_cons, hm', if_true, e1, ne_eq, not_true_eq_false, if_false, ha1.1,
          hg, e1', ha1'.1, he0, Bool.not_true, Bool.false_eq_true, hrun2 fuel hf,
          terminate_of_ptr b2 s2 hp2']
      · simp [hd2, hd1', hd1, JNumber.expText, hexp]
      · exact hp2'
      · exact ⟨ha2.1, (ha2.2.1.trans ha1'.2.1).trans ha1.2.1,
          (ha2.2.2.1.trans ha1'.2.2.1).trans ha1.2.2.1,
          (ha2.2.2.2.trans ha1'.2.2.2).trans ha1.2.2.2⟩

/-- The character that follows the fraction of a number. -/
theorem expText_head (n : JNumber) (hn : n.wf) (d : Char) (r : List Char) (hd : isDelim d) :
    ∃ y r', n.expText ++ d :: r = y :: r' ∧ y ≠ NUL ∧ isdigit y = false ∧ y ≠ '.' := by
  obtain ⟨hd0, hdd, hdp, _, _, _⟩ := isDelim_facts hd
  cases hexp : n.exp with
  | none => exact ⟨d, r, by simp [JNumber.expText, hexp], hd0, hdd, hdp⟩
  | some t =>
    obtain ⟨m, sg, e⟩ := t
    obtain ⟨hm', _, _, _⟩ := hn.2.2.2.2 m sg e hexp
    refine ⟨m, sg.toList ++ e ++ d :: r, by simp [JNumber.expText, hexp], ?_⟩
    rcases hm' with rfl | rfl <;> decide

/-- The character that follows the integer part of a number. -/
theorem fracText_head (n : JNumber) (hn : n.wf) (d : Char) (r : List Char) (hd : isDelim d) :
    ∃ y r', n.fracText ++ (n.expText ++ d :: r) = y :: r' ∧ y ≠ NUL ∧ isdigit y = false := by
  cases hfrac : n.frac with
  | none =>
    obtain ⟨y, r', h, hy0, hyd, _⟩ := expText_head n hn d r hd
    exact ⟨y, r', by simp [JNumber.fracText, hfrac, h], hy0, hyd⟩
  | some f => exact ⟨'.', f ++ (n.expText ++ d :: r), by simp [JNumber.fracText, hfrac], by decide, by decide⟩

/-- The fraction and the exponent of a number, in front of a delimiter. -/
theorem i_parse_number_frac_ok (env : Env) (hm : MemGrants env.mem_cb) (n : JNumber) (hn : n.wf)
    (d : Char) (r : List Char) (hd : isDelim d) (b : Buf) (hb : b.ptr ≠ 0) (s : State)
    (hs : s.js = n.fracText ++ (n.expText ++ d :: r)) :
    ∃ b' s', b'.data = b.data ++ n.fracText ++ n.expText ++ [NUL] ∧ b'.ptr ≠ 0 ∧
      Adv s s' (d :: r) ∧ Runs (fun fuel => i_parse_number_frac env fuel b s) (XJS_OK, b', s') := by
  obtain ⟨y, r', hy, hy0, hyd, hyp⟩ := expText_head n hn d r hd
  cases hfrac : n.frac with
  | none =>
    simp only [JNumber.fracText, hfrac, List.nil_append] at hs
    obtain ⟨b', s', hd', hp', ha', N, hrun⟩ := i_parse_number_exp_ok env hm n hn d r hd b hb s hs
    refine ⟨b', s', by simp [hd', JNumber.fracText, hfrac], hp', ha', N, fun fuel hf => ?_⟩
    show i_parse_number_frac env fuel b s = _
    have hpk : peek s.js = y := by rw [hs, hy]; rfl
    unfold i_parse_number_frac
    simp only [hpk, hyp, if_false]
    exact hrun fuel hf
  | some f =>
    obtain ⟨hne, hfd⟩ := hn.2.2.2.1 f hfrac
    obtain ⟨f0, f', rfl⟩ : ∃ f0 f', f = f0 :: f' := by
      cases f with
      | nil => exact absurd rfl hne
      | cons a l => exact ⟨a, l, rfl⟩
    have hf0 : isdigit f0 = true := hfd f0 (by simp)
    simp only [JNumber.fracText, hfrac, List.cons_append] at hs
    obtain ⟨b1, s1, e1, hd1, hp1, ha1⟩ := i_assign_ok env hm XJS_number b s '.' f0 _ hs
      (by decide) (by decide) (isdigit_facts hf0).1
    obtain ⟨b2, s2, hd2, hp2, _, ha2, hrun2⟩ :=
      i_parse_number_digits_run env hm y r' hy0 hyd (f0 :: f') hfd b1 s1
        (by rw [ha1.1, hy]; rfl)
    obtain ⟨b3, s3, hd3, hp3, ha3, N3, hrun3⟩ :=
      i_parse_number_exp_ok env hm n hn d r hd b2 (hp2 (by simp)) s2 (by rw [ha2.1, hy])
    refine ⟨b3, s3, by simp [hd3, hd2, hd1, JNumber.fracText, hfrac], hp3,
      (ha1.trans ha2).trans ha3, N3 + (f0 :: f').length + 1, fun fuel hf => ?_⟩
    show i_parse_number_frac env fuel b s = _
    unfold i_parse_number_frac
    simp only [hs, peek_cons, if_true, e1, ne_eq, not_true_eq_false, if_false, ha1.1, hf0,
      Bool.not_true, Bool.false_eq_true, hrun2 fuel (by omega)]
    exact hrun3 fuel (by omega)

/-- A well formed number in front of a delimiter is copied as it stands and
closed by a NUL. -/
theorem i_parse_number_ok (env : Env) (hm : MemGrants env.mem_cb) (ws : List Char) (hws : isWs ws)
    (n : JNumber) (hn : n.wf) (d : Char) (r : List Char) (hd : isDelim d) (b : Buf) (s : State)
    (hs : s.js = ws ++ (n.text ++ d :: r)) :
    ∃ b' s', b'.data = b.data ++ n.text ++ [NUL] ∧ b'.ptr ≠ 0 ∧ Adv s s' (d :: r) ∧
      Runs (fun fuel => i_parse_number env fuel b s) (XJS_OK, b', s') := by
  obtain ⟨z, rz, hz, hz0, hzd⟩ := fracText_head n hn d r hd
  obtain ⟨hine, hid, hzero, _, _⟩ := hn
  have hn' : n.wf := ⟨hine, hid, hzero, ‹_›, ‹_›⟩
  obtain ⟨i0, i', hi⟩ : ∃ i0 i', n.int = i0 :: i' := by
    cases h : n.int with
    | nil => exact absurd h hine
    | cons a l => exact ⟨a, l, rfl⟩
  have hi0 : isdigit i0 = true := hid i0 (by simp [hi])
  -- the text after the sign
  have htail : ∀ (b1 : Buf) (s1 : State), s1.js = n.int ++ (n.fracText ++ (n.expText ++ d :: r)) →
      ∃ b' s', b'.data = b1.data ++ n.int ++ n.fracText ++ n.expText ++ [NUL] ∧ b'.ptr ≠ 0 ∧
        Adv s1 s' (d :: r) ∧
        ∃ N, ∀ fuel, N ≤ fuel →
          (match (if peek s1.js = '0' then some (i_assign env XJS_number b1 s1)
                 else if !isdigit (peek s1.js) then some (XJS_ERR_EXP_DIGIT, b1, s1)
                 else i_parse_number_digits env fuel b1 s1) with
          | none => none
          | some (r3, b3, s3) =>
            if r3 ≠ XJS_OK then some (r3, b3, s3) else i_parse_number_frac env fuel b3 s3)
          = some (XJS_OK, b', s') := by
    intro b1 s1 hs1
    by_cases h0 : i0 = '0'
    · have hint : n.int = ['0'] := hzero (by simp [hi, h0])
      rw [hint, hz] at hs1
      simp only [List.singleton_append] at hs1
      obtain ⟨b2, s2, e2, hd2, hp2, ha2⟩ := i_assign_ok env hm XJS_number b1 s1 '0' z rz hs1
        (by decide) (by decide) hz0
      obtain ⟨b3, s3, hd3, hp3, ha3, N3, hrun3⟩ :=
        i_parse_number_frac_ok env hm n hn' d r hd b2 hp2 s2 (by rw [ha2.1, hz])
      refine ⟨b3, s3, by simp [hd3, hd2, hint], hp3, ha2.trans ha3, N3, fun fuel hf => ?_⟩
      simp only [hs1, peek_cons, if_true, e2, ne_eq, not_true_eq_false, if_false]
      exact hrun3 fuel hf
    · rw [hz] at hs1
      obtain ⟨b2, s2, hd2, hp2, _, ha2, hrun2⟩ :=
        i_parse_number_digits_run env hm z rz hz0 hzd n.int hid b1 s1 hs1
      obtain ⟨b3, s3, hd3, hp3, ha3, N3, hrun3⟩ :=
        i_parse_number_frac_ok env hm n hn' d r hd b2 (hp2 hine) s2 (by rw [ha2.1, hz])
      refine ⟨b3, s3, by simp [hd3, hd2], hp3, ha2.trans ha3, N3 + n.int.length + 1,
        fun fuel hf => ?_⟩
      have hpk : peek s1.js = i0 := by rw [hs1, hi]; rfl
      simp only [hpk, h0, if_false, hi0, Bool.not_true, Bool.false_eq_true,
        hrun2 fuel (by omega), ne_eq, not_true_eq_false]
      exact hrun3 fuel (by omega)
  have hi0s : isspace i0 = false := by
    cases h : isspace i0 with
    | false => rfl
    | true =>
      rw [isspace_iff] at h
      rcases h with rfl | rfl | rfl | rfl | rfl | rfl <;> exact absurd hi0 (by decide)
  have hi0m : i0 ≠ '-' := by rintro rfl; exact absurd hi0 (by decide)
  cases hneg : n.neg with
  | false =>
    have htxt : n.text ++ d :: r = i0 :: (i' ++ (n.fracText ++ (n.expText ++ d :: r))) := by
      simp [JNumber.text, hneg, hi]
    rw [htxt] at hs
    have e1 := i_eatwhite_skip env ws hws i0 _ hi0s (isdigit_facts hi0).1 s hs
    obtain ⟨b', s', hd', hp', ha', N, hrun⟩ := htail b
      { s with js := i0 :: (i' ++ (n.fracText ++ (n.expText ++ d :: r))) } (by simp [hi])
    refine ⟨b', s', by simp [hd', JNumber.text, hneg], hp', ⟨ha'.1, ha'.2.1, ha'.2.2.1, ha'.2.2.2⟩,
      N + ws.length + 1, fun fuel hf => ?_⟩
    show i_parse_number env fuel b s = _
    unfold i_parse_number
    rw [e1 fuel (by omega)]
    simp only [ne_eq, not_true_eq_false, if_false, peek_cons, hi0m, hi0, Bool.not_true,
      Bool.false_eq_true]
    have := hrun fuel (by omega)
    simp only [peek_cons, hi0, Bool.not_true, Bool.false_eq_true, if_false] at this
    exact this
  | true =>
    have htxt : n.text ++ d :: r = '-' :: i0 :: (i' ++ (n.fracText ++ (n.expText ++ d :: r))) := by
      simp [JNumber.text, hneg, hi]
    rw [htxt] at hs
    have e1 := i_eatwhite_skip env ws hws '-' _ (by decide) (by decide) s hs
    obtain ⟨b1, s1, ea, hd1, hp1, ha1⟩ := i_assign_ok env hm XJS_number b
      { s with js := '-' :: i0 :: (i' ++ (n.fracText ++ (n.expText ++ d :: r))) } '-' i0 _ rfl
      (by decide) (by decide) (isdigit_facts hi0).1
    obtain ⟨b', s', hd', hp', ha', N, hrun⟩ := htail b1 s1 (by rw [ha1.1, hi]; rfl)
    refine ⟨b', s', by simp [hd', hd1, JNumber.text, hneg], hp', ?_,
      N + ws.length + 1, fun fuel hf => ?_⟩
    · exact ⟨ha'.1, ha'.2.1.trans ha1.2.1, ha'.2.2.1.trans ha1.2.2.1, ha'.2.2.2.trans ha1.2.2.2⟩
    · show i_parse_number env fuel b s = _
      unfold i_parse_number
      rw [e1 fuel (by omega)]
      simp only [ne_eq, not_true_eq_false, if_false, peek_cons, if_true, ea, ha1.1, hi0,
        Bool.not_true, Bool.false_eq_true]
      have := hrun fuel (by omega)
      simp only [ha1.1, peek_cons, hi0, Bool.not_true, Bool.false_eq_true, if_false] at this
      exact this

/-- The characters of a literal in front of another character are matched
one by one. -/
theorem i_parse_literal_loop_ok (env : Env) (x : Char) (r : List Char) (hx : x ≠ NUL) :
    ∀ (lit : List Char), (∀ c ∈ lit, c ≠ NUL) → ∀ (s : State), s.js = lit ++ x :: r →
      i_parse_literal_loop env lit s = (XJS_OK, { s with js := x :: r }) := by
  intro lit
  induction lit with
  | nil =>
    intro _ s hs
    simp only [List.nil_append] at hs
    simp only [i_parse_literal_loop]
    rw [← hs]
  | cons l lit ih =>
    intro hl s hs
    obtain ⟨d, r', hdr, hd⟩ := head_ne_NUL lit (fun c hc => hl c (by simp [hc])) x r hx
    have hs' : s.js = l :: d :: r' := by rw [hs, ← hdr]; rfl
    simp only [i_parse_literal_loop, hs', peek_cons, ne_eq, not_true_eq_false, if_false,
      i_advance0_cons2 env s l d r' hs' (hl l (by simp)) hd]
    rw [ih (fun c hc => hl c (by simp [hc])) { s with js := d :: r' } (by simp [hdr])]

/-- A literal in front of a character that is not alphanumeric is matched. -/
theorem i_parse_literal_ok (env : Env) (lit : List Char) (hne : lit ≠ [])
    (hl : ∀ c ∈ lit, c ≠ NUL ∧ isspace c = false) (x : Char) (r : List Char) (hx : x ≠ NUL)
    (hxa : isalnum x = false) (s : State) (hs : s.js = lit ++ x :: r) :
    ∀ fuel, 1 ≤ fuel → i_parse_literal env fuel lit s = some (XJS_OK, { s with js := x :: r }) := by
  intro fuel hf
  obtain ⟨l0, lit', rfl⟩ : ∃ l0 lit', lit = l0 :: lit' := by
    cases lit with
    | nil => exact absurd rfl hne
    | cons a l => exact ⟨a, l, rfl⟩
  have e1 := i_eatwhite_skip env [] (by simp [isWs]) l0 (lit' ++ x :: r) (hl l0 (by simp)).2
    (hl l0 (by simp)).1 s hs fuel (by simpa using hf)
  have e2 := i_parse_literal_loop_ok env x r hx (l0 :: lit') (fun c hc => (hl c hc).1)
    { s with js := l0 :: (lit' ++ x :: r) } rfl
  unfold i_parse_literal
  rw [e1]
  simp only [ne_eq, not_true_eq_false, if_false, peek_cons, e2, hxa, Bool.false_eq_true]

/-- A literal is not applicable when the first character differs. -/
theorem i_parse_literal_nope (env : Env) (lit : List Char) (c : Char) (r : List Char)
    (hc0 : c ≠ NUL) (hcs : isspace c = false) (hc : c ≠ peek lit) (s : State)
    (hs : s.js = c :: r) :
    ∀ fuel, 1 ≤ fuel → i_parse_literal env fuel lit s = some (XJS_NOPE, s) := by
  intro fuel hf
  have e1 := i_eatwhite_skip env [] (by simp [isWs]) c r hcs hc0 s hs fuel (by simpa using hf)
  unfold i_parse_literal
  rw [e1]
  simp only [ne_eq, not_true_eq_false, if_false, peek_cons, hc, not_false_eq_true, if_true]
  congr 2
  rw [← hs]

/-- The bytes up to the NUL that closes them. -/
theorem takeWhile_ne_NUL (t : List Char) (ht : ∀ c ∈ t, c ≠ NUL) :
    (t ++ [NUL]).takeWhile (fun c => c != NUL) = t := by
  induction t with
  | nil => simp [List.takeWhile]
  | cons a t ih =>
    have ha : (a != NUL) = true := by simpa using ht a (by simp)
    rw [List.cons_append, List.takeWhile_cons, ha, if_pos rfl, ih (fun c hc => ht c (by simp [hc]))]

theorem Buf.cstr_of (b : Buf) (t : List Char) (hp : b.ptr ≠ 0) (hd : b.data = t ++ [NUL])
    (ht : ∀ c ∈ t, c ≠ NUL) : b.cstr = some t := by
  simp [Buf.cstr, hp, hd, takeWhile_ne_NUL t ht]

/-- The characters of a well formed number are none of them the
terminator. -/
theorem JNumber.number_text_ne_NUL (n : JNumber) (hn : n.wf) : ∀ c ∈ n.text, c ≠ NUL := by
  obtain ⟨_, hid, _, hfr, hex⟩ := hn
  intro c hc
  simp only [JNumber.text, List.mem_append] at hc
  rcases hc with ((hc | hc) | hc) | hc
  · cases hneg : n.neg <;> simp [hneg] at hc
    subst hc; decide
  · exact (isdigit_facts (hid c hc)).1
  · cases hfrac : n.frac with
    | none => simp [JNumber.fracText, hfrac] at hc
    | some f =>
      simp only [JNumber.fracText, hfrac, List.mem_cons] at hc
      rcases hc with rfl | hc
      · decide
      · exact (isdigit_facts ((hfr f hfrac).2 c hc)).1
  · cases hexp : n.exp with
    | none => simp [JNumber.expText, hexp] at hc
    | some t =>
      obtain ⟨m, sg, e⟩ := t
      obtain ⟨hm, hsg, _, hed⟩ := hex m sg e hexp
      simp only [JNumber.expText, hexp, List.mem_cons, List.mem_append] at hc
      rcases hc with rfl | hc | hc
      · rcases hm with rfl | rfl <;> decide
      · cases sg with
        | none => simp at hc
        | some g =>
          simp only [Option.toList, List.mem_singleton] at hc
          rw [hc]
          rcases hsg g rfl with rfl | rfl <;> decide
      · exact (isdigit_facts (hed c hc)).1

/-- The first character of a well formed number. -/
theorem JNumber.text_head (n : JNumber) (hn : n.wf) (t : List Char) :
    ∃ c r, n.text ++ t = c :: r ∧ (c = '-' ∨ isdigit c = true) := by
  obtain ⟨hine, hid, _⟩ := hn
  cases hneg : n.neg with
  | true => exact ⟨'-', _, by simp [JNumber.text, hneg]; rfl, Or.inl rfl⟩
  | false =>
    cases hi : n.int with
    | nil => exact absurd hi hine
    | cons a l =>
      exact ⟨a, _, by simp [JNumber.text, hneg, hi]; rfl, Or.inr (hid a (by simp [hi]))⟩

/-- The number lexer is not applicable on a character that is neither a
minus sign nor a digit. -/
theorem i_parse_number_nope (env : Env) (c : Char) (r : List Char) (hc0 : c ≠ NUL)
    (hcs : isspace c = false) (hcm : c ≠ '-') (hcd : isdigit c = false) (b : Buf) (s : State)
    (hs : s.js = c :: r) :
    ∀ fuel, 1 ≤ fuel → i_parse_number env fuel b s = some (XJS_NOPE, b, s) := by
  intro fuel hf
  have e1 := i_eatwhite_skip env [] (by simp [isWs]) c r hcs hc0 s hs fuel (by simpa using hf)
  unfold i_parse_number
  rw [e1]
  simp only [ne_eq, not_true_eq_false, if_false, peek_cons, hcm, hcd, Bool.not_false, if_true]
  congr 3
  rw [← hs]

theorem state_js_eq (s : State) (js : List Char) (h : s.js = js) : { s with js := js } = s := by
  cases s; simp_all

/-- A well formed scalar in front of a delimiter: i_parse_value returns its
kind and, in the buffer, its text. -/
theorem i_parse_value_scalar (env : Env) (hm : MemGrants env.mem_cb) (ws : List Char)
    (hws : isWs ws) (v : JValue) (hv : v.wf) (hsc : v.isContainer = false) (d : Char)
    (r : List Char) (hd : isDelim d) (s : State) (hs : s.js = ws ++ (v.text ++ d :: r)) :
    ∃ k val b' s', (∀ name, v.events name = [(k, name, val)]) ∧ b'.cstr = val ∧
      Adv s s' (d :: r) ∧ Runs (fun fuel => i_parse_value env fuel Buf.empty s) (XJS_OK, k, b', s') := by
  obtain ⟨hd0, _, _, _, _, hda⟩ := isDelim_facts hd
  cases v with
  | arr _ _ => simp [JValue.isContainer] at hsc
  | obj _ _ => simp [JValue.isContainer] at hsc
  | tru =>
    simp only [JValue.text] at hs
    have e0 : ∀ fuel, ws.length + 1 ≤ fuel → i_eatwhite env fuel s =
        some (XJS_OK, { s with js := "true".toList ++ d :: r }) :=
      i_eatwhite_skip env ws hws 't' _ (by decide) (by decide) s hs
    have e1 := i_parse_literal_ok env "true".toList (by decide) (by decide) d r hd0 hda
      { s with js := "true".toList ++ d :: r } rfl
    refine ⟨XJS_true, none, Buf.empty, { s with js := d :: r }, fun _ => rfl, rfl,
      ⟨rfl, rfl, rfl, rfl⟩, ws.length + 2, fun fuel hf => ?_⟩
    show i_parse_value env fuel Buf.empty s = _
    unfold i_parse_value
    rw [e0 fuel (by omega)]
    simp only [ne_eq, not_true_eq_false, if_false]
    rw [e1 fuel (by omega)]
    simp
  | fls =>
    simp only [JValue.text] at hs
    have e0 : ∀ fuel, ws.length + 1 ≤ fuel → i_eatwhite env fuel s =
        some (XJS_OK, { s with js := "false".toList ++ d :: r }) :=
      i_eatwhite_skip env ws hws 'f' _ (by decide) (by decide) s hs
    have e1 := i_parse_literal_nope env "true".toList 'f' _ (by decide) (by decide) (by decide)
      { s with js := "false".toList ++ d :: r } rfl
    have e2 := i_parse_literal_ok env "false".toList (by decide) (by decide) d r hd0 hda
      { s with js := "false".toList ++ d :: r } rfl
    refine ⟨XJS_false, none, Buf.empty, { s with js := d :: r }, fun _ => rfl, rfl,
      ⟨rfl, rfl, rfl, rfl⟩, ws.length + 2, fun fuel hf => ?_⟩
    show i_parse_value env fuel Buf.empty s = _
    unfold i_parse_value
    rw [e0 fuel (by omega)]
    simp only [ne_eq, not_true_eq_false, if_false]
    rw [e1 fuel (by omega)]
    simp only [ne_eq, not_true_eq_false, if_false, show ¬ (XJS_NOPE = XJS_OK) by decide]
    rw [e2 fuel (by omega)]
    simp
  | nul =>
    simp only [JValue.text] at hs
    have e0 : ∀ fuel, ws.length + 1 ≤ fuel → i_eatwhite env fuel s =
        some (XJS_OK, { s with js := "null".toList ++ d :: r }) :=
      i_eatwhite_skip env ws hws 'n' _ (by decide) (by decide) s hs
    have e1 := i_parse_literal_nope env "true".toList 'n' _ (by decide) (by decide) (by decide)
      { s with js := "null".toList ++ d :: r } rfl
    have e2 := i_parse_literal_nope env "false".toList 'n' _ (by decide) (by decide) (by decide)
      { s with js := "null".toList ++ d :: r } rfl
    have e3 := i_parse_literal_ok env "null".toList (by decide) (by decide) d r hd0 hda
      { s with js := "null".toList ++ d :: r } rfl
    refine ⟨XJS_null, none, Buf.empty, { s with js := d :: r }, fun _ => rfl, rfl,
      ⟨rfl, rfl, rfl, rfl⟩, ws.length + 2, fun fuel hf => ?_⟩
    show i_parse_value env fuel Buf.empty s = _
    unfold i_parse_value
    rw [e0 fuel (by omega)]
    simp only [ne_eq, not_true_eq_false, if_false]
    rw [e1 fuel (by omega)]
    simp only [ne_eq, not_true_eq_false, if_false, show ¬ (XJS_NOPE = XJS_OK) by decide]
    rw [e2 fuel (by omega)]
    simp only [ne_eq, not_true_eq_false, if_false, show ¬ (XJS_NOPE = XJS_OK) by decide]
    rw [e3 fuel (by omega)]
    simp
  | num n =>
    simp only [JValue.text] at hs
    have hn : n.wf := hv
    obtain ⟨c, rc, hc, hcc⟩ := JNumber.text_head n hn (d :: r)
    have hcf : c ≠ NUL ∧ isspace c = false ∧ c ≠ 't' ∧ c ≠ 'f' ∧ c ≠ 'n' := by
      rcases hcc with rfl | hcd
      · decide
      · refine ⟨(isdigit_facts hcd).1, ?_, ?_, ?_, ?_⟩
        · cases h : isspace c with
          | false => rfl
          | true =>
            rw [isspace_iff] at h
            rcases h with rfl | rfl | rfl | rfl | rfl | rfl <;> exact absurd hcd (by decide)
        all_goals (rintro rfl; exact absurd hcd (by decide))
    have hs' : s.js = ws ++ c :: rc := by rw [hs, hc]
    have e0 := i_eatwhite_skip env ws hws c rc hcf.2.1 hcf.1 s hs'
    have e1 := i_parse_literal_nope env "true".toList c rc hcf.1 hcf.2.1 hcf.2.2.1
      { s with js := c :: rc } rfl
    have e2 := i_parse_literal_nope env "false".toList c rc hcf.1 hcf.2.1 hcf.2.2.2.1
      { s with js := c :: rc } rfl
    have e3 := i_parse_literal_nope env "null".toList c rc hcf.1 hcf.2.1 hcf.2.2.2.2
      { s with js := c :: rc } rfl
    obtain ⟨b', s', hdat, hp, ha, N, hrun⟩ := i_parse_number_ok env hm [] (by simp [isWs]) n hn d r hd
      Buf.empty { s with js := c :: rc } (by simp [hc])
    beta_reduce at hrun
    refine ⟨XJS_number, some n.text, b', s', fun _ => rfl,
      Buf.cstr_of b' n.text hp (by simpa [Buf.empty] using hdat) (JNumber.number_text_ne_NUL n hn),
      ⟨ha.1, ha.2.1, ha.2.2.1, ha.2.2.2⟩, N + ws.length + 2, fun fuel hf => ?_⟩
    show i_parse_value env fuel Buf.empty s = _
    unfold i_parse_value
    rw [e0 fuel (by omega)]
    simp only [ne_eq, not_true_eq_false, if_false]
    rw [e1 fuel (by omega)]
    simp only [ne_eq, not_true_eq_false, if_false, show ¬ (XJS_NOPE = XJS_OK) by decide]
    rw [e2 fuel (by omega)]
    simp only [ne_eq, not_true_eq_false, if_false, show ¬ (XJS_NOPE = XJS_OK) by decide]
    rw [e3 fuel (by omega)]
    simp only [ne_eq, not_true_eq_false, if_false, show ¬ (XJS_NOPE = XJS_OK) by decide]
    rw [hrun fuel (by omega)]
    simp
  | str body =>
    simp only [JValue.text] at hs
    have hb : ∀ it ∈ body, it.wf := hv
    have hs' : s.js = ws ++ '"' :: (bodyText body ++ '"' :: d :: r) := by
      rw [hs]; simp [strText]
    have e0 := i_eatwhite_skip env ws hws '"' _ (by decide) (by decide) s hs'
    have e1 := i_parse_literal_nope env "true".toList '"' _ (by decide) (by decide) (by decide)
      { s with js := '"' :: (bodyText body ++ '"' :: d :: r) } rfl
    have e2 := i_parse_literal_nope env "false".toList '"' _ (by decide) (by decide) (by decide)
      { s with js := '"' :: (bodyText body ++ '"' :: d :: r) } rfl
    have e3 := i_parse_literal_nope env "null".toList '"' _ (by decide) (by decide) (by decide)
      { s with js := '"' :: (bodyText body ++ '"' :: d :: r) } rfl
    have e4 := i_parse_number_nope env '"' _ (by decide) (by decide) (by decide) (by decide)
      Buf.empty { s with js := '"' :: (bodyText body ++ '"' :: d :: r) } rfl
    obtain ⟨b', s', ⟨N, hrun⟩, ha, hne, hemp⟩ := i_parse_string_ok env hm XJS_string []
      (by simp [isWs]) body hb d r hd0 Buf.empty
      { s with js := '"' :: (bodyText body ++ '"' :: d :: r) } (by simp [strText])
    beta_reduce at hrun
    refine ⟨XJS_string, bodyCstr body, b', s', fun _ => rfl, ?_,
      ⟨ha.1, ha.2.1, ha.2.2.1, ha.2.2.2⟩, N + ws.length + 2, fun fuel hf => ?_⟩
    · by_cases hbe : body = []
      · rw [(hemp hbe).2 rfl]; simp [bodyCstr, hbe, Buf.cstr, Buf.empty]
      · obtain ⟨hp, hdat⟩ := hne hbe
        rw [Buf.cstr_of b' (bodyText body) hp (by simpa [Buf.empty] using hdat)
          (bodyText_ne_NUL body hb)]
        simp [bodyCstr, hbe]
    · show i_parse_value env fuel Buf.empty s = _
      unfold i_parse_value
      rw [e0 fuel (by omega)]
      simp only [ne_eq, not_true_eq_false, if_false]
      rw [e1 fuel (by omega)]
      simp only [ne_eq, not_true_eq_false, if_false, show ¬ (XJS_NOPE = XJS_OK) by decide]
      rw [e2 fuel (by omega)]
      simp only [ne_eq, not_true_eq_false, if_false, show ¬ (XJS_NOPE = XJS_OK) by decide]
      rw [e3 fuel (by omega)]
      simp only [ne_eq, not_true_eq_false, if_false, show ¬ (XJS_NOPE = XJS_OK) by decide]
      rw [e4 fuel (by omega)]
      simp only [ne_eq, not_true_eq_false, if_false, show ¬ (XJS_NOPE = XJS_OK) by decide]
      rw [hrun fuel (by omega)]
      simp

/-- The first character of a string body item or literal text is no white
space; stated for the texts of values below. -/
theorem value_head (v : JValue) (hv : v.wf) (t : List Char) :
    ∃ c rc, v.text ++ t = c :: rc ∧ c ≠ NUL ∧ isspace c = false ∧ c ≠ ']' ∧ c ≠ '\x7d' ∧
      c ≠ ',' ∧ c ≠ '(' ∧ (v.isContainer = false → c ≠ '[' ∧ c ≠ '\x7b') := by
  cases v with
  | num n =>
    obtain ⟨c, rc, hc, hcc⟩ := JNumber.text_head n hv t
    refine ⟨c, rc, hc, ?_⟩
    rcases hcc with rfl | hcd
    · exact ⟨by decide, by decide, by decide, by decide, by decide, by decide, fun _ => by decide⟩
    · refine ⟨(isdigit_facts hcd).1, ?_, ?_, ?_, ?_, ?_, fun _ => ⟨?_, ?_⟩⟩
      · cases h : isspace c with
        | false => rfl
        | true =>
          rw [isspace_iff] at h
          rcases h with rfl | rfl | rfl | rfl | rfl | rfl <;> exact absurd hcd (by decide)
      all_goals (rintro rfl; exact absurd hcd (by decide))
  | str body => exact ⟨'"', _, rfl, by decide, by decide, by decide, by decide, by decide, by decide,
      fun _ => by decide⟩
  | tru => exact ⟨'t', _, rfl, by decide, by decide, by decide, by decide, by decide, by decide,
      fun _ => by decide⟩
  | fls => exact ⟨'f', _, rfl, by decide, by decide, by decide, by decide, by decide, by decide,
      fun _ => by decide⟩
  | nul => exact ⟨'n', _, rfl, by decide, by decide, by decide, by decide, by decide, by decide,
      fun _ => by decide⟩
  | arr ws items =>
    exact ⟨'[', _, rfl, by decide, by decide, by decide, by decide, by decide, by decide,
      fun h => by simp [JValue.isContainer] at h⟩
  | obj ws members =>
    exact ⟨'\x7b', _, rfl, by decide, by decide, by decide, by decide, by decide, by decide,
      fun h => by simp [JValue.isContainer] at h⟩

/-- A well formed scalar at a value position, in front of a delimiter: the
sink is handed one event with the kind and the text of the scalar, its
status is returned, and the cursor stands on the delimiter. -/
theorem r_parse_any_scalar (env : Env) (hm : MemGrants env.mem_cb) (ws : List Char)
    (hws : isWs ws) (v : JValue) (hv : v.wf) (hsc : v.isContainer = false) (d : Char)
    (r : List Char) (hd : isDelim d) (parent : Nat) (name : Option (List Char)) (s : State)
    (hs : s.js = ws ++ (v.text ++ d :: r)) :
    ∃ k val s', v.events name = [(k, name, val)] ∧
      Runs (fun fuel => r_parse_any env fuel false parent name s)
        ((env.node_cb s.events ⟨parent, k, name, val⟩).1, s') ∧
      s'.js = d :: r ∧ s'.events = s.events ++ [⟨parent, k, name, val⟩] ∧ s'.calls = s.calls ∧
      s'.hdrReads = s.hdrReads := by
  obtain ⟨c, rc, hc, hc0, hcs, _, _, _, hcp, hcb⟩ := value_head v hv (d :: r)
  obtain ⟨hcb1, hcb2⟩ := hcb hsc
  have e0 : ∀ fuel, ws.length + 1 ≤ fuel → i_eatwhite env fuel s =
      some (XJS_OK, { s with js := v.text ++ d :: r }) := by
    intro fuel hf
    have := i_eatwhite_skip env ws hws c rc hcs hc0 s (by rw [hs, hc]) fuel hf
    rw [this, hc]
  obtain ⟨k, val, b', s1, hev, hcstr, ha, N, hrun⟩ := i_parse_value_scalar env hm []
    (by simp [isWs]) v hv hsc d r hd { s with js := v.text ++ d :: r } (by simp)
  beta_reduce at hrun
  refine ⟨k, val, mem_free env k b'.ptr { s1 with events := s1.events ++ [⟨parent, k, name, val⟩] },
    hev name, ⟨N + ws.length + 2, fun fuel hf => ?_⟩, ?_, ?_, ?_, ?_⟩
  · obtain ⟨f, rfl⟩ : ∃ f, fuel = f + 1 := ⟨fuel - 1, by omega⟩
    show r_parse_any env (f + 1) false parent name s = _
    rw [r_parse_any, e0 f (by omega)]
    have hpk : peek (v.text ++ d :: r) = c := by rw [hc]; rfl
    simp only [ne_eq, not_true_eq_false, if_false, hpk, hcb1, hcb2, hcp, and_false,
      Bool.false_eq_true, hrun f (by omega), if_true, call_node, hcstr, ha.2.1]
  · simp [mem_free, call_mem, ha.1]
  · simp [mem_free, call_mem, ha.2.1]
  · simp [mem_free, call_mem, ha.2.2.1]
  · simp [mem_free, call_mem, ha.2.2.2]

/-- C6: a number lexeme of the JSON grammar at a value position, in front of
a delimiter, read with an allocator that grants: the sink receives one
event of kind number whose value is the lexeme itself, and the buffer of the
number lexer holds the lexeme followed by a NUL. -/
theorem C6_number_lexeme_verbatim (env : Env) (hm : MemGrants env.mem_cb) (ws : List Char)
    (hws : isWs ws) (n : JNumber) (hn : n.wf) (d : Char) (r : List Char) (hd : isDelim d)
    (parent : Nat) (name : Option (List Char)) (s : State)
    (hs : s.js = ws ++ (n.text ++ d :: r)) :
    (∃ s', Runs (fun fuel => r_parse_any env fuel false parent name s)
        ((env.node_cb s.events ⟨parent, XJS_number, name, some n.text⟩).1, s') ∧
      s'.events = s.events ++ [⟨parent, XJS_number, name, some n.text⟩] ∧ s'.js = d :: r) ∧
    (∃ b' s', Runs (fun fuel => i_parse_number env fuel Buf.empty s) (XJS_OK, b', s') ∧
      b'.data = n.text ++ [NUL]) := by
  constructor
  · obtain ⟨k, val, s', hev, hrun, hjs, hevs, _⟩ :=
      r_parse_any_scalar env hm ws hws (JValue.num n) hn rfl d r hd parent name s hs
    simp only [JValue.events, List.cons.injEq, Prod.mk.injEq, and_true, true_and] at hev
    obtain ⟨rfl, rfl⟩ := hev
    exact ⟨s', hrun, hevs, hjs⟩
  · obtain ⟨b', s', hdat, _, _, hrun⟩ := i_parse_number_ok env hm ws hws n hn d r hd Buf.empty s hs
    exact ⟨b', s', hrun, by simpa [Buf.empty] using hdat⟩

/-- C6 at `-1.5e+10` in front of a closing bracket. -/
theorem C6_number_lexeme_verbatim_witness :
    (∃ s', Runs (fun fuel => r_parse_any envPlain fuel false 0 (some ['1'])
          (State.init "-1.5e+10]".toList 0))
        (XJS_OK, s') ∧
      s'.events = [⟨0, XJS_number, some ['1'], some "-1.5e+10".toList⟩] ∧ s'.js = [']']) ∧
    (∃ b' s', Runs (fun fuel => i_parse_number envPlain fuel Buf.empty
          (State.init "-1.5e+10]".toList 0)) (XJS_OK, b', s') ∧
      b'.data = "-1.5e+10".toList ++ [NUL]) :=
  C6_number_lexeme_verbatim envPlain memGrant_grants [] (by simp [isWs])
    ⟨true, ['1'], some ['5'], some ('e', some '+', ['1', '0'])⟩
    (by
      refine ⟨by simp, by simp; decide, by simp, ?_, ?_⟩
      · intro f hf; simp at hf; subst hf; exact ⟨by simp, by simp; decide⟩
      · intro m sg e h; simp at h; obtain ⟨rfl, rfl, rfl⟩ := h
        exact ⟨Or.inl rfl, by simp, by simp, by simp; decide⟩)
    ']' [] (Or.inr (Or.inr (Or.inl rfl))) 0 (some ['1']) (State.init "-1.5e+10]".toList 0) rfl

/-- Without a refill callback, one step from a character of the buffer
lands on what follows it, with XJS_OK or, at the end of the buffer,
XJS_END. -/
theorem i_advance0_close (env : Env) (hinp : env.inp_cb = none) (s : State) (c : Char)
    (rest : List Char) (hs : s.js = c :: rest) (hc : c ≠ NUL) :
    ∃ r, i_advance0 env s = (r, { s with js := rest }) ∧ (r = XJS_OK ∨ r = XJS_END) := by
  by_cases h : peek rest = NUL
  · exact ⟨XJS_END, by simp [i_advance0, hs, hc, h, hinp], Or.inr rfl⟩
  · exact ⟨XJS_OK, by simp [i_advance0, hs, hc, h], Or.inl rfl⟩

/-- The step over an opening bracket and the white space after it. -/
theorem i_advance_ew_ok (env : Env) (s : State) (c : Char) (ws : List Char) (hws : isWs ws)
    (x : Char) (r : List Char) (hs : s.js = c :: (ws ++ x :: r)) (hc : c ≠ NUL)
    (hx : x ≠ NUL) (hxs : isspace x = false) :
    ∀ fuel, ws.length + 1 ≤ fuel →
      i_advance env fuel true s = some (XJS_OK, { s with js := x :: r }) := by
  intro fuel hf
  obtain ⟨d, r', hdr, hd⟩ := head_ne_NUL ws (fun c hc => isspace_ne_NUL (hws c hc)) x r hx
  have e1 := i_advance0_cons2 env s c d r' (by rw [hs, hdr]) hc hd
  have e2 := i_eatwhite_skip env ws hws x r hxs hx { s with js := d :: r' } (by simp [hdr]) fuel hf
  unfold i_advance
  simp only [e1, ne_eq, not_true_eq_false, if_false, if_true, e2]

theorem Parsed.seq {s s1 s2 : State} {r1 r2 : List Char}
    {e1 e2 : List (XJSType × Option (List Char) × Option (List Char))}
    (h1 : Parsed s s1 r1 e1) (h2 : Parsed s1 s2 r2 e2) : Parsed s s2 r2 (e1 ++ e2) :=
  ⟨h2.1, by rw [h2.2, h1.2, List.append_assoc]⟩

/-- The head of the text that follows a value inside a container is a
delimiter. -/
theorem post_head (post : List Char) (hpost : isWs post) (c : Char) (t : List Char)
    (hc : c = ',' ∨ c = ']' ∨ c = '\x7d') :
    ∃ d r, post ++ c :: t = d :: r ∧ isDelim d := by
  cases post with
  | nil => exact ⟨c, t, rfl, Or.inr hc⟩
  | cons p post' => exact ⟨p, post' ++ c :: t, rfl, Or.inl (hpost p (by simp))⟩

theorem sep_facts {c : Char} (hc : c = ',' ∨ c = ']' ∨ c = '\x7d') :
    c ≠ NUL ∧ isspace c = false := by
  rcases hc with rfl | rfl | rfl <;> decide

/-- A call that, given enough fuel, goes on as another call with one unit
less returns what that call returns. -/
theorem Runs.of_step {α : Type} {F G : Nat → Option α} {x : α}
    (h : ∃ N, ∀ f, N ≤ f → F (f + 1) = G f) (hG : Runs G x) : Runs F x := by
  obtain ⟨N, hN⟩ := h
  obtain ⟨M, hM⟩ := hG
  refine ⟨N + M + 1, fun fuel hf => ?_⟩
  obtain ⟨f, rfl⟩ : ∃ f, fuel = f + 1 := ⟨fuel - 1, by omega⟩
  rw [hN f (by omega), hM f (by omega)]

theorem JItems.items_tail_head (tl : JItems) (c : Char) (t : List Char) (hc : isSep c) :
    ∃ c' t', tl.text false ++ c :: t = c' :: t' ∧ isSep c' := by
  cases tl with
  | nil => exact ⟨c, t, by simp [JItems.text], hc⟩
  | cons pre v post tl' => exact ⟨',', _, by simp [JItems.text]; rfl, Or.inl rfl⟩

theorem JMembers.members_tail_head (tl : JMembers) (c : Char) (t : List Char) (hc : isSep c) :
    ∃ c' t', tl.text false ++ c :: t = c' :: t' ∧ isSep c' := by
  cases tl with
  | nil => exact ⟨c, t, by simp [JMembers.text], hc⟩
  | cons pre n w1 w2 v post tl' => exact ⟨',', _, by simp [JMembers.text]; rfl, Or.inl rfl⟩

theorem value_scalar_ok (env : Env) (he : GoodEnv env) (v : JValue) (hv : v.wf)
    (hsc : v.isContainer = false) : ValueOk env v := by
  intro top ws rest hws hfol parent name s hs
  obtain ⟨rfl, d, r, rfl, hd⟩ := hfol hsc
  obtain ⟨k, val, s', hev, hrun, hjs, hevs, _⟩ :=
    r_parse_any_scalar env he.2.1 ws hws v hv hsc d r hd parent name s hs
  rw [he.2.2] at hrun
  exact ⟨s', hrun, hjs, by rw [hevs, hev]; simp [Event.view]⟩

theorem items_nil_ok (env : Env) (he : GoodEnv env) : ItemsOk env JItems.nil := by
  intro i rest np name s hs
  simp only [JItems.text, List.nil_append] at hs
  obtain ⟨r, e1, hr⟩ := i_advance0_close env he.1 s ']' rest hs (by decide)
  refine ⟨{ s with js := rest, events := s.events ++ [⟨np, XJS_array_end, name, none⟩] },
    ⟨1, fun fuel hf => ?_⟩, rfl, by simp [JItems.events, Event.view]⟩
  obtain ⟨f, rfl⟩ : ∃ f, fuel = f + 1 := ⟨fuel - 1, by omega⟩
  show i_parse_array_loop env (f + 1) false ⟨0, []⟩ XJS_array false 0 i 0 np name s = _
  rw [i_parse_array_loop]
  have hr' : ¬ (r ≠ XJS_OK ∧ r ≠ XJS_END) := by rcases hr with rfl | rfl <;> decide
  have hok : ∀ h e, (env.node_cb h e).1 = XJS_OK := he.2.2
  simp only [hs, peek_cons, ne_eq, not_true_eq_false, if_false, e1, hr', call_node, hok,
    array_end_kind]
  simp

/-- One iteration of the array loop on a well formed element that a comma
or a bracket follows. -/
theorem array_elem_step (env : Env) (pre : List Char) (v : JValue) (post : List Char)
    (hpre : isWs pre) (hv : v.wf) (hpost : isWs post) (ihv : ValueOk env v) (i : Nat) (c : Char)
    (t : List Char) (hc : isSep c) (np : Nat) (name : Option (List Char)) (s : State)
    (hs : s.js = (if i = 0 then [] else ',' :: pre) ++ (v.text ++ (post ++ c :: t))) :
    ∃ s', Parsed s s' (c :: t) (v.events (some (Nat.toDigits 10 (i + 1)))) ∧
      ∃ N, ∀ f, N ≤ f →
        i_parse_array_loop env (f + 1) false ⟨0, []⟩ XJS_array false 0 i 0 np name s =
        i_parse_array_loop env f false ⟨0, []⟩ XJS_array false 0 (i + 1) 0 np name s' := by
  obtain ⟨hc0, hcs⟩ := sep_facts hc
  obtain ⟨d, r, hdr, hd⟩ := post_head post hpost c t hc
  obtain ⟨x, xr, hx, hx0, hxs, hxb, _, hxc, _, _⟩ := value_head v hv (post ++ c :: t)
  -- the state in which the element is dispatched, and the white space in front of it
  have hstep : ∃ (ws : List Char) (s1 : State), isWs ws ∧
      s1.js = ws ++ (v.text ++ (post ++ c :: t)) ∧
      s1.events = s.events ∧ peek s.js ≠ ']' ∧ ¬ (i ≠ 0 ∧ peek s.js ≠ ',') ∧
      (if i ≠ 0 then i_advance0 env s else (XJS_OK, s)) = (XJS_OK, s1) := by
    by_cases hi : i = 0
    · subst hi
      refine ⟨[], s, by simp [isWs], ?_, rfl, ?_, by simp, by simp⟩
      · simpa using hs
      · have : s.js = x :: xr := by rw [← hx, hs]; simp
        rw [this]; exact hxb
    · have hs' : s.js = ',' :: (pre ++ (v.text ++ (post ++ c :: t))) := by
        rw [hs]; simp [hi]
      obtain ⟨y, yr, hy, hy0⟩ := head_ne_NUL pre (fun c hc => isspace_ne_NUL (hpre c hc)) x xr hx0
      refine ⟨pre, { s with js := pre ++ (v.text ++ (post ++ c :: t)) },
        hpre, rfl, rfl, by rw [hs', peek_cons]; decide, by rw [hs']; simp, ?_⟩
      simp only [hi, ne_eq, not_false_eq_true, if_true]
      rw [i_advance0_cons2 env s ',' y yr (by rw [hs', hx, hy]) (by decide) hy0, ← hy, ← hx]
  obtain ⟨ws, s1, hws, hs1, hev1, hpk, hcomma, hadv⟩ := hstep
  obtain ⟨s2, ⟨N2, hrun2⟩, hp2⟩ := ihv false ws (post ++ c :: t) hws
    (fun _ => ⟨rfl, d, r, hdr, hd⟩) np (some (Nat.toDigits 10 (i + 1))) s1 hs1
  beta_reduce at hrun2
  have e3 := i_eatwhite_skip env post hpost c t hcs hc0 s2 hp2.1
  refine ⟨{ s2 with js := c :: t }, ⟨rfl, ?_⟩, N2 + post.length + 1, fun f hf => ?_⟩
  · have := hp2.2
    rw [hev1] at this
    exact this
  · rw [i_parse_array_loop]
    simp only [hpk, if_true, hcomma, if_false, hadv, ne_eq, not_true_eq_false,
      show ¬ (XJS_array = XJS_block_header) by decide, true_or, hrun2 f (by omega),
      e3 f (by omega), Bool.false_eq_true, not_false_eq_true]

theorem items_cons_run (env : Env) (pre : List Char) (v : JValue) (post : List Char)
    (tl : JItems) (hpre : isWs pre) (hv : v.wf) (hpost : isWs post) (ihv : ValueOk env v)
    (ihtl : ItemsRun env tl) : ItemsRun env (JItems.cons pre v post tl) := by
  intro i c t np name s hc hs
  obtain ⟨c', t', hct, hc'⟩ := JItems.items_tail_head tl c t hc
  obtain ⟨s1, hp1, hstep⟩ := array_elem_step env pre v post hpre hv hpost ihv i c' t' hc' np name s
    (by rw [hs, ← hct]; by_cases hi : i = 0 <;> simp [JItems.text, hi])
  obtain ⟨s2, hp2, hk⟩ := ihtl (i + 1) c t np name s1 hc (by rw [hp1.1, ← hct]; simp)
  refine ⟨s2, ?_, fun x hx => ?_⟩
  · have := hp1.seq hp2
    exact ⟨hp2.1, by simpa [JItems.events] using this.2⟩
  · have e : i + (JItems.cons pre v post tl).length = i + 1 + tl.length := by
      simp [JItems.length]; omega
    rw [e] at hx
    exact Runs.of_step hstep (hk x hx)

/-- The elements up to the closing bracket: the loop reads them and ends
the array. -/
theorem items_ok_of_run (env : Env) (he : GoodEnv env) (items : JItems)
    (h : ItemsRun env items) : ItemsOk env items := by
  intro i rest np name s hs
  obtain ⟨s1, hp1, hk⟩ := h i ']' rest np name s (Or.inr (Or.inl rfl)) hs
  obtain ⟨s2, hrun2, hp2⟩ := items_nil_ok env he (i + items.length) rest np name s1
    (by simp [hp1.1, JItems.text])
  refine ⟨s2, hk _ hrun2, ?_⟩
  have := hp1.seq hp2
  simpa [JItems.events] using this

theorem JItems.items_text_head (items : JItems) (hwf : items.wf) (rest : List Char) :
    ∃ x t, items.text true ++ ']' :: rest = x :: t ∧ x ≠ NUL ∧ isspace x = false := by
  cases items with
  | nil => exact ⟨']', rest, by simp [JItems.text], by decide, by decide⟩
  | cons pre v post tl =>
    simp only [JItems.wf] at hwf
    obtain ⟨x, xr, hx, hx0, hxs, _⟩ := value_head v hwf.2.1 (post ++ (tl.text false ++ ']' :: rest))
    exact ⟨x, xr, by simp [JItems.text, ← hx], hx0, hxs⟩

theorem value_arr_ok (env : Env) (he : GoodEnv env) (ws0 : List Char) (items : JItems)
    (hws0 : isWs ws0) (hwf : items.wf) (ih : ItemsOk env items) :
    ValueOk env (JValue.arr ws0 items) := by
  intro top ws rest hws _ parent name s hs
  obtain ⟨x, t, hx, hx0, hxs⟩ := JItems.items_text_head items hwf rest
  have hs' : s.js = ws ++ '[' :: (ws0 ++ x :: t) := by
    rw [hs, ← hx]; simp [JValue.text]
  have e0 := i_eatwhite_skip env ws hws '[' _ (by decide) (by decide) s hs'
  have e1 := i_eatwhite_skip env [] (by simp [isWs]) '[' (ws0 ++ x :: t) (by decide) (by decide)
    { s with js := '[' :: (ws0 ++ x :: t) } rfl
  have e2 := i_advance_ew_ok env
    { s with js := '[' :: (ws0 ++ x :: t), events := s.events ++ [⟨parent, XJS_array, name, none⟩] }
    '[' ws0 hws0 x t rfl (by decide) hx0 hxs
  obtain ⟨s3, ⟨N3, hrun3⟩, hp3⟩ := ih 0 rest
    (env.node_cb s.events ⟨parent, XJS_array, name, none⟩).2 name
    { s with js := x :: t, events := s.events ++ [⟨parent, XJS_array, name, none⟩] }
    (by simp [hx])
  beta_reduce at hrun3
  have hok : ∀ h e, (env.node_cb h e).1 = XJS_OK := he.2.2
  refine ⟨s3, ⟨N3 + ws.length + ws0.length + 3, fun fuel hf => ?_⟩, hp3.1, ?_⟩
  · obtain ⟨f, rfl⟩ : ∃ f, fuel = f + 1 := ⟨fuel - 1, by omega⟩
    obtain ⟨g, rfl⟩ : ∃ g, f = g + 1 := ⟨f - 1, by omega⟩
    show r_parse_any env (g + 1 + 1) top parent name s = _
    rw [r_parse_any, e0 (g + 1) (by omega)]
    simp only [ne_eq, not_true_eq_false, if_false, peek_cons,
      show ¬ (('[' : Char) = '\x7b') by decide, if_true]
    rw [i_parse_array, e1 g (by simp; omega)]
    simp only [ne_eq, not_true_eq_false, if_false, peek_cons, call_node, hok,
      e2 g (by omega)]
    simp only [Option.isSome_none, Bool.false_and, Option.getD_none]
    rw [hrun3 g (by omega)]
  · rw [hp3.2]
    simp [JValue.events, Event.view]

theorem members_nil_ok (env : Env) (he : GoodEnv env) : MembersOk env JMembers.nil := by
  intro i rest np name s hs
  simp only [JMembers.text, List.nil_append] at hs
  obtain ⟨r, e1, hr⟩ := i_advance0_close env he.1 s '\x7d' rest hs (by decide)
  refine ⟨{ s with js := rest, events := s.events ++ [⟨np, XJS_object_end, name, none⟩] },
    ⟨1, fun fuel hf => ?_⟩, rfl, by simp [JMembers.events, Event.view]⟩
  obtain ⟨f, rfl⟩ : ∃ f, fuel = f + 1 := ⟨fuel - 1, by omega⟩
  show i_parse_object_loop env (f + 1) i np name s = _
  rw [i_parse_object_loop]
  have hr' : ¬ (r ≠ XJS_OK ∧ r ≠ XJS_END) := by rcases hr with rfl | rfl <;> decide
  have hok : ∀ h e, (env.node_cb h e).1 = XJS_OK := he.2.2
  simp only [hs, peek_cons, ne_eq, not_true_eq_false, if_false, e1, hr', call_node, hok]

theorem mem_free_js (env : Env) (k : XJSType) (p : Nat) (s : State) :
    (mem_free env k p s).js = s.js ∧ (mem_free env k p s).events = s.events := by
  simp [mem_free, call_mem]

/-- One iteration of the object loop on a well formed member that a comma
or a bracket follows. -/
theorem object_member_step (env : Env) (he : GoodEnv env) (pre : List Char) (nm : List StrItem)
    (ws1 ws2 : List Char) (v : JValue) (post : List Char) (hpre : isWs pre)
    (hnm : ∀ it ∈ nm, it.wf) (hws1 : isWs ws1) (hws2 : isWs ws2) (hv : v.wf) (hpost : isWs post)
    (ihv : ValueOk env v) (i : Nat) (c : Char) (t : List Char) (hc : isSep c) (np : Nat)
    (name : Option (List Char)) (s : State)
    (hs : s.js = (if i = 0 then [] else ',' :: pre) ++
      (strText nm ++ (ws1 ++ (':' :: (ws2 ++ (v.text ++ (post ++ c :: t))))))) :
    ∃ s', Parsed s s' (c :: t) (v.events (bodyCstr nm)) ∧
      ∃ N, ∀ f, N ≤ f →
        i_parse_object_loop env (f + 1) i np name s = i_parse_object_loop env f (i + 1) np name s' := by
  obtain ⟨hc0, hcs⟩ := sep_facts hc
  obtain ⟨d, r, hdr, hd⟩ := post_head post hpost c t hc
  obtain ⟨x, xr, hx, hx0, hxs, _⟩ := value_head v hv (post ++ c :: t)
  -- what follows the name, what follows the colon
  obtain ⟨y, yr, hy, hy0⟩ := head_ne_NUL ws2 (fun c hc => isspace_ne_NUL (hws2 c hc)) x xr hx0
  obtain ⟨z, zr, hz, hz0⟩ := head_ne_NUL ws1 (fun c hc => isspace_ne_NUL (hws1 c hc)) ':'
    (ws2 ++ (v.text ++ (post ++ c :: t))) (by decide)
  have hstep : ∃ (ws : List Char) (s1 : State), isWs ws ∧
      s1.js = ws ++ (strText nm ++ z :: zr) ∧
      s1.events = s.events ∧ peek s.js ≠ '\x7d' ∧ ¬ (i ≠ 0 ∧ peek s.js ≠ ',') ∧
      (if i ≠ 0 then i_advance0 env s else (XJS_OK, s)) = (XJS_OK, s1) := by
    by_cases hi : i = 0
    · subst hi
      refine ⟨[], s, by simp [isWs], ?_, rfl, ?_, by simp, by simp⟩
      · rw [hs, ← hz]; simp
      · rw [hs]; simp [strText]
    · have hs' : s.js = ',' :: (pre ++ (strText nm ++ z :: zr)) := by
        rw [hs, ← hz]; simp [hi]
      obtain ⟨w, wr, hw, hw0⟩ := head_ne_NUL pre (fun c hc => isspace_ne_NUL (hpre c hc)) '"'
        (bodyText nm ++ '"' :: z :: zr) (by decide)
      have hs'' : s.js = ',' :: w :: wr := by rw [hs', ← hw]; simp [strText]
      refine ⟨pre, { s with js := pre ++ (strText nm ++ z :: zr) },
        hpre, rfl, rfl, by rw [hs', peek_cons]; decide, by rw [hs']; simp, ?_⟩
      simp only [hi, ne_eq, not_false_eq_true, if_true]
      rw [i_advance0_cons2 env s ',' w wr hs'' (by decide) hw0, ← hw]
      simp [strText]
  obtain ⟨ws, s1, hws, hs1, hev1, hpk, hcomma, hadv⟩ := hstep
  obtain ⟨nb, s2, ⟨N2, hrun2⟩, ha2, hne, hemp⟩ := i_parse_string_ok env he.2.1 XJS_name ws hws
    nm hnm z zr hz0 Buf.empty s1 hs1
  beta_reduce at hrun2
  have hcstr : nb.cstr = bodyCstr nm := by
    by_cases hbe : nm = []
    · rw [(hemp hbe).2 rfl]; simp [bodyCstr, hbe, Buf.cstr, Buf.empty]
    · obtain ⟨hp, hdat⟩ := hne hbe
      rw [Buf.cstr_of nb (bodyText nm) hp (by simpa [Buf.empty] using hdat)
        (bodyText_ne_NUL nm hnm)]
      simp [bodyCstr, hbe]
  have e3 := i_eatwhite_skip env ws1 hws1 ':' _ (by decide) (by decide) s2 (by rw [ha2.1, hz])
  have e4 := i_advance0_cons2 env
    { s2 with js := ':' :: (ws2 ++ (v.text ++ (post ++ c :: t))) }
    ':' y yr (by simp [hx, hy]) (by decide) hy0
  obtain ⟨s5, ⟨N5, hrun5⟩, hp5⟩ := ihv false ws2 (post ++ c :: t) hws2
    (fun _ => ⟨rfl, d, r, hdr, hd⟩) np nb.cstr { s2 with js := y :: yr }
    (by simp [← hy, ← hx])
  beta_reduce at hrun5
  obtain ⟨s6, hs6, hjs6, hev6⟩ : ∃ s6, (if nb.ptr ≠ 0 then mem_free env XJS_name nb.ptr s5 else s5)
      = s6 ∧ s6.js = s5.js ∧ s6.events = s5.events := by
    by_cases hp : nb.ptr ≠ 0
    · exact ⟨_, rfl, by simp [hp, mem_free_js], by simp [hp, mem_free_js]⟩
    · exact ⟨_, rfl, by simp [hp], by simp [hp]⟩
  have e7 := i_eatwhite_skip env post hpost c t hcs hc0 s6 (by rw [hjs6, hp5.1])
  refine ⟨{ s6 with js := c :: t }, ⟨rfl, ?_⟩,
    N2 + N5 + ws1.length + post.length + 1, fun f hf => ?_⟩
  · have := hp5.2
    simp only [ha2.2.1, hev1, hcstr] at this
    show s6.events.map Event.view = _
    rw [hev6]
    exact this
  · rw [i_parse_object_loop]
    simp only [hpk, if_true, hcomma, if_false, hadv, ne_eq, not_true_eq_false,
      hrun2 f (by omega), e3 f (by omega), peek_cons, e4, hrun5 f (by omega), hs6,
      e7 f (by omega), not_false_eq_true]

theorem members_cons_run (env : Env) (he : GoodEnv env) (pre : List Char) (nm : List StrItem)
    (ws1 ws2 : List Char) (v : JValue) (post : List Char) (tl : JMembers) (hpre : isWs pre)
    (hnm : ∀ it ∈ nm, it.wf) (hws1 : isWs ws1) (hws2 : isWs ws2) (hv : v.wf) (hpost : isWs post)
    (ihv : ValueOk env v) (ihtl : MembersRun env tl) :
    MembersRun env (JMembers.cons pre nm ws1 ws2 v post tl) := by
  intro i c t np name s hc hs
  obtain ⟨c', t', hct, hc'⟩ := JMembers.members_tail_head tl c t hc
  obtain ⟨s1, hp1, hstep⟩ := object_member_step env he pre nm ws1 ws2 v post hpre hnm hws1 hws2
    hv hpost ihv i c' t' hc' np name s
    (by rw [hs, ← hct]; by_cases hi : i = 0 <;> simp [JMembers.text, hi])
  obtain ⟨s2, hp2, hk⟩ := ihtl (i + 1) c t np name s1 hc (by rw [hp1.1, ← hct]; simp)
  refine ⟨s2, ?_, fun x hx => ?_⟩
  · have := hp1.seq hp2
    exact ⟨hp2.1, by simpa [JMembers.events] using this.2⟩
  · have e : i + (JMembers.cons pre nm ws1 ws2 v post tl).length = i + 1 + tl.length := by
      simp [JMembers.length]; omega
    rw [e] at hx
    exact Runs.of_step hstep (hk x hx)

/-- The members up to the closing bracket: the loop reads them and ends the
object. -/
theorem members_ok_of_run (env : Env) (he : GoodEnv env) (members : JMembers)
    (h : MembersRun env members) : MembersOk env members := by
  intro i rest np name s hs
  obtain ⟨s1, hp1, hk⟩ := h i '\x7d' rest np name s (Or.inr (Or.inr rfl)) hs
  obtain ⟨s2, hrun2, hp2⟩ := members_nil_ok env he (i + members.length) rest np name s1
    (by simp [hp1.1, JMembers.text])
  exact ⟨s2, hk _ hrun2, hp1.seq hp2⟩

theorem JMembers.members_text_head (members : JMembers) (rest : List Char) :
    ∃ x t, members.text true ++ '\x7d' :: rest = x :: t ∧ x ≠ NUL ∧ isspace x = false := by
  cases members with
  | nil => exact ⟨'\x7d', rest, by simp [JMembers.text], by decide, by decide⟩
  | cons pre nm ws1 ws2 v post tl =>
    exact ⟨'"', _, by simp [JMembers.text, strText]; rfl, by decide, by decide⟩

theorem value_obj_ok (env : Env) (he : GoodEnv env) (ws0 : List Char) (members : JMembers)
    (hws0 : isWs ws0) (ih : MembersOk env members) :
    ValueOk env (JValue.obj ws0 members) := by
  intro top ws rest hws _ parent name s hs
  obtain ⟨x, t, hx, hx0, hxs⟩ := JMembers.members_text_head members rest
  have hs' : s.js = ws ++ '\x7b' :: (ws0 ++ x :: t) := by
    rw [hs, ← hx]; simp [JValue.text]
  have e0 := i_eatwhite_skip env ws hws '\x7b' _ (by decide) (by decide) s hs'
  have e2 := i_advance_ew_ok env
    { s with js := '\x7b' :: (ws0 ++ x :: t),
             events := s.events ++ [⟨parent, XJS_object, name, none⟩] }
    '\x7b' ws0 hws0 x t rfl (by decide) hx0 hxs
  obtain ⟨s3, ⟨N3, hrun3⟩, hp3⟩ := ih 0 rest
    (env.node_cb s.events ⟨parent, XJS_object, name, none⟩).2 name
    { s with js := x :: t, events := s.events ++ [⟨parent, XJS_object, name, none⟩] }
    (by simp [hx])
  beta_reduce at hrun3
  have hok : ∀ h e, (env.node_cb h e).1 = XJS_OK := he.2.2
  refine ⟨s3, ⟨N3 + ws.length + ws0.length + 3, fun fuel hf => ?_⟩, hp3.1, ?_⟩
  · obtain ⟨f, rfl⟩ : ∃ f, fuel = f + 1 := ⟨fuel - 1, by omega⟩
    obtain ⟨g, rfl⟩ : ∃ g, f = g + 1 := ⟨f - 1, by omega⟩
    show r_parse_any env (g + 1 + 1) top parent name s = _
    rw [r_parse_any, e0 (g + 1) (by omega)]
    simp only [ne_eq, not_true_eq_false, if_false, peek_cons, if_true]
    rw [i_parse_object]
    simp only [ne_eq, not_true_eq_false, if_false, peek_cons, call_node, hok,
      e2 g (by omega)]
    rw [hrun3 g (by omega)]
  · rw [hp3.2]
    simp [JValue.events, Event.view]

theorem items_nil_run (env : Env) : ItemsRun env JItems.nil := by
  intro i c t np name s _ hs
  exact ⟨s, ⟨by simpa [JItems.text] using hs, by simp [JItems.events]⟩, fun x hx => by
    simpa [JItems.length] using hx⟩

theorem members_nil_run (env : Env) : MembersRun env JMembers.nil := by
  intro i c t np name s _ hs
  exact ⟨s, ⟨by simpa [JMembers.text] using hs, by simp [JMembers.events]⟩, fun x hx => by
    simpa [JMembers.length] using hx⟩

mutual

/-- Every well formed value is read to its end by the dispatcher. -/
theorem value_ok (env : Env) (he : GoodEnv env) : ∀ (v : JValue), v.wf → ValueOk env v
  | .num n, h => value_scalar_ok env he (.num n) h rfl
  | .str b, h => value_scalar_ok env he (.str b) h rfl
  | .tru, h => value_scalar_ok env he .tru h rfl
  | .fls, h => value_scalar_ok env he .fls h rfl
  | .nul, h => value_scalar_ok env he .nul h rfl
  | .arr ws items, h => by
    simp only [JValue.wf] at h
    exact value_arr_ok env he ws items h.1 h.2
      (items_ok_of_run env he items (items_run env he items h.2))
  | .obj ws members, h => by
    simp only [JValue.wf] at h
    exact value_obj_ok env he ws members h.1
      (members_ok_of_run env he members (members_run env he members h.2))

/-- Well formed elements are read one after the other by the array loop. -/
theorem items_run (env : Env) (he : GoodEnv env) : ∀ (items : JItems), items.wf → ItemsRun env items
  | .nil, _ => items_nil_run env
  | .cons pre v post tl, h => by
    simp only [JItems.wf] at h
    exact items_cons_run env pre v post tl h.1 h.2.1 h.2.2.1 (value_ok env he v h.2.1)
      (items_run env he tl h.2.2.2)

/-- Well formed members are read one after the other by the object loop. -/
theorem members_run (env : Env) (he : GoodEnv env) :
    ∀ (members : JMembers), members.wf → MembersRun env members
  | .nil, _ => members_nil_run env
  | .cons pre nm ws1 ws2 v post tl, h => by
    simp only [JMembers.wf] at h
    exact members_cons_run env he pre nm ws1 ws2 v post tl h.1 h.2.1 h.2.2.1 h.2.2.2.1
      h.2.2.2.2.1 h.2.2.2.2.2.1 (value_ok env he v h.2.2.2.2.1)
      (members_run env he tl h.2.2.2.2.2.2)

end

/-- Without a refill callback, white space that ends the buffer is skipped
up to the terminator, on which i_eatwhite returns XJS_END. -/
theorem i_eatwhite_to_end (env : Env) (hinp : env.inp_cb = none) :
    ∀ (ws : List Char), isWs ws → ws ≠ [] → ∀ (s : State), s.js = ws →
      ∀ fuel, ws.length ≤ fuel → i_eatwhite env fuel s = some (XJS_END, { s with js := [] })
  | [], _, h, _, _, _, _ => absurd rfl h
  | [w], hws, _, s, hs, fuel, hf => by
    obtain ⟨f, rfl⟩ : ∃ f, fuel = f + 1 := ⟨fuel - 1, by simp at hf; omega⟩
    have hw : isspace w = true := hws w (by simp)
    rw [i_eatwhite]
    simp only [hs, peek_cons, hw, if_true,
      i_advance0_last env s w hinp hs (isspace_ne_NUL hw)]
    simp
  | w :: w2 :: ws, hws, _, s, hs, fuel, hf => by
    obtain ⟨f, rfl⟩ : ∃ f, fuel = f + 1 := ⟨fuel - 1, by simp at hf; omega⟩
    have hw : isspace w = true := hws w (by simp)
    have hw2 : isspace w2 = true := hws w2 (by simp)
    rw [i_eatwhite]
    simp only [hs, peek_cons, hw, if_true,
      i_advance0_cons2 env s w w2 ws hs (isspace_ne_NUL hw) (isspace_ne_NUL hw2)]
    simp only [ne_eq, not_true_eq_false, if_false]
    rw [i_eatwhite_to_end env hinp (w2 :: ws) (fun c hc => hws c (by simp [hc])) (by simp)
      { s with js := w2 :: ws } rfl f (by simp at hf ⊢; omega)]

/-- C1: a well formed JSON text whose top level value is an object or an
array, white space allowed around every token, read from one buffer with a
sink that returns XJS_OK and an allocator that grants: xjs_parse returns
XJS_OK and the sink has received the document order traversal of the
value, each event showing the kind of its node, its name (member name or
ordinal) and its text. -/
theorem C1_wellformed_document (blocks : Bool) (fallback : Option XJSMemCB) (node_cb : XJSNodeCB)
    (mem_cb : XJSMemCB) (hsink : SinkOk node_cb) (hmem : MemGrants mem_cb) (v : JValue)
    (hv : v.wf) (hc : v.isContainer = true) (lead trail : List Char) (hl : isWs lead)
    (ht : isWs trail) :
    ∃ s, Runs (fun fuel => xjs_parse blocks fallback fuel (some (lead ++ (v.text ++ trail)))
          node_cb none (some mem_cb)) (XJS_OK, some [], s) ∧
      s.events.map Event.view = v.events none := by
  have he : GoodEnv ⟨blocks, node_cb, none, mem_cb⟩ := ⟨rfl, hmem, hsink⟩
  obtain ⟨s1, ⟨N1, hrun1⟩, hp1⟩ := value_ok _ he v hv true lead trail hl
    (fun h => by rw [hc] at h; exact absurd h (by decide)) 0 none
    (State.init (lead ++ (v.text ++ trail)) 0) rfl
  beta_reduce at hrun1
  refine ⟨{ s1 with js := [] }, ⟨N1 + trail.length + 1, fun fuel hf => ?_⟩, ?_⟩
  · show xjs_parse blocks fallback fuel (some (lead ++ (v.text ++ trail))) node_cb none
      (some mem_cb) = _
    simp only [xjs_parse, Option.isSome_some, if_true, xjs_parse_from, hrun1 fuel (by omega)]
    cases htr : trail with
    | nil =>
      have : s1.js = [] := by rw [hp1.1, htr]
      simp only [this, peek_nil, ne_eq, not_true_eq_false, if_false, final_status]
      simp [state_js_eq s1 [] this]
    | cons w tr =>
      have hw : isspace w = true := ht w (by simp [htr])
      have hjs : s1.js = w :: tr := by rw [hp1.1, htr]
      have e2 := i_eatwhite_to_end ⟨blocks, node_cb, none, mem_cb⟩ rfl (w :: tr)
        (by rw [← htr]; exact ht) (by simp) s1 hjs fuel (by rw [htr] at hf; simp at hf ⊢; omega)
      simp only [hjs, peek_cons, ne_eq, isspace_ne_NUL hw, not_false_eq_true, if_true]
      rw [e2]
      simp [final_status]
  · have := hp1.2
    simpa [State.init] using this

/-- C1 at the document of the worked example. -/
theorem C1_wellformed_document_witness :
    ∃ s, Runs (fun fuel => xjs_parse false none fuel
          (some "\x7b\"a\":1,\"b\":[true,false,null]\x7d".toList) sinkOk none (some memGrant))
        (XJS_OK, some [], s) ∧
      s.events.map Event.view =
        [(XJS_object, none, none), (XJS_number, some ['a'], some ['1']),
         (XJS_array, some ['b'], none), (XJS_true, some ['1'], none),
         (XJS_false, some ['2'], none), (XJS_null, some ['3'], none),
         (XJS_array_end, some ['b'], none), (XJS_object_end, none, none)] :=
  C1_wellformed_document false none sinkOk memGrant sinkOk_ok memGrant_grants docExample
    (by
      simp only [docExample, JValue.wf, JMembers.wf, JItems.wf, isWs, List.not_mem_nil,
        false_implies, implies_true, true_and, and_true, List.mem_singleton, forall_eq, StrItem.wf]
      refine ⟨by decide, ⟨by simp, by simp; decide, by simp, by simp, by simp⟩, by decide⟩)
    rfl [] [] (by simp [isWs]) (by simp [isWs])

/-- C3: a complete top level object or array followed, after optional white
space, by a character that is not white space: xjs_parse returns
XJS_ERR_MORE_INPUT, although the value itself was read to its end and all
its events were delivered. -/
theorem C3_trailing_input (blocks : Bool) (fallback : Option XJSMemCB) (node_cb : XJSNodeCB)
    (mem_cb : XJSMemCB) (hsink : SinkOk node_cb) (hmem : MemGrants mem_cb) (v : JValue)
    (hv : v.wf) (hc : v.isContainer = true) (lead ws : List Char) (hl : isWs lead)
    (hws : isWs ws) (c : Char) (more : List Char) (hc0 : c ≠ NUL) (hcs : isspace c = false) :
    ∃ s, Runs (fun fuel => xjs_parse blocks fallback fuel
          (some (lead ++ (v.text ++ (ws ++ c :: more)))) node_cb none (some mem_cb))
        (XJS_ERR_MORE_INPUT, some (c :: more), s) ∧
      s.events.map Event.view = v.events none := by
  have he : GoodEnv ⟨blocks, node_cb, none, mem_cb⟩ := ⟨rfl, hmem, hsink⟩
  obtain ⟨s1, ⟨N1, hrun1⟩, hp1⟩ := value_ok _ he v hv true lead (ws ++ c :: more) hl
    (fun h => by rw [hc] at h; exact absurd h (by decide)) 0 none
    (State.init (lead ++ (v.text ++ (ws ++ c :: more))) 0) rfl
  beta_reduce at hrun1
  have e2 := i_eatwhite_skip ⟨blocks, node_cb, none, mem_cb⟩ ws hws c more hcs hc0 s1 hp1.1
  obtain ⟨d, r, hdr, hd⟩ := head_ne_NUL ws (fun c hc => isspace_ne_NUL (hws c hc)) c more hc0
  refine ⟨{ s1 with js := c :: more }, ⟨N1 + ws.length + 1, fun fuel hf => ?_⟩, ?_⟩
  · show xjs_parse blocks fallback fuel (some (lead ++ (v.text ++ (ws ++ c :: more)))) node_cb
      none (some mem_cb) = _
    have hpk : peek s1.js ≠ NUL := by rw [hp1.1, hdr]; exact hd
    simp only [xjs_parse, Option.isSome_some, if_true, xjs_parse_from, hrun1 fuel (by omega),
      hpk, ne_eq, not_false_eq_true, e2 fuel (by omega), peek_cons, final_status, hc0]
    simp
  · have := hp1.2
    simpa [State.init] using this

/-- C3 at `[1] x`. -/
theorem C3_trailing_input_witness :
    ∃ s, Runs (fun fuel => xjs_parse false none fuel (some "[1] x".toList) sinkOk none
          (some memGrant)) (XJS_ERR_MORE_INPUT, some ['x'], s) ∧
      s.events.map Event.view =
        [(XJS_array, none, none), (XJS_number, some ['1'], some ['1']),
         (XJS_array_end, none, none)] :=
  C3_trailing_input false none sinkOk memGrant sinkOk_ok memGrant_grants
    (.arr [] (.cons [] (.num ⟨false, ['1'], none, none⟩) [] .nil))
    (by
      simp only [JValue.wf, JItems.wf, isWs, List.not_mem_nil, false_implies, implies_true,
        true_and, and_true]
      exact ⟨by simp, by simp; decide, by simp, by simp, by simp⟩)
    rfl [] [' '] (by simp [isWs]) (by simp [isWs]; decide) 'x' [] (by decide) (by decide)

/-- Without a refill callback i_eatwhite returns, given fuel for every
character of the buffer. -/
theorem i_eatwhite_total (env : Env) (hinp : env.inp_cb = none) :
    ∀ (js : List Char) (s : State), s.js = js →
      ∃ r s', ∀ fuel, js.length + 1 ≤ fuel → i_eatwhite env fuel s = some (r, s')
  | [], s, hs => ⟨XJS_OK, s, fun fuel hf => by
      obtain ⟨f, rfl⟩ : ∃ f, fuel = f + 1 := ⟨fuel - 1, by simp at hf; omega⟩
      rw [i_eatwhite]; simp only [hs, peek_nil]
      simp [show isspace NUL = false by decide]⟩
  | c :: js, s, hs => by
    by_cases hc : isspace c = true
    · by_cases hok : (i_advance0 env s).1 = XJS_OK
      · have hjs : (i_advance0 env s).2.js = js := by
          have hc0 := isspace_ne_NUL hc
          simp only [i_advance0, hs, peek_cons, hc0, ne_eq, not_false_eq_true, if_true, hinp,
            List.tail_cons]
          split <;> rfl
        obtain ⟨r, s', h⟩ := i_eatwhite_total env hinp js (i_advance0 env s).2 hjs
        refine ⟨r, s', fun fuel hf => ?_⟩
        obtain ⟨f, rfl⟩ : ∃ f, fuel = f + 1 := ⟨fuel - 1, by simp at hf; omega⟩
        rw [i_eatwhite]
        simp only [hs, peek_cons, hc, if_true, hok, ne_eq, not_true_eq_false, if_false]
        exact h f (by simp at hf ⊢; omega)
      · refine ⟨(i_advance0 env s).1, (i_advance0 env s).2, fun fuel hf => ?_⟩
        obtain ⟨f, rfl⟩ : ∃ f, fuel = f + 1 := ⟨fuel - 1, by simp at hf; omega⟩
        rw [i_eatwhite]
        simp only [hs, peek_cons, hc, if_true, hok, ne_eq, not_false_eq_true]
    · refine ⟨XJS_OK, s, fun fuel hf => ?_⟩
      obtain ⟨f, rfl⟩ : ∃ f, fuel = f + 1 := ⟨fuel - 1, by simp at hf; omega⟩
      rw [i_eatwhite]
      simp only [hs, peek_cons, hc, Bool.false_eq_true, if_false]

/-- A failure of the top level value is a failure of xjs_parse. -/
theorem xjs_parse_of_fails (blocks : Bool) (fallback : Option XJSMemCB) (node_cb : XJSNodeCB)
    (mem_cb : XJSMemCB) (X : List Char) (hX : Fails ⟨blocks, node_cb, none, mem_cb⟩ X)
    (lead : List Char) (hl : isWs lead) :
    ∃ r e s, Runs (fun fuel => xjs_parse blocks fallback fuel (some (lead ++ X)) node_cb none
        (some mem_cb)) (r, e, s) ∧ r ≠ XJS_OK := by
  obtain ⟨r, s1, ⟨N1, hrun1⟩, hr1, hr2⟩ := hX.2 true lead hl 0 none (State.init (lead ++ X) 0) rfl
  beta_reduce at hrun1
  obtain ⟨r2, s2, h2⟩ := i_eatwhite_total ⟨blocks, node_cb, none, mem_cb⟩ rfl s1.js s1 rfl
  by_cases hpk : peek s1.js ≠ NUL
  · refine ⟨final_status r (peek s2.js), some s2.js, s2,
      ⟨N1 + s1.js.length + 1, fun fuel hf => ?_⟩, ?_⟩
    · show xjs_parse blocks fallback fuel (some (lead ++ X)) node_cb none (some mem_cb) = _
      simp only [xjs_parse, Option.isSome_some, if_true, xjs_parse_from, hrun1 fuel (by omega),
        hpk, ne_eq, not_false_eq_true, h2 fuel (by omega)]
    · unfold final_status
      by_cases h : peek s2.js ≠ NUL <;> simp [h, hr1, hr2]
  · refine ⟨final_status r (peek s1.js), some s1.js, s1,
      ⟨N1 + 1, fun fuel hf => ?_⟩, ?_⟩
    · show xjs_parse blocks fallback fuel (some (lead ++ X)) node_cb none (some mem_cb) = _
      simp only [xjs_parse, Option.isSome_some, if_true, xjs_parse_from, hrun1 fuel (by omega),
        hpk, if_false]
    · unfold final_status
      simp [hpk, hr1, hr2]

theorem JItems.holeSep_items_eq (items : JItems) (pre : List Char) :
    items.holeSep pre = if items.length = 0 then [] else ',' :: pre := by
  cases items <;> simp [JItems.holeSep, JItems.length]

theorem JMembers.holeSep_members_eq (members : JMembers) (pre : List Char) :
    members.holeSep pre = if members.length = 0 then [] else ',' :: pre := by
  cases members <;> simp [JMembers.holeSep, JMembers.length]

/-- The head of an array loop iteration: the bracket test, the comma test
and the step over the comma. -/
theorem array_loop_comma (env : Env) (pre : List Char) (hpre : isWs pre) (i : Nat)
    (x : Char) (xr : List Char) (hx0 : x ≠ NUL) (hxb : i = 0 → x ≠ ']') (s : State)
    (hs : s.js = (if i = 0 then [] else ',' :: pre) ++ x :: xr) :
    ∃ (ws : List Char) (s1 : State), isWs ws ∧ s1.js = ws ++ x :: xr ∧
      s1.events = s.events ∧ peek s.js ≠ ']' ∧ ¬ (i ≠ 0 ∧ peek s.js ≠ ',') ∧
      (if i ≠ 0 then i_advance0 env s else (XJS_OK, s)) = (XJS_OK, s1) := by
  by_cases hi : i = 0
  · subst hi
    refine ⟨[], s, by simp [isWs], by simpa using hs, rfl, ?_, by simp, by simp⟩
    have : s.js = x :: xr := by simpa using hs
    rw [this]; exact hxb rfl
  · have hs' : s.js = ',' :: (pre ++ x :: xr) := by rw [hs]; simp [hi]
    obtain ⟨y, yr, hy, hy0⟩ := head_ne_NUL pre (fun c hc => isspace_ne_NUL (hpre c hc)) x xr hx0
    refine ⟨pre, { s with js := pre ++ x :: xr }, hpre, rfl, rfl,
      by rw [hs', peek_cons]; decide, by rw [hs']; simp, ?_⟩
    simp only [hi, ne_eq, not_false_eq_true, if_true]
    rw [i_advance0_cons2 env s ',' y yr (by rw [hs', hy]) (by decide) hy0, ← hy]

/-- The head of an object loop iteration. -/
theorem object_loop_comma (env : Env) (pre : List Char) (hpre : isWs pre) (i : Nat)
    (x : Char) (xr : List Char) (hx0 : x ≠ NUL) (hxb : i = 0 → x ≠ '\x7d') (s : State)
    (hs : s.js = (if i = 0 then [] else ',' :: pre) ++ x :: xr) :
    ∃ (ws : List Char) (s1 : State), isWs ws ∧ s1.js = ws ++ x :: xr ∧
      s1.events = s.events ∧ peek s.js ≠ '\x7d' ∧ ¬ (i ≠ 0 ∧ peek s.js ≠ ',') ∧
      (if i ≠ 0 then i_advance0 env s else (XJS_OK, s)) = (XJS_OK, s1) := by
  by_cases hi : i = 0
  · subst hi
    refine ⟨[], s, by simp [isWs], by simpa using hs, rfl, ?_, by simp, by simp⟩
    have : s.js = x :: xr := by simpa using hs
    rw [this]; exact hxb rfl
  · have hs' : s.js = ',' :: (pre ++ x :: xr) := by rw [hs]; simp [hi]
    obtain ⟨y, yr, hy, hy0⟩ := head_ne_NUL pre (fun c hc => isspace_ne_NUL (hpre c hc)) x xr hx0
    refine ⟨pre, { s with js := pre ++ x :: xr }, hpre, rfl, rfl,
      by rw [hs', peek_cons]; decide, by rw [hs']; simp, ?_⟩
    simp only [hi, ne_eq, not_false_eq_true, if_true]
    rw [i_advance0_cons2 env s ',' y yr (by rw [hs', hy]) (by decide) hy0, ← hy]

/-- An array whose loop fails after well formed elements fails. -/
theorem arr_fails_of_loop (env : Env) (he : GoodEnv env) (ws0 : List Char) (items : JItems)
    (pre : List Char) (Y : List Char) (hws0 : isWs ws0) (hwf : items.wf)
    (hY : ∃ y yr, Y = y :: yr ∧ y ≠ NUL ∧ isspace y = false)
    (hloop : ArrLoopFails env items pre Y) : Fails env (arrUpTo ws0 items pre Y) := by
  refine ⟨⟨_, Or.inl rfl⟩, fun top ws hws parent name s hs => ?_⟩
  obtain ⟨y, yr, rfl, hy0, hys⟩ := hY
  -- the first character after the opening bracket and its white space
  have hhead : ∃ x t, items.text true ++ (items.holeSep pre ++ y :: yr) = x :: t ∧ x ≠ NUL ∧
      isspace x = false := by
    cases items with
    | nil => exact ⟨y, yr, by simp [JItems.text, JItems.holeSep], hy0, hys⟩
    | cons p v q tl =>
      simp only [JItems.wf] at hwf
      obtain ⟨x, xr, hx, hx0, hxs, _⟩ := value_head v hwf.2.1
        (q ++ (tl.text false ++ (',' :: pre ++ y :: yr)))
      exact ⟨x, xr, by simp [JItems.text, JItems.holeSep, ← hx], hx0, hxs⟩
  obtain ⟨x, t, hx, hx0, hxs⟩ := hhead
  have hs' : s.js = ws ++ '[' :: (ws0 ++ x :: t) := by rw [hs, ← hx]; rfl
  have e0 := i_eatwhite_skip env ws hws '[' _ (by decide) (by decide) s hs'
  have e1 := i_eatwhite_skip env [] (by simp [isWs]) '[' (ws0 ++ x :: t) (by decide) (by decide)
    { s with js := '[' :: (ws0 ++ x :: t) } rfl
  have e2 := i_advance_ew_ok env
    { s with js := '[' :: (ws0 ++ x :: t), events := s.events ++ [⟨parent, XJS_array, name, none⟩] }
    '[' ws0 hws0 x t rfl (by decide) hx0 hxs
  -- the loop from its first iteration
  have hl : ∃ r H cnt s', Runs (fun fuel => i_parse_array_loop env fuel false ⟨0, []⟩ XJS_array
      false 0 0 0 (env.node_cb s.events ⟨parent, XJS_array, name, none⟩).2 name
      { s with js := x :: t, events := s.events ++ [⟨parent, XJS_array, name, none⟩] })
      (r, H, cnt, s') ∧ r ≠ XJS_OK ∧ r ≠ XJS_END := by
    cases hitems : items with
    | nil =>
      subst hitems
      obtain ⟨r, H, cnt, s', hrun, h1, h2⟩ := hloop
        (env.node_cb s.events ⟨parent, XJS_array, name, none⟩).2 name
        { s with js := x :: t, events := s.events ++ [⟨parent, XJS_array, name, none⟩] }
        (by simp [← hx, JItems.text])
      exact ⟨r, H, cnt, s', by simpa [JItems.length] using hrun, h1, h2⟩
    | cons p v q tl =>
      subst hitems
      obtain ⟨s1, hp1, hk⟩ := items_run env he _ hwf 0 ',' (pre ++ y :: yr)
        (env.node_cb s.events ⟨parent, XJS_array, name, none⟩).2 name
        { s with js := x :: t, events := s.events ++ [⟨parent, XJS_array, name, none⟩] }
        (Or.inl rfl) (by simp [← hx, JItems.holeSep])
      obtain ⟨r, H, cnt, s', hrun, h1, h2⟩ := hloop
        (env.node_cb s.events ⟨parent, XJS_array, name, none⟩).2 name s1
        (by rw [hp1.1]; simp [JItems.holeSep])
      exact ⟨r, H, cnt, s', hk _ (by simpa using hrun), h1, h2⟩
  obtain ⟨r, H, cnt, s', ⟨N3, hrun3⟩, h1, h2⟩ := hl
  beta_reduce at hrun3
  have hok : ∀ h e, (env.node_cb h e).1 = XJS_OK := he.2.2
  refine ⟨r, s', ⟨N3 + ws.length + ws0.length + 3, fun fuel hf => ?_⟩, h1, h2⟩
  obtain ⟨f, rfl⟩ : ∃ f, fuel = f + 1 := ⟨fuel - 1, by omega⟩
  obtain ⟨g, rfl⟩ : ∃ g, f = g + 1 := ⟨f - 1, by omega⟩
  show r_parse_any env (g + 1 + 1) top parent name s = _
  rw [r_parse_any, e0 (g + 1) (by omega)]
  simp only [ne_eq, not_true_eq_false, if_false, peek_cons,
    show ¬ (('[' : Char) = '\x7b') by decide, if_true]
  rw [i_parse_array, e1 g (by simp; omega)]
  simp only [ne_eq, not_true_eq_false, if_false, peek_cons, call_node, hok, e2 g (by omega)]
  simp only [Option.isSome_none, Bool.false_and, Option.getD_none]
  rw [hrun3 g (by omega)]

/-- An object whose loop fails after well formed members fails. -/
theorem obj_fails_of_loop (env : Env) (he : GoodEnv env) (ws0 : List Char) (members : JMembers)
    (pre : List Char) (Y : List Char) (hws0 : isWs ws0) (hwf : members.wf)
    (hY : ∃ y yr, Y = y :: yr ∧ y ≠ NUL ∧ isspace y = false)
    (hloop : ObjLoopFails env members pre Y) :
    Fails env ('\x7b' :: (ws0 ++ (members.text true ++ (members.holeSep pre ++ Y)))) := by
  refine ⟨⟨_, Or.inr rfl⟩, fun top ws hws parent name s hs => ?_⟩
  obtain ⟨y, yr, rfl, hy0, hys⟩ := hY
  have hhead : ∃ x t, members.text true ++ (members.holeSep pre ++ y :: yr) = x :: t ∧ x ≠ NUL ∧
      isspace x = false := by
    cases members with
    | nil => exact ⟨y, yr, by simp [JMembers.text, JMembers.holeSep], hy0, hys⟩
    | cons p nm w1 w2 v q tl =>
      exact ⟨'"', _, by simp [JMembers.text, strText]; rfl, by decide, by decide⟩
  obtain ⟨x, t, hx, hx0, hxs⟩ := hhead
  have hs' : s.js = ws ++ '\x7b' :: (ws0 ++ x :: t) := by rw [hs, ← hx]
  have e0 := i_eatwhite_skip env ws hws '\x7b' _ (by decide) (by decide) s hs'
  have e2 := i_advance_ew_ok env
    { s with js := '\x7b' :: (ws0 ++ x :: t),
             events := s.events ++ [⟨parent, XJS_object, name, none⟩] }
    '\x7b' ws0 hws0 x t rfl (by decide) hx0 hxs
  have hl : ∃ r s', Runs (fun fuel => i_parse_object_loop env fuel 0
      (env.node_cb s.events ⟨parent, XJS_object, name, none⟩).2 name
      { s with js := x :: t, events := s.events ++ [⟨parent, XJS_object, name, none⟩] })
      (r, s') ∧ r ≠ XJS_OK ∧ r ≠ XJS_END := by
    cases hmem : members with
    | nil =>
      subst hmem
      obtain ⟨r, s', hrun, h1, h2⟩ := hloop
        (env.node_cb s.events ⟨parent, XJS_object, name, none⟩).2 name
        { s with js := x :: t, events := s.events ++ [⟨parent, XJS_object, name, none⟩] }
        (by simp [← hx, JMembers.text])
      exact ⟨r, s', by simpa [JMembers.length] using hrun, h1, h2⟩
    | cons p nm w1 w2 v q tl =>
      subst hmem
      obtain ⟨s1, hp1, hk⟩ := members_run env he _ hwf 0 ',' (pre ++ y :: yr)
        (env.node_cb s.events ⟨parent, XJS_object, name, none⟩).2 name
        { s with js := x :: t, events := s.events ++ [⟨parent, XJS_object, name, none⟩] }
        (Or.inl rfl) (by simp [← hx, JMembers.holeSep])
      obtain ⟨r, s', hrun, h1, h2⟩ := hloop
        (env.node_cb s.events ⟨parent, XJS_object, name, none⟩).2 name s1
        (by rw [hp1.1]; simp [JMembers.holeSep])
      exact ⟨r, s', hk _ (by simpa using hrun), h1, h2⟩
  obtain ⟨r, s', ⟨N3, hrun3⟩, h1, h2⟩ := hl
  beta_reduce at hrun3
  have hok : ∀ h e, (env.node_cb h e).1 = XJS_OK := he.2.2
  refine ⟨r, s', ⟨N3 + ws.length + ws0.length + 3, fun fuel hf => ?_⟩, h1, h2⟩
  obtain ⟨f, rfl⟩ : ∃ f, fuel = f + 1 := ⟨fuel - 1, by omega⟩
  obtain ⟨g, rfl⟩ : ∃ g, f = g + 1 := ⟨f - 1, by omega⟩
  show r_parse_any env (g + 1 + 1) top parent name s = _
  rw [r_parse_any, e0 (g + 1) (by omega)]
  simp only [ne_eq, not_true_eq_false, if_false, peek_cons, if_true]
  rw [i_parse_object]
  simp only [ne_eq, not_true_eq_false, if_false, peek_cons, call_node, hok, e2 g (by omega)]
  rw [hrun3 g (by omega)]

/-- The string lexer is not applicable on a character that is no quote. -/
theorem i_parse_string_nope (env : Env) (context : XJSType) (ws : List Char) (hws : isWs ws)
    (c : Char) (r : List Char) (hc0 : c ≠ NUL) (hcs : isspace c = false) (hcq : c ≠ '"')
    (b : Buf) (s : State) (hs : s.js = ws ++ c :: r) :
    ∀ fuel, ws.length + 1 ≤ fuel →
      i_parse_string env fuel context b s = some (XJS_NOPE, b, { s with js := c :: r }) := by
  intro fuel hf
  have e1 := i_eatwhite_skip env ws hws c r hcs hc0 s hs fuel hf
  unfold i_parse_string
  rw [e1]
  simp only [ne_eq, not_true_eq_false, if_false, peek_cons, hcq, not_false_eq_true, if_true]

/-- At a value position a comma or a closing bracket matches no kind: the
dispatcher returns XJS_NOPE and no event is emitted. -/
theorem r_parse_any_nope (env : Env) (ws : List Char) (hws : isWs ws) (c : Char)
    (r : List Char) (hc : isSep c) (parent : Nat) (name : Option (List Char)) (s : State)
    (hs : s.js = ws ++ c :: r) :
    ∃ s', Runs (fun fuel => r_parse_any env fuel false parent name s) (XJS_NOPE, s') ∧
      s'.js = c :: r ∧ s'.events = s.events := by
  have hcf : c ≠ NUL ∧ isspace c = false ∧ c ≠ 't' ∧ c ≠ 'f' ∧ c ≠ 'n' ∧ c ≠ '-' ∧
      isdigit c = false ∧ c ≠ '"' ∧ c ≠ '\x7b' ∧ c ≠ '[' ∧ c ≠ '(' := by
    rcases hc with rfl | rfl | rfl <;> decide
  obtain ⟨h0, hsp, ht, hf, hn, hm, hd, hq, hb1, hb2, hb3⟩ := hcf
  have e0 := i_eatwhite_skip env ws hws c r hsp h0 s hs
  have e0' := i_eatwhite_skip env [] (by simp [isWs]) c r hsp h0 { s with js := c :: r } rfl
  have e1 := i_parse_literal_nope env "true".toList c r h0 hsp ht { s with js := c :: r } rfl
  have e2 := i_parse_literal_nope env "false".toList c r h0 hsp hf { s with js := c :: r } rfl
  have e3 := i_parse_literal_nope env "null".toList c r h0 hsp hn { s with js := c :: r } rfl
  have e4 := i_parse_number_nope env c r h0 hsp hm hd Buf.empty { s with js := c :: r } rfl
  have e5 := i_parse_string_nope env XJS_string [] (by simp [isWs]) c r h0 hsp hq Buf.empty
    { s with js := c :: r } rfl
  refine ⟨mem_free env XJS_unknown 0 { s with js := c :: r }, ⟨ws.length + 3, fun fuel hf' => ?_⟩,
    by simp [mem_free, call_mem], by simp [mem_free, call_mem]⟩
  obtain ⟨f, rfl⟩ : ∃ f, fuel = f + 1 := ⟨fuel - 1, by omega⟩
  show r_parse_any env (f + 1) false parent name s = _
  rw [r_parse_any, e0 f (by omega)]
  simp only [ne_eq, not_true_eq_false, if_false, peek_cons, hb1, hb2, hb3, and_false,
    Bool.false_eq_true]
  unfold i_parse_value
  rw [e0' f (by simp; omega)]
  simp only [ne_eq, not_true_eq_false, if_false]
  rw [e1 f (by omega)]
  simp only [ne_eq, not_true_eq_false, if_false, show ¬ (XJS_NOPE = XJS_OK) by decide]
  rw [e2 f (by omega)]
  simp only [ne_eq, not_true_eq_false, if_false, show ¬ (XJS_NOPE = XJS_OK) by decide]
  rw [e3 f (by omega)]
  simp only [ne_eq, not_true_eq_false, if_false, show ¬ (XJS_NOPE = XJS_OK) by decide]
  rw [e4 f (by omega)]
  simp only [ne_eq, not_true_eq_false, if_false, show ¬ (XJS_NOPE = XJS_OK) by decide]
  rw [e5 f (by simp; omega)]
  simp [Buf.empty]

/-- The array loop fails when the dispatcher fails on the element that
follows the elements read so far. -/
theorem arr_loop_fails_of_dispatch (env : Env) (items : JItems) (pre : List Char)
    (hpre : isWs pre) (x : Char) (xr : List Char) (hx0 : x ≠ NUL)
    (hxb : items.length = 0 → x ≠ ']')
    (hdisp : ∀ (ws : List Char) (np : Nat) (nm : Option (List Char)) (s : State), isWs ws →
      s.js = ws ++ x :: xr →
      ∃ r s', Runs (fun fuel => r_parse_any env fuel false np nm s) (r, s') ∧ r ≠ XJS_OK ∧
        r ≠ XJS_END) :
    ArrLoopFails env items pre (x :: xr) := by
  intro np name s hs
  rw [JItems.holeSep_items_eq] at hs
  obtain ⟨ws, s1, hws, hs1, _, hpk, hcomma, hadv⟩ :=
    array_loop_comma env pre hpre items.length x xr hx0 hxb s hs
  obtain ⟨r, s2, ⟨N, hrun⟩, h1, h2⟩ := hdisp ws np (some (Nat.toDigits 10 (items.length + 1))) s1
    hws hs1
  beta_reduce at hrun
  refine ⟨i_noend r, ⟨0, []⟩, 0, s2, ⟨N + 1, fun fuel hf => ?_⟩, ?_, ?_⟩
  · obtain ⟨f, rfl⟩ : ∃ f, fuel = f + 1 := ⟨fuel - 1, by omega⟩
    show i_parse_array_loop env (f + 1) false ⟨0, []⟩ XJS_array false 0 items.length 0 np name s = _
    rw [i_parse_array_loop]
    simp only [hpk, if_true, hcomma, if_false, hadv, ne_eq, not_true_eq_false,
      show ¬ (XJS_array = XJS_block_header) by decide, true_or, hrun f (by omega), h1,
      not_false_eq_true]
  · simp [i_noend, h1, h2]
  · simp only [i_noend, h2, if_false]; exact h2

/-- The object loop fails when the dispatcher fails on the value of the
member that follows the members read so far. -/
theorem obj_loop_fails_of_dispatch (env : Env) (he : GoodEnv env) (members : JMembers)
    (pre : List Char) (hpre : isWs pre) (nm : List StrItem) (hnm : ∀ it ∈ nm, it.wf)
    (ws1 ws2 : List Char) (hws1 : isWs ws1) (hws2 : isWs ws2) (x : Char) (xr : List Char)
    (hx0 : x ≠ NUL)
    (hdisp : ∀ (ws : List Char) (np : Nat) (nm : Option (List Char)) (s : State), isWs ws →
      s.js = ws ++ x :: xr →
      ∃ r s', Runs (fun fuel => r_parse_any env fuel false np nm s) (r, s') ∧ r ≠ XJS_OK ∧
        r ≠ XJS_END) :
    ObjLoopFails env members pre (strText nm ++ (ws1 ++ (':' :: (ws2 ++ x :: xr)))) := by
  intro np name s hs
  rw [JMembers.holeSep_members_eq] at hs
  have hs0 : s.js = (if members.length = 0 then [] else ',' :: pre) ++
      '"' :: (bodyText nm ++ '"' :: (ws1 ++ (':' :: (ws2 ++ x :: xr)))) := by
    rw [hs]; simp [strText]
  obtain ⟨ws, s1, hws, hs1, _, hpk, hcomma, hadv⟩ :=
    object_loop_comma env pre hpre members.length '"' _ (by decide) (fun _ => by decide) s hs0
  obtain ⟨y, yr, hy, hy0⟩ := head_ne_NUL ws2 (fun c hc => isspace_ne_NUL (hws2 c hc)) x xr hx0
  obtain ⟨z, zr, hz, hz0⟩ := head_ne_NUL ws1 (fun c hc => isspace_ne_NUL (hws1 c hc)) ':'
    (ws2 ++ x :: xr) (by decide)
  obtain ⟨nb, s2, ⟨N2, hrun2⟩, ha2, _, _⟩ := i_parse_string_ok env he.2.1 XJS_name ws hws
    nm hnm z zr hz0 Buf.empty s1 (by rw [hs1, ← hz]; simp [strText])
  beta_reduce at hrun2
  have e3 := i_eatwhite_skip env ws1 hws1 ':' _ (by decide) (by decide) s2 (by rw [ha2.1, hz])
  have e4 := i_advance0_cons2 env { s2 with js := ':' :: (ws2 ++ x :: xr) }
    ':' y yr (by simp [hy]) (by decide) hy0
  obtain ⟨r, s5, ⟨N5, hrun5⟩, h1, h2⟩ := hdisp ws2 np nb.cstr { s2 with js := y :: yr } hws2
    (by simp [hy])
  beta_reduce at hrun5
  refine ⟨i_noend r, if nb.ptr ≠ 0 then mem_free env XJS_name nb.ptr s5 else s5,
    ⟨N2 + N5 + ws1.length + 2, fun fuel hf => ?_⟩, ?_, ?_⟩
  · obtain ⟨f, rfl⟩ : ∃ f, fuel = f + 1 := ⟨fuel - 1, by omega⟩
    show i_parse_object_loop env (f + 1) members.length np name s = _
    rw [i_parse_object_loop]
    simp only [hpk, if_true, hcomma, if_false, hadv, ne_eq, not_true_eq_false,
      hrun2 f (by omega), e3 f (by omega), peek_cons, e4, hrun5 f (by omega), h1,
      not_false_eq_true]
  · simp [i_noend, h1, h2]
  · simp only [i_noend, h2, if_false]; exact h2

/-- A text that starts with an opening bracket starts with a character the
loops can step onto. -/
theorem Fails.head {env : Env} {X : List Char} (h : Fails env X) :
    ∃ x xr, X = x :: xr ∧ x ≠ NUL ∧ isspace x = false ∧ x ≠ ']' ∧ x ≠ '\x7d' := by
  obtain ⟨⟨xr, h | h⟩, _⟩ := h
  · exact ⟨'[', xr, h, by decide, by decide, by decide, by decide⟩
  · exact ⟨'\x7b', xr, h, by decide, by decide, by decide, by decide⟩

/-- Failure of a nested container is failure of every container around
it. -/
theorem nested_fails (env : Env) (he : GoodEnv env) (B : List Char → Prop)
    (hB : ∀ X, B X → Fails env X) : ∀ X, Nested B X → Fails env X := by
  intro X hX
  induction hX with
  | base X h => exact hB X h
  | arr ws0 items pre X hws0 hwf hpre _ ih =>
    obtain ⟨x, xr, rfl, hx0, hxs, hxb, _⟩ := ih.head
    exact arr_fails_of_loop env he ws0 items pre (x :: xr) hws0 hwf ⟨x, xr, rfl, hx0, hxs⟩
      (arr_loop_fails_of_dispatch env items pre hpre x xr hx0 (fun _ => hxb)
        (fun ws np nm s hws hs => ih.2 false ws hws np nm s hs))
  | obj ws0 members pre name ws1 ws2 X hws0 hwf hpre hname hws1 hws2 _ ih =>
    obtain ⟨x, xr, rfl, hx0, hxs, _, _⟩ := ih.head
    exact obj_fails_of_loop env he ws0 members pre _ hws0 hwf
      ⟨'"', _, by simp [strText]; rfl, by decide, by decide⟩
      (obj_loop_fails_of_dispatch env he members pre hpre name hname ws1 ws2 hws1 hws2 x xr hx0
        (fun ws np nm s hws hs => ih.2 false ws hws np nm s hs))

/-- The object loop fails when no member name follows the members read so
far. -/
theorem obj_loop_fails_of_no_name (env : Env) (members : JMembers) (pre : List Char)
    (hpre : isWs pre) (x : Char) (xr : List Char) (hx0 : x ≠ NUL) (hxs : isspace x = false)
    (hxq : x ≠ '"') (hxb : members.length = 0 → x ≠ '\x7d') :
    ObjLoopFails env members pre (x :: xr) := by
  intro np name s hs
  rw [JMembers.holeSep_members_eq] at hs
  obtain ⟨ws, s1, hws, hs1, _, hpk, hcomma, hadv⟩ :=
    object_loop_comma env pre hpre members.length x xr hx0 hxb s hs
  have e1 := i_parse_string_nope env XJS_name ws hws x xr hx0 hxs hxq Buf.empty s1 hs1
  refine ⟨XJS_NOPE, { s1 with js := x :: xr }, ⟨ws.length + 2, fun fuel hf => ?_⟩,
    by decide, by decide⟩
  obtain ⟨f, rfl⟩ : ∃ f, fuel = f + 1 := ⟨fuel - 1, by omega⟩
  show i_parse_object_loop env (f + 1) members.length np name s = _
  rw [i_parse_object_loop]
  simp only [hpk, if_true, hcomma, if_false, hadv, ne_eq, not_true_eq_false,
    e1 f (by omega), not_false_eq_true, show ¬ (XJS_NOPE = XJS_OK) by decide]
  simp [Buf.empty, i_noend]

/-- A container with a trailing comma fails. -/
theorem trailing_comma_fails (env : Env) (he : GoodEnv env) (X : List Char)
    (hX : TrailingComma X) : Fails env X := by
  have hnope : ∀ (c : Char) (r : List Char), isSep c → ∀ (ws : List Char) (np : Nat)
      (nm : Option (List Char)) (s : State), isWs ws → s.js = ws ++ c :: r →
      ∃ r' s', Runs (fun fuel => r_parse_any env fuel false np nm s) (r', s') ∧ r' ≠ XJS_OK ∧
        r' ≠ XJS_END := by
    intro c r hc ws np nm s hws hs
    obtain ⟨s', hrun, _⟩ := r_parse_any_nope env ws hws c r hc np nm s hs
    exact ⟨XJS_NOPE, s', hrun, by decide, by decide⟩
  rcases hX with ⟨ws0, items, ws, rest, hws0, hwf, hws, rfl⟩ | ⟨ws0, members, ws, rest, hws0, hwf, hws, rfl⟩
  · cases hitems : items with
    | nil =>
      subst hitems
      have := arr_fails_of_loop env he ws0 .nil [] (',' :: (ws ++ ']' :: rest)) hws0 hwf
        ⟨',', _, rfl, by decide, by decide⟩
        (arr_loop_fails_of_dispatch env .nil [] (by simp [isWs]) ',' _ (by decide)
          (fun _ => by decide) (hnope ',' _ (Or.inl rfl)))
      simpa [arrUpTo, JItems.holeSep] using this
    | cons p v q tl =>
      subst hitems
      have := arr_fails_of_loop env he ws0 (.cons p v q tl) ws (']' :: rest) hws0 hwf
        ⟨']', _, rfl, by decide, by decide⟩
        (arr_loop_fails_of_dispatch env (.cons p v q tl) ws hws ']' _ (by decide)
          (fun h => by simp [JItems.length] at h) (hnope ']' _ (Or.inr (Or.inl rfl))))
      simpa [arrUpTo, JItems.holeSep] using this
  · cases hmem : members with
    | nil =>
      subst hmem
      have := obj_fails_of_loop env he ws0 .nil [] (',' :: (ws ++ '\x7d' :: rest)) hws0 hwf
        ⟨',', _, rfl, by decide, by decide⟩
        (obj_loop_fails_of_no_name env .nil [] (by simp [isWs]) ',' _ (by decide) (by decide)
          (by decide) (fun _ => by decide))
      simpa [JMembers.holeSep] using this
    | cons p nm w1 w2 v q tl =>
      subst hmem
      have := obj_fails_of_loop env he ws0 (.cons p nm w1 w2 v q tl) ws ('\x7d' :: rest) hws0 hwf
        ⟨'\x7d', _, rfl, by decide, by decide⟩
        (obj_loop_fails_of_no_name env (.cons p nm w1 w2 v q tl) ws hws '\x7d' _ (by decide)
          (by decide) (by decide) (fun h => by simp [JMembers.length] at h))
      simpa [JMembers.holeSep] using this

/-- C7, as amended: an input whose top level value is an array or an object
in which, at any depth, a comma is followed after optional white space by
the closing bracket (the elements and members in front being well formed),
read from one buffer with a sink that returns XJS_OK and an allocator that
grants: xjs_parse returns, and what it returns is not XJS_OK. -/
theorem C7_trailing_comma_rejected (blocks : Bool) (fallback : Option XJSMemCB)
    (node_cb : XJSNodeCB) (mem_cb : XJSMemCB) (hsink : SinkOk node_cb) (hmem : MemGrants mem_cb)
    (X : List Char) (hX : Nested TrailingComma X) (lead : List Char) (hl : isWs lead) :
    ∃ r e s, Runs (fun fuel => xjs_parse blocks fallback fuel (some (lead ++ X)) node_cb none
        (some mem_cb)) (r, e, s) ∧ r ≠ XJS_OK :=
  xjs_parse_of_fails blocks fallback node_cb mem_cb X
    (nested_fails _ ⟨rfl, hmem, hsink⟩ TrailingComma
      (fun Y hY => trailing_comma_fails _ ⟨rfl, hmem, hsink⟩ Y hY) X hX) lead hl

/-- C7 at `[1,]`. -/
theorem C7_trailing_comma_rejected_witness :
    ∃ r e s, Runs (fun fuel => xjs_parse false none fuel (some "[1,]".toList) sinkOk none
        (some memGrant)) (r, e, s) ∧ r ≠ XJS_OK :=
  C7_trailing_comma_rejected false none sinkOk memGrant sinkOk_ok memGrant_grants "[1,]".toList
    (Nested.base _ (show TrailingComma _ from
      Or.inl ⟨[], .cons [] (.num ⟨false, ['1'], none, none⟩) [] .nil, [], [],
      by simp [isWs], by
        simp only [JItems.wf, JValue.wf, isWs, List.not_mem_nil, false_implies, implies_true,
          true_and, and_true]
        exact ⟨by simp, by simp; decide, by simp, by simp, by simp⟩,
      by simp [isWs], rfl⟩))
    [] (by simp [isWs])

/-- C7 as stated fails at `[1,]` and at the object with the member a and a
trailing comma: xjs_parse returns XJS_ERR_MORE_INPUT, which is neither
XJS_ERR_EXP_COMMA nor XJS_ERR_EXP_DIGIT. -/
theorem C7_status_is_more_input :
    (xjs_parse false none 20 (some "[1,]".toList) sinkOk none (some memGrant)).map (fun x => x.1)
        = some XJS_ERR_MORE_INPUT ∧
      (xjs_parse false none 20 (some "\x7b\"a\":1,\x7d".toList) sinkOk none
        (some memGrant)).map (fun x => x.1) = some XJS_ERR_MORE_INPUT ∧
      XJS_ERR_MORE_INPUT ≠ XJS_ERR_EXP_COMMA ∧ XJS_ERR_MORE_INPUT ≠ XJS_ERR_EXP_DIGIT := by
  decide!

/-- On `0` followed by a digit the number lexer stops after the zero. -/
theorem i_parse_number_zero (env : Env) (hm : MemGrants env.mem_cb) (neg : Bool) (d : Char)
    (more : List Char) (hd : isdigit d = true) (s : State) (hs : s.js = zeroText neg d more) :
    ∃ b' s', (∀ fuel, 1 ≤ fuel → i_parse_number env fuel Buf.empty s = some (XJS_OK, b', s')) ∧
      Adv s s' (d :: more) := by
  have hd0 := (isdigit_facts hd).1
  have hdn : d ≠ '.' ∧ d ≠ 'e' ∧ d ≠ 'E' := by
    refine ⟨?_, ?_, ?_⟩ <;> (rintro rfl; exact absurd hd (by decide))
  have htail : ∀ (b1 : Buf) (s1 : State), s1.js = '0' :: d :: more →
      ∃ b' s', Adv s1 s' (d :: more) ∧ ∀ fuel,
        (match (if peek s1.js = '0' then some (i_assign env XJS_number b1 s1)
               else if !isdigit (peek s1.js) then some (XJS_ERR_EXP_DIGIT, b1, s1)
               else i_parse_number_digits env fuel b1 s1) with
        | none => none
        | some (r3, b3, s3) =>
          if r3 ≠ XJS_OK then some (r3, b3, s3) else i_parse_number_frac env fuel b3 s3)
        = some (XJS_OK, b', s') := by
    intro b1 s1 hs1
    obtain ⟨b2, s2, e2, _, hp2, ha2⟩ := i_assign_ok env hm XJS_number b1 s1 '0' d more hs1
      (by decide) (by decide) hd0
    refine ⟨{ b2 with data := b2.data ++ [NUL] },
      { s2 with writes := s2.writes ++ [(b2.used, b2.mxsz)] },
      ⟨ha2.1, ha2.2.1, ha2.2.2.1, ha2.2.2.2⟩, fun fuel => ?_⟩
    simp only [hs1, peek_cons, if_true, e2, ne_eq, not_true_eq_false, if_false,
      i_parse_number_frac, i_parse_number_exp, ha2.1, hdn.1, hdn.2.1, hdn.2.2, or_self,
      terminate_of_ptr b2 s2 hp2]
  cases neg with
  | false =>
    simp only [zeroText, Bool.false_eq_true, if_false, List.nil_append] at hs
    have e1 := i_eatwhite_skip env [] (by simp [isWs]) '0' (d :: more) (by decide) (by decide) s hs
    obtain ⟨b', s', ha, hrun⟩ := htail Buf.empty { s with js := '0' :: d :: more } rfl
    refine ⟨b', s', fun fuel hf => ?_, ⟨ha.1, ha.2.1, ha.2.2.1, ha.2.2.2⟩⟩
    unfold i_parse_number
    rw [e1 fuel (by simpa using hf)]
    simp only [ne_eq, not_true_eq_false, if_false, peek_cons, show ¬ (('0' : Char) = '-') by decide,
      show isdigit '0' = true by decide, Bool.not_true, Bool.false_eq_true]
    have := hrun fuel
    simp only [peek_cons, if_true] at this ⊢
    exact this
  | true =>
    simp only [zeroText, if_true, List.singleton_append] at hs
    have e1 := i_eatwhite_skip env [] (by simp [isWs]) '-' ('0' :: d :: more) (by decide)
      (by decide) s hs
    obtain ⟨b1, s1, ea, _, _, ha1⟩ := i_assign_ok env hm XJS_number Buf.empty
      { s with js := '-' :: '0' :: d :: more } '-' '0' (d :: more) rfl (by decide) (by decide)
      (by decide)
    obtain ⟨b', s', ha, hrun⟩ := htail b1 s1 ha1.1
    refine ⟨b', s', fun fuel hf => ?_,
      ⟨ha.1, ha.2.1.trans ha1.2.1, ha.2.2.1.trans ha1.2.2.1, ha.2.2.2.trans ha1.2.2.2⟩⟩
    unfold i_parse_number
    rw [e1 fuel (by simpa using hf)]
    simp only [ne_eq, not_true_eq_false, if_false, peek_cons, if_true, ea, ha1.1,
      show isdigit '0' = true by decide, Bool.not_true, Bool.false_eq_true]
    have := hrun fuel
    simp only [ha1.1, peek_cons, if_true] at this ⊢
    exact this

/-- At a value position `0` followed by a digit is read as the number
zero: the dispatcher returns XJS_OK with the cursor on the digit. -/
theorem r_parse_any_zero (env : Env) (he : GoodEnv env) (ws : List Char) (hws : isWs ws)
    (neg : Bool) (d : Char) (more : List Char) (hd : isdigit d = true) (parent : Nat)
    (name : Option (List Char)) (s : State) (hs : s.js = ws ++ zeroText neg d more) :
    ∃ s', Runs (fun fuel => r_parse_any env fuel false parent name s) (XJS_OK, s') ∧
      s'.js = d :: more := by
  obtain ⟨c, rc, hc, hcf⟩ : ∃ c rc, zeroText neg d more = c :: rc ∧
      (c ≠ NUL ∧ isspace c = false ∧ c ≠ 't' ∧ c ≠ 'f' ∧ c ≠ 'n' ∧ c ≠ '\x7b' ∧ c ≠ '[' ∧
        c ≠ '(') := by
    cases neg
    · exact ⟨'0', _, rfl, by decide⟩
    · exact ⟨'-', _, rfl, by decide⟩
  obtain ⟨h0, hsp, ht, hf, hn, hb1, hb2, hb3⟩ := hcf
  have e0 := i_eatwhite_skip env ws hws c rc hsp h0 s (by rw [hs, hc])
  have e0' := i_eatwhite_skip env [] (by simp [isWs]) c rc hsp h0 { s with js := c :: rc } rfl
  have e1 := i_parse_literal_nope env "true".toList c rc h0 hsp ht { s with js := c :: rc } rfl
  have e2 := i_parse_literal_nope env "false".toList c rc h0 hsp hf { s with js := c :: rc } rfl
  have e3 := i_parse_literal_nope env "null".toList c rc h0 hsp hn { s with js := c :: rc } rfl
  obtain ⟨b', s1, e4, ha⟩ := i_parse_number_zero env he.2.1 neg d more hd { s with js := c :: rc }
    (by simp [hc])
  have hok : ∀ h e, (env.node_cb h e).1 = XJS_OK := he.2.2
  refine ⟨mem_free env XJS_number b'.ptr
      { s1 with events := s1.events ++ [⟨parent, XJS_number, name, b'.cstr⟩] },
    ⟨ws.length + 3, fun fuel hf' => ?_⟩, by simp [mem_free, call_mem, ha.1]⟩
  obtain ⟨f, rfl⟩ : ∃ f, fuel = f + 1 := ⟨fuel - 1, by omega⟩
  show r_parse_any env (f + 1) false parent name s = _
  rw [r_parse_any, e0 f (by omega)]
  simp only [ne_eq, not_true_eq_false, if_false, peek_cons, hb1, hb2, hb3, and_false,
    Bool.false_eq_true]
  unfold i_parse_value
  rw [e0' f (by simp; omega)]
  simp only [ne_eq, not_true_eq_false, if_false]
  rw [e1 f (by omega)]
  simp only [ne_eq, not_true_eq_false, if_false, show ¬ (XJS_NOPE = XJS_OK) by decide]
  rw [e2 f (by omega)]
  simp only [ne_eq, not_true_eq_false, if_false, show ¬ (XJS_NOPE = XJS_OK) by decide]
  rw [e3 f (by omega)]
  simp only [ne_eq, not_true_eq_false, if_false, show ¬ (XJS_NOPE = XJS_OK) by decide]
  rw [e4 f (by omega)]
  simp only [if_true, call_node, hok]

theorem zeroText_head (neg : Bool) (d : Char) (more : List Char) :
    ∃ x xr, zeroText neg d more = x :: xr ∧ x ≠ NUL ∧ isspace x = false ∧ x ≠ ']' ∧
      x ≠ '\x7d' := by
  cases neg
  · exact ⟨'0', _, rfl, by decide⟩
  · exact ⟨'-', _, rfl, by decide⟩

theorem digit_no_sep {d : Char} (hd : isdigit d = true) :
    isspace d = false ∧ d ≠ ']' ∧ d ≠ '\x7d' ∧ d ≠ ',' := by
  refine ⟨?_, ?_, ?_, ?_⟩
  · cases h : isspace d with
    | false => rfl
    | true =>
      rw [isspace_iff] at h
      rcases h with rfl | rfl | rfl | rfl | rfl | rfl <;> exact absurd hd (by decide)
  all_goals (rintro rfl; exact absurd hd (by decide))

/-- The array loop on a number with a leading zero: the zero is read as an
element, and the digit after it is no comma. -/
theorem arr_loop_fails_zero (env : Env) (he : GoodEnv env) (items : JItems) (pre : List Char)
    (hpre : isWs pre) (neg : Bool) (d : Char) (more : List Char) (hd : isdigit d = true) :
    ArrLoopFails env items pre (zeroText neg d more) := by
  intro np name s hs
  obtain ⟨x, xr, hx, hx0, _, hxb, _⟩ := zeroText_head neg d more
  obtain ⟨hds, hdb, _, hdc⟩ := digit_no_sep hd
  rw [JItems.holeSep_items_eq, hx] at hs
  obtain ⟨ws, s1, hws, hs1, _, hpk, hcomma, hadv⟩ :=
    array_loop_comma env pre hpre items.length x xr hx0 (fun _ => hxb) s hs
  obtain ⟨s2, ⟨N, hrun⟩, hjs2⟩ := r_parse_any_zero env he ws hws neg d more hd np
    (some (Nat.toDigits 10 (items.length + 1))) s1 (by rw [hs1, hx])
  beta_reduce at hrun
  have e3 := i_eatwhite_skip env [] (by simp [isWs]) d more hds (isdigit_facts hd).1 s2 hjs2
  refine ⟨XJS_ERR_EXP_COMMA, ⟨0, []⟩, 0, { s2 with js := d :: more },
    ⟨N + 3, fun fuel hf => ?_⟩, by decide, by decide⟩
  obtain ⟨f, rfl⟩ : ∃ f, fuel = f + 1 := ⟨fuel - 1, by omega⟩
  obtain ⟨g, rfl⟩ : ∃ g, f = g + 1 := ⟨f - 1, by omega⟩
  show i_parse_array_loop env (g + 1 + 1) false ⟨0, []⟩ XJS_array false 0 items.length 0 np name s = _
  rw [i_parse_array_loop]
  simp only [hpk, if_true, hcomma, if_false, hadv, ne_eq, not_true_eq_false,
    show ¬ (XJS_array = XJS_block_header) by decide, true_or, hrun (g + 1) (by omega),
    e3 (g + 1) (by simp), not_false_eq_true, Bool.false_eq_true]
  rw [i_parse_array_loop]
  simp [hdb, hdc]

/-- The object loop on a member whose value is a number with a leading
zero. -/
theorem obj_loop_fails_zero (env : Env) (he : GoodEnv env) (members : JMembers)
    (pre : List Char) (hpre : isWs pre) (nm : List StrItem) (hnm : ∀ it ∈ nm, it.wf)
    (ws1 ws2 : List Char) (hws1 : isWs ws1) (hws2 : isWs ws2) (neg : Bool) (d : Char)
    (more : List Char) (hd : isdigit d = true) :
    ObjLoopFails env members pre
      (strText nm ++ (ws1 ++ (':' :: (ws2 ++ zeroText neg d more)))) := by
  intro np name s hs
  obtain ⟨x, xr, hx, hx0, _, _, _⟩ := zeroText_head neg d more
  obtain ⟨hds, _, hdb, hdc⟩ := digit_no_sep hd
  rw [JMembers.holeSep_members_eq] at hs
  have hs0 : s.js = (if members.length = 0 then [] else ',' :: pre) ++
      '"' :: (bodyText nm ++ '"' :: (ws1 ++ (':' :: (ws2 ++ x :: xr)))) := by
    rw [hs, hx]; simp [strText]
  obtain ⟨ws, s1, hws, hs1, _, hpk, hcomma, hadv⟩ :=
    object_loop_comma env pre hpre members.length '"' _ (by decide) (fun _ => by decide) s hs0
  obtain ⟨y, yr, hy, hy0⟩ := head_ne_NUL ws2 (fun c hc => isspace_ne_NUL (hws2 c hc)) x xr hx0
  obtain ⟨z, zr, hz, hz0⟩ := head_ne_NUL ws1 (fun c hc => isspace_ne_NUL (hws1 c hc)) ':'
    (ws2 ++ x :: xr) (by decide)
  obtain ⟨nb, s2, ⟨N2, hrun2⟩, ha2, _, _⟩ := i_parse_string_ok env he.2.1 XJS_name ws hws
    nm hnm z zr hz0 Buf.empty s1 (by rw [hs1, ← hz]; simp [strText])
  beta_reduce at hrun2
  have e3 := i_eatwhite_skip env ws1 hws1 ':' _ (by decide) (by decide) s2 (by rw [ha2.1, hz])
  have e4 := i_advance0_cons2 env { s2 with js := ':' :: (ws2 ++ x :: xr) }
    ':' y yr (by simp [hy]) (by decide) hy0
  obtain ⟨s5, ⟨N5, hrun5⟩, hjs5⟩ := r_parse_any_zero env he ws2 hws2 neg d more hd np nb.cstr
    { s2 with js := y :: yr } (by simp [← hy, hx])
  beta_reduce at hrun5
  obtain ⟨s6, hs6, hjs6⟩ : ∃ s6, (if nb.ptr ≠ 0 then mem_free env XJS_name nb.ptr s5 else s5)
      = s6 ∧ s6.js = d :: more := by
    by_cases hp : nb.ptr ≠ 0
    · exact ⟨_, rfl, by simp [hp, mem_free_js, hjs5]⟩
    · exact ⟨_, rfl, by simp [hp, hjs5]⟩
  have e7 := i_eatwhite_skip env [] (by simp [isWs]) d more hds (isdigit_facts hd).1 s6 hjs6
  refine ⟨XJS_ERR_EXP_COMMA, { s6 with js := d :: more },
    ⟨N2 + N5 + ws1.length + 3, fun fuel hf => ?_⟩, by decide, by decide⟩
  obtain ⟨f, rfl⟩ : ∃ f, fuel = f + 1 := ⟨fuel - 1, by omega⟩
  obtain ⟨g, rfl⟩ : ∃ g, f = g + 1 := ⟨f - 1, by omega⟩
  show i_parse_object_loop env (g + 1 + 1) members.length np name s = _
  rw [i_parse_object_loop]
  simp only [hpk, if_true, hcomma, if_false, hadv, ne_eq, not_true_eq_false,
    hrun2 (g + 1) (by omega), e3 (g + 1) (by omega), peek_cons, e4, hrun5 (g + 1) (by omega),
    hs6, e7 (g + 1) (by simp), not_false_eq_true]
  rw [i_parse_object_loop]
  simp [hdb, hdc]

/-- A container that holds a number with a leading zero fails. -/
theorem leading_zero_fails (env : Env) (he : GoodEnv env) (X : List Char)
    (hX : LeadingZero X) : Fails env X := by
  rcases hX with ⟨ws0, items, pre, neg, d, more, hws0, hwf, hpre, hd, rfl⟩ |
    ⟨ws0, members, pre, name, ws1, ws2, neg, d, more, hws0, hwf, hpre, hname, hws1, hws2, hd, rfl⟩
  · obtain ⟨x, xr, hx, hx0, hxs, _⟩ := zeroText_head neg d more
    exact arr_fails_of_loop env he ws0 items pre _ hws0 hwf ⟨x, xr, hx, hx0, hxs⟩
      (arr_loop_fails_zero env he items pre hpre neg d more hd)
  · exact obj_fails_of_loop env he ws0 members pre _ hws0 hwf
      ⟨'"', _, by simp [strText]; rfl, by decide, by decide⟩
      (obj_loop_fails_zero env he members pre hpre name hname ws1 ws2 hws1 hws2 neg d more hd)

/-- C8: an input whose top level value is an array or an object in which, at
any depth, a value position holds a number whose integer part is `0`
(optionally after a minus sign) followed immediately by another digit, the
elements and members in front of it being well formed, read from one buffer
with a sink that returns XJS_OK and an allocator that grants: xjs_parse
returns, and what it returns is not XJS_OK. -/
theorem C8_leading_zero_rejected (blocks : Bool) (fallback : Option XJSMemCB)
    (node_cb : XJSNodeCB) (mem_cb : XJSMemCB) (hsink : SinkOk node_cb) (hmem : MemGrants mem_cb)
    (X : List Char) (hX : Nested LeadingZero X) (lead : List Char) (hl : isWs lead) :
    ∃ r e s, Runs (fun fuel => xjs_parse blocks fallback fuel (some (lead ++ X)) node_cb none
        (some mem_cb)) (r, e, s) ∧ r ≠ XJS_OK :=
  xjs_parse_of_fails blocks fallback node_cb mem_cb X
    (nested_fails _ ⟨rfl, hmem, hsink⟩ LeadingZero
      (fun Y hY => leading_zero_fails _ ⟨rfl, hmem, hsink⟩ Y hY) X hX) lead hl

/-- C8 at `[01]`. -/
theorem C8_leading_zero_rejected_witness :
    ∃ r e s, Runs (fun fuel => xjs_parse false none fuel (some "[01]".toList) sinkOk none
        (some memGrant)) (r, e, s) ∧ r ≠ XJS_OK :=
  C8_leading_zero_rejected false none sinkOk memGrant sinkOk_ok memGrant_grants "[01]".toList
    (Nested.base _ (show LeadingZero _ from
      Or.inl ⟨[], .nil, [], false, '1', [']'], by simp [isWs], by simp [JItems.wf],
        by simp [isWs], by decide, rfl⟩))
    [] (by simp [isWs])

theorem AllOk.halts {cb : XJSNodeCB} {evs : List Event} (h : AllOk cb evs) : Halts cb evs :=
  fun pre e post he _ => h pre e post he

theorem EvInv.of_allOk {cb : XJSNodeCB} {evs : List Event} (h : AllOk cb evs) (r : Int) :
    EvInv cb evs r := ⟨h.halts, fun _ => h⟩

theorem EvInv.of_ne {cb : XJSNodeCB} {evs : List Event} {r : Int} (h : EvInv cb evs r)
    (r' : Int) (hr : r' = XJS_OK → r = XJS_OK) : EvInv cb evs r' :=
  ⟨h.1, fun h' => h.2 (hr h')⟩

theorem snoc_split {α : Type} (evs : List α) (e : α) (pre : List α) (e' : α) (post : List α)
    (he : evs ++ [e] = pre ++ e' :: post) :
    (post = [] ∧ evs = pre ∧ e = e') ∨ ∃ post', post = post' ++ [e] ∧ evs = pre ++ e' :: post' := by
  rcases List.eq_nil_or_concat post with h0 | ⟨l, a, hla⟩
  · subst h0
    have h2 : evs ++ [e] = pre ++ [e'] := by simpa using he
    have h3 := List.append_inj' h2 rfl
    left
    refine ⟨rfl, h3.1, ?_⟩
    simpa using h3.2
  · right
    rw [List.concat_eq_append] at hla
    subst hla
    have h2 : evs ++ [e] = (pre ++ e' :: l) ++ [a] := by simpa using he
    have h3 := List.append_inj' h2 rfl
    have h4 : e = a := by simpa using h3.2
    subst h4
    exact ⟨l, rfl, h3.1⟩

/-- One more event after events that were all accepted. -/
theorem EvInv.snoc {cb : XJSNodeCB} {evs : List Event} (h : AllOk cb evs) (e : Event) :
    EvInv cb (evs ++ [e]) (cb evs e).1 := by
  constructor
  · intro pre e' post he hpost
    rcases snoc_split evs e pre e' post he with ⟨h0, _, _⟩ | ⟨post', _, h2⟩
    · exact absurd h0 hpost
    · exact h pre e' post' h2
  · intro hr pre e' post he
    rcases snoc_split evs e pre e' post he with ⟨_, h1, h2⟩ | ⟨post', _, h2⟩
    · subst h1; subst h2; exact hr
    · exact h pre e' post' h2

theorem call_node_inv (env : Env) (np : Nat) (k : XJSType) (n v : Option (List Char))
    (s : State) (h : AllOk env.node_cb s.events) :
    EvInv env.node_cb (call_node env np k n v s).2.2.events (call_node env np k n v s).1 := by
  simp only [call_node]
  exact EvInv.snoc h _

/-! ## The lexers do not invoke the sink -/

@[simp] theorem i_advance0_events (env : Env) (s : State) :
    (i_advance0 env s).2.events = s.events := by
  unfold i_advance0
  simp only []
  repeat' split
  all_goals simp

theorem i_eatwhite_events (env : Env) : ∀ (fuel : Nat) (s : State) (r : Int) (s' : State),
    i_eatwhite env fuel s = some (r, s') → s'.events = s.events := by
  intro fuel
  induction fuel with
  | zero => intro s r s' h; simp [i_eatwhite] at h
  | succ n ih =>
    intro s r s' h
    rw [i_eatwhite] at h
    simp only [] at h
    split at h
    · split at h
      · cases h; simp
      · exact (ih _ _ _ h).trans (by simp)
    · cases h; rfl

theorem i_advance_events (env : Env) (fuel : Nat) (ew : Bool) (s : State) (r : Int) (s' : State)
    (h : i_advance env fuel ew s = some (r, s')) : s'.events = s.events := by
  unfold i_advance at h
  simp only [] at h
  split at h
  · cases h; simp
  · split at h
    · exact (i_eatwhite_events env _ _ _ _ h).trans (by simp)
    · cases h; simp

@[simp] theorem i_assign_store_events (env : Env) (b : Buf) (s : State) :
    (i_assign_store env b s).2.2.events = s.events := by
  unfold i_assign_store
  simp only []
  split <;> simp

@[simp] theorem i_assign_events (env : Env) (context : XJSType) (b : Buf) (s : State) :
    (i_assign env context b s).2.2.events = s.events := by
  unfold i_assign
  simp only [call_mem]
  repeat' split
  all_goals simp

@[simp] theorem terminate_events (b : Buf) (s : State) : (terminate b s).2.events = s.events := by
  unfold terminate
  split <;> rfl

@[simp] theorem mem_free_events (env : Env) (context : XJSType) (p : Nat) (s : State) :
    (mem_free env context p s).events = s.events := rfl

@[simp] theorem i_parse_escape_hex_events (env : Env) (context : XJSType) : ∀ (n : Nat) (b : Buf)
    (s : State), (i_parse_escape_hex env context n b s).2.2.events = s.events := by
  intro n
  induction n with
  | zero => intro b s; rfl
  | succ n ih =>
    intro b s
    rw [i_parse_escape_hex]
    simp only []
    repeat' split
    all_goals simp [ih]

@[simp] theorem i_parse_escape_events (env : Env) (context : XJSType) (b : Buf) (s : State) :
    (i_parse_escape env context b s).2.2.events = s.events := by
  unfold i_parse_escape
  simp only []
  repeat' split
  all_goals simp

theorem i_parse_string_loop_events (env : Env) (context : XJSType) : ∀ (fuel : Nat) (b : Buf)
    (s : State) (r : Int) (b' : Buf) (s' : State),
    i_parse_string_loop env context fuel b s = some (r, b', s') → s'.events = s.events := by
  intro fuel
  induction fuel with
  | zero => intro b s r b' s' h; simp [i_parse_string_loop] at h
  | succ n ih =>
    intro b s r b' s' h
    rw [i_parse_string_loop] at h
    simp only [] at h
    split at h
    · split at h <;> split at h
      all_goals first | (cases h; simp) | exact (ih _ _ _ _ _ h).trans (by simp)
    · cases h; rfl

theorem i_parse_string_events (env : Env) (fuel : Nat) (context : XJSType) (b : Buf) (s : State)
    (r : Int) (b' : Buf) (s' : State) (h : i_parse_string env fuel context b s = some (r, b', s')) :
    s'.events = s.events := by
  unfold i_parse_string at h
  simp only [] at h
  split at h
  · cases h
  · rename_i r1 s1 heq
    have e1 := i_eatwhite_events env _ _ _ _ heq
    split at h
    · cases h; exact e1
    · split at h
      · cases h; exact e1
      · split at h
        · cases h; simp [e1]
        · split at h
          · cases h
          · rename_i r3 b3 s3 heq3
            have e3 := i_parse_string_loop_events env _ _ _ _ _ _ _ heq3
            simp at e3
            split at h
            · cases h; simp [e1, e3]
            · split at h
              · cases h; simp [e1, e3]
              · split at h
                · cases h; simp [e1, e3]
                · cases h; simp [e1, e3]

@[simp] theorem i_parse_literal_loop_events (env : Env) : ∀ (lit : List Char) (s : State),
    (i_parse_literal_loop env lit s).2.events = s.events := by
  intro lit
  induction lit with
  | nil => intro s; rfl
  | cons l rest ih =>
    intro s
    rw [i_parse_literal_loop]
    simp only []
    repeat' split
    all_goals simp [ih]

theorem i_parse_literal_events (env : Env) (fuel : Nat) (lit : List Char) (s : State) (r : Int)
    (s' : State) (h : i_parse_literal env fuel lit s = some (r, s')) : s'.events = s.events := by
  unfold i_parse_literal at h
  simp only [] at h
  split at h
  · cases h
  · rename_i r1 s1 heq
    have e1 := i_eatwhite_events env _ _ _ _ heq
    repeat' split at h
    all_goals (cases h; simp [e1])

theorem i_parse_number_digits_events (env : Env) : ∀ (fuel : Nat) (b : Buf) (s : State) (r : Int)
    (b' : Buf) (s' : State),
    i_parse_number_digits env fuel b s = some (r, b', s') → s'.events = s.events := by
  intro fuel
  induction fuel with
  | zero => intro b s r b' s' h; simp [i_parse_number_digits] at h
  | succ n ih =>
    intro b s r b' s' h
    rw [i_parse_number_digits] at h
    simp only [] at h
    split at h
    · split at h
      · cases h; simp
      · exact (ih _ _ _ _ _ h).trans (by simp)
    · cases h; rfl

theorem i_parse_number_exp_events (env : Env) (fuel : Nat) (b : Buf) (s : State) (r : Int)
    (b' : Buf) (s' : State) (h : i_parse_number_exp env fuel b s = some (r, b', s')) :
    s'.events = s.events := by
  unfold i_parse_number_exp at h
  simp only [] at h
  repeat' split at h
  all_goals first
    | (cases h; done)
    | (cases h; simp; done)
    | (have e := i_parse_number_digits_events env _ _ _ _ _ _ (by assumption)
       simp at e; cases h; simp [e]; done)

theorem i_parse_number_frac_events (env : Env) (fuel : Nat) (b : Buf) (s : State) (r : Int)
    (b' : Buf) (s' : State) (h : i_parse_number_frac env fuel b s = some (r, b', s')) :
    s'.events = s.events := by
  unfold i_parse_number_frac at h
  simp only [] at h
  repeat' split at h
  all_goals first
    | (cases h; done)
    | (cases h; simp; done)
    | (have e := i_parse_number_digits_events env _ _ _ _ _ _ (by assumption)
       simp at e; cases h; simp [e]; done)
    | (exact i_parse_number_exp_events env _ _ _ _ _ _ h)
    | (have e := i_parse_number_digits_events env _ _ _ _ _ _ (by assumption)
       simp at e; exact (i_parse_number_exp_events env _ _ _ _ _ _ h).trans e)

theorem i_parse_number_events (env : Env) (fuel : Nat) (b : Buf) (s : State) (r : Int)
    (b' : Buf) (s' : State) (h : i_parse_number env fuel b s = some (r, b', s')) :
    s'.events = s.events := by
  unfold i_parse_number at h
  simp only [] at h
  split at h
  · cases h
  · rename_i r1 s1 heq
    have e1 := i_eatwhite_events env _ _ _ _ heq
    have key : ∀ (b2 : Buf) (s2 : State) (r3 : Int) (b3 : Buf) (s3 : State),
        s2.events = s.events →
        (if peek s2.js = '0' then some (i_assign env XJS_number b2 s2)
          else i_parse_number_digits env fuel b2 s2) = some (r3, b3, s3) →
        s3.events = s.events := by
      intro b2 s2 r3 b3 s3 h2 h3
      split at h3
      · have e : (i_assign env XJS_number b2 s2).2.2 = s3 := by rw [Option.some.inj h3]
        rw [← e]; simp [h2]
      · exact (i_parse_number_digits_events env _ _ _ _ _ _ h3).trans h2
    repeat' split at h
    all_goals first
      | (cases h; done)
      | (cases h; simp [e1]; done)
      | (rename_i heq3 _
         have e := key _ _ _ _ _ (by first | exact e1 | simp [e1]) heq3
         cases h; exact e)
      | (rename_i heq3 _
         have e := key _ _ _ _ _ (by first | exact e1 | simp [e1]) heq3
         exact (i_parse_number_frac_events env _ _ _ _ _ _ h).trans e)

/-- What i_parse_value leaves: the record of events as it was, and with
XJS_OK the kind of a scalar. -/
theorem i_parse_value_facts (env : Env) (fuel : Nat) (b : Buf) (s : State) (r : Int)
    (k : XJSType) (b' : Buf) (s' : State) (h : i_parse_value env fuel b s = some (r, k, b', s')) :
    s'.events = s.events ∧ (r = XJS_OK → isScalarKind k) := by
  unfold i_parse_value at h
  cases he0 : i_eatwhite env fuel s with
  | none => rw [he0] at h; cases h
  | some x0 =>
  obtain ⟨r0, s0⟩ := x0
  rw [he0] at h
  dsimp only at h
  have e0 := i_eatwhite_events env _ _ _ _ he0
  by_cases hne : r0 ≠ XJS_OK
  · rw [if_pos hne] at h
    cases h
    exact ⟨e0, fun hh => absurd hh hne⟩
  rw [if_neg hne] at h
  cases he1 : i_parse_literal env fuel "true".toList s0 with
  | none => rw [he1] at h; cases h
  | some x1 =>
  obtain ⟨r1, s1⟩ := x1
  rw [he1] at h
  dsimp only at h
  have e1 := (i_parse_literal_events env _ _ _ _ _ he1).trans e0
  by_cases hok1 : r1 = XJS_OK
  · rw [if_pos hok1] at h
    cases h
    exact ⟨e1, fun _ => Or.inr (Or.inr (Or.inl rfl))⟩
  rw [if_neg hok1] at h
  by_cases hn1 : r1 ≠ XJS_NOPE
  · rw [if_pos hn1] at h
    cases h
    exact ⟨e1, fun hh => absurd hh hok1⟩
  rw [if_neg hn1] at h
  cases he2 : i_parse_literal env fuel "false".toList s1 with
  | none => rw [he2] at h; cases h
  | some x2 =>
  obtain ⟨r2, s2⟩ := x2
  rw [he2] at h
  dsimp only at h
  have e2 := (i_parse_literal_events env _ _ _ _ _ he2).trans e1
  by_cases hok2 : r2 = XJS_OK
  · rw [if_pos hok2] at h
    cases h
    exact ⟨e2, fun _ => Or.inr (Or.inr (Or.inr (Or.inl rfl)))⟩
  rw [if_neg hok2] at h
  by_cases hn2 : r2 ≠ XJS_NOPE
  · rw [if_pos hn2] at h
    cases h
    exact ⟨e2, fun hh => absurd hh hok2⟩
  rw [if_neg hn2] at h
  cases he3 : i_parse_literal env fuel "null".toList s2 with
  | none => rw [he3] at h; cases h
  | some x3 =>
  obtain ⟨r3, s3⟩ := x3
  rw [he3] at h
  dsimp only at h
  have e3 := (i_parse_literal_events env _ _ _ _ _ he3).trans e2
  by_cases hok3 : r3 = XJS_OK
  · rw [if_pos hok3] at h
    cases h
    exact ⟨e3, fun _ => Or.inr (Or.inr (Or.inr (Or.inr rfl)))⟩
  rw [if_neg hok3] at h
  by_cases hn3 : r3 ≠ XJS_NOPE
  · rw [if_pos hn3] at h
    cases h
    exact ⟨e3, fun hh => absurd hh hok3⟩
  rw [if_neg hn3] at h
  cases he4 : i_parse_number env fuel b s3 with
  | none => rw [he4] at h; cases h
  | some x4 =>
  obtain ⟨r4, b4, s4⟩ := x4
  rw [he4] at h
  dsimp only at h
  have e4 := (i_parse_number_events env _ _ _ _ _ _ he4).trans e3
  by_cases hok4 : r4 = XJS_OK
  · rw [if_pos hok4] at h
    cases h
    exact ⟨e4, fun _ => Or.inr (Or.inl rfl)⟩
  rw [if_neg hok4] at h
  by_cases hn4 : r4 ≠ XJS_NOPE
  · rw [if_pos hn4] at h
    cases h
    exact ⟨e4, fun hh => absurd hh hok4⟩
  rw [if_neg hn4] at h
  cases he5 : i_parse_string env fuel XJS_string b4 s4 with
  | none => rw [he5] at h; cases h
  | some x5 =>
  obtain ⟨r5, b5, s5⟩ := x5
  rw [he5] at h
  dsimp only at h
  have e5 := (i_parse_string_events env _ _ _ _ _ _ _ he5).trans e4
  by_cases hok5 : r5 = XJS_OK
  · rw [if_pos hok5] at h
    cases h
    exact ⟨e5, fun _ => Or.inl rfl⟩
  · rw [if_neg hok5] at h
    cases h
    exact ⟨e5, fun hh => absurd hh hok5⟩

theorem i_parse_value_events (env : Env) (fuel : Nat) (b : Buf) (s : State) (r : Int)
    (k : XJSType) (b' : Buf) (s' : State) (h : i_parse_value env fuel b s = some (r, k, b', s')) :
    s'.events = s.events :=
  (i_parse_value_facts env fuel b s r k b' s' h).1

@[simp] theorem hdr_read_events (env : Env) (H : Hdr) (i : Nat) (s : State) :
    (hdr_read env H i s).2.events = s.events := rfl

@[simp] theorem hdr_grow_events (env : Env) (hl : Bool) (H : Hdr) (cnt tcnt : Nat) (s : State) :
    (hdr_grow env hl H cnt tcnt s).2.2.2.events = s.events := by
  unfold hdr_grow
  simp only [call_mem]
  repeat' split
  all_goals simp

@[simp] theorem hdr_cleanup_events (env : Env) (H : Hdr) (cnt : Nat) (s : State) :
    (hdr_cleanup env H cnt s).events = s.events := by
  unfold hdr_cleanup
  split
  · rw [mem_free_events]
    generalize List.range cnt = l
    induction l generalizing s with
    | nil => rfl
    | cons a l ih => rw [List.foldl_cons, ih]; rfl
  · rfl

/-! ## The sink is not invoked after a refusal -/

theorem i_noend_ok {r : Int} (h : i_noend r = XJS_OK) : r = XJS_OK := by
  unfold i_noend at h
  split at h
  · exact absurd h (by decide)
  · exact h

theorem r_parse_any_inv (env : Env) (fuel : Nat) (ih : EvStep env fuel) :
    ∀ top p n s r s', AllOk env.node_cb s.events →
    r_parse_any env (fuel + 1) top p n s = some (r, s') → EvInv env.node_cb s'.events r := by
  intro top p n s r s' hs h
  rw [r_parse_any] at h
  split at h
  · cases h
  · rename_i r1 s1 heq
    have e1 := i_eatwhite_events env _ _ _ _ heq
    have hs1 : AllOk env.node_cb s1.events := e1 ▸ hs
    split at h
    · cases h; exact EvInv.of_allOk hs1 _
    · split at h
      · exact ih.obj _ _ _ _ _ hs1 h
      · split at h
        · split at h
          · cases h
          · rename_i r2 H2 c2 s2 heq2
            cases h
            exact ih.arr _ _ _ _ _ _ _ _ _ _ hs1 heq2
        · split at h
          · exact ih.blk _ _ _ _ _ hs1 h
          · split at h
            · cases h; exact EvInv.of_allOk hs1 _
            · split at h
              · cases h
              · rename_i r2 kind b s2 heq2
                have e2 := i_parse_value_events env _ _ _ _ _ _ _ heq2
                have hs2 : AllOk env.node_cb s2.events := by rw [e2]; exact hs1
                split at h
                · simp only [] at h
                  have e := Option.some.inj h
                  have e3 := congrArg Prod.fst e
                  have e4 := congrArg Prod.snd e
                  simp only [] at e3 e4
                  rw [← e3, ← e4, mem_free_events]
                  exact call_node_inv env _ _ _ _ _ hs2
                · cases h
                  rw [mem_free_events]
                  exact EvInv.of_allOk hs2 _

theorem i_parse_array_inv (env : Env) (fuel : Nat) (ih : EvStep env fuel) :
    ∀ hdr k cnt p n s r H c s', AllOk env.node_cb s.events →
    i_parse_array env (fuel + 1) hdr k cnt p n s = some (r, H, c, s') →
    EvInv env.node_cb s'.events r := by
  intro hdr k cnt p n s r H c s' hs h
  rw [i_parse_array] at h
  split at h
  · cases h
  · rename_i r1 s1 heq
    have e1 := i_eatwhite_events env _ _ _ _ heq
    have hs1 : AllOk env.node_cb s1.events := e1 ▸ hs
    split at h
    · cases h; exact EvInv.of_allOk hs1 _
    · split at h
      · cases h; exact EvInv.of_allOk hs1 _
      · have hc := call_node_inv env p k n none s1 hs1
        simp only [] at h
        split at h
        · have e := Option.some.inj h
          have e3 := congrArg Prod.fst e
          have e4 := congrArg (fun x => x.2.2.2) e
          simp only [] at e3 e4
          rw [← e3, ← e4]
          exact hc
        · rename_i hok
          have hs2 := hc.2 (not_not.mp hok)
          split at h
          · cases h
          · rename_i r3 s3 heq3
            have e3 := i_advance_events env _ _ _ _ _ heq3
            have hs3 : AllOk env.node_cb s3.events := by rw [e3]; exact hs2
            split at h
            · cases h; exact EvInv.of_allOk hs3 _
            · exact ih.arrl _ _ _ _ _ _ _ _ _ _ _ _ _ _ hs3 h

theorem i_parse_object_inv (env : Env) (fuel : Nat) (ih : EvStep env fuel) :
    ∀ p n s r s', AllOk env.node_cb s.events →
    i_parse_object env (fuel + 1) p n s = some (r, s') → EvInv env.node_cb s'.events r := by
  intro p n s r s' hs h
  rw [i_parse_object] at h
  split at h
  · cases h; exact EvInv.of_allOk hs _
  · have hc := call_node_inv env p XJS_object n none s hs
    simp only [] at h
    split at h
    · have e := Option.some.inj h
      have e3 := congrArg Prod.fst e
      have e4 := congrArg Prod.snd e
      simp only [] at e3 e4
      rw [← e3, ← e4]
      exact hc
    · rename_i hok
      have hs2 := hc.2 (not_not.mp hok)
      split at h
      · cases h
      · rename_i r3 s3 heq3
        have e3 := i_advance_events env _ _ _ _ _ heq3
        have hs3 : AllOk env.node_cb s3.events := by rw [e3]; exact hs2
        split at h
        · cases h; exact EvInv.of_allOk hs3 _
        · exact ih.objl _ _ _ _ _ _ hs3 h

theorem i_parse_block_inv (env : Env) (fuel : Nat) (ih : EvStep env fuel) :
    ∀ p n s r s', AllOk env.node_cb s.events →
    i_parse_block env (fuel + 1) p n s = some (r, s') → EvInv env.node_cb s'.events r := by
  intro p n s r s' hs h
  rw [i_parse_block] at h
  split at h
  · cases h; exact EvInv.of_allOk hs _
  · have hc := call_node_inv env p XJS_block n none s hs
    simp only [] at h
    split at h
    · have e := Option.some.inj h
      have e3 := congrArg Prod.fst e
      have e4 := congrArg Prod.snd e
      simp only [] at e3 e4
      rw [← e3, ← e4]
      exact hc
    · rename_i hok
      have hs2 := hc.2 (not_not.mp hok)
      split at h
      · cases h
      · rename_i r3 s3 heq3
        have e3 := i_advance_events env _ _ _ _ _ heq3
        have hs3 : AllOk env.node_cb s3.events := by rw [e3]; exact hs2
        split at h
        · cases h; exact EvInv.of_allOk hs3 _
        · split at h
          · cases h
          · rename_i r4 H4 c4 s4 heq4
            refine ih.blkl _ _ _ _ _ _ _ _ _ ?_ h
            split at heq4
            · exact ih.arr _ _ _ _ _ _ _ _ _ _ hs3 heq4
            · cases heq4; exact EvInv.of_allOk hs3 _

theorem i_parse_object_loop_inv (env : Env) (fuel : Nat) (ih : EvStep env fuel) :
    ∀ i np n s r s', AllOk env.node_cb s.events →
    i_parse_object_loop env (fuel + 1) i np n s = some (r, s') →
    EvInv env.node_cb s'.events r := by
  intro i np n s r s' hs h
  rw [i_parse_object_loop] at h
  split at h
  · split at h
    · cases h; exact EvInv.of_allOk hs _
    · generalize hx : (if i ≠ 0 then i_advance0 env s else (XJS_OK, s)) = p at h
      have e1 : p.2.events = s.events := by rw [← hx]; split <;> simp
      obtain ⟨r1, s1⟩ := p
      simp only [] at h e1
      have hs1 : AllOk env.node_cb s1.events := by rw [e1]; exact hs
      split at h
      · cases h; exact EvInv.of_allOk hs1 _
      · split at h
        · cases h
        · rename_i r2 nb s2 heq2
          have e2 := i_parse_string_events env _ _ _ _ _ _ _ heq2
          have hs2 : AllOk env.node_cb s2.events := by rw [e2]; exact hs1
          generalize hy : (if r2 = XJS_OK then i_eatwhite env fuel s2 else some (r2, s2)) = q at h
          cases q with
          | none => cases h
          | some q =>
            obtain ⟨r3, s3⟩ := q
            have e3 : s3.events = s2.events := by
              split at hy
              · exact i_eatwhite_events env _ _ _ _ hy
              · cases hy; rfl
            have hs3 : AllOk env.node_cb s3.events := by rw [e3]; exact hs2
            simp only [] at h
            generalize hz : (if r3 = XJS_OK then
                (if peek s3.js ≠ ':' then (XJS_ERR_EXP_COLON, s3) else i_advance0 env s3)
                else (r3, s3)) = p4 at h
            have e4 : p4.2.events = s3.events := by
              rw [← hz]; split
              · split <;> simp
              · rfl
            obtain ⟨r4, s4⟩ := p4
            simp only [] at h e4
            have hs4 : AllOk env.node_cb s4.events := by rw [e4]; exact hs3
            generalize hw : (if r4 = XJS_OK then r_parse_any env fuel false np nb.cstr s4
                else some (r4, s4)) = q5 at h
            cases q5 with
            | none => cases h
            | some q5 =>
              obtain ⟨r5, s5⟩ := q5
              have i5 : EvInv env.node_cb s5.events r5 := by
                split at hw
                · exact ih.any _ _ _ _ _ _ hs4 hw
                · cases hw; exact EvInv.of_allOk hs4 _
              simp only [] at h
              have e6 : (if nb.ptr ≠ 0 then mem_free env XJS_name nb.ptr s5 else s5).events
                  = s5.events := by split <;> rfl
              generalize (if nb.ptr ≠ 0 then mem_free env XJS_name nb.ptr s5 else s5) = s6 at h e6
              split at h
              · rename_i hne
                cases h
                rw [e6]
                exact i5.of_ne _ (fun h0 => absurd (i_noend_ok h0) hne)
              · rename_i hok
                have hs6 : AllOk env.node_cb s6.events := by
                  rw [e6]; exact i5.2 (not_not.mp hok)
                split at h
                · cases h
                · rename_i r7 s7 heq7
                  have e7 := i_eatwhite_events env _ _ _ _ heq7
                  have hs7 : AllOk env.node_cb s7.events := by rw [e7]; exact hs6
                  split at h
                  · cases h; exact EvInv.of_allOk hs7 _
                  · exact ih.objl _ _ _ _ _ _ hs7 h
  · have e1 := i_advance0_events env s
    generalize i_advance0 env s = p at h e1
    obtain ⟨r1, s1⟩ := p
    simp only [] at h e1
    have hs1 : AllOk env.node_cb s1.events := by rw [e1]; exact hs
    have hc := call_node_inv env np XJS_object_end n none s1 hs1
    split at h
    · cases h; exact EvInv.of_allOk hs1 _
    · have e := Option.some.inj h
      have e3 := congrArg Prod.fst e
      have e4 := congrArg Prod.snd e
      simp only [] at e3 e4
      rw [← e3, ← e4]
      exact hc

theorem i_parse_array_loop_inv (env : Env) (fuel : Nat) (ih : EvStep env fuel) :
    ∀ hl H k hc cnt i tcnt np n s r H' c s', AllOk env.node_cb s.events →
    i_parse_array_loop env (fuel + 1) hl H k hc cnt i tcnt np n s = some (r, H', c, s') →
    EvInv env.node_cb s'.events r := by
  intro hl H k hc cnt i tcnt np n s r H' c s' hs h
  rw [i_parse_array_loop] at h
  by_cases hb : peek s.js ≠ ']'
  · rw [if_pos hb] at h
    by_cases hcm : i ≠ 0 ∧ peek s.js ≠ ','
    · rw [if_pos hcm] at h
      cases h; exact EvInv.of_allOk hs _
    rw [if_neg hcm] at h
    generalize hx : (if i ≠ 0 then i_advance0 env s else (XJS_OK, s)) = p at h
    have e1 : p.2.events = s.events := by rw [← hx]; split <;> simp
    obtain ⟨r1, s1⟩ := p
    dsimp only at h e1
    have hs1 : AllOk env.node_cb s1.events := by rw [e1]; exact hs
    by_cases hr1 : r1 ≠ XJS_OK
    · rw [if_pos hr1] at h
      cases h; exact EvInv.of_allOk hs1 _
    rw [if_neg hr1] at h
    by_cases hk : k = XJS_block_header
    · rw [if_pos hk] at h
      have eg := hdr_grow_events env hl H cnt tcnt s1
      generalize hdr_grow env hl H cnt tcnt s1 = g at h eg
      obtain ⟨hl1, H1, tcnt1, s2⟩ := g
      dsimp only at h eg
      have hs2 : AllOk env.node_cb s2.events := by rw [eg]; exact hs1
      cases heq3 : i_parse_string env fuel XJS_name Buf.empty s2 with
      | none => rw [heq3] at h; cases h
      | some x3 =>
      obtain ⟨r2, v, s3⟩ := x3
      rw [heq3] at h
      dsimp only at h
      have e3 := i_parse_string_events env _ _ _ _ _ _ _ heq3
      have hs3 : AllOk env.node_cb s3.events := by rw [e3]; exact hs2
      by_cases hr2 : r2 ≠ XJS_OK
      · rw [if_pos hr2] at h
        cases h; exact EvInv.of_allOk hs3 _
      rw [if_neg hr2] at h
      have hc := call_node_inv env np XJS_name (some (Nat.toDigits 10 (i + 1))) v.cstr s3 hs3
      generalize call_node env np XJS_name (some (Nat.toDigits 10 (i + 1))) v.cstr s3 = cn
        at h hc
      obtain ⟨r3, np1, s4⟩ := cn
      dsimp only at h hc
      generalize hy : (if hl1 = true ∧ tcnt1 > cnt then (H1.store cnt (v.ptr, v.cstr), s4)
          else (H1, mem_free env XJS_name v.ptr s4)) = p5 at h
      have e5 : p5.2.events = s4.events := by rw [← hy]; split <;> rfl
      obtain ⟨H2, s5⟩ := p5
      dsimp only at h e5
      by_cases hne : r3 ≠ XJS_OK
      · rw [if_pos hne] at h
        cases h
        rw [e5]
        exact hc.of_ne _ (fun h0 => absurd (i_noend_ok h0) hne)
      rw [if_neg hne] at h
      have hs5 : AllOk env.node_cb s5.events := by
        rw [e5]; exact hc.2 (not_not.mp hne)
      cases heq6 : i_eatwhite env fuel s5 with
      | none => rw [heq6] at h; cases h
      | some x6 =>
      obtain ⟨r6, s6⟩ := x6
      rw [heq6] at h
      dsimp only at h
      have e6 := i_eatwhite_events env _ _ _ _ heq6
      have hs6 : AllOk env.node_cb s6.events := by rw [e6]; exact hs5
      by_cases hr6 : r6 ≠ XJS_OK
      · rw [if_pos hr6] at h
        cases h; exact EvInv.of_allOk hs6 _
      rw [if_neg hr6] at h
      exact ih.arrl _ _ _ _ _ _ _ _ _ _ _ _ _ _ hs6 h
    rw [if_neg hk] at h
    generalize hy : (if hl = false ∨ k = XJS_array then
        ((0, some (Nat.toDigits 10 (i + 1))), s1) else hdr_read env H cnt s1) = p2 at h
    have e2 : p2.2.events = s1.events := by rw [← hy]; split <;> rfl
    obtain ⟨nm, s2⟩ := p2
    dsimp only at h e2
    have hs2 : AllOk env.node_cb s2.events := by rw [e2]; exact hs1
    cases heq3 : r_parse_any env fuel false np nm.2 s2 with
    | none => rw [heq3] at h; cases h
    | some x3 =>
    obtain ⟨r3, s3⟩ := x3
    rw [heq3] at h
    dsimp only at h
    have i3 := ih.any _ _ _ _ _ _ hs2 heq3
    by_cases hne : r3 ≠ XJS_OK
    · rw [if_pos hne] at h
      cases h
      exact i3.of_ne _ (fun h0 => absurd (i_noend_ok h0) hne)
    rw [if_neg hne] at h
    have hs3 : AllOk env.node_cb s3.events := i3.2 (not_not.mp hne)
    cases heq4 : i_eatwhite env fuel s3 with
    | none => rw [heq4] at h; cases h
    | some x4 =>
    obtain ⟨r4, s4⟩ := x4
    rw [heq4] at h
    dsimp only at h
    have e4 := i_eatwhite_events env _ _ _ _ heq4
    have hs4 : AllOk env.node_cb s4.events := by rw [e4]; exact hs3
    by_cases hr4 : r4 ≠ XJS_OK
    · rw [if_pos hr4] at h
      cases h; exact EvInv.of_allOk hs4 _
    rw [if_neg hr4] at h
    exact ih.arrl _ _ _ _ _ _ _ _ _ _ _ _ _ _ hs4 h
  · rw [if_neg hb] at h
    have e1 := i_advance0_events env s
    generalize i_advance0 env s = p at h e1
    obtain ⟨r1, s1⟩ := p
    dsimp only at h e1
    have hs1 : AllOk env.node_cb s1.events := by rw [e1]; exact hs
    have hc := call_node_inv env np (array_end_kind k) n none s1 hs1
    split at h
    · cases h; exact EvInv.of_allOk hs1 _
    · have e := Option.some.inj h
      have e3 := congrArg Prod.fst e
      have e4 := congrArg (fun x => x.2.2.2) e
      simp only [] at e3 e4
      rw [← e3, ← e4]
      exact hc

theorem i_parse_block_loop_inv (env : Env) (fuel : Nat) (ih : EvStep env fuel) :
    ∀ r0 H cnt i np n s r s', EvInv env.node_cb s.events r0 →
    i_parse_block_loop env (fuel + 1) r0 H cnt i np n s = some (r, s') →
    EvInv env.node_cb s'.events r := by
  intro r0 H cnt i np n s r s' hi h
  rw [i_parse_block_loop] at h
  split at h
  · rename_i hcond
    have hs : AllOk env.node_cb s.events := hi.2 hcond.1
    split at h
    · cases h; exact EvInv.of_allOk hs _
    · generalize hx : (if i ≠ 0 then i_advance0 env s else (r0, s)) = p at h
      have e1 : p.2.events = s.events := by rw [← hx]; split <;> simp
      obtain ⟨r1, s1⟩ := p
      simp only [] at h e1
      have hs1 : AllOk env.node_cb s1.events := by rw [e1]; exact hs
      generalize hy : (if r1 = XJS_OK then
          i_parse_array env fuel (some H) XJS_block_array (some 0) np none s1
          else some (r1, H, cnt, s1)) = q at h
      cases q with
      | none => cases h
      | some q =>
        obtain ⟨r2, H2, tmpcnt, s2⟩ := q
        simp only [] at h
        have i2 : EvInv env.node_cb s2.events r2 := by
          split at hy
          · exact ih.arr _ _ _ _ _ _ _ _ _ _ hs1 hy
          · cases hy; exact EvInv.of_allOk hs1 _
        refine ih.blkl _ _ _ _ _ _ _ _ _ ?_ h
        refine i2.of_ne _ ?_
        intro h0
        split at h0
        · exact absurd h0 (by decide)
        · exact h0
  · simp only [] at h
    have e1 := hdr_cleanup_events env H cnt s
    generalize hdr_cleanup env H cnt s = s1 at h e1
    split at h
    · rename_i hne
      cases h
      rw [e1]
      exact hi.of_ne _ (fun h0 => absurd (i_noend_ok h0) hne)
    · rename_i hok
      have hs1 : AllOk env.node_cb s1.events := by rw [e1]; exact hi.2 (not_not.mp hok)
      have e2 := i_advance0_events env s1
      generalize i_advance0 env s1 = p at h e2
      obtain ⟨r2, s2⟩ := p
      simp only [] at h e2
      have hs2 : AllOk env.node_cb s2.events := by rw [e2]; exact hs1
      have hc := call_node_inv env np XJS_block_end n none s2 hs2
      split at h
      · cases h; exact EvInv.of_allOk hs2 _
      · have e := Option.some.inj h
        have e3 := congrArg Prod.fst e
        have e4 := congrArg Prod.snd e
        simp only [] at e3 e4
        rw [← e3, ← e4]
        exact hc

/-- Whatever the fuel, the container parsers keep the record of events in
order: the sink is not invoked after a refusal. -/
theorem evStep (env : Env) : ∀ fuel, EvStep env fuel := by
  intro fuel
  induction fuel with
  | zero =>
    refine ⟨?_, ?_, ?_, ?_, ?_, ?_, ?_⟩
    · intro top p n s r s' _ h; rw [r_parse_any] at h; cases h
    · intro hdr k cnt p n s r H c s' _ h; rw [i_parse_array] at h; cases h
    · intro hl H k hc cnt i tcnt np n s r H' c s' _ h; rw [i_parse_array_loop] at h; cases h
    · intro p n s r s' _ h; rw [i_parse_object] at h; cases h
    · intro i np n s r s' _ h; rw [i_parse_object_loop] at h; cases h
    · intro p n s r s' _ h; rw [i_parse_block] at h; cases h
    · intro r0 H cnt i np n s r s' _ h; rw [i_parse_block_loop] at h; cases h
  | succ n ih =>
    exact ⟨r_parse_any_inv env n ih, i_parse_array_inv env n ih, i_parse_array_loop_inv env n ih,
      i_parse_object_inv env n ih, i_parse_object_loop_inv env n ih, i_parse_block_inv env n ih,
      i_parse_block_loop_inv env n ih⟩

theorem xjs_parse_from_inv (env : Env) (fuel : Nat) (s : State) (r : Int)
    (e : Option (List Char)) (s' : State) (hs : AllOk env.node_cb s.events)
    (h : xjs_parse_from env fuel s = some (r, e, s')) : Halts env.node_cb s'.events := by
  unfold xjs_parse_from at h
  split at h
  · cases h
  · rename_i r1 s1 heq
    have i1 := (evStep env fuel).any _ _ _ _ _ _ hs heq
    generalize hy : (if peek s1.js ≠ NUL then i_eatwhite env fuel s1 else some (XJS_OK, s1)) = q at h
    cases q with
    | none => cases h
    | some q =>
      obtain ⟨r2, s2⟩ := q
      have e2 : s2.events = s1.events := by
        split at hy
        · exact i_eatwhite_events env _ _ _ _ hy
        · cases hy; rfl
      simp only [] at h
      cases h
      rw [e2]
      exact i1.1

theorem allOk_nil (cb : XJSNodeCB) : AllOk cb [] := by
  intro pre e post h
  exact absurd h (by simp)

/-- C4: in every run of xjs_parse that returns, whatever the input, the
sink, the refill callback and the allocator, an event to which the sink
answered with a status other than XJS_OK is the last event of the run: the
sink is not invoked again. The container parsers of arrays, objects, block
headers and block records are all covered. -/
theorem C4_sink_not_invoked_after_refusal (blocks : Bool) (fallback : Option XJSMemCB) (fuel : Nat)
    (json : Option (List Char)) (node_cb : XJSNodeCB) (inp_cb : Option XJSInputCB)
    (mem_cb : Option XJSMemCB) (r : Int) (errpos : Option (List Char)) (s : State)
    (h : xjs_parse blocks fallback fuel json node_cb inp_cb mem_cb = some (r, errpos, s)) :
    ∀ pre e post, s.events = pre ++ e :: post → (node_cb pre e).1 ≠ XJS_OK → post = [] := by
  have key : Halts node_cb s.events := by
    unfold xjs_parse at h
    split at h
    · cases h; exact (allOk_nil _).halts
    · rename_i m hm
      split at h
      · have h1 := xjs_parse_from_inv _ fuel _ _ _ _ (allOk_nil _) h
        exact h1
      · split at h
        · cases h; exact (allOk_nil _).halts
        · split at h
          · cases h; exact (allOk_nil _).halts
          · have h1 := xjs_parse_from_inv _ fuel _ _ _ _ (allOk_nil _) h
            exact h1
  intro pre e post he hne
  by_contra hp
  exact hne (key pre e post he hp)

/-- C4 on `[1]` with a sink that refuses the second event, the number: the
run ends with the two events of the array start and the number, the end of
the array is not reported. -/
theorem C4_sink_not_invoked_after_refusal_witness :
    xjs_parse false none 20 (some "[1]".toList) (sinkRefuseAt 1) none (some memGrant)
        = some (XJS_ERR_MORE_INPUT, some "]".toList,
            { js := "]".toList, calls := 0,
              events := [⟨0, XJS_array, none, none⟩, ⟨0, XJS_number, some "1".toList, some "1".toList⟩],
              mem := [⟨XJS_alloc, XJS_number, 0, 256⟩, ⟨XJS_free, XJS_number, 1, 0⟩],
              writes := [(0, 256), (1, 256)], hdrReads := [] }) ∧
      ∀ pre e post,
        [(⟨0, XJS_array, none, none⟩ : Event), ⟨0, XJS_number, some "1".toList, some "1".toList⟩]
          = pre ++ e :: post → (sinkRefuseAt 1 pre e).1 ≠ XJS_OK → post = [] :=
  ⟨by decide!, C4_sink_not_invoked_after_refusal false none 20 (some "[1]".toList) (sinkRefuseAt 1)
    none (some memGrant) XJS_ERR_MORE_INPUT (some "]".toList)
    { js := "]".toList, calls := 0,
      events := [⟨0, XJS_array, none, none⟩, ⟨0, XJS_number, some "1".toList, some "1".toList⟩],
      mem := [⟨XJS_alloc, XJS_number, 0, 256⟩, ⟨XJS_free, XJS_number, 1, 0⟩],
      writes := [(0, 256), (1, 256)], hdrReads := [] } (by decide!)⟩

/-- C5 fails at `[1]` with a sink that returns XJS_ERR at the second event,
the number: xjs_parse returns XJS_ERR_MORE_INPUT, not the status of the
sink, because the cursor stands on the closing bracket when line 177 tests
it. -/
theorem C5_sink_status_overridden :
    (sinkRefuseAt 1 [⟨0, XJS_array, none, none⟩]
        ⟨0, XJS_number, some "1".toList, some "1".toList⟩).1 = XJS_ERR ∧
      (xjs_parse false none 20 (some "[1]".toList) (sinkRefuseAt 1) none
        (some memGrant)).map (fun x => (x.1, x.2.2.events))
        = some (XJS_ERR_MORE_INPUT,
            [⟨0, XJS_array, none, none⟩, ⟨0, XJS_number, some "1".toList, some "1".toList⟩]) ∧
      XJS_ERR_MORE_INPUT ≠ XJS_ERR := by
  decide!

/-! ## A run fed in chunks against the run on one buffer -/

theorem peek_whole {cs : List (List Char)} {t : State} (ht : StreamInv cs t) :
    peek (whole cs t).js = peek t.js := by
  unfold whole
  cases hjs : t.js with
  | nil =>
    have := ht.2 hjs
    simp [List.drop_eq_nil_of_le this]
  | cons c r => simp [peek]

@[simp] theorem whole_events (cs : List (List Char)) (t : State) :
    (whole cs t).events = t.events := rfl

@[simp] theorem whole_mem (cs : List (List Char)) (t : State) : (whole cs t).mem = t.mem := rfl

@[simp] theorem noRefill_node_cb (env : Env) : env.noRefill.node_cb = env.node_cb := rfl

@[simp] theorem noRefill_mem_cb (env : Env) : env.noRefill.mem_cb = env.mem_cb := rfl

@[simp] theorem noRefill_blocks (env : Env) : env.noRefill.blocks = env.blocks := rfl

@[simp] theorem noRefill_inp_cb (env : Env) : env.noRefill.inp_cb = none := rfl

theorem peek_ne_NUL_of_mem {js : List Char} (h : NUL ∉ js) (hne : js ≠ []) : peek js ≠ NUL := by
  cases js with
  | nil => exact absurd rfl hne
  | cons c r =>
    intro hc
    simp only [peek, List.headD_cons] at hc
    exact h (by simp [hc])

theorem i_advance0_sim {env : Env} {cs : List (List Char)} (hs : Sim env cs) {t : State}
    (ht : StreamInv cs t) :
    i_advance0 env.noRefill (whole cs t) = ((i_advance0 env t).1, whole cs (i_advance0 env t).2) ∧
      StreamInv cs (i_advance0 env t).2 := by
  obtain ⟨js, calls, events, mem, writes, hdrReads⟩ := t
  obtain ⟨hnul, hend⟩ := ht
  simp only at hnul hend
  cases js with
  | nil =>
    have hlen := hend rfl
    have hget : cs[calls]? = none := List.getElem?_eq_none hlen
    simp [i_advance0, whole, hs.cb, refillOf, hget, List.drop_eq_nil_of_le hlen,
      List.drop_eq_nil_of_le (Nat.le_succ_of_le hlen), StreamInv]
    omega
  | cons c r =>
    have hc : c ≠ NUL := fun h => hnul (by simp [h])
    have hr : NUL ∉ r := fun h => hnul (by simp [h])
    cases r with
    | cons d r2 =>
      have hd : d ≠ NUL := fun h => hr (by simp [h])
      simp [i_advance0, whole, hs.cb, hc, hd, StreamInv]
      simpa using hr
    | nil =>
      cases hget : cs[calls]? with
      | none =>
        have hlen : cs.length ≤ calls := by
          by_contra hlt
          rw [List.getElem?_eq_getElem (by omega)] at hget
          cases hget
        simp [i_advance0, whole, hs.cb, hc, refillOf, hget, List.drop_eq_nil_of_le hlen,
          List.drop_eq_nil_of_le (Nat.le_succ_of_le hlen), StreamInv]
        omega
      | some ch =>
        have hlt : calls < cs.length := by
          by_contra hge
          rw [List.getElem?_eq_none (by omega)] at hget
          cases hget
        have hmem : ch ∈ cs := by
          rw [List.getElem?_eq_getElem hlt] at hget
          cases hget
          exact List.getElem_mem _
        obtain ⟨hne, hnn⟩ := hs.good ch hmem
        have hdrop : cs.drop calls = ch :: cs.drop (calls + 1) := by
          rw [List.drop_eq_getElem_cons hlt]
          rw [List.getElem?_eq_getElem hlt] at hget
          cases hget; rfl
        have hp : peek ch ≠ NUL := peek_ne_NUL_of_mem hnn hne
        have hp2 : peek (ch ++ (cs.drop (calls + 1)).join) ≠ NUL := by
          cases ch with
          | nil => exact absurd rfl hne
          | cons a b => simpa [peek] using hp
        simp [i_advance0, whole, hs.cb, hc, refillOf, hget, hdrop, StreamInv, hp, hp2]
        exact ⟨hnn, fun h => absurd h hne⟩

@[simp] theorem call_node_sim (env : Env) (cs : List (List Char)) (np : Nat) (k : XJSType)
    (n v : Option (List Char)) (t : State) :
    call_node env.noRefill np k n v (whole cs t)
      = ((call_node env np k n v t).1, (call_node env np k n v t).2.1,
          whole cs (call_node env np k n v t).2.2) := rfl

@[simp] theorem call_node_streamInv (env : Env) (cs : List (List Char)) (np : Nat) (k : XJSType)
    (n v : Option (List Char)) (t : State) :
    StreamInv cs (call_node env np k n v t).2.2 ↔ StreamInv cs t := Iff.rfl

@[simp] theorem call_mem_sim (env : Env) (cs : List (List Char)) (req : MemCall) (t : State) :
    call_mem env.noRefill req (whole cs t)
      = ((call_mem env req t).1, whole cs (call_mem env req t).2) := rfl

@[simp] theorem call_mem_streamInv (env : Env) (cs : List (List Char)) (req : MemCall)
    (t : State) : StreamInv cs (call_mem env req t).2 ↔ StreamInv cs t := Iff.rfl

@[simp] theorem mem_free_sim (env : Env) (cs : List (List Char)) (k : XJSType) (p : Nat)
    (t : State) :
    mem_free env.noRefill k p (whole cs t) = whole cs (mem_free env k p t) := rfl

@[simp] theorem mem_free_streamInv (env : Env) (cs : List (List Char)) (k : XJSType) (p : Nat)
    (t : State) : StreamInv cs (mem_free env k p t) ↔ StreamInv cs t := Iff.rfl

@[simp] theorem terminate_sim (cs : List (List Char)) (b : Buf) (t : State) :
    terminate b (whole cs t) = ((terminate b t).1, whole cs (terminate b t).2) := by
  unfold terminate
  split <;> rfl

@[simp] theorem terminate_streamInv (cs : List (List Char)) (b : Buf) (t : State) :
    StreamInv cs (terminate b t).2 ↔ StreamInv cs t := by
  unfold terminate
  split <;> exact Iff.rfl

@[simp] theorem hdr_read_sim (env : Env) (cs : List (List Char)) (H : Hdr) (i : Nat)
    (t : State) :
    hdr_read env.noRefill H i (whole cs t)
      = ((hdr_read env H i t).1, whole cs (hdr_read env H i t).2) := rfl

@[simp] theorem hdr_read_streamInv (env : Env) (cs : List (List Char)) (H : Hdr) (i : Nat)
    (t : State) : StreamInv cs (hdr_read env H i t).2 ↔ StreamInv cs t := Iff.rfl

@[simp] theorem hdr_grow_sim (env : Env) (cs : List (List Char)) (hl : Bool) (H : Hdr)
    (cnt tcnt : Nat) (t : State) :
    hdr_grow env.noRefill hl H cnt tcnt (whole cs t)
      = ((hdr_grow env hl H cnt tcnt t).1, (hdr_grow env hl H cnt tcnt t).2.1,
          (hdr_grow env hl H cnt tcnt t).2.2.1, whole cs (hdr_grow env hl H cnt tcnt t).2.2.2) := by
  unfold hdr_grow
  simp only [call_mem_sim]
  repeat' split
  all_goals rfl

@[simp] theorem hdr_grow_streamInv (env : Env) (cs : List (List Char)) (hl : Bool) (H : Hdr)
    (cnt tcnt : Nat) (t : State) :
    StreamInv cs (hdr_grow env hl H cnt tcnt t).2.2.2 ↔ StreamInv cs t := by
  unfold hdr_grow
  simp only []
  repeat' split
  all_goals exact Iff.rfl

theorem hdr_fold_sim (env : Env) (cs : List (List Char)) (H : Hdr) (l : List Nat) (t : State) :
    l.foldl (fun st i => match hdr_read env.noRefill H i st with
        | (v, st1) => mem_free env.noRefill XJS_name v.1 st1) (whole cs t)
      = whole cs (l.foldl (fun st i => match hdr_read env H i st with
        | (v, st1) => mem_free env XJS_name v.1 st1) t) := by
  induction l generalizing t with
  | nil => rfl
  | cons a l ih =>
    rw [List.foldl_cons, List.foldl_cons]
    exact ih (mem_free env XJS_name (hdr_read env H a t).1.1 (hdr_read env H a t).2)

theorem hdr_fold_streamInv (env : Env) (cs : List (List Char)) (H : Hdr) (l : List Nat)
    (t : State) :
    StreamInv cs (l.foldl (fun st i => match hdr_read env H i st with
        | (v, st1) => mem_free env XJS_name v.1 st1) t) ↔ StreamInv cs t := by
  induction l generalizing t with
  | nil => exact Iff.rfl
  | cons a l ih =>
    rw [List.foldl_cons]
    exact (ih _).trans Iff.rfl

@[simp] theorem hdr_cleanup_sim (env : Env) (cs : List (List Char)) (H : Hdr) (cnt : Nat)
    (t : State) :
    hdr_cleanup env.noRefill H cnt (whole cs t) = whole cs (hdr_cleanup env H cnt t) := by
  unfold hdr_cleanup
  split
  · rw [hdr_fold_sim]; rfl
  · rfl

@[simp] theorem hdr_cleanup_streamInv (env : Env) (cs : List (List Char)) (H : Hdr) (cnt : Nat)
    (t : State) : StreamInv cs (hdr_cleanup env H cnt t) ↔ StreamInv cs t := by
  unfold hdr_cleanup
  split
  · exact Iff.rfl.trans (hdr_fold_streamInv env cs H _ t)
  · exact Iff.rfl

theorem i_assign_store_sim {env : Env} {cs : List (List Char)} (hs : Sim env cs) (b : Buf)
    {t : State} (ht : StreamInv cs t) :
    i_assign_store env.noRefill b (whole cs t)
        = ((i_assign_store env b t).1, (i_assign_store env b t).2.1,
            whole cs (i_assign_store env b t).2.2) ∧
      StreamInv cs (i_assign_store env b t).2.2 := by
  unfold i_assign_store
  simp only [peek_whole ht]
  split
  · exact ⟨rfl, ht⟩
  · have ht1 : StreamInv cs { t with writes := t.writes ++ [(b.used, b.mxsz)] } := ht
    have h1 := i_advance0_sim hs ht1
    constructor
    · simp only []
      have : ({ whole cs t with writes := (whole cs t).writes ++ [(b.used, b.mxsz)] } : State)
          = whole cs { t with writes := t.writes ++ [(b.used, b.mxsz)] } := rfl
      rw [this, h1.1]
    · exact h1.2

theorem i_assign_sim {env : Env} {cs : List (List Char)} (hs : Sim env cs) (c : XJSType) (b : Buf)
    {t : State} (ht : StreamInv cs t) :
    i_assign env.noRefill c b (whole cs t)
        = ((i_assign env c b t).1, (i_assign env c b t).2.1, whole cs (i_assign env c b t).2.2) ∧
      StreamInv cs (i_assign env c b t).2.2 := by
  unfold i_assign
  simp only [call_mem_sim]
  split
  · split
    · exact ⟨rfl, ht⟩
    · exact i_assign_store_sim hs _ ((call_mem_streamInv env cs _ t).mpr ht)
  · exact i_assign_store_sim hs _ ht

theorem i_parse_escape_hex_sim {env : Env} {cs : List (List Char)} (hs : Sim env cs) (c : XJSType) :
    ∀ (n : Nat) (b : Buf) {t : State}, StreamInv cs t →
    i_parse_escape_hex env.noRefill c n b (whole cs t)
        = ((i_parse_escape_hex env c n b t).1, (i_parse_escape_hex env c n b t).2.1,
            whole cs (i_parse_escape_hex env c n b t).2.2) ∧
      StreamInv cs (i_parse_escape_hex env c n b t).2.2 := by
  intro n
  induction n with
  | zero => intro b t ht; exact ⟨rfl, ht⟩
  | succ n ih =>
    intro b t ht
    have h1 := i_assign_sim hs c b ht
    simp only [i_parse_escape_hex, peek_whole ht, h1.1]
    split
    · exact ⟨rfl, ht⟩
    · split
      · exact ⟨rfl, h1.2⟩
      · exact ih _ h1.2

theorem i_parse_escape_sim {env : Env} {cs : List (List Char)} (hs : Sim env cs) (c : XJSType)
    (b : Buf) {t : State} (ht : StreamInv cs t) :
    i_parse_escape env.noRefill c b (whole cs t)
        = ((i_parse_escape env c b t).1, (i_parse_escape env c b t).2.1,
            whole cs (i_parse_escape env c b t).2.2) ∧
      StreamInv cs (i_parse_escape env c b t).2.2 := by
  have h1 := i_assign_sim hs c b ht
  have h2 := i_assign_sim hs c (i_assign env c b t).2.1 h1.2
  have h3 := i_parse_escape_hex_sim hs c 4 (i_assign env c (i_assign env c b t).2.1
    (i_assign env c b t).2.2).2.1 h2.2
  simp only [i_parse_escape, peek_whole ht, h1.1, peek_whole h1.2, h2.1]
  split
  · exact ⟨rfl, ht⟩
  · split
    · exact ⟨rfl, h1.2⟩
    · split
      · exact ⟨rfl, h1.2⟩
      · split
        · exact ⟨rfl, h2.2⟩
        · split
          · exact h3
          · exact ⟨rfl, h2.2⟩

theorem i_parse_literal_loop_sim {env : Env} {cs : List (List Char)} (hs : Sim env cs) :
    ∀ (lit : List Char) {t : State}, StreamInv cs t →
    i_parse_literal_loop env.noRefill lit (whole cs t)
        = ((i_parse_literal_loop env lit t).1, whole cs (i_parse_literal_loop env lit t).2) ∧
      StreamInv cs (i_parse_literal_loop env lit t).2 := by
  intro lit
  induction lit with
  | nil => intro t ht; exact ⟨rfl, ht⟩
  | cons l rest ih =>
    intro t ht
    have h1 := i_advance0_sim hs ht
    simp only [i_parse_literal_loop, peek_whole ht, h1.1]
    split
    · exact ⟨rfl, ht⟩
    · split
      · exact ⟨rfl, h1.2⟩
      · exact ih h1.2

/-- The result of a fuelled lexer on the one buffer is the result of the
lexer fed in chunks, the state replaced by the state that stands for it. -/
theorem i_eatwhite_sim {env : Env} {cs : List (List Char)} (hs : Sim env cs) :
    ∀ (fuel : Nat) {t : State}, StreamInv cs t →
    i_eatwhite env.noRefill fuel (whole cs t)
        = (i_eatwhite env fuel t).map (fun x => (x.1, whole cs x.2)) ∧
      ∀ x, i_eatwhite env fuel t = some x → StreamInv cs x.2 := by
  intro fuel
  induction fuel with
  | zero => intro t ht; simp [i_eatwhite]
  | succ n ih =>
    intro t ht
    have h1 := i_advance0_sim hs ht
    simp only [i_eatwhite, peek_whole ht, h1.1]
    split
    · split
      · refine ⟨rfl, ?_⟩
        intro x hx; cases hx; exact h1.2
      · exact ih h1.2
    · refine ⟨rfl, ?_⟩
      intro x hx; cases hx; exact ht

theorem i_advance_sim {env : Env} {cs : List (List Char)} (hs : Sim env cs) (fuel : Nat)
    (ew : Bool) {t : State} (ht : StreamInv cs t) :
    i_advance env.noRefill fuel ew (whole cs t)
        = (i_advance env fuel ew t).map (fun x => (x.1, whole cs x.2)) ∧
      ∀ x, i_advance env fuel ew t = some x → StreamInv cs x.2 := by
  have h1 := i_advance0_sim hs ht
  simp only [i_advance, h1.1]
  split
  · refine ⟨rfl, ?_⟩
    intro x hx; cases hx; exact h1.2
  · split
    · exact i_eatwhite_sim hs fuel h1.2
    · refine ⟨rfl, ?_⟩
      intro x hx; cases hx; exact h1.2

theorem i_parse_string_loop_sim {env : Env} {cs : List (List Char)} (hs : Sim env cs)
    (c : XJSType) : ∀ (fuel : Nat) (b : Buf) {t : State}, StreamInv cs t →
    i_parse_string_loop env.noRefill c fuel b (whole cs t)
        = (i_parse_string_loop env c fuel b t).map (fun x => (x.1, x.2.1, whole cs x.2.2)) ∧
      ∀ x, i_parse_string_loop env c fuel b t = some x → StreamInv cs x.2.2 := by
  intro fuel
  induction fuel with
  | zero => intro b t ht; simp [i_parse_string_loop]
  | succ n ih =>
    intro b t ht
    have h1 := i_assign_sim hs c b ht
    have h2 := i_parse_escape_sim hs c b ht
    by_cases hb : peek t.js ≠ '\\'
    · simp only [i_parse_string_loop, peek_whole ht, hb, if_true, not_false_eq_true, h1.1]
      split
      · split
        · exact ⟨rfl, fun x hx => by cases hx; exact h1.2⟩
        · exact ih _ h1.2
      · exact ⟨rfl, fun x hx => by cases hx; exact ht⟩
    · simp only [i_parse_string_loop, peek_whole ht, hb, if_false, h2.1]
      split
      · split
        · exact ⟨rfl, fun x hx => by cases hx; exact h2.2⟩
        · exact ih _ h2.2
      · exact ⟨rfl, fun x hx => by cases hx; exact ht⟩

theorem i_parse_string_sim {env : Env} {cs : List (List Char)} (hs : Sim env cs) (fuel : Nat)
    (c : XJSType) (b : Buf) {t : State} (ht : StreamInv cs t) :
    i_parse_string env.noRefill fuel c b (whole cs t)
        = (i_parse_string env fuel c b t).map (fun x => (x.1, x.2.1, whole cs x.2.2)) ∧
      ∀ x, i_parse_string env fuel c b t = some x → StreamInv cs x.2.2 := by
  have h1 := i_eatwhite_sim hs fuel ht
  unfold i_parse_string
  rw [h1.1]
  cases he : i_eatwhite env fuel t with
  | none => exact ⟨rfl, fun x hx => by cases hx⟩
  | some x =>
    obtain ⟨r1, t1⟩ := x
    have ht1 : StreamInv cs t1 := h1.2 _ he
    have h2 := i_advance0_sim hs ht1
    have h3 := i_parse_string_loop_sim hs c fuel b h2.2
    simp only [Option.map_some', peek_whole ht1, h2.1]
    split
    · exact ⟨rfl, fun x hx => by cases hx; exact ht1⟩
    · split
      · exact ⟨rfl, fun x hx => by cases hx; exact ht1⟩
      · split
        · exact ⟨rfl, fun x hx => by cases hx; exact h2.2⟩
        · rw [h3.1]
          cases he3 : i_parse_string_loop env c fuel b (i_advance0 env t1).2 with
          | none => exact ⟨rfl, fun x hx => by cases hx⟩
          | some x3 =>
            obtain ⟨r3, b3, t3⟩ := x3
            have ht3 : StreamInv cs t3 := h3.2 _ he3
            have h4 := i_advance0_sim hs ht3
            simp only [Option.map_some', peek_whole ht3, h4.1, terminate_sim]
            split
            · exact ⟨rfl, fun x hx => by cases hx; exact ht3⟩
            · split
              · exact ⟨rfl, fun x hx => by cases hx; exact ht3⟩
              · split
                · exact ⟨rfl, fun x hx => by cases hx; exact h4.2⟩
                · exact ⟨rfl, fun x hx => by
                    cases hx; exact (terminate_streamInv cs _ _).mpr h4.2⟩

theorem i_parse_literal_sim {env : Env} {cs : List (List Char)} (hs : Sim env cs) (fuel : Nat)
    (lit : List Char) {t : State} (ht : StreamInv cs t) :
    i_parse_literal env.noRefill fuel lit (whole cs t)
        = (i_parse_literal env fuel lit t).map (fun x => (x.1, whole cs x.2)) ∧
      ∀ x, i_parse_literal env fuel lit t = some x → StreamInv cs x.2 := by
  have h1 := i_eatwhite_sim hs fuel ht
  unfold i_parse_literal
  rw [h1.1]
  cases he : i_eatwhite env fuel t with
  | none => exact ⟨rfl, fun x hx => by cases hx⟩
  | some x =>
    obtain ⟨r1, t1⟩ := x
    have ht1 : StreamInv cs t1 := h1.2 _ he
    have h2 := i_parse_literal_loop_sim hs lit ht1
    simp only [Option.map_some', peek_whole ht1, h2.1, peek_whole h2.2]
    split
    · exact ⟨rfl, fun x hx => by cases hx; exact ht1⟩
    · split
      · exact ⟨rfl, fun x hx => by cases hx; exact ht1⟩
      · split
        · exact ⟨rfl, fun x hx => by cases hx; exact h2.2⟩
        · split
          · exact ⟨rfl, fun x hx => by cases hx; exact h2.2⟩
          · exact ⟨rfl, fun x hx => by cases hx; exact h2.2⟩

theorem i_parse_number_digits_sim {env : Env} {cs : List (List Char)} (hs : Sim env cs) :
    ∀ (fuel : Nat) (b : Buf) {t : State}, StreamInv cs t →
    i_parse_number_digits env.noRefill fuel b (whole cs t)
        = (i_parse_number_digits env fuel b t).map (fun x => (x.1, x.2.1, whole cs x.2.2)) ∧
      ∀ x, i_parse_number_digits env fuel b t = some x → StreamInv cs x.2.2 := by
  intro fuel
  induction fuel with
  | zero => intro b t ht; simp [i_parse_number_digits]
  | succ n ih =>
    intro b t ht
    have h1 := i_assign_sim hs XJS_number b ht
    simp only [i_parse_number_digits, peek_whole ht, h1.1]
    split
    · split
      · exact ⟨rfl, fun x hx => by cases hx; exact h1.2⟩
      · exact ih _ h1.2
    · exact ⟨rfl, fun x hx => by cases hx; exact ht⟩

/-- The tail shared by the number productions: the digits, then the
terminator stored. -/
theorem digits_terminate_sim {env : Env} {cs : List (List Char)} (hs : Sim env cs) (fuel : Nat)
    (b : Buf) {t : State} (ht : StreamInv cs t) :
    (match i_parse_number_digits env.noRefill fuel b (whole cs t) with
      | none => none
      | some (r3, b3, s3) =>
        if r3 ≠ XJS_OK then some (r3, b3, s3)
        else match terminate b3 s3 with
          | (b4, s4) => some (XJS_OK, b4, s4))
      = (match i_parse_number_digits env fuel b t with
          | none => none
          | some (r3, b3, s3) =>
            if r3 ≠ XJS_OK then some (r3, b3, s3)
            else match terminate b3 s3 with
              | (b4, s4) => some (XJS_OK, b4, s4)).map
            (fun x : Int × Buf × State => (x.1, x.2.1, whole cs x.2.2)) ∧
      ∀ x, (match i_parse_number_digits env fuel b t with
          | none => none
          | some (r3, b3, s3) =>
            if r3 ≠ XJS_OK then some (r3, b3, s3)
            else match terminate b3 s3 with
              | (b4, s4) => some (XJS_OK, b4, s4)) = some x → StreamInv cs x.2.2 := by
  have h3 := i_parse_number_digits_sim hs fuel b ht
  rw [h3.1]
  cases he3 : i_parse_number_digits env fuel b t with
  | none => exact ⟨rfl, fun x hx => by cases hx⟩
  | some x3 =>
    obtain ⟨r3, b3, t3⟩ := x3
    have ht3 : StreamInv cs t3 := h3.2 _ he3
    simp only [Option.map_some', terminate_sim]
    split
    · exact ⟨rfl, fun x hx => by cases hx; exact ht3⟩
    · exact ⟨rfl, fun x hx => by cases hx; exact (terminate_streamInv cs _ _).mpr ht3⟩

theorem i_parse_number_exp_sim {env : Env} {cs : List (List Char)} (hs : Sim env cs) (fuel : Nat)
    (b : Buf) {t : State} (ht : StreamInv cs t) :
    i_parse_number_exp env.noRefill fuel b (whole cs t)
        = (i_parse_number_exp env fuel b t).map (fun x => (x.1, x.2.1, whole cs x.2.2)) ∧
      ∀ x, i_parse_number_exp env fuel b t = some x → StreamInv cs x.2.2 := by
  have h1 := i_assign_sim hs XJS_number b ht
  have h2 := i_assign_sim hs XJS_number (i_assign env XJS_number b t).2.1 h1.2
  unfold i_parse_number_exp
  simp only [peek_whole ht, h1.1]
  split
  · split
    · exact ⟨rfl, fun x hx => by cases hx; exact h1.2⟩
    · by_cases hpm : peek (i_assign env XJS_number b t).2.2.js = '+' ∨
          peek (i_assign env XJS_number b t).2.2.js = '-'
      · simp only [peek_whole h1.2, hpm, if_true, h2.1, peek_whole h2.2]
        split
        · exact ⟨rfl, fun x hx => by cases hx; exact h2.2⟩
        · split
          · exact ⟨rfl, fun x hx => by cases hx; exact h2.2⟩
          · exact digits_terminate_sim hs fuel _ h2.2
      · simp only [peek_whole h1.2, hpm, if_false]
        split
        · exact ⟨rfl, fun x hx => by cases hx; exact h1.2⟩
        · split
          · exact ⟨rfl, fun x hx => by cases hx; exact h1.2⟩
          · exact digits_terminate_sim hs fuel _ h1.2
  · simp only [terminate_sim]
    exact ⟨rfl, fun x hx => by cases hx; exact (terminate_streamInv cs _ _).mpr ht⟩

/-! ## The top level takes containers only -/

/-- C11: when the first character of the input that is not white space is
no opening bracket of a container (a brace, a square bracket, or a
parenthesis with blocks enabled), xjs_parse returns a status other than
XJS_OK and the sink is not invoked, whatever the sink, the refill callback
and the allocator are. -/
theorem C11_top_level_scalar_rejected (blocks : Bool) (fallback : Option XJSMemCB)
    (node_cb : XJSNodeCB) (inp_cb : Option XJSInputCB) (mem_cb : Option XJSMemCB)
    (ws : List Char) (hws : isWs ws) (c : Char) (rest : List Char) (hc0 : c ≠ NUL)
    (hcs : isspace c = false) (hc1 : c ≠ '\x7b') (hc2 : c ≠ '[') (hc3 : blocks = true → c ≠ '(') :
    ∃ r e s, Runs (fun fuel => xjs_parse blocks fallback fuel (some (ws ++ c :: rest)) node_cb
        inp_cb mem_cb) (r, e, s) ∧ r ≠ XJS_OK ∧ s.events = [] := by
  cases hm : (if mem_cb.isSome then mem_cb else fallback) with
  | none =>
    refine ⟨XJS_ERR_MEM_MISSING, none, State.init (ws ++ c :: rest) 0, ⟨0, fun fuel _ => ?_⟩,
      by decide, rfl⟩
    show xjs_parse blocks fallback fuel (some (ws ++ c :: rest)) node_cb inp_cb mem_cb = _
    simp only [xjs_parse, hm, Option.getD_some]
  | some m =>
    refine ⟨XJS_ERR_MORE_INPUT, some (c :: rest),
      { State.init (ws ++ c :: rest) 0 with js := c :: rest },
      ⟨ws.length + 2, fun fuel hf => ?_⟩, by decide, rfl⟩
    show xjs_parse blocks fallback fuel (some (ws ++ c :: rest)) node_cb inp_cb mem_cb = _
    obtain ⟨f, rfl⟩ : ∃ f, fuel = f + 1 := ⟨fuel - 1, by omega⟩
    have e1 := i_eatwhite_skip ⟨blocks, node_cb, inp_cb, m⟩ ws hws c rest hcs hc0
      (State.init (ws ++ c :: rest) 0) rfl f (by omega)
    have e2 := i_eatwhite_skip ⟨blocks, node_cb, inp_cb, m⟩ [] (by simp [isWs]) c rest hcs hc0
      { State.init (ws ++ c :: rest) 0 with js := c :: rest } rfl (f + 1) (by simp)
    have hb : ¬(blocks = true ∧ c = '(') := fun h => hc3 h.1 h.2
    simp only [xjs_parse, hm, xjs_parse_from, r_parse_any, e1, peek_cons, hc1, hc2, hb, hc0,
      if_true, if_false, ne_eq, not_true_eq_false, not_false_eq_true, e2, final_status]
    simp

/-- C11 on the bare number 12 after a blank, with a sink that refuses every
event and no refill callback. -/
theorem C11_top_level_scalar_rejected_witness :
    ∃ r e s, Runs (fun fuel => xjs_parse true none fuel (some (" ".toList ++ '1' :: "2".toList))
        (sinkRefuseAt 0) none (some memGrant)) (r, e, s) ∧ r ≠ XJS_OK ∧ s.events = [] :=
  C11_top_level_scalar_rejected true none (sinkRefuseAt 0) none (some memGrant) " ".toList
    (by simp [isWs]; decide) '1' "2".toList (by decide) (by decide) (by decide) (by decide)
    (fun _ => by decide)

/-! ## Worked runs that show defects of the code -/

/-- C12 fails at the input made of an opening brace alone, and of an
opening brace and a blank: xjs_parse returns XJS_OK after the single event
of the object start; the end of the input is taken as the end of the
object. -/
theorem C12_open_brace_accepted :
    (xjs_parse false none 20 (some "\x7b".toList) sinkOk none (some memGrant)).map
        (fun x => (x.1, x.2.2.events))
        = some (XJS_OK, [⟨0, XJS_object, none, none⟩]) ∧
      (xjs_parse false none 20 (some "\x7b ".toList) sinkOk none (some memGrant)).map
        (fun x => (x.1, x.2.2.events))
        = some (XJS_OK, [⟨0, XJS_object, none, none⟩]) := by
  decide!

/-- C13 fails at the block of the header a, b and the records 1, 2 and
3, 4, written with a comma after the header as in the README: with blocks
enabled xjs_parse returns XJS_ERR_MORE_INPUT after the events of the header,
the cursor on the comma that follows the header; no record is reported. -/
theorem C13_block_example_rejected :
    (xjs_parse true none 30 (some "([\"a\",\"b\"],[1,2],[3,4])".toList) sinkOk none
        (some memGrant)).map (fun x => (x.1, x.2.1, x.2.2.events))
      = some (XJS_ERR_MORE_INPUT, some ",[1,2],[3,4])".toList,
          [⟨0, XJS_block, none, none⟩, ⟨0, XJS_block_header, none, none⟩,
           ⟨0, XJS_name, some "1".toList, some "a".toList⟩,
           ⟨0, XJS_name, some "2".toList, some "b".toList⟩,
           ⟨0, XJS_block_header_end, none, none⟩]) := by
  decide!

/-- C15 fails at the empty array: xjs_parse returns XJS_OK and leaves in
`*errpos` the cursor, which stands on the terminator and is not NULL. -/
theorem C15_errpos_set_on_success :
    (xjs_parse false none 20 (some "[]".toList) sinkOk none (some memGrant)).map
        (fun x => (x.1, x.2.1)) = some (XJS_OK, some []) ∧
      (some [] : Option (List Char)) ≠ none := by
  decide!

/-- C18 fails, with blocks enabled, at the block whose first header name is
cut off by the end of the input: the buffer of the name, granted by the
second request, is passed to no free request; only the header table is
released. -/
theorem C18_header_name_not_released :
    (xjs_parse true none 20 (some "([\"ab".toList) sinkOk none (some memGrant)).map
        (fun x => (x.1, x.2.2.mem))
      = some (XJS_ERR_BAD_INPUT,
          [⟨XJS_alloc, XJS_block_header, 0, 2048⟩, ⟨XJS_alloc, XJS_name, 0, 256⟩,
           ⟨XJS_free, XJS_block_header, 1, 0⟩]) ∧
      memGrant [⟨XJS_alloc, XJS_block_header, 0, 2048⟩] ⟨XJS_alloc, XJS_name, 0, 256⟩ = (2, 256) := by
  decide!

/-- C19 fails at the array of the string a with an allocator that serves
one byte: the character is stored at index 0 and the terminator at index 1
of the buffer of size 1, and xjs_parse returns XJS_OK. -/
theorem C19_terminator_past_buffer :
    (xjs_parse false none 20 (some "[\"a\"]".toList) sinkOk none (some (memFixed 1))).map
        (fun x => (x.1, x.2.2.writes)) = some (XJS_OK, [(0, 1), (1, 1)]) ∧ ¬((1 : Nat) < 1) := by
  decide!

/-! ## The arity of the records of a block -/

theorem hdr_fold_js (env : Env) (H : Hdr) : ∀ (l : List Nat) (s : State),
    (l.foldl (fun st i => match hdr_read env H i st with
        | (v, st1) => mem_free env XJS_name v.1 st1) s).js = s.js
  | [], s => rfl
  | a :: l, s => by
    rw [List.foldl_cons, hdr_fold_js env H l]
    rfl

theorem hdr_cleanup_js (env : Env) (H : Hdr) (cnt : Nat) (s : State) :
    (hdr_cleanup env H cnt s).js = s.js := by
  unfold hdr_cleanup
  split
  · have hm : ∀ st : State, (mem_free env XJS_block_header H.ptr st).js = st.js := fun _ => rfl
    rw [hm, hdr_fold_js]
  · rfl

/-- C14 fails at the block `(["a","b"][1])` read with a memory manager in
the manner of memcb_static whose buffers hold eight bytes, one slot of the
header table: the table is granted by the first request and the name a by
the second, and a is stored in the table; the request to grow the table for
the name b is refused, line 210 overwrites the pointer of the table with the
NULL returned, and b is released at once. The record `[1]` is parsed with
success, its one element against the two of the header makes i_parse_block
return XJS_ERR_BLOCK_ARRAY_SIZE with the cursor on the closing parenthesis,
and no free request was made for the table (pointer 1) or for the name a
(pointer 2): the clean up of line 285 finds the pointer NULL. Through
xjs_parse the requests are the same; the status is overwritten by line 177
(see C5). -/
theorem C14_table_lost_when_growth_refused :
    (i_parse_block ⟨true, sinkOk, none, memFixed 8⟩ 30 0 none
        (State.init "([\"a\",\"b\"][1])".toList 0)).map (fun x => (x.1, x.2.js, x.2.mem))
      = some (XJS_ERR_BLOCK_ARRAY_SIZE, [')'],
          [⟨XJS_alloc, XJS_block_header, 0, 2048⟩, ⟨XJS_alloc, XJS_name, 0, 256⟩,
           ⟨XJS_alloc, XJS_block_header, 1, 2056⟩, ⟨XJS_alloc, XJS_name, 0, 256⟩,
           ⟨XJS_free, XJS_name, 4, 0⟩, ⟨XJS_alloc, XJS_number, 0, 256⟩,
           ⟨XJS_free, XJS_number, 6, 0⟩]) ∧
      memFixed 8 [] ⟨XJS_alloc, XJS_block_header, 0, 2048⟩ = (1, 8) ∧
      memFixed 8 [⟨XJS_alloc, XJS_block_header, 0, 2048⟩] ⟨XJS_alloc, XJS_name, 0, 256⟩ = (2, 8) ∧
      memFixed 8 [⟨XJS_alloc, XJS_block_header, 0, 2048⟩, ⟨XJS_alloc, XJS_name, 0, 256⟩]
        ⟨XJS_alloc, XJS_block_header, 1, 2056⟩ = (0, 0) ∧
      (xjs_parse true none 30 (some "([\"a\",\"b\"][1])".toList) sinkOk none
          (some (memFixed 8))).map (fun x => (x.1, x.2.2.mem))
        = some (XJS_ERR_MORE_INPUT,
          [⟨XJS_alloc, XJS_block_header, 0, 2048⟩, ⟨XJS_alloc, XJS_name, 0, 256⟩,
           ⟨XJS_alloc, XJS_block_header, 1, 2056⟩, ⟨XJS_alloc, XJS_name, 0, 256⟩,
           ⟨XJS_free, XJS_name, 4, 0⟩, ⟨XJS_alloc, XJS_number, 0, 256⟩,
           ⟨XJS_free, XJS_number, 6, 0⟩]) := by
  decide!

/-! ## The ordinal names of array elements -/

theorem value_named (v : JValue) (name : Option (List Char)) : NamedNode name (v.events name) := by
  cases v with
  | num n => exact Or.inl ⟨XJS_number, some n.text, by simp [JValue.events], Or.inr (Or.inl rfl)⟩
  | str b => exact Or.inl ⟨XJS_string, bodyCstr b, by simp [JValue.events], Or.inl rfl⟩
  | tru => exact Or.inl ⟨XJS_true, none, by simp [JValue.events], Or.inr (Or.inr (Or.inl rfl))⟩
  | fls =>
    exact Or.inl ⟨XJS_false, none, by simp [JValue.events], Or.inr (Or.inr (Or.inr (Or.inl rfl)))⟩
  | nul =>
    exact Or.inl ⟨XJS_null, none, by simp [JValue.events], Or.inr (Or.inr (Or.inr (Or.inr rfl)))⟩
  | arr ws items => exact Or.inr (Or.inl ⟨items.events 1, by simp [JValue.events]⟩)
  | obj ws members => exact Or.inr (Or.inr ⟨members.events, by simp [JValue.events]⟩)

/-- The events of the elements of an array fall into one segment for each
element, the segment of the element at the ordinal `i + j` named by the
decimal text of that ordinal. -/
theorem items_segments : ∀ (items : JItems) (i : Nat),
    ∃ segs : List (List (XJSType × Option (List Char) × Option (List Char))),
      items.events i = segs.flatten ∧ segs.length = items.length ∧
      ∀ j (hj : j < segs.length), NamedNode (some (Nat.toDigits 10 (i + j))) (segs.get ⟨j, hj⟩)
  | .nil, i => ⟨[], by simp [JItems.events], by simp [JItems.length], fun j hj => by simp at hj⟩
  | .cons pre v post tl, i => by
    obtain ⟨segs, h1, h2, h3⟩ := items_segments tl (i + 1)
    refine ⟨v.events (some (Nat.toDigits 10 i)) :: segs, by simp [JItems.events, h1],
      by simp [JItems.length, h2], fun j hj => ?_⟩
    cases j with
    | zero => simpa using value_named v _
    | succ j =>
      have := h3 j (by simpa using hj)
      simpa [Nat.add_assoc, Nat.add_comm 1 j] using this

/-- C16: the dispatcher reads a well formed plain array of k elements to its
end, and the events between the start and the end of the array fall into k
segments, one for each element in order; the segment of the j-th element,
counted from 1, is the single event of a scalar or the events of a container
from its start to its end, and that event, or that start and that end, carry
as name the decimal text of j. The sink returns XJS_OK, the allocator grants,
there is no refill callback. -/
theorem C16_array_ordinals (env : Env) (he : GoodEnv env) (ws0 : List Char) (items : JItems)
    (hws0 : isWs ws0) (hwf : items.wf) (top : Bool) (ws rest : List Char) (hws : isWs ws)
    (parent : Nat) (name : Option (List Char)) (s : State)
    (hs : s.js = ws ++ ((JValue.arr ws0 items).text ++ rest)) :
    ∃ (s' : State) (segs : List (List (XJSType × Option (List Char) × Option (List Char)))),
      Runs (fun fuel => r_parse_any env fuel top parent name s) (XJS_OK, s') ∧
      s'.events.map Event.view = s.events.map Event.view ++
        (XJS_array, name, none) :: (segs.flatten ++ [(XJS_array_end, name, none)]) ∧
      segs.length = items.length ∧
      ∀ j (hj : j < segs.length),
        NamedNode (some (Nat.toDigits 10 (j + 1))) (segs.get ⟨j, hj⟩) := by
  obtain ⟨s', hrun, hp⟩ := value_ok env he (.arr ws0 items) (by simp [JValue.wf]; exact ⟨hws0, hwf⟩)
    top ws rest hws (fun h => by simp [JValue.isContainer] at h) parent name s hs
  obtain ⟨segs, h1, h2, h3⟩ := items_segments items 1
  refine ⟨s', segs, hrun, ?_, h2, fun j hj => ?_⟩
  · rw [hp.2, JValue.events, h1]
  · have := h3 j hj
    rwa [Nat.add_comm 1 j] at this

/-- C16 on the array of the literal true and the array of the literal null,
read at the top level. -/
theorem C16_array_ordinals_witness :
    ∃ (s' : State) (segs : List (List (XJSType × Option (List Char) × Option (List Char)))),
      Runs (fun fuel => r_parse_any envPlain fuel true 0 none
        (State.init "[true,[null]]".toList 0)) (XJS_OK, s') ∧
      s'.events.map Event.view = (State.init "[true,[null]]".toList 0).events.map Event.view ++
        (XJS_array, none, none) :: (segs.flatten ++ [(XJS_array_end, none, none)]) ∧
      segs.length = (JItems.cons [] .tru [] (.cons [] (.arr [] (.cons [] .nul [] .nil)) []
        .nil)).length ∧
      ∀ j (hj : j < segs.length),
        NamedNode (some (Nat.toDigits 10 (j + 1))) (segs.get ⟨j, hj⟩) :=
  C16_array_ordinals envPlain ⟨rfl, memGrant_grants, sinkOk_ok⟩ []
    (.cons [] .tru [] (.cons [] (.arr [] (.cons [] .nul [] .nil)) [] .nil))
    (by simp [isWs]) (by simp [JItems.wf, JValue.wf, isWs]) true [] [] (by simp [isWs]) 0 none
    (State.init "[true,[null]]".toList 0) (by decide)

/-! ## The handle of the parent -/

theorem thr_none {cb : XJSNodeCB} {hist : List Event} {p : Nat} {evs : List Event}
    (h : evs = hist) : ∃ seg, evs = hist ++ seg ∧ Threaded cb hist p seg :=
  ⟨[], by simp [h], .empty _ _⟩

theorem LoopRes.none {cb : XJSNodeCB} {hist : List Event} {np : Nat} {k : XJSType}
    {evs : List Event} (h : evs = hist) : LoopRes cb hist np k evs :=
  ⟨[], [], by simp [h], .nil _ _, Or.inl rfl⟩

theorem LoopRes.close {cb : XJSNodeCB} {hist : List Event} {np : Nat} {k : XJSType}
    {evs : List Event} (e' : Event) (h : evs = hist ++ [e']) (hp : e'.parent = np)
    (hk : e'.kind = k) : LoopRes cb hist np k evs :=
  ⟨[], [e'], by simp [h], .nil _ _, Or.inr ⟨e', rfl, hp, hk⟩⟩

theorem LoopRes.child {cb : XJSNodeCB} {hist : List Event} {np : Nat} {k : XJSType}
    {evs : List Event} (seg : List Event) (h : evs = hist ++ seg)
    (ht : Threaded cb hist np seg) : LoopRes cb hist np k evs :=
  ⟨seg, [], by simp [h], by simpa using Kids.cons hist np seg [] ht (.nil _ _), Or.inl rfl⟩

theorem LoopRes.step {cb : XJSNodeCB} {hist : List Event} {np : Nat} {k : XJSType}
    {evs : List Event} (seg : List Event) (ht : Threaded cb hist np seg)
    (hl : LoopRes cb (hist ++ seg) np k evs) : LoopRes cb hist np k evs := by
  obtain ⟨kids, close, h1, h2, h3⟩ := hl
  exact ⟨seg ++ kids, close, by simp [h1], .cons _ _ _ _ ht h2, h3⟩

/-- A container: its start event, then what its loop adds. -/
theorem thr_container {cb : XJSNodeCB} {hist : List Event} {p : Nat} {evs : List Event}
    (e : Event) (kEnd : XJSType) (hp : e.parent = p)
    (hk : (e.kind = XJS_array ∧ kEnd = XJS_array_end) ∨
      (e.kind = XJS_object ∧ kEnd = XJS_object_end))
    (hl : LoopRes cb (hist ++ [e]) (cb hist e).2 kEnd evs) :
    ∃ seg, evs = hist ++ seg ∧ Threaded cb hist p seg := by
  obtain ⟨kids, close, h1, h2, h3⟩ := hl
  rcases h3 with rfl | ⟨e', rfl, hp', hk'⟩
  · refine ⟨e :: kids, by simp [h1], .opened _ _ _ _ hp ?_ h2⟩
    rcases hk with h | h
    · exact Or.inl h.1
    · exact Or.inr h.1
  · refine ⟨e :: (kids ++ [e']), by simp [h1], .closed _ _ _ _ _ hp ?_ h2 hp'⟩
    rcases hk with h | h
    · exact Or.inl ⟨h.1, hk'.trans h.2⟩
    · exact Or.inr ⟨h.1, hk'.trans h.2⟩

set_option maxHeartbeats 1000000 in
/-- The kind that i_parse_value returns with XJS_OK is the kind of a
scalar. -/
theorem i_parse_value_kind (env : Env) (fuel : Nat) (b : Buf) (s : State) (k : XJSType)
    (b' : Buf) (s' : State) (h : i_parse_value env fuel b s = some (XJS_OK, k, b', s')) :
    isScalarKind k :=
  (i_parse_value_facts env fuel b s XJS_OK k b' s' h).2 rfl

theorem r_parse_any_thr (env : Env) (hb : env.blocks = false) (fuel : Nat) (ih : ThStep env fuel) :
    ∀ top p n s r s' hist, s.events = hist →
    r_parse_any env (fuel + 1) top p n s = some (r, s') →
    ∃ seg, s'.events = hist ++ seg ∧ Threaded env.node_cb hist p seg := by
  intro top p n s r s' hist hs h
  rw [r_parse_any] at h
  split at h
  · cases h
  · rename_i r1 s1 heq
    have e1 := (i_eatwhite_events env _ _ _ _ heq).trans hs
    split at h
    · cases h; exact thr_none e1
    · split at h
      · exact ih.obj _ _ _ _ _ _ e1 h
      · split at h
        · split at h
          · cases h
          · rename_i r2 H2 c2 s2 heq2
            cases h
            exact ih.arr _ _ _ _ _ _ _ _ _ _ e1 heq2
        · split at h
          · rename_i hblk
            rw [hb] at hblk
            exact absurd hblk.1 (by decide)
          · split at h
            · cases h; exact thr_none e1
            · split at h
              · cases h
              · rename_i r2 kind b s2 heq2
                have e2 := (i_parse_value_events env _ _ _ _ _ _ _ heq2).trans e1
                split at h
                · rename_i hok
                  subst hok
                  have hk := i_parse_value_kind env _ _ _ _ _ _ heq2
                  simp only [] at h
                  have e := Option.some.inj h
                  have e4 := congrArg (fun x => x.2.events) e
                  simp only [mem_free_events, call_node] at e4
                  refine ⟨[⟨p, kind, n, b.cstr⟩], ?_, .scalar _ _ _ rfl hk⟩
                  rw [← e4, e2]
                · cases h
                  rw [mem_free_events]
                  exact thr_none e2

theorem i_parse_array_thr (env : Env) (fuel : Nat) (ih : ThStep env fuel) :
    ∀ hdr cnt p n s r H c s' hist, s.events = hist →
    i_parse_array env (fuel + 1) hdr XJS_array cnt p n s = some (r, H, c, s') →
    ∃ seg, s'.events = hist ++ seg ∧ Threaded env.node_cb hist p seg := by
  intro hdr cnt p n s r H c s' hist hs h
  rw [i_parse_array] at h
  split at h
  · cases h
  · rename_i r1 s1 heq
    have e1 := (i_eatwhite_events env _ _ _ _ heq).trans hs
    split at h
    · cases h; exact thr_none e1
    · split at h
      · cases h; exact thr_none e1
      · simp only [] at h
        have ec : (call_node env p XJS_array n none s1).2.2.events
            = hist ++ [⟨p, XJS_array, n, none⟩] := by simp only [call_node, e1]
        have en : (call_node env p XJS_array n none s1).2.1
            = (env.node_cb hist ⟨p, XJS_array, n, none⟩).2 := by simp only [call_node, e1]
        refine thr_container ⟨p, XJS_array, n, none⟩ XJS_array_end rfl (Or.inl ⟨rfl, rfl⟩) ?_
        split at h
        · have e4 := congrArg (fun x => x.2.2.2.events) (Option.some.inj h)
          simp only [] at e4
          exact LoopRes.none (e4.symm.trans ec)
        · split at h
          · cases h
          · rename_i r3 s3 heq3
            have e3 := (i_advance_events env _ _ _ _ _ heq3).trans ec
            split at h
            · cases h; exact LoopRes.none e3
            · rw [en] at h
              exact ih.arrl _ _ _ _ _ _ _ _ _ _ _ _ _ _ e3 h

theorem i_parse_object_thr (env : Env) (fuel : Nat) (ih : ThStep env fuel) :
    ∀ p n s r s' hist, s.events = hist →
    i_parse_object env (fuel + 1) p n s = some (r, s') →
    ∃ seg, s'.events = hist ++ seg ∧ Threaded env.node_cb hist p seg := by
  intro p n s r s' hist hs h
  rw [i_parse_object] at h
  split at h
  · cases h; exact thr_none hs
  · simp only [] at h
    have ec : (call_node env p XJS_object n none s).2.2.events
        = hist ++ [⟨p, XJS_object, n, none⟩] := by simp only [call_node, hs]
    have en : (call_node env p XJS_object n none s).2.1
        = (env.node_cb hist ⟨p, XJS_object, n, none⟩).2 := by simp only [call_node, hs]
    refine thr_container ⟨p, XJS_object, n, none⟩ XJS_object_end rfl (Or.inr ⟨rfl, rfl⟩) ?_
    split at h
    · have e4 := congrArg (fun x => x.2.events) (Option.some.inj h)
      simp only [] at e4
      exact LoopRes.none (e4.symm.trans ec)
    · split at h
      · cases h
      · rename_i r3 s3 heq3
        have e3 := (i_advance_events env _ _ _ _ _ heq3).trans ec
        split at h
        · cases h; exact LoopRes.none e3
        · rw [en] at h
          exact ih.objl _ _ _ _ _ _ _ e3 h

theorem i_parse_array_loop_thr (env : Env) (fuel : Nat) (ih : ThStep env fuel) :
    ∀ hl H hc cnt i tcnt np n s r H' c s' hist, s.events = hist →
    i_parse_array_loop env (fuel + 1) hl H XJS_array hc cnt i tcnt np n s = some (r, H', c, s') →
    LoopRes env.node_cb hist np XJS_array_end s'.events := by
  intro hl H hc cnt i tcnt np n s r H' c s' hist hs h
  rw [i_parse_array_loop] at h
  by_cases hb : peek s.js ≠ ']'
  · rw [if_pos hb] at h
    by_cases hcm : i ≠ 0 ∧ peek s.js ≠ ','
    · rw [if_pos hcm] at h
      cases h; exact LoopRes.none hs
    rw [if_neg hcm] at h
    generalize hx : (if i ≠ 0 then i_advance0 env s else (XJS_OK, s)) = p at h
    have e1 : p.2.events = hist := by rw [← hx, ← hs]; split <;> simp
    obtain ⟨r1, s1⟩ := p
    dsimp only at h e1
    by_cases hr1 : r1 ≠ XJS_OK
    · rw [if_pos hr1] at h
      cases h; exact LoopRes.none e1
    rw [if_neg hr1, if_neg (show ¬(XJS_array = XJS_block_header) by decide),
      if_pos (Or.inr rfl)] at h
    dsimp only at h
    have e2 : s1.events = hist := e1
    cases heq3 : r_parse_any env fuel false np (some (Nat.toDigits 10 (i + 1))) s1 with
    | none => rw [heq3] at h; cases h
    | some x3 =>
    obtain ⟨r3, s3⟩ := x3
    rw [heq3] at h
    dsimp only at h
    obtain ⟨seg, h3, t3⟩ := ih.any _ _ _ _ _ _ _ e2 heq3
    by_cases hr3 : r3 ≠ XJS_OK
    · rw [if_pos hr3] at h
      cases h
      exact LoopRes.child seg h3 t3
    rw [if_neg hr3] at h
    cases heq4 : i_eatwhite env fuel s3 with
    | none => rw [heq4] at h; cases h
    | some x4 =>
    obtain ⟨r4, s4⟩ := x4
    rw [heq4] at h
    dsimp only at h
    have e4 := (i_eatwhite_events env _ _ _ _ heq4).trans h3
    by_cases hr4 : r4 ≠ XJS_OK
    · rw [if_pos hr4] at h
      cases h; exact LoopRes.child seg e4 t3
    rw [if_neg hr4] at h
    exact LoopRes.step seg t3 (ih.arrl _ _ _ _ _ _ _ _ _ _ _ _ _ _ e4 h)
  · rw [if_neg hb] at h
    have e1 := (i_advance0_events env s).trans hs
    generalize i_advance0 env s = p at h e1
    obtain ⟨r1, s1⟩ := p
    dsimp only at h e1
    split at h
    · cases h; exact LoopRes.none e1
    · have e4 := congrArg (fun x => x.2.2.2.events) (Option.some.inj h)
      simp only [call_node] at e4
      refine LoopRes.close ⟨np, XJS_array_end, n, none⟩ ?_ rfl rfl
      rw [← e4, e1]
      rfl

theorem i_parse_object_loop_thr (env : Env) (fuel : Nat) (ih : ThStep env fuel) :
    ∀ i np n s r s' hist, s.events = hist →
    i_parse_object_loop env (fuel + 1) i np n s = some (r, s') →
    LoopRes env.node_cb hist np XJS_object_end s'.events := by
  intro i np n s r s' hist hs h
  rw [i_parse_object_loop] at h
  split at h
  · split at h
    · cases h; exact LoopRes.none hs
    · generalize hx : (if i ≠ 0 then i_advance0 env s else (XJS_OK, s)) = p at h
      have e1 : p.2.events = hist := by rw [← hx, ← hs]; split <;> simp
      obtain ⟨r1, s1⟩ := p
      simp only [] at h e1
      split at h
      · cases h; exact LoopRes.none e1
      · split at h
        · cases h
        · rename_i r2 nb s2 heq2
          have e2 := (i_parse_string_events env _ _ _ _ _ _ _ heq2).trans e1
          generalize hy : (if r2 = XJS_OK then i_eatwhite env fuel s2 else some (r2, s2)) = q at h
          cases q with
          | none => cases h
          | some q =>
            obtain ⟨r3, s3⟩ := q
            have e3 : s3.events = hist := by
              split at hy
              · exact (i_eatwhite_events env _ _ _ _ hy).trans e2
              · cases hy; exact e2
            simp only [] at h
            generalize hz : (if r3 = XJS_OK then
                (if peek s3.js ≠ ':' then (XJS_ERR_EXP_COLON, s3) else i_advance0 env s3)
                else (r3, s3)) = p4 at h
            have e4 : p4.2.events = hist := by
              rw [← hz, ← e3]; split
              · split <;> simp
              · rfl
            obtain ⟨r4, s4⟩ := p4
            simp only [] at h e4
            generalize hw : (if r4 = XJS_OK then r_parse_any env fuel false np nb.cstr s4
                else some (r4, s4)) = q5 at h
            cases q5 with
            | none => cases h
            | some q5 =>
              obtain ⟨r5, s5⟩ := q5
              have i5 : ∃ seg, s5.events = hist ++ seg ∧ Threaded env.node_cb hist np seg := by
                split at hw
                · exact ih.any _ _ _ _ _ _ _ e4 hw
                · cases hw; exact thr_none e4
              obtain ⟨seg, h5, t5⟩ := i5
              simp only [] at h
              have e6 : (if nb.ptr ≠ 0 then mem_free env XJS_name nb.ptr s5 else s5).events
                  = hist ++ seg := by rw [← h5]; split <;> rfl
              generalize (if nb.ptr ≠ 0 then mem_free env XJS_name nb.ptr s5 else s5) = s6 at h e6
              split at h
              · cases h
                exact LoopRes.child seg e6 t5
              · split at h
                · cases h
                · rename_i r7 s7 heq7
                  have e7 := (i_eatwhite_events env _ _ _ _ heq7).trans e6
                  split at h
                  · cases h; exact LoopRes.child seg e7 t5
                  · exact LoopRes.step seg t5 (ih.objl _ _ _ _ _ _ _ e7 h)
  · have e1 := (i_advance0_events env s).trans hs
    generalize i_advance0 env s = p at h e1
    obtain ⟨r1, s1⟩ := p
    simp only [] at h e1
    split at h
    · cases h; exact LoopRes.none e1
    · have e4 := congrArg (fun x => x.2.events) (Option.some.inj h)
      simp only [call_node] at e4
      refine LoopRes.close ⟨np, XJS_object_end, n, none⟩ ?_ rfl rfl
      rw [← e4, e1]

/-- With blocks disabled the parsers thread the handle, whatever the
fuel. -/
theorem thStep (env : Env) (hb : env.blocks = false) : ∀ fuel, ThStep env fuel := by
  intro fuel
  induction fuel with
  | zero =>
    refine ⟨?_, ?_, ?_, ?_, ?_⟩
    · intro top p n s r s' hist _ h; rw [r_parse_any] at h; cases h
    · intro hdr cnt p n s r H c s' hist _ h; rw [i_parse_array] at h; cases h
    · intro hl H hc cnt i tcnt np n s r H' c s' hist _ h; rw [i_parse_array_loop] at h; cases h
    · intro p n s r s' hist _ h; rw [i_parse_object] at h; cases h
    · intro i np n s r s' hist _ h; rw [i_parse_object_loop] at h; cases h
  | succ n ih =>
    exact ⟨r_parse_any_thr env hb n ih, i_parse_array_thr env n ih, i_parse_array_loop_thr env n ih,
      i_parse_object_thr env n ih, i_parse_object_loop_thr env n ih⟩

/-- C17: with blocks disabled, in every run of xjs_parse that returns,
whatever the input, the sink, the refill callback and the allocator, the
events are threaded from the handle NULL: the start of the top level
container is presented NULL; the children of a container (the event of a
scalar, the start of a nested container) and the end of the container are
presented the handle the sink left at the start of that container; what the
sink leaves at the event of a scalar or at an end is presented to no
event. -/
theorem C17_parent_threading (fallback : Option XJSMemCB) (fuel : Nat)
    (json : Option (List Char)) (node_cb : XJSNodeCB) (inp_cb : Option XJSInputCB)
    (mem_cb : Option XJSMemCB) (r : Int) (errpos : Option (List Char)) (s : State)
    (h : xjs_parse false fallback fuel json node_cb inp_cb mem_cb = some (r, errpos, s)) :
    Threaded node_cb [] 0 s.events := by
  have key : ∀ (env : Env) (t : State), env.blocks = false → env.node_cb = node_cb →
      t.events = [] → xjs_parse_from env fuel t = some (r, errpos, s) →
      Threaded node_cb [] 0 s.events := by
    intro env t hb hcb ht hx
    unfold xjs_parse_from at hx
    split at hx
    · cases hx
    · rename_i r1 s1 heq
      obtain ⟨seg, h1, t1⟩ := (thStep env hb fuel).any _ _ _ _ _ _ _ ht heq
      generalize hy : (if peek s1.js ≠ NUL then i_eatwhite env fuel s1 else some (XJS_OK, s1)) = q
        at hx
      cases q with
      | none => cases hx
      | some q =>
        obtain ⟨r2, s2⟩ := q
        have e2 : s2.events = s1.events := by
          split at hy
          · exact i_eatwhite_events env _ _ _ _ hy
          · cases hy; rfl
        simp only [] at hx
        cases hx
        rw [e2, h1, List.nil_append, ← hcb]
        exact t1
  unfold xjs_parse at h
  split at h
  · cases h; exact .empty _ _
  · split at h
    · exact key _ _ rfl rfl rfl h
    · split at h
      · cases h; exact .empty _ _
      · split at h
        · cases h; exact .empty _ _
        · exact key _ _ rfl rfl rfl h

/-- C17 on the object with the member a, the array of the number 1, and the
member b, the number 2, with a sink that numbers its handles: the array
start is presented the handle 1 of the object, the number in the array and
the array end the handle 2 of the array, the member b and the object end
the handle 1 again. -/
theorem C17_parent_threading_witness :
    xjs_parse false none 20 (some "\x7b\"a\":[1],\"b\":2\x7d".toList) sinkCount none
        (some memGrant) = some (XJS_OK, some [], threadRun) ∧
      Threaded sinkCount [] 0 threadRun.events :=
  ⟨by decide!, C17_parent_threading none 20 (some "\x7b\"a\":[1],\"b\":2\x7d".toList) sinkCount
    none (some memGrant) XJS_OK (some []) threadRun (by decide!)⟩

/-! ## A text cut off inside a scalar -/

theorem peek_cut (more : List Char) {t : State} (ht : t.js ≠ []) :
    peek (cut more t).js = peek t.js := by
  unfold cut
  cases hjs : t.js with
  | nil => exact absurd hjs ht
  | cons c r => simp [peek]

theorem CutRes.ret {α : Type} {status : α → Int} {state : α → State} {lift : α → α} (v : α)
    (h : (state v).js ≠ []) :
    CutRes status state lift (some v) (some (lift v)) :=
  Or.inr ⟨rfl, fun w hw => by cases hw; exact h⟩

theorem CutRes.atEnd {α : Type} {status : α → Int} {state : α → State} {lift : α → α} (v : α)
    (y : Option α) (h1 : status v = XJS_END) (h2 : (state v).js = []) :
    CutRes status state lift (some v) y :=
  Or.inl ⟨v, rfl, h1, h2⟩

theorem CutRes.fuel {α : Type} {status : α → Int} {state : α → State} {lift : α → α} :
    CutRes status state lift none none :=
  Or.inr ⟨rfl, fun w hw => by cases hw⟩

theorem CutRes2.total2 {more : List Char} {x y : Int × State}
    (h : CutRes2 more (some x) (some y)) :
    (x.1 = XJS_END ∧ x.2.js = []) ∨ (y = (x.1, cut more x.2) ∧ x.2.js ≠ []) := by
  rcases h with ⟨v, hv, h1, h2⟩ | ⟨heq, hne⟩
  · cases hv; exact Or.inl ⟨h1, h2⟩
  · exact Or.inr ⟨Option.some.inj heq, hne x rfl⟩

theorem CutRes3.total3 {more : List Char} {x y : Int × Buf × State}
    (h : CutRes3 more (some x) (some y)) :
    (x.1 = XJS_END ∧ x.2.2.js = []) ∨
      (y = (x.1, x.2.1, cut more x.2.2) ∧ x.2.2.js ≠ []) := by
  rcases h with ⟨v, hv, h1, h2⟩ | ⟨heq, hne⟩
  · cases hv; exact Or.inl ⟨h1, h2⟩
  · exact Or.inr ⟨Option.some.inj heq, hne x rfl⟩

theorem CutRes2.partial_2 {more : List Char} {x y : Option (Int × State)}
    (h : CutRes2 more x y) :
    (∃ r t, x = some (r, t) ∧ r = XJS_END ∧ t.js = []) ∨
      (y = x.map (fun v => (v.1, cut more v.2)) ∧
        ∀ r t, x = some (r, t) → t.js ≠ []) := by
  rcases h with ⟨v, hv, h1, h2⟩ | ⟨heq, hne⟩
  · exact Or.inl ⟨v.1, v.2, hv, h1, h2⟩
  · exact Or.inr ⟨heq, fun r t hx => hne (r, t) hx⟩

theorem CutRes3.partial_3 {more : List Char} {x y : Option (Int × Buf × State)}
    (h : CutRes3 more x y) :
    (∃ r b t, x = some (r, b, t) ∧ r = XJS_END ∧ t.js = []) ∨
      (y = x.map (fun v => (v.1, v.2.1, cut more v.2.2)) ∧
        ∀ r b t, x = some (r, b, t) → t.js ≠ []) := by
  rcases h with ⟨v, hv, h1, h2⟩ | ⟨heq, hne⟩
  · exact Or.inl ⟨v.1, v.2.1, v.2.2, hv, h1, h2⟩
  · exact Or.inr ⟨heq, fun r b t hx => hne (r, b, t) hx⟩

theorem CutRes3.ok3 {more : List Char} (r : Int) (b : Buf) (t : State) (h : t.js ≠ []) :
    CutRes3 more (some (r, b, t)) (some (r, b, cut more t)) :=
  CutRes.ret (r, b, t) h

theorem CutRes2.ok2 {more : List Char} (r : Int) (t : State) (h : t.js ≠ []) :
    CutRes2 more (some (r, t)) (some (r, cut more t)) :=
  CutRes.ret (r, t) h

theorem CutRes4.ok4 {more : List Char} (r : Int) (k : XJSType) (b : Buf) (t : State)
    (h : t.js ≠ []) : CutRes4 more (some (r, k, b, t)) (some (r, k, b, cut more t)) :=
  CutRes.ret (r, k, b, t) h

theorem END_ne_OK : XJS_END ≠ XJS_OK := by decide

theorem i_advance0_cut {env : Env} (hinp : env.inp_cb = none) (more : List Char) {t : State}
    (ht : t.js ≠ []) :
    CutRes2 more (some (i_advance0 env t)) (some (i_advance0 env (cut more t))) := by
  obtain ⟨js, calls, events, mem, writes, hdrReads⟩ := t
  simp only at ht
  cases js with
  | nil => exact absurd rfl ht
  | cons c r =>
    by_cases hc : c = NUL
    · right
      subst hc
      simp [i_advance0, cut, hinp, peek]
    · cases r with
      | nil =>
        left
        refine ⟨_, rfl, ?_, ?_⟩ <;> simp [i_advance0, hinp, hc, peek]
      | cons d r2 =>
        right
        by_cases hd : d = NUL
        · subst hd
          simp [i_advance0, cut, hinp, hc, peek]
        · simp [i_advance0, cut, hinp, hc, hd, peek]

theorem i_eatwhite_cut {env : Env} (hinp : env.inp_cb = none) (more : List Char) :
    ∀ (fuel : Nat) {t : State}, t.js ≠ [] →
    CutRes2 more (i_eatwhite env fuel t) (i_eatwhite env fuel (cut more t)) := by
  intro fuel
  induction fuel with
  | zero => intro t ht; simp only [i_eatwhite]; exact CutRes.fuel
  | succ n ih =>
    intro t ht
    simp only [i_eatwhite, peek_cut more ht]
    split
    · rcases (i_advance0_cut hinp more ht).total2 with ⟨h1, h2⟩ | ⟨heq, hne⟩
      · have hr : (i_advance0 env t).1 ≠ XJS_OK := by rw [h1]; decide
        simp only [hr, ne_eq, not_false_eq_true, if_true]
        exact CutRes.atEnd _ _ h1 h2
      · rw [heq]
        simp only []
        split
        · exact CutRes.ret (i_advance0 env t) hne
        · exact ih hne
    · exact CutRes.ret (XJS_OK, t) ht

theorem i_assign_store_cut {env : Env} (hinp : env.inp_cb = none) (more : List Char) (b : Buf)
    {t : State} (ht : t.js ≠ []) :
    CutRes3 more (some (i_assign_store env b t)) (some (i_assign_store env b (cut more t))) := by
  unfold i_assign_store
  simp only [peek_cut more ht]
  split
  · exact CutRes3.ok3 _ _ _ (by assumption)
  · have ht1 : ({ t with writes := t.writes ++ [(b.used, b.mxsz)] } : State).js ≠ [] := ht
    rcases (i_advance0_cut hinp more ht1).total2 with ⟨h1, h2⟩ | ⟨heq, hne⟩
    · exact CutRes.atEnd _ _ h1 h2
    · have heq2 : i_advance0 env
          { cut more t with writes := (cut more t).writes ++ [(b.used, b.mxsz)] }
          = ((i_advance0 env { t with writes := t.writes ++ [(b.used, b.mxsz)] }).1,
              cut more (i_advance0 env { t with writes := t.writes ++ [(b.used, b.mxsz)] }).2) :=
        heq
      rw [heq2]
      exact CutRes.ret (_, _, _) hne

theorem i_assign_cut {env : Env} (hinp : env.inp_cb = none) (more : List Char) (c : XJSType)
    (b : Buf) {t : State} (ht : t.js ≠ []) :
    CutRes3 more (some (i_assign env c b t)) (some (i_assign env c b (cut more t))) := by
  unfold i_assign
  have hm : ∀ req, call_mem env req (cut more t)
      = ((call_mem env req t).1, cut more (call_mem env req t).2) := fun _ => rfl
  simp only [hm]
  split
  · split
    · exact CutRes3.ok3 _ _ _ (by assumption)
    · exact i_assign_store_cut hinp more _ (t := (call_mem env _ t).2) ht
  · exact i_assign_store_cut hinp more _ ht

theorem i_parse_escape_hex_cut {env : Env} (hinp : env.inp_cb = none) (more : List Char)
    (c : XJSType) : ∀ (n : Nat) (b : Buf) {t : State}, t.js ≠ [] →
    CutRes3 more (some (i_parse_escape_hex env c n b t))
      (some (i_parse_escape_hex env c n b (cut more t))) := by
  intro n
  induction n with
  | zero => intro b t ht; exact CutRes3.ok3 _ _ _ ht
  | succ n ih =>
    intro b t ht
    simp only [i_parse_escape_hex, peek_cut more ht]
    split
    · exact CutRes3.ok3 _ _ _ (by assumption)
    · rcases (i_assign_cut hinp more c b ht).total3 with ⟨h1, h2⟩ | ⟨heq, hne⟩
      · have hr : (i_assign env c b t).1 ≠ XJS_OK := by rw [h1]; decide
        simp only [hr, ne_eq, not_false_eq_true, if_true]
        exact CutRes.atEnd _ _ h1 h2
      · rw [heq]
        simp only []
        split
        · exact CutRes.ret (i_assign env c b t) hne
        · rename_i hr
          exact ih _ hne

theorem i_parse_escape_cut {env : Env} (hinp : env.inp_cb = none) (more : List Char)
    (c : XJSType) (b : Buf) {t : State} (ht : t.js ≠ []) :
    CutRes3 more (some (i_parse_escape env c b t)) (some (i_parse_escape env c b (cut more t))) := by
  simp only [i_parse_escape, peek_cut more ht]
  split
  · exact CutRes3.ok3 _ _ _ (by assumption)
  · rcases (i_assign_cut hinp more c b ht).total3 with ⟨h1, h2⟩ | ⟨heq, hne⟩
    · have hr : (i_assign env c b t).1 ≠ XJS_OK := by rw [h1]; decide
      simp only [hr, ne_eq, not_false_eq_true, if_true]
      exact CutRes.atEnd _ _ h1 h2
    · rw [heq]
      simp only []
      split
      · exact CutRes.ret (i_assign env c b t) hne
      · rename_i hr
        have ht1 := hne
        simp only [peek_cut more ht1]
        split
        · exact CutRes3.ok3 _ _ _ (by assumption)
        · rcases (i_assign_cut hinp more c (i_assign env c b t).2.1 ht1).total3 with
            ⟨h1, h2⟩ | ⟨heq2, hne2⟩
          · have hr2 : (i_assign env c (i_assign env c b t).2.1 (i_assign env c b t).2.2).1
                ≠ XJS_OK := by rw [h1]; decide
            simp only [hr2, ne_eq, not_false_eq_true, if_true]
            exact CutRes.atEnd _ _ h1 h2
          · rw [heq2]
            simp only []
            split
            · exact CutRes.ret (i_assign env c (i_assign env c b t).2.1 (i_assign env c b t).2.2)
                hne2
            · rename_i hr2
              have ht2 := hne2
              split
              · exact i_parse_escape_hex_cut hinp more c 4 _ ht2
              · exact CutRes3.ok3 _ _ _ ht2

theorem i_parse_string_loop_cut {env : Env} (hinp : env.inp_cb = none) (more : List Char)
    (c : XJSType) : ∀ (fuel : Nat) (b : Buf) {t : State}, t.js ≠ [] →
    CutRes3 more (i_parse_string_loop env c fuel b t)
      (i_parse_string_loop env c fuel b (cut more t)) := by
  intro fuel
  induction fuel with
  | zero => intro b t ht; simp only [i_parse_string_loop]; exact CutRes.fuel
  | succ n ih =>
    intro b t ht
    by_cases hb : peek t.js ≠ '\\'
    · simp only [i_parse_string_loop, peek_cut more ht, hb, if_true, not_false_eq_true]
      split
      · rcases (i_assign_cut hinp more c b ht).total3 with ⟨h1, h2⟩ | ⟨heq, hne⟩
        · have hr : (i_assign env c b t).1 ≠ XJS_OK := by rw [h1]; decide
          simp only [hr, ne_eq, not_false_eq_true, if_true]
          exact CutRes.atEnd _ _ h1 h2
        · rw [heq]
          simp only []
          split
          · exact CutRes.ret (i_assign env c b t) hne
          · rename_i hr
            exact ih _ hne
      · exact CutRes3.ok3 _ _ _ ht
    · simp only [i_parse_string_loop, peek_cut more ht, hb, if_false]
      split
      · rcases (i_parse_escape_cut hinp more c b ht).total3 with ⟨h1, h2⟩ | ⟨heq, hne⟩
        · have hr : (i_parse_escape env c b t).1 ≠ XJS_OK := by rw [h1]; decide
          simp only [hr, ne_eq, not_false_eq_true, if_true]
          exact CutRes.atEnd _ _ h1 h2
        · rw [heq]
          simp only []
          split
          · exact CutRes.ret (i_parse_escape env c b t) hne
          · rename_i hr
            exact ih _ hne
      · exact CutRes3.ok3 _ _ _ ht

theorem terminate_cut (more : List Char) (b : Buf) (t : State) :
    terminate b (cut more t) = ((terminate b t).1, cut more (terminate b t).2) := by
  unfold terminate
  split <;> rfl

theorem terminate_js (b : Buf) (t : State) : (terminate b t).2.js = t.js := by
  unfold terminate
  split <;> rfl

theorem i_parse_string_cut {env : Env} (hinp : env.inp_cb = none) (more : List Char) (fuel : Nat)
    (c : XJSType) (b : Buf) {t : State} (ht : t.js ≠ []) :
    CutRes3 more (i_parse_string env fuel c b t) (i_parse_string env fuel c b (cut more t)) := by
  unfold i_parse_string
  rcases (i_eatwhite_cut hinp more fuel ht).partial_2 with ⟨r, t1, hx, hr, hjs⟩ | ⟨heq, hne⟩
  · subst hr
    rw [hx]
    simp only [END_ne_OK, ne_eq, not_false_eq_true, if_true]
    exact CutRes.atEnd (XJS_END, b, t1) _ rfl hjs
  · rw [heq]
    cases he : i_eatwhite env fuel t with
    | none => exact CutRes.fuel
    | some x =>
      obtain ⟨r1, t1⟩ := x
      simp only [Option.map_some']
      split
      · exact CutRes3.ok3 _ _ _ (hne r1 t1 he)
      · rename_i hr
        have ht1 := hne r1 t1 he
        simp only [peek_cut more ht1]
        split
        · exact CutRes3.ok3 _ _ _ (by assumption)
        · rcases (i_advance0_cut hinp more ht1).total2 with ⟨h1, h2⟩ | ⟨heq2, hne2⟩
          · have hr2 : (i_advance0 env t1).1 ≠ XJS_OK := by rw [h1]; decide
            simp only [hr2, ne_eq, not_false_eq_true, if_true]
            exact CutRes.atEnd ((i_advance0 env t1).1, b, (i_advance0 env t1).2) _ h1 h2
          · rw [heq2]
            simp only []
            split
            · exact CutRes3.ok3 _ _ _ hne2
            · rename_i hr2
              have ht2 := hne2
              rcases (i_parse_string_loop_cut hinp more c fuel b ht2).partial_3 with
                ⟨r3, b3, t3, hx3, hr3, hjs3⟩ | ⟨heq3, hne3⟩
              · subst hr3
                rw [hx3]
                simp only [END_ne_OK, ne_eq, not_false_eq_true, if_true]
                exact CutRes.atEnd (XJS_END, b3, t3) _ rfl hjs3
              · rw [heq3]
                cases he3 : i_parse_string_loop env c fuel b (i_advance0 env t1).2 with
                | none => exact CutRes.fuel
                | some x3 =>
                  obtain ⟨r3, b3, t3⟩ := x3
                  simp only [Option.map_some']
                  split
                  · exact CutRes3.ok3 _ _ _ (hne3 r3 b3 t3 he3)
                  · rename_i hr3
                    have ht3 := hne3 r3 b3 t3 he3
                    simp only [peek_cut more ht3]
                    split
                    · exact CutRes3.ok3 _ _ _ (by assumption)
                    · rcases (i_advance0_cut hinp more ht3).total2 with ⟨h1, h2⟩ | ⟨heq4, hne4⟩
                      · have hr4 : (i_advance0 env t3).1 ≠ XJS_OK := by rw [h1]; decide
                        simp only [hr4, ne_eq, not_false_eq_true, if_true]
                        exact CutRes.atEnd ((i_advance0 env t3).1, b3, (i_advance0 env t3).2) _
                          h1 h2
                      · rw [heq4]
                        simp only [terminate_cut]
                        split
                        · exact CutRes3.ok3 _ _ _ hne4
                        · rename_i hr4
                          exact CutRes3.ok3 _ _ _
                            (by rw [terminate_js]; exact hne4)

theorem i_parse_literal_loop_cut {env : Env} (hinp : env.inp_cb = none) (more : List Char) :
    ∀ (lit : List Char) {t : State}, t.js ≠ [] →
    CutRes2 more (some (i_parse_literal_loop env lit t))
      (some (i_parse_literal_loop env lit (cut more t))) := by
  intro lit
  induction lit with
  | nil => intro t ht; exact CutRes2.ok2 _ _ ht
  | cons l rest ih =>
    intro t ht
    simp only [i_parse_literal_loop, peek_cut more ht]
    split
    · exact CutRes2.ok2 _ _ (by assumption)
    · rcases (i_advance0_cut hinp more ht).total2 with ⟨h1, h2⟩ | ⟨heq, hne⟩
      · have hr : (i_advance0 env t).1 ≠ XJS_OK := by rw [h1]; decide
        simp only [hr, ne_eq, not_false_eq_true, if_true]
        exact CutRes.atEnd _ _ h1 h2
      · rw [heq]
        simp only []
        split
        · exact CutRes.ret (i_advance0 env t) hne
        · rename_i hr
          exact ih hne

theorem i_parse_literal_cut {env : Env} (hinp : env.inp_cb = none) (more : List Char) (fuel : Nat)
    (lit : List Char) {t : State} (ht : t.js ≠ []) :
    CutRes2 more (i_parse_literal env fuel lit t) (i_parse_literal env fuel lit (cut more t)) := by
  unfold i_parse_literal
  rcases (i_eatwhite_cut hinp more fuel ht).partial_2 with ⟨r, t1, hx, hr, hjs⟩ | ⟨heq, hne⟩
  · subst hr
    rw [hx]
    simp only [END_ne_OK, ne_eq, not_false_eq_true, if_true]
    exact CutRes.atEnd (XJS_END, t1) _ rfl hjs
  · rw [heq]
    cases he : i_eatwhite env fuel t with
    | none => exact CutRes.fuel
    | some x =>
      obtain ⟨r1, t1⟩ := x
      simp only [Option.map_some']
      split
      · exact CutRes2.ok2 _ _ (hne r1 t1 he)
      · rename_i hr
        have ht1 := hne r1 t1 he
        simp only [peek_cut more ht1]
        split
        · exact CutRes2.ok2 _ _ (by assumption)
        · rcases (i_parse_literal_loop_cut hinp more lit ht1).total2 with ⟨h1, h2⟩ | ⟨heq2, hne2⟩
          · have hr2 : (i_parse_literal_loop env lit t1).1 ≠ XJS_OK := by rw [h1]; decide
            simp only [hr2, ne_eq, not_false_eq_true, if_true]
            exact CutRes.atEnd _ _ h1 h2
          · rw [heq2]
            simp only []
            split
            · exact CutRes.ret (i_parse_literal_loop env lit t1) hne2
            · rename_i hr2
              have ht2 := hne2
              simp only [peek_cut more ht2]
              split
              · exact CutRes2.ok2 _ _ (by assumption)
              · exact CutRes2.ok2 _ _ ht2

theorem i_parse_number_digits_cut {env : Env} (hinp : env.inp_cb = none) (more : List Char) :
    ∀ (fuel : Nat) (b : Buf) {t : State}, t.js ≠ [] →
    CutRes3 more (i_parse_number_digits env fuel b t)
      (i_parse_number_digits env fuel b (cut more t)) := by
  intro fuel
  induction fuel with
  | zero => intro b t ht; simp only [i_parse_number_digits]; exact CutRes.fuel
  | succ n ih =>
    intro b t ht
    simp only [i_parse_number_digits, peek_cut more ht]
    split
    · rcases (i_assign_cut hinp more XJS_number b ht).total3 with ⟨h1, h2⟩ | ⟨heq, hne⟩
      · have hr : (i_assign env XJS_number b t).1 ≠ XJS_OK := by rw [h1]; decide
        simp only [hr, ne_eq, not_false_eq_true, if_true]
        exact CutRes.atEnd _ _ h1 h2
      · rw [heq]
        simp only []
        split
        · exact CutRes.ret (i_assign env XJS_number b t) hne
        · rename_i hr
          exact ih _ hne
    · exact CutRes3.ok3 _ _ _ ht

/-- The tail shared by the number productions on a cut text: the digits,
then the terminator stored. -/
theorem digits_terminate_cut {env : Env} (hinp : env.inp_cb = none) (more : List Char)
    (fuel : Nat) (b : Buf) {t : State} (ht : t.js ≠ []) :
    CutRes3 more
      (match i_parse_number_digits env fuel b t with
        | none => none
        | some (r3, b3, s3) =>
          if r3 ≠ XJS_OK then some (r3, b3, s3)
          else match terminate b3 s3 with
            | (b4, s4) => some (XJS_OK, b4, s4))
      (match i_parse_number_digits env fuel b (cut more t) with
        | none => none
        | some (r3, b3, s3) =>
          if r3 ≠ XJS_OK then some (r3, b3, s3)
          else match terminate b3 s3 with
            | (b4, s4) => some (XJS_OK, b4, s4)) := by
  rcases (i_parse_number_digits_cut hinp more fuel b ht).partial_3 with
    ⟨r3, b3, t3, hx3, hr3, hjs3⟩ | ⟨heq3, hne3⟩
  · subst hr3
    rw [hx3]
    simp only [END_ne_OK, ne_eq, not_false_eq_true, if_true]
    exact CutRes.atEnd (XJS_END, b3, t3) _ rfl hjs3
  · rw [heq3]
    cases he3 : i_parse_number_digits env fuel b t with
    | none => exact CutRes.fuel
    | some x3 =>
      obtain ⟨r3, b3, t3⟩ := x3
      simp only [Option.map_some', terminate_cut]
      split
      · exact CutRes3.ok3 _ _ _ (hne3 r3 b3 t3 he3)
      · rename_i hr3
        exact CutRes3.ok3 _ _ _ (by rw [terminate_js]; exact hne3 r3 b3 t3 he3)

theorem i_parse_number_exp_cut {env : Env} (hinp : env.inp_cb = none) (more : List Char)
    (fuel : Nat) (b : Buf) {t : State} (ht : t.js ≠ []) :
    CutRes3 more (i_parse_number_exp env fuel b t) (i_parse_number_exp env fuel b (cut more t)) := by
  unfold i_parse_number_exp
  simp only [peek_cut more ht]
  split
  · rcases (i_assign_cut hinp more XJS_number b ht).total3 with ⟨h1, h2⟩ | ⟨heq, hne⟩
    · have hr : (i_assign env XJS_number b t).1 ≠ XJS_OK := by rw [h1]; decide
      simp only [hr, ne_eq, not_false_eq_true, if_true]
      exact CutRes.atEnd _ _ h1 h2
    · rw [heq]
      simp only []
      split
      · exact CutRes.ret (i_assign env XJS_number b t) hne
      · rename_i hr
        have ht1 := hne
        simp only [peek_cut more ht1]
        by_cases hpm : peek (i_assign env XJS_number b t).2.2.js = '+' ∨
            peek (i_assign env XJS_number b t).2.2.js = '-'
        · simp only [hpm, if_true]
          rcases (i_assign_cut hinp more XJS_number (i_assign env XJS_number b t).2.1
            ht1).total3 with ⟨h1, h2⟩ | ⟨heq2, hne2⟩
          · have hr2 : (i_assign env XJS_number (i_assign env XJS_number b t).2.1
                (i_assign env XJS_number b t).2.2).1 ≠ XJS_OK := by rw [h1]; decide
            simp only [hr2, ne_eq, not_false_eq_true, if_true]
            exact CutRes.atEnd _ _ h1 h2
          · rw [heq2]
            simp only []
            split
            · exact CutRes.ret (i_assign env XJS_number (i_assign env XJS_number b t).2.1
                (i_assign env XJS_number b t).2.2) hne2
            · rename_i hr2
              have ht2 := hne2
              simp only [peek_cut more ht2]
              split
              · exact CutRes3.ok3 _ _ _ (by assumption)
              · exact digits_terminate_cut hinp more fuel _ ht2
        · simp only [hpm, if_false, peek_cut more ht1, ne_eq, not_true_eq_false]
          split
          · exact CutRes3.ok3 _ _ _ (by assumption)
          · exact digits_terminate_cut hinp more fuel _ ht1
  · simp only [terminate_cut]
    exact CutRes3.ok3 _ _ _ (by rw [terminate_js]; exact ht)

theorem i_parse_number_frac_cut {env : Env} (hinp : env.inp_cb = none) (more : List Char)
    (fuel : Nat) (b : Buf) {t : State} (ht : t.js ≠ []) :
    CutRes3 more (i_parse_number_frac env fuel b t)
      (i_parse_number_frac env fuel b (cut more t)) := by
  unfold i_parse_number_frac
  simp only [peek_cut more ht]
  split
  · rcases (i_assign_cut hinp more XJS_number b ht).total3 with ⟨h1, h2⟩ | ⟨heq, hne⟩
    · have hr : (i_assign env XJS_number b t).1 ≠ XJS_OK := by rw [h1]; decide
      simp only [hr, ne_eq, not_false_eq_true, if_true]
      exact CutRes.atEnd _ _ h1 h2
    · rw [heq]
      simp only []
      split
      · exact CutRes.ret (i_assign env XJS_number b t) hne
      · rename_i hr
        have ht1 := hne
        simp only [peek_cut more ht1]
        split
        · exact CutRes3.ok3 _ _ _ (by assumption)
        · rcases (i_parse_number_digits_cut hinp more fuel (i_assign env XJS_number b t).2.1
            ht1).partial_3 with ⟨r3, b3, t3, hx3, hr3, hjs3⟩ | ⟨heq3, hne3⟩
          · subst hr3
            rw [hx3]
            simp only [END_ne_OK, ne_eq, not_false_eq_true, if_true]
            exact CutRes.atEnd (XJS_END, b3, t3) _ rfl hjs3
          · rw [heq3]
            cases he3 : i_parse_number_digits env fuel (i_assign env XJS_number b t).2.1
                (i_assign env XJS_number b t).2.2 with
            | none => exact CutRes.fuel
            | some x3 =>
              obtain ⟨r3, b3, t3⟩ := x3
              simp only [Option.map_some']
              split
              · exact CutRes3.ok3 _ _ _ (hne3 r3 b3 t3 he3)
              · rename_i hr3
                exact i_parse_number_exp_cut hinp more fuel _
                  (hne3 r3 b3 t3 he3)
  · exact i_parse_number_exp_cut hinp more fuel _ ht

/-- The integer part of a number and what follows it, on a cut text. -/
theorem number_int_cut {env : Env} (hinp : env.inp_cb = none) (more : List Char) (fuel : Nat)
    (b2 : Buf) {s2 : State} (ht : s2.js ≠ []) :
    CutRes3 more
      (if !isdigit (peek s2.js) then some (XJS_NOPE, b2, s2)
        else
          match (if peek s2.js = '0' then some (i_assign env XJS_number b2 s2)
                 else if !isdigit (peek s2.js) then some (XJS_ERR_EXP_DIGIT, b2, s2)
                 else i_parse_number_digits env fuel b2 s2) with
          | none => none
          | some (r3, b3, s3) =>
            if r3 ≠ XJS_OK then some (r3, b3, s3) else i_parse_number_frac env fuel b3 s3)
      (if !isdigit (peek s2.js) then some (XJS_NOPE, b2, cut more s2)
        else
          match (if peek s2.js = '0' then some (i_assign env XJS_number b2 (cut more s2))
                 else if !isdigit (peek s2.js) then some (XJS_ERR_EXP_DIGIT, b2, cut more s2)
                 else i_parse_number_digits env fuel b2 (cut more s2)) with
          | none => none
          | some (r3, b3, s3) =>
            if r3 ≠ XJS_OK then some (r3, b3, s3) else i_parse_number_frac env fuel b3 s3) := by
  split
  · exact CutRes3.ok3 _ _ _ (by assumption)
  · rename_i hd
    by_cases h0 : peek s2.js = '0'
    · simp only [h0, if_true]
      rcases (i_assign_cut hinp more XJS_number b2 ht).total3 with ⟨h1, h2⟩ | ⟨heq, hne⟩
      · have hr : (i_assign env XJS_number b2 s2).1 ≠ XJS_OK := by rw [h1]; decide
        simp only [hr, ne_eq, not_false_eq_true, if_true]
        exact CutRes.atEnd _ _ h1 h2
      · rw [heq]
        simp only []
        split
        · exact CutRes.ret (i_assign env XJS_number b2 s2) hne
        · rename_i hr
          exact i_parse_number_frac_cut hinp more fuel _ hne
    · simp only [h0, if_false, hd]
      rcases (i_parse_number_digits_cut hinp more fuel b2 ht).partial_3 with
        ⟨r3, b3, t3, hx3, hr3, hjs3⟩ | ⟨heq3, hne3⟩
      · subst hr3
        rw [hx3]
        simp only [END_ne_OK, ne_eq, not_false_eq_true, if_true]
        exact CutRes.atEnd (XJS_END, b3, t3) _ rfl hjs3
      · rw [heq3]
        cases he3 : i_parse_number_digits env fuel b2 s2 with
        | none => exact CutRes.fuel
        | some x3 =>
          obtain ⟨r3, b3, t3⟩ := x3
          simp only [Option.map_some']
          split
          · exact CutRes3.ok3 _ _ _ (hne3 r3 b3 t3 he3)
          · rename_i hr3
            exact i_parse_number_frac_cut hinp more fuel _ (hne3 r3 b3 t3 he3)

theorem i_parse_number_cut {env : Env} (hinp : env.inp_cb = none) (more : List Char) (fuel : Nat)
    (b : Buf) {t : State} (ht : t.js ≠ []) :
    CutRes3 more (i_parse_number env fuel b t) (i_parse_number env fuel b (cut more t)) := by
  unfold i_parse_number
  rcases (i_eatwhite_cut hinp more fuel ht).partial_2 with ⟨r, t1, hx, hr, hjs⟩ | ⟨heq, hne⟩
  · subst hr
    rw [hx]
    simp only [END_ne_OK, ne_eq, not_false_eq_true, if_true]
    exact CutRes.atEnd (XJS_END, b, t1) _ rfl hjs
  · rw [heq]
    cases he : i_eatwhite env fuel t with
    | none => exact CutRes.fuel
    | some x =>
      obtain ⟨r1, t1⟩ := x
      simp only [Option.map_some']
      split
      · exact CutRes3.ok3 _ _ _ (hne r1 t1 he)
      · rename_i hr
        have ht1 := hne r1 t1 he
        simp only [peek_cut more ht1]
        by_cases hm : peek t1.js = '-'
        · simp only [hm, if_true]
          rcases (i_assign_cut hinp more XJS_number b ht1).total3 with ⟨h1, h2⟩ | ⟨heq2, hne2⟩
          · have hr2 : (i_assign env XJS_number b t1).1 ≠ XJS_OK := by rw [h1]; decide
            simp only [hr2, ne_eq, not_false_eq_true, if_true]
            exact CutRes.atEnd _ _ h1 h2
          · rw [heq2]
            simp only []
            split
            · exact CutRes.ret (i_assign env XJS_number b t1) hne2
            · rename_i hr2
              have ht2 := hne2
              simp only [peek_cut more ht2]
              exact number_int_cut hinp more fuel _ ht2
        · simp only [hm, if_false, peek_cut more ht1, ne_eq, not_true_eq_false]
          exact number_int_cut hinp more fuel b ht1

theorem CutRes2.partial_eq2 {more : List Char} {x y : Option (Int × State)}
    (h : CutRes2 more x y) :
    (∃ t, x = some (XJS_END, t) ∧ t.js = []) ∨
      (y = x.map (fun v => (v.1, cut more v.2)) ∧ ∀ r t, x = some (r, t) → t.js ≠ []) := by
  rcases h.partial_2 with ⟨r, t, hx, hr, hjs⟩ | h2
  · subst hr; exact Or.inl ⟨t, hx, hjs⟩
  · exact Or.inr h2

theorem CutRes3.partial_eq3 {more : List Char} {x y : Option (Int × Buf × State)}
    (h : CutRes3 more x y) :
    (∃ b t, x = some (XJS_END, b, t) ∧ t.js = []) ∨
      (y = x.map (fun v => (v.1, v.2.1, cut more v.2.2)) ∧
        ∀ r b t, x = some (r, b, t) → t.js ≠ []) := by
  rcases h.partial_3 with ⟨r, b, t, hx, hr, hjs⟩ | h2
  · subst hr; exact Or.inl ⟨b, t, hx, hjs⟩
  · exact Or.inr h2

theorem END_facts : ¬(XJS_END = XJS_OK) ∧ ¬(XJS_END = XJS_NOPE) := by decide

set_option maxHeartbeats 1000000 in
theorem i_parse_value_cut {env : Env} (hinp : env.inp_cb = none) (more : List Char) (fuel : Nat)
    (b : Buf) {t : State} (ht : t.js ≠ []) :
    CutRes4 more (i_parse_value env fuel b t) (i_parse_value env fuel b (cut more t)) := by
  unfold i_parse_value
  rcases (i_eatwhite_cut hinp more fuel ht).partial_eq2 with ⟨t1, hx, hjs⟩ | ⟨heq, hne⟩
  · rw [hx]
    dsimp only
    rw [if_pos END_facts.1]
    exact CutRes.atEnd (XJS_END, XJS_unknown, b, t1) _ rfl hjs
  rw [heq]
  cases he : i_eatwhite env fuel t with
  | none => exact CutRes.fuel
  | some x =>
  obtain ⟨r0, t0⟩ := x
  have ht0 := hne r0 t0 he
  dsimp only [Option.map_some']
  by_cases hc0 : r0 ≠ XJS_OK
  · rw [if_pos hc0, if_pos hc0]
    exact CutRes4.ok4 _ _ _ _ ht0
  rw [if_neg hc0, if_neg hc0]
  rcases (i_parse_literal_cut hinp more fuel "true".toList ht0).partial_eq2 with
    ⟨t1, hx, hjs⟩ | ⟨heq1, hne1⟩
  · rw [hx]
    dsimp only
    rw [if_neg END_facts.1, if_pos END_facts.2]
    exact CutRes.atEnd (XJS_END, XJS_unknown, b, t1) _ rfl hjs
  rw [heq1]
  cases he1 : i_parse_literal env fuel "true".toList t0 with
  | none => exact CutRes.fuel
  | some x =>
  obtain ⟨r1, t1⟩ := x
  have ht1 := hne1 r1 t1 he1
  dsimp only [Option.map_some']
  by_cases hok1 : r1 = XJS_OK
  · rw [if_pos hok1, if_pos hok1]
    exact CutRes4.ok4 _ _ _ _ ht1
  rw [if_neg hok1, if_neg hok1]
  by_cases hn1 : r1 ≠ XJS_NOPE
  · rw [if_pos hn1, if_pos hn1]
    exact CutRes4.ok4 _ _ _ _ ht1
  rw [if_neg hn1, if_neg hn1]
  rcases (i_parse_literal_cut hinp more fuel "false".toList ht1).partial_eq2 with
    ⟨t2, hx, hjs⟩ | ⟨heq2, hne2⟩
  · rw [hx]
    dsimp only
    rw [if_neg END_facts.1, if_pos END_facts.2]
    exact CutRes.atEnd (XJS_END, XJS_unknown, b, t2) _ rfl hjs
  rw [heq2]
  cases he2 : i_parse_literal env fuel "false".toList t1 with
  | none => exact CutRes.fuel
  | some x =>
  obtain ⟨r2, t2⟩ := x
  have ht2 := hne2 r2 t2 he2
  dsimp only [Option.map_some']
  by_cases hok2 : r2 = XJS_OK
  · rw [if_pos hok2, if_pos hok2]
    exact CutRes4.ok4 _ _ _ _ ht2
  rw [if_neg hok2, if_neg hok2]
  by_cases hn2 : r2 ≠ XJS_NOPE
  · rw [if_pos hn2, if_pos hn2]
    exact CutRes4.ok4 _ _ _ _ ht2
  rw [if_neg hn2, if_neg hn2]
  rcases (i_parse_literal_cut hinp more fuel "null".toList ht2).partial_eq2 with
    ⟨t3, hx, hjs⟩ | ⟨heq3, hne3⟩
  · rw [hx]
    dsimp only
    rw [if_neg END_facts.1, if_pos END_facts.2]
    exact CutRes.atEnd (XJS_END, XJS_unknown, b, t3) _ rfl hjs
  rw [heq3]
  cases he3 : i_parse_literal env fuel "null".toList t2 with
  | none => exact CutRes.fuel
  | some x =>
  obtain ⟨r3, t3⟩ := x
  have ht3 := hne3 r3 t3 he3
  dsimp only [Option.map_some']
  by_cases hok3 : r3 = XJS_OK
  · rw [if_pos hok3, if_pos hok3]
    exact CutRes4.ok4 _ _ _ _ ht3
  rw [if_neg hok3, if_neg hok3]
  by_cases hn3 : r3 ≠ XJS_NOPE
  · rw [if_pos hn3, if_pos hn3]
    exact CutRes4.ok4 _ _ _ _ ht3
  rw [if_neg hn3, if_neg hn3]
  rcases (i_parse_number_cut hinp more fuel b ht3).partial_eq3 with
    ⟨b4, t4, hx, hjs⟩ | ⟨heq4, hne4⟩
  · rw [hx]
    dsimp only
    rw [if_neg END_facts.1, if_pos END_facts.2]
    exact CutRes.atEnd (XJS_END, XJS_unknown, b4, t4) _ rfl hjs
  rw [heq4]
  cases he4 : i_parse_number env fuel b t3 with
  | none => exact CutRes.fuel
  | some x =>
  obtain ⟨r4, b4, t4⟩ := x
  have ht4 := hne4 r4 b4 t4 he4
  dsimp only [Option.map_some']
  by_cases hok4 : r4 = XJS_OK
  · rw [if_pos hok4, if_pos hok4]
    exact CutRes4.ok4 _ _ _ _ ht4
  rw [if_neg hok4, if_neg hok4]
  by_cases hn4 : r4 ≠ XJS_NOPE
  · rw [if_pos hn4, if_pos hn4]
    exact CutRes4.ok4 _ _ _ _ ht4
  rw [if_neg hn4, if_neg hn4]
  rcases (i_parse_string_cut hinp more fuel XJS_string b4 ht4).partial_eq3 with
    ⟨b5, t5, hx, hjs⟩ | ⟨heq5, hne5⟩
  · rw [hx]
    dsimp only
    rw [if_neg END_facts.1]
    exact CutRes.atEnd (XJS_END, XJS_unknown, b5, t5) _ rfl hjs
  rw [heq5]
  cases he5 : i_parse_string env fuel XJS_string b4 t4 with
  | none => exact CutRes.fuel
  | some x =>
  obtain ⟨r5, b5, t5⟩ := x
  have ht5 := hne5 r5 b5 t5 he5
  dsimp only [Option.map_some']
  by_cases hok5 : r5 = XJS_OK
  · rw [if_pos hok5, if_pos hok5]
    exact CutRes4.ok4 _ _ _ _ ht5
  · rw [if_neg hok5, if_neg hok5]
    exact CutRes4.ok4 _ _ _ _ ht5

/-! ## More fuel does not change a result -/

theorem i_eatwhite_mono (env : Env) : ∀ (fuel : Nat) (s : State) (x : Int × State),
    i_eatwhite env fuel s = some x → i_eatwhite env (fuel + 1) s = some x := by
  intro fuel
  induction fuel with
  | zero => intro s x h; simp [i_eatwhite] at h
  | succ n ih =>
    intro s x h
    rw [i_eatwhite] at h
    rw [i_eatwhite]
    simp only [] at h ⊢
    by_cases hsp : isspace (peek s.js) = true
    · simp only [hsp, if_true] at h ⊢
      by_cases hr : (i_advance0 env s).1 = XJS_OK
      · simp only [hr, ne_eq, not_true_eq_false, if_false] at h ⊢
        exact ih _ _ h
      · simp only [hr, ne_eq, not_false_eq_true, if_true] at h ⊢
        exact h
    · simp only [hsp] at h ⊢
      exact h

theorem i_parse_string_loop_mono (env : Env) (c : XJSType) : ∀ (fuel : Nat) (b : Buf) (s : State)
    (x : Int × Buf × State),
    i_parse_string_loop env c fuel b s = some x →
    i_parse_string_loop env c (fuel + 1) b s = some x := by
  intro fuel
  induction fuel with
  | zero => intro b s x h; simp [i_parse_string_loop] at h
  | succ n ih =>
    intro b s x h
    rw [i_parse_string_loop] at h
    rw [i_parse_string_loop]
    simp only [] at h ⊢
    by_cases hc : peek s.js ≠ NUL ∧ peek s.js ≠ '"'
    · rw [if_pos hc] at h
      rw [if_pos hc]
      generalize (if peek s.js ≠ '\\' then i_assign env c b s else i_parse_escape env c b s) = p
        at h ⊢
      by_cases hr : p.1 = XJS_OK
      · simp only [hr, ne_eq, not_true_eq_false, if_false] at h ⊢
        exact ih _ _ _ h
      · simp only [hr, ne_eq, not_false_eq_true, if_true] at h ⊢
        exact h
    · rw [if_neg hc] at h
      rw [if_neg hc]
      exact h

theorem i_parse_number_digits_mono (env : Env) : ∀ (fuel : Nat) (b : Buf) (s : State)
    (x : Int × Buf × State),
    i_parse_number_digits env fuel b s = some x →
    i_parse_number_digits env (fuel + 1) b s = some x := by
  intro fuel
  induction fuel with
  | zero => intro b s x h; simp [i_parse_number_digits] at h
  | succ n ih =>
    intro b s x h
    rw [i_parse_number_digits] at h
    rw [i_parse_number_digits]
    simp only [] at h ⊢
    by_cases hc : isdigit (peek s.js) = true
    · simp only [hc, if_true] at h ⊢
      by_cases hr : (i_assign env XJS_number b s).1 = XJS_OK
      · simp only [hr, ne_eq, not_true_eq_false, if_false] at h ⊢
        exact ih _ _ _ h
      · simp only [hr, ne_eq, not_false_eq_true, if_true] at h ⊢
        exact h
    · simp only [hc] at h ⊢
      exact h

theorem i_parse_string_mono (env : Env) (fuel : Nat) (c : XJSType) (b : Buf) (s : State)
    (x : Int × Buf × State) (h : i_parse_string env fuel c b s = some x) :
    i_parse_string env (fuel + 1) c b s = some x := by
  unfold i_parse_string at h ⊢
  cases he : i_eatwhite env fuel s with
  | none => rw [he] at h; cases h
  | some y =>
    obtain ⟨r, s1⟩ := y
    rw [he] at h
    rw [i_eatwhite_mono env _ _ _ he]
    simp only [] at h ⊢
    by_cases hr : r = XJS_OK
    · simp only [hr, ne_eq, not_true_eq_false, if_false] at h ⊢
      by_cases hq : peek s1.js = '"'
      · simp only [hq, not_true_eq_false, if_false] at h ⊢
        by_cases hr2 : (i_advance0 env s1).1 = XJS_OK
        · simp only [hr2, not_true_eq_false, if_false] at h ⊢
          cases he3 : i_parse_string_loop env c fuel b (i_advance0 env s1).2 with
          | none => rw [he3] at h; cases h
          | some y3 =>
            rw [he3] at h
            rw [i_parse_string_loop_mono env c _ _ _ _ he3]
            exact h
        · simp only [hr2, not_false_eq_true, if_true] at h ⊢
          exact h
      · simp only [hq, not_false_eq_true, if_true] at h ⊢
        exact h
    · simp only [hr, ne_eq, not_false_eq_true, if_true] at h ⊢
      exact h

theorem i_parse_literal_mono (env : Env) (fuel : Nat) (lit : List Char) (s : State)
    (x : Int × State) (h : i_parse_literal env fuel lit s = some x) :
    i_parse_literal env (fuel + 1) lit s = some x := by
  unfold i_parse_literal at h ⊢
  cases he : i_eatwhite env fuel s with
  | none => rw [he] at h; cases h
  | some y =>
    rw [he] at h
    rw [i_eatwhite_mono env _ _ _ he]
    exact h

/-- The digits and the terminator, with more fuel. -/
theorem digits_terminate_mono (env : Env) (fuel : Nat) (b : Buf) (s : State)
    (x : Int × Buf × State)
    (h : (match i_parse_number_digits env fuel b s with
        | none => none
        | some (r3, b3, s3) =>
          if r3 ≠ XJS_OK then some (r3, b3, s3)
          else match terminate b3 s3 with
            | (b4, s4) => some (XJS_OK, b4, s4)) = some x) :
    (match i_parse_number_digits env (fuel + 1) b s with
        | none => none
        | some (r3, b3, s3) =>
          if r3 ≠ XJS_OK then some (r3, b3, s3)
          else match terminate b3 s3 with
            | (b4, s4) => some (XJS_OK, b4, s4)) = some x := by
  cases he : i_parse_number_digits env fuel b s with
  | none => rw [he] at h; cases h
  | some y =>
    rw [he] at h
    rw [i_parse_number_digits_mono env _ _ _ _ he]
    exact h

theorem i_parse_number_exp_mono (env : Env) (fuel : Nat) (b : Buf) (s : State)
    (x : Int × Buf × State) (h : i_parse_number_exp env fuel b s = some x) :
    i_parse_number_exp env (fuel + 1) b s = some x := by
  unfold i_parse_number_exp at h ⊢
  by_cases he : peek s.js = 'e' ∨ peek s.js = 'E'
  · rw [if_pos he] at h
    rw [if_pos he]
    simp only [] at h ⊢
    by_cases hr : (i_assign env XJS_number b s).1 = XJS_OK
    · simp only [hr, ne_eq, not_true_eq_false, if_false] at h ⊢
      generalize (if peek (i_assign env XJS_number b s).2.2.js = '+' ∨
          peek (i_assign env XJS_number b s).2.2.js = '-' then
            i_assign env XJS_number (i_assign env XJS_number b s).2.1
              (i_assign env XJS_number b s).2.2
          else (XJS_OK, (i_assign env XJS_number b s).2.1, (i_assign env XJS_number b s).2.2)) = p
        at h ⊢
      by_cases hr2 : p.1 = XJS_OK
      · simp only [hr2, not_true_eq_false, if_false] at h ⊢
        by_cases hd : (!isdigit (peek p.2.2.js)) = true
        · simp only [hd, if_true] at h ⊢
          exact h
        · simp only [hd, if_false] at h ⊢
          cases he3 : i_parse_number_digits env fuel p.2.1 p.2.2 with
          | none => rw [he3] at h; cases h
          | some y =>
            rw [he3] at h
            rw [i_parse_number_digits_mono env _ _ _ _ he3]
            exact h
      · simp only [hr2, not_false_eq_true, if_true] at h ⊢
        exact h
    · simp only [hr, ne_eq, not_false_eq_true, if_true] at h ⊢
      exact h
  · rw [if_neg he] at h
    rw [if_neg he]
    exact h

theorem i_parse_number_frac_mono (env : Env) (fuel : Nat) (b : Buf) (s : State)
    (x : Int × Buf × State) (h : i_parse_number_frac env fuel b s = some x) :
    i_parse_number_frac env (fuel + 1) b s = some x := by
  unfold i_parse_number_frac at h ⊢
  by_cases hp : peek s.js = '.'
  · rw [if_pos hp] at h
    rw [if_pos hp]
    simp only [] at h ⊢
    by_cases hr : (i_assign env XJS_number b s).1 = XJS_OK
    · simp only [hr, ne_eq, not_true_eq_false, if_false] at h ⊢
      by_cases hd : (!isdigit (peek (i_assign env XJS_number b s).2.2.js)) = true
      · simp only [hd, if_true] at h ⊢
        exact h
      · simp only [hd, if_false] at h ⊢
        cases he3 : i_parse_number_digits env fuel (i_assign env XJS_number b s).2.1
            (i_assign env XJS_number b s).2.2 with
        | none => rw [he3] at h; cases h
        | some y =>
          obtain ⟨r3, b3, s3⟩ := y
          rw [he3] at h
          rw [i_parse_number_digits_mono env _ _ _ _ he3]
          simp only [] at h ⊢
          by_cases hr3 : r3 = XJS_OK
          · simp only [hr3, ne_eq, not_true_eq_false, if_false] at h ⊢
            exact i_parse_number_exp_mono env _ _ _ _ h
          · simp only [hr3, ne_eq, not_false_eq_true, if_true] at h ⊢
            exact h
    · simp only [hr, ne_eq, not_false_eq_true, if_true] at h ⊢
      exact h
  · rw [if_neg hp] at h
    rw [if_neg hp]
    exact i_parse_number_exp_mono env _ _ _ _ h

theorem i_parse_number_mono (env : Env) (fuel : Nat) (b : Buf) (s : State)
    (x : Int × Buf × State) (h : i_parse_number env fuel b s = some x) :
    i_parse_number env (fuel + 1) b s = some x := by
  unfold i_parse_number at h ⊢
  cases he : i_eatwhite env fuel s with
  | none => rw [he] at h; cases h
  | some y =>
    obtain ⟨r, s1⟩ := y
    rw [he] at h
    rw [i_eatwhite_mono env _ _ _ he]
    simp only [] at h ⊢
    by_cases hr : r = XJS_OK
    · simp only [hr, ne_eq, not_true_eq_false, if_false] at h ⊢
      generalize (if peek s1.js = '-' then i_assign env XJS_number b s1 else (XJS_OK, b, s1)) = p
        at h ⊢
      by_cases hr2 : p.1 = XJS_OK
      · simp only [hr2, not_true_eq_false, if_false] at h ⊢
        by_cases hd : (!isdigit (peek p.2.2.js)) = true
        · simp only [hd, if_true] at h ⊢
          exact h
        · simp only [hd, if_false] at h ⊢
          by_cases h0 : peek p.2.2.js = '0'
          · simp only [h0, if_true] at h ⊢
            by_cases hr3 : (i_assign env XJS_number p.2.1 p.2.2).1 = XJS_OK
            · simp only [hr3, not_true_eq_false, if_false] at h ⊢
              exact i_parse_number_frac_mono env _ _ _ _ h
            · simp only [hr3, not_false_eq_true, if_true] at h ⊢
              exact h
          · simp only [h0, if_false] at h ⊢
            cases he3 : i_parse_number_digits env fuel p.2.1 p.2.2 with
            | none => rw [he3] at h; cases h
            | some y =>
              obtain ⟨r3, b3, s3⟩ := y
              rw [he3] at h
              rw [i_parse_number_digits_mono env _ _ _ _ he3]
              simp only [Bool.false_eq_true, if_false] at h ⊢
              by_cases hr3 : r3 = XJS_OK
              · simp only [hr3, ne_eq, not_true_eq_false, if_false] at h ⊢
                exact i_parse_number_frac_mono env _ _ _ _ h
              · simp only [hr3, ne_eq, not_false_eq_true, if_true] at h ⊢
                exact h
      · simp only [hr2, not_false_eq_true, if_true] at h ⊢
        exact h
    · simp only [hr, ne_eq, not_false_eq_true, if_true] at h ⊢
      exact h

set_option maxHeartbeats 1000000 in
theorem i_parse_value_mono (env : Env) (fuel : Nat) (b : Buf) (s : State)
    (x : Int × XJSType × Buf × State) (h : i_parse_value env fuel b s = some x) :
    i_parse_value env (fuel + 1) b s = some x := by
  unfold i_parse_value at h ⊢
  cases he : i_eatwhite env fuel s with
  | none => rw [he] at h; cases h
  | some y =>
  obtain ⟨r, s1⟩ := y
  rw [he] at h
  rw [i_eatwhite_mono env _ _ _ he]
  simp only [] at h ⊢
  by_cases hr : r = XJS_OK
  swap
  · simp only [hr, ne_eq, not_false_eq_true, if_true] at h ⊢
    exact h
  simp only [hr, ne_eq, not_true_eq_false, if_false] at h ⊢
  cases he1 : i_parse_literal env fuel "true".toList s1 with
  | none => rw [he1] at h; cases h
  | some y =>
  obtain ⟨r1, s2⟩ := y
  rw [he1] at h
  rw [i_parse_literal_mono env _ _ _ _ he1]
  simp only [] at h ⊢
  by_cases hr1 : r1 = XJS_OK
  · simp only [hr1, if_true] at h ⊢
    exact h
  simp only [hr1, if_false] at h ⊢
  by_cases hn1 : r1 = XJS_NOPE
  swap
  · simp only [hn1, ne_eq, not_false_eq_true, if_true] at h ⊢
    exact h
  simp only [hn1, ne_eq, not_true_eq_false, if_false] at h ⊢
  cases he2 : i_parse_literal env fuel "false".toList s2 with
  | none => rw [he2] at h; cases h
  | some y =>
  obtain ⟨r2, s3⟩ := y
  rw [he2] at h
  rw [i_parse_literal_mono env _ _ _ _ he2]
  simp only [] at h ⊢
  by_cases hr2 : r2 = XJS_OK
  · simp only [hr2, if_true] at h ⊢
    exact h
  simp only [hr2, if_false] at h ⊢
  by_cases hn2 : r2 = XJS_NOPE
  swap
  · simp only [hn2, ne_eq, not_false_eq_true, if_true] at h ⊢
    exact h
  simp only [hn2, ne_eq, not_true_eq_false, if_false] at h ⊢
  cases he3 : i_parse_literal env fuel "null".toList s3 with
  | none => rw [he3] at h; cases h
  | some y =>
  obtain ⟨r3, s4⟩ := y
  rw [he3] at h
  rw [i_parse_literal_mono env _ _ _ _ he3]
  simp only [] at h ⊢
  by_cases hr3 : r3 = XJS_OK
  · simp only [hr3, if_true] at h ⊢
    exact h
  simp only [hr3, if_false] at h ⊢
  by_cases hn3 : r3 = XJS_NOPE
  swap
  · simp only [hn3, ne_eq, not_false_eq_true, if_true] at h ⊢
    exact h
  simp only [hn3, ne_eq, not_true_eq_false, if_false] at h ⊢
  cases he4 : i_parse_number env fuel b s4 with
  | none => rw [he4] at h; cases h
  | some y =>
  obtain ⟨r4, b4, s5⟩ := y
  rw [he4] at h
  rw [i_parse_number_mono env _ _ _ _ he4]
  simp only [] at h ⊢
  by_cases hr4 : r4 = XJS_OK
  · simp only [hr4, if_true] at h ⊢
    exact h
  simp only [hr4, if_false] at h ⊢
  by_cases hn4 : r4 = XJS_NOPE
  swap
  · simp only [hn4, ne_eq, not_false_eq_true, if_true] at h ⊢
    exact h
  simp only [hn4, ne_eq, not_true_eq_false, if_false] at h ⊢
  cases he5 : i_parse_string env fuel XJS_string b4 s5 with
  | none => rw [he5] at h; cases h
  | some y =>
  rw [he5] at h
  rw [i_parse_string_mono env _ _ _ _ _ he5]
  exact h

/-- A result of i_parse_value is its result with any larger fuel. -/
theorem i_parse_value_runs (env : Env) (fuel : Nat) (b : Buf) (s : State)
    (x : Int × XJSType × Buf × State) (h : i_parse_value env fuel b s = some x) :
    ∀ f, fuel ≤ f → i_parse_value env f b s = some x := by
  intro f hf
  induction f with
  | zero =>
    have : fuel = 0 := by omega
    subst this; exact h
  | succ n ih =>
    by_cases hn : fuel ≤ n
    · exact i_parse_value_mono env _ _ _ _ (ih hn)
    · have : fuel = n + 1 := by omega
      subst this; exact h

/-! ## The end of the input inside a scalar -/

/-- On a scalar cut off by the end of the input i_parse_value returns
XJS_END, the cursor on the terminator. -/
theorem cut_scalar_value (env : Env) (hinp : env.inp_cb = none) (hm : MemGrants env.mem_cb)
    (ws : List Char) (hws : isWs ws) (T : List Char) (hT : CutScalar T) (s : State)
    (hs : s.js = ws ++ T) :
    ∃ k b' s', Runs (fun fuel => i_parse_value env fuel Buf.empty s) (XJS_END, k, b', s') ∧
      s'.js = [] ∧ s'.events = s.events := by
  obtain ⟨hT0, v, q, hv, hsc, hq⟩ := hT
  have hjs : s.js ≠ [] := by
    rw [hs]; intro h
    exact hT0 (List.append_eq_nil.mp h).2
  have hfull : (cut (q ++ [',']) s).js = ws ++ (v.text ++ ',' :: []) := by
    simp only [cut, hs, ← hq, List.append_assoc]
  obtain ⟨k, val, b', sF, _, _, hadv, ⟨N, hrun⟩⟩ := i_parse_value_scalar env hm ws hws v hv hsc ','
    [] (Or.inr (Or.inl rfl)) (cut (q ++ [',']) s) hfull
  beta_reduce at hrun
  have hN := hrun N (Nat.le_refl N)
  rcases i_parse_value_cut hinp (q ++ [',']) N Buf.empty hjs with ⟨x, hx, h1, h2⟩ | ⟨heq, hne⟩
  · obtain ⟨r, k2, b2, s2⟩ := x
    simp only at h1 h2
    subst h1
    refine ⟨k2, b2, s2, ⟨N, fun fuel hf => i_parse_value_runs env N _ _ _ hx fuel hf⟩, h2, ?_⟩
    exact i_parse_value_events env _ _ _ _ _ _ _ hx
  · exfalso
    rw [hN] at heq
    cases hx : i_parse_value env N Buf.empty s with
    | none => rw [hx] at heq; cases heq
    | some x =>
      rw [hx] at heq
      have h3 := hne x hx
      simp only [Option.map_some', Option.some.injEq] at heq
      have h4 : sF = cut (q ++ [',']) x.2.2.2 := congrArg (fun y => y.2.2.2) heq
      have h5 : sF.js = x.2.2.2.js ++ (q ++ [',']) := by rw [h4]; rfl
      rw [hadv.1] at h5
      have h6 := congrArg List.length h5
      simp only [List.length_cons, List.length_nil, List.length_append] at h6
      have h7 : x.2.2.2.js.length = 0 := by omega
      exact h3 (List.length_eq_zero.mp h7)

/-- On a scalar cut off by the end of the input, at a value position, the
dispatcher returns XJS_END, the cursor on the terminator. -/
theorem cut_scalar_dispatch (env : Env) (hinp : env.inp_cb = none) (hm : MemGrants env.mem_cb)
    (ws : List Char) (hws : isWs ws) (T : List Char) (hT : CutScalar T) (parent : Nat)
    (name : Option (List Char)) (s : State) (hs : s.js = ws ++ T) :
    ∃ s', Runs (fun fuel => r_parse_any env fuel false parent name s) (XJS_END, s') ∧
      s'.js = [] ∧ s'.events = s.events := by
  obtain ⟨k, b', s1, ⟨N, hrun⟩, hjs, hev⟩ := cut_scalar_value env hinp hm [] (by simp [isWs]) T hT
    { s with js := T } rfl
  beta_reduce at hrun
  obtain ⟨hT0, v, q, hv, hsc, hq⟩ := hT
  obtain ⟨c, rc, hc, hc0, hcs, _, _, _, hcp, hcb⟩ := value_head v hv []
  have hTc : ∃ T', T = c :: T' := by
    cases T with
    | nil => exact absurd rfl hT0
    | cons a T' =>
      rw [List.append_nil, ← hq] at hc
      simp only [List.cons_append, List.cons.injEq] at hc
      exact ⟨T', by rw [hc.1]⟩
  obtain ⟨T', rfl⟩ := hTc
  have e0 := i_eatwhite_skip env ws hws c T' hcs hc0 s hs
  refine ⟨mem_free env k b'.ptr s1, ⟨N + ws.length + 2, fun fuel hf => ?_⟩, hjs, hev⟩
  obtain ⟨f, rfl⟩ : ∃ f, fuel = f + 1 := ⟨fuel - 1, by omega⟩
  show r_parse_any env (f + 1) false parent name s = _
  have hb : ¬(env.blocks = true ∧ c = '(') := fun h => hcp h.2
  rw [r_parse_any, e0 f (by omega)]
  simp only [peek_cons, (hcb hsc).1, (hcb hsc).2, hb, if_false, ne_eq, not_true_eq_false,
    Bool.false_eq_true, hrun f (by omega)]
  simp

/-- The array loop returns through i_noend the status with which the
dispatcher stops, other than XJS_OK, on the element that follows the
elements read so far; the cursor is left where the dispatcher left it. -/
theorem arr_loop_of_dispatch (env : Env) (items : JItems) (pre : List Char)
    (hpre : isWs pre) (x : Char) (xr : List Char) (hx0 : x ≠ NUL)
    (hxb : items.length = 0 → x ≠ ']') (r : Int) (hr : r ≠ XJS_OK) (js' : List Char)
    (hdisp : ∀ (ws : List Char) (np : Nat) (nm : Option (List Char)) (s : State), isWs ws →
      s.js = ws ++ x :: xr →
      ∃ s', Runs (fun fuel => r_parse_any env fuel false np nm s) (r, s') ∧ s'.js = js') :
    ∀ (np : Nat) (name : Option (List Char)) (s : State), s.js = items.holeSep pre ++ x :: xr →
      ∃ H cnt s', Runs (fun fuel => i_parse_array_loop env fuel false ⟨0, []⟩ XJS_array false 0
        items.length 0 np name s) (i_noend r, H, cnt, s') ∧ s'.js = js' := by
  intro np name s hs
  rw [JItems.holeSep_items_eq] at hs
  obtain ⟨ws, s1, hws, hs1, _, hpk, hcomma, hadv⟩ :=
    array_loop_comma env pre hpre items.length x xr hx0 hxb s hs
  obtain ⟨s2, ⟨N, hrun⟩, h1⟩ := hdisp ws np (some (Nat.toDigits 10 (items.length + 1))) s1
    hws hs1
  beta_reduce at hrun
  refine ⟨⟨0, []⟩, 0, s2, ⟨N + 1, fun fuel hf => ?_⟩, h1⟩
  obtain ⟨f, rfl⟩ : ∃ f, fuel = f + 1 := ⟨fuel - 1, by omega⟩
  show i_parse_array_loop env (f + 1) false ⟨0, []⟩ XJS_array false 0 items.length 0 np name s = _
  rw [i_parse_array_loop]
  simp only [hpk, if_true, hcomma, if_false, hadv, ne_eq, not_true_eq_false,
    show ¬ (XJS_array = XJS_block_header) by decide, true_or, hrun f (by omega), hr,
    not_false_eq_true]

/-- The object loop returns through i_noend the status with which the
dispatcher stops, other than XJS_OK, on the value of the member that follows
the members read so far. -/
theorem obj_loop_of_dispatch (env : Env) (he : GoodEnv env) (members : JMembers)
    (pre : List Char) (hpre : isWs pre) (nm : List StrItem) (hnm : ∀ it ∈ nm, it.wf)
    (ws1 ws2 : List Char) (hws1 : isWs ws1) (hws2 : isWs ws2) (x : Char) (xr : List Char)
    (hx0 : x ≠ NUL) (r : Int) (hr : r ≠ XJS_OK) (js' : List Char)
    (hdisp : ∀ (ws : List Char) (np : Nat) (nm : Option (List Char)) (s : State), isWs ws →
      s.js = ws ++ x :: xr →
      ∃ s', Runs (fun fuel => r_parse_any env fuel false np nm s) (r, s') ∧ s'.js = js') :
    ∀ (np : Nat) (name : Option (List Char)) (s : State),
      s.js = members.holeSep pre ++ (strText nm ++ (ws1 ++ (':' :: (ws2 ++ x :: xr)))) →
      ∃ s', Runs (fun fuel => i_parse_object_loop env fuel members.length np name s)
        (i_noend r, s') ∧ s'.js = js' := by
  intro np name s hs
  rw [JMembers.holeSep_members_eq] at hs
  have hs0 : s.js = (if members.length = 0 then [] else ',' :: pre) ++
      '"' :: (bodyText nm ++ '"' :: (ws1 ++ (':' :: (ws2 ++ x :: xr)))) := by
    rw [hs]; simp [strText]
  obtain ⟨ws, s1, hws, hs1, _, hpk, hcomma, hadv⟩ :=
    object_loop_comma env pre hpre members.length '"' _ (by decide) (fun _ => by decide) s hs0
  obtain ⟨y, yr, hy, hy0⟩ := head_ne_NUL ws2 (fun c hc => isspace_ne_NUL (hws2 c hc)) x xr hx0
  obtain ⟨z, zr, hz, hz0⟩ := head_ne_NUL ws1 (fun c hc => isspace_ne_NUL (hws1 c hc)) ':'
    (ws2 ++ x :: xr) (by decide)
  obtain ⟨nb, s2, ⟨N2, hrun2⟩, ha2, _, _⟩ := i_parse_string_ok env he.2.1 XJS_name ws hws
    nm hnm z zr hz0 Buf.empty s1 (by rw [hs1, ← hz]; simp [strText])
  beta_reduce at hrun2
  have e3 := i_eatwhite_skip env ws1 hws1 ':' _ (by decide) (by decide) s2 (by rw [ha2.1, hz])
  have e4 := i_advance0_cons2 env { s2 with js := ':' :: (ws2 ++ x :: xr) }
    ':' y yr (by simp [hy]) (by decide) hy0
  obtain ⟨s5, ⟨N5, hrun5⟩, h1⟩ := hdisp ws2 np nb.cstr { s2 with js := y :: yr } hws2
    (by simp [hy])
  beta_reduce at hrun5
  refine ⟨if nb.ptr ≠ 0 then mem_free env XJS_name nb.ptr s5 else s5,
    ⟨N2 + N5 + ws1.length + 2, fun fuel hf => ?_⟩, ?_⟩
  · obtain ⟨f, rfl⟩ : ∃ f, fuel = f + 1 := ⟨fuel - 1, by omega⟩
    show i_parse_object_loop env (f + 1) members.length np name s = _
    rw [i_parse_object_loop]
    simp only [hpk, if_true, hcomma, if_false, hadv, ne_eq, not_true_eq_false,
      hrun2 f (by omega), e3 f (by omega), peek_cons, e4, hrun5 f (by omega), hr,
      not_false_eq_true]
  · split
    · exact h1
    · exact h1

/-- An array returns the status with which its loop stops after well formed
elements. -/
theorem arr_of_loop (env : Env) (he : GoodEnv env) (ws0 : List Char) (items : JItems)
    (pre : List Char) (Y : List Char) (hws0 : isWs ws0) (hwf : items.wf)
    (hY : ∃ y yr, Y = y :: yr ∧ y ≠ NUL ∧ isspace y = false) (r : Int) (js' : List Char)
    (hloop : ∀ (np : Nat) (name : Option (List Char)) (s : State),
      s.js = items.holeSep pre ++ Y →
      ∃ H cnt s', Runs (fun fuel => i_parse_array_loop env fuel false ⟨0, []⟩ XJS_array false 0
        items.length 0 np name s) (r, H, cnt, s') ∧ s'.js = js') :
    ∀ (top : Bool) (ws : List Char), isWs ws → ∀ (parent : Nat) (name : Option (List Char))
      (s : State), s.js = ws ++ arrUpTo ws0 items pre Y →
      ∃ s', Runs (fun fuel => r_parse_any env fuel top parent name s) (r, s') ∧ s'.js = js' := by
  intro top ws hws parent name s hs
  obtain ⟨y, yr, rfl, hy0, hys⟩ := hY
  have hhead : ∃ x t, items.text true ++ (items.holeSep pre ++ y :: yr) = x :: t ∧ x ≠ NUL ∧
      isspace x = false := by
    cases items with
    | nil => exact ⟨y, yr, by simp [JItems.text, JItems.holeSep], hy0, hys⟩
    | cons p v q tl =>
      simp only [JItems.wf] at hwf
      obtain ⟨x, xr, hx, hx0, hxs, _⟩ := value_head v hwf.2.1
        (q ++ (tl.text false ++ (',' :: pre ++ y :: yr)))
      exact ⟨x, xr, by simp [JItems.text, JItems.holeSep, ← hx], hx0, hxs⟩
  obtain ⟨x, t, hx, hx0, hxs⟩ := hhead
  have hs' : s.js = ws ++ '[' :: (ws0 ++ x :: t) := by rw [hs, ← hx]; rfl
  have e0 := i_eatwhite_skip env ws hws '[' _ (by decide) (by decide) s hs'
  have e1 := i_eatwhite_skip env [] (by simp [isWs]) '[' (ws0 ++ x :: t) (by decide) (by decide)
    { s with js := '[' :: (ws0 ++ x :: t) } rfl
  have e2 := i_advance_ew_ok env
    { s with js := '[' :: (ws0 ++ x :: t), events := s.events ++ [⟨parent, XJS_array, name, none⟩] }
    '[' ws0 hws0 x t rfl (by decide) hx0 hxs
  have hl : ∃ H cnt s', Runs (fun fuel => i_parse_array_loop env fuel false ⟨0, []⟩ XJS_array
      false 0 0 0 (env.node_cb s.events ⟨parent, XJS_array, name, none⟩).2 name
      { s with js := x :: t, events := s.events ++ [⟨parent, XJS_array, name, none⟩] })
      (r, H, cnt, s') ∧ s'.js = js' := by
    cases hitems : items with
    | nil =>
      subst hitems
      obtain ⟨H, cnt, s', hrun, h1⟩ := hloop
        (env.node_cb s.events ⟨parent, XJS_array, name, none⟩).2 name
        { s with js := x :: t, events := s.events ++ [⟨parent, XJS_array, name, none⟩] }
        (by simp [← hx, JItems.text])
      exact ⟨H, cnt, s', by simpa [JItems.length] using hrun, h1⟩
    | cons p v q tl =>
      subst hitems
      obtain ⟨s1, hp1, hk⟩ := items_run env he _ hwf 0 ',' (pre ++ y :: yr)
        (env.node_cb s.events ⟨parent, XJS_array, name, none⟩).2 name
        { s with js := x :: t, events := s.events ++ [⟨parent, XJS_array, name, none⟩] }
        (Or.inl rfl) (by simp [← hx, JItems.holeSep])
      obtain ⟨H, cnt, s', hrun, h1⟩ := hloop
        (env.node_cb s.events ⟨parent, XJS_array, name, none⟩).2 name s1
        (by rw [hp1.1]; simp [JItems.holeSep])
      exact ⟨H, cnt, s', hk _ (by simpa using hrun), h1⟩
  obtain ⟨H, cnt, s', ⟨N3, hrun3⟩, h1⟩ := hl
  beta_reduce at hrun3
  have hok : ∀ h e, (env.node_cb h e).1 = XJS_OK := he.2.2
  refine ⟨s', ⟨N3 + ws.length + ws0.length + 3, fun fuel hf => ?_⟩, h1⟩
  obtain ⟨f, rfl⟩ : ∃ f, fuel = f + 1 := ⟨fuel - 1, by omega⟩
  obtain ⟨g, rfl⟩ : ∃ g, f = g + 1 := ⟨f - 1, by omega⟩
  show r_parse_any env (g + 1 + 1) top parent name s = _
  rw [r_parse_any, e0 (g + 1) (by omega)]
  simp only [ne_eq, not_true_eq_false, if_false, peek_cons,
    show ¬ (('[' : Char) = '\x7b') by decide, if_true]
  rw [i_parse_array, e1 g (by simp; omega)]
  simp only [ne_eq, not_true_eq_false, if_false, peek_cons, call_node, hok, e2 g (by omega)]
  simp only [Option.isSome_none, Bool.false_and, Option.getD_none]
  rw [hrun3 g (by omega)]

/-- An object returns the status with which its loop stops after well formed
members. -/
theorem obj_of_loop (env : Env) (he : GoodEnv env) (ws0 : List Char) (members : JMembers)
    (pre : List Char) (Y : List Char) (hws0 : isWs ws0) (hwf : members.wf)
    (hY : ∃ y yr, Y = y :: yr ∧ y ≠ NUL ∧ isspace y = false) (r : Int) (js' : List Char)
    (hloop : ∀ (np : Nat) (name : Option (List Char)) (s : State),
      s.js = members.holeSep pre ++ Y →
      ∃ s', Runs (fun fuel => i_parse_object_loop env fuel members.length np name s) (r, s') ∧
        s'.js = js') :
    ∀ (top : Bool) (ws : List Char), isWs ws → ∀ (parent : Nat) (name : Option (List Char))
      (s : State), s.js = ws ++ '\x7b' :: (ws0 ++ (members.text true ++ (members.holeSep pre ++ Y))) →
      ∃ s', Runs (fun fuel => r_parse_any env fuel top parent name s) (r, s') ∧ s'.js = js' := by
  intro top ws hws parent name s hs
  obtain ⟨y, yr, rfl, hy0, hys⟩ := hY
  have hhead : ∃ x t, members.text true ++ (members.holeSep pre ++ y :: yr) = x :: t ∧ x ≠ NUL ∧
      isspace x = false := by
    cases members with
    | nil => exact ⟨y, yr, by simp [JMembers.text, JMembers.holeSep], hy0, hys⟩
    | cons p nm w1 w2 v q tl =>
      exact ⟨'"', _, by simp [JMembers.text, strText]; rfl, by decide, by decide⟩
  obtain ⟨x, t, hx, hx0, hxs⟩ := hhead
  have hs' : s.js = ws ++ '\x7b' :: (ws0 ++ x :: t) := by rw [hs, ← hx]
  have e0 := i_eatwhite_skip env ws hws '\x7b' _ (by decide) (by decide) s hs'
  have e2 := i_advance_ew_ok env
    { s with js := '\x7b' :: (ws0 ++ x :: t),
             events := s.events ++ [⟨parent, XJS_object, name, none⟩] }
    '\x7b' ws0 hws0 x t rfl (by decide) hx0 hxs
  have hl : ∃ s', Runs (fun fuel => i_parse_object_loop env fuel 0
      (env.node_cb s.events ⟨parent, XJS_object, name, none⟩).2 name
      { s with js := x :: t, events := s.events ++ [⟨parent, XJS_object, name, none⟩] })
      (r, s') ∧ s'.js = js' := by
    cases hmem : members with
    | nil =>
      subst hmem
      obtain ⟨s', hrun, h1⟩ := hloop
        (env.node_cb s.events ⟨parent, XJS_object, name, none⟩).2 name
        { s with js := x :: t, events := s.events ++ [⟨parent, XJS_object, name, none⟩] }
        (by simp [← hx, JMembers.text])
      exact ⟨s', by simpa [JMembers.length] using hrun, h1⟩
    | cons p nm w1 w2 v q tl =>
      subst hmem
      obtain ⟨s1, hp1, hk⟩ := members_run env he _ hwf 0 ',' (pre ++ y :: yr)
        (env.node_cb s.events ⟨parent, XJS_object, name, none⟩).2 name
        { s with js := x :: t, events := s.events ++ [⟨parent, XJS_object, name, none⟩] }
        (Or.inl rfl) (by simp [← hx, JMembers.holeSep])
      obtain ⟨s', hrun, h1⟩ := hloop
        (env.node_cb s.events ⟨parent, XJS_object, name, none⟩).2 name s1
        (by rw [hp1.1]; simp [JMembers.holeSep])
      exact ⟨s', hk _ (by simpa using hrun), h1⟩
  obtain ⟨s', ⟨N3, hrun3⟩, h1⟩ := hl
  beta_reduce at hrun3
  have hok : ∀ h e, (env.node_cb h e).1 = XJS_OK := he.2.2
  refine ⟨s', ⟨N3 + ws.length + ws0.length + 3, fun fuel hf => ?_⟩, h1⟩
  obtain ⟨f, rfl⟩ : ∃ f, fuel = f + 1 := ⟨fuel - 1, by omega⟩
  obtain ⟨g, rfl⟩ : ∃ g, f = g + 1 := ⟨f - 1, by omega⟩
  show r_parse_any env (g + 1 + 1) top parent name s = _
  rw [r_parse_any, e0 (g + 1) (by omega)]
  simp only [ne_eq, not_true_eq_false, if_false, peek_cons, if_true]
  rw [i_parse_object]
  simp only [ne_eq, not_true_eq_false, if_false, peek_cons, call_node, hok, e2 g (by omega)]
  rw [hrun3 g (by omega)]

theorem cut_scalar_head {T : List Char} (hT : CutScalar T) :
    ∃ x xr, T = x :: xr ∧ x ≠ NUL ∧ isspace x = false ∧ x ≠ ']' ∧ x ≠ '[' ∧ x ≠ '\x7b' := by
  obtain ⟨hT0, v, q, hv, hsc, hq⟩ := hT
  obtain ⟨c, rc, hc, hc0, hcs, hcb, _, _, _, hcc⟩ := value_head v hv []
  cases T with
  | nil => exact absurd rfl hT0
  | cons a T' =>
    rw [List.append_nil, ← hq] at hc
    simp only [List.cons_append, List.cons.injEq] at hc
    exact ⟨a, T', rfl, by rw [hc.1]; exact hc0, by rw [hc.1]; exact hcs, by rw [hc.1]; exact hcb,
      by rw [hc.1]; exact (hcc hsc).1, by rw [hc.1]; exact (hcc hsc).2⟩

/-! ## The value lexers at the edges of their tokens -/

/-- On a character that is not white space i_eatwhite returns at once. -/
theorem i_eatwhite_nonspace (env : Env) (s : State) (h : isspace (peek s.js) = false)
    (fuel : Nat) (hf : 1 ≤ fuel) : i_eatwhite env fuel s = some (XJS_OK, s) := by
  obtain ⟨k, rfl⟩ : ∃ k, fuel = k + 1 := ⟨fuel - 1, by omega⟩
  rw [i_eatwhite]
  simp only [h, Bool.false_eq_true, if_false]

/-- A character that differs from the next character of the literal, after
characters that match: the loop of i_parse_literal returns
XJS_ERR_BAD_LITERAL. -/
theorem i_parse_literal_loop_bad (env : Env) (c : Char) (rest : List Char) (hc : c ≠ NUL)
    (l : Char) (post : List Char) (hcl : c ≠ l) :
    ∀ (pre : List Char), (∀ x ∈ pre, x ≠ NUL) → ∀ (s : State), s.js = pre ++ c :: rest →
      (i_parse_literal_loop env (pre ++ l :: post) s).1 = XJS_ERR_BAD_LITERAL := by
  intro pre
  induction pre with
  | nil =>
    intro _ s hs
    simp only [List.nil_append] at hs
    simp only [List.nil_append, i_parse_literal_loop, hs, peek_cons, ne_eq, hcl,
      not_false_eq_true, if_true]
  | cons p pre ih =>
    intro hp s hs
    obtain ⟨d, r', hdr, hd⟩ := head_ne_NUL pre (fun x hx => hp x (by simp [hx])) c rest hc
    have hs' : s.js = p :: d :: r' := by rw [hs, ← hdr]; rfl
    simp only [List.cons_append, i_parse_literal_loop, hs', peek_cons, ne_eq, not_true_eq_false,
      if_false, i_advance0_cons2 env s p d r' hs' (hp p (by simp)) hd]
    exact ih (fun x hx => hp x (by simp [hx])) { s with js := d :: r' } (by simp [hdr])

theorem isalnum_ne_NUL {c : Char} (h : isalnum c = true) : c ≠ NUL := by
  rintro rfl
  exact absurd h (by decide)

theorem literal_chars {lit : List Char}
    (hlit : lit = "true".toList ∨ lit = "false".toList ∨ lit = "null".toList) :
    lit ≠ [] ∧ ∀ c ∈ lit, c ≠ NUL ∧ isspace c = false := by
  rcases hlit with rfl | rfl | rfl <;> decide

/-- C21: the literal lexer i_parse_literal, called for one of the spellings
true, false and null with the cursor on a character that is not white
space. (1) When the character under the cursor (the terminator included)
differs from the first character of the spelling, it returns XJS_NOPE and
the state, the cursor with it, is as it was. (2) When the first character
matches and a later character of the input differs from the spelling, it
returns XJS_ERR_BAD_LITERAL. (3) When the spelling is matched in full and
the next character is alphanumeric, it returns XJS_ERR_BAD_LITERAL. (4) When
the spelling is matched in full and is followed by a character of the input
that is not alphanumeric, it returns XJS_OK with the cursor on that
character, just past the spelling. -/
theorem C21_literal_lexer (env : Env) (lit : List Char)
    (hlit : lit = "true".toList ∨ lit = "false".toList ∨ lit = "null".toList)
    (s : State) (hws : isspace (peek s.js) = false) (fuel : Nat) (hf : 1 ≤ fuel) :
    (peek s.js ≠ peek lit → i_parse_literal env fuel lit s = some (XJS_NOPE, s)) ∧
    (∀ pre l post c rest, lit = pre ++ l :: post → pre ≠ [] → c ≠ NUL → c ≠ l →
       s.js = pre ++ c :: rest →
       ∃ s', i_parse_literal env fuel lit s = some (XJS_ERR_BAD_LITERAL, s')) ∧
    (∀ c rest, isalnum c = true → s.js = lit ++ c :: rest →
       i_parse_literal env fuel lit s = some (XJS_ERR_BAD_LITERAL, { s with js := c :: rest })) ∧
    (∀ c rest, c ≠ NUL → isalnum c = false → s.js = lit ++ c :: rest →
       i_parse_literal env fuel lit s = some (XJS_OK, { s with js := c :: rest })) := by
  obtain ⟨hne, hl⟩ := literal_chars hlit
  have e1 := i_eatwhite_nonspace env s hws fuel hf
  refine ⟨?_, ?_, ?_, ?_⟩
  · intro hp
    unfold i_parse_literal
    rw [e1]
    simp only [ne_eq, not_true_eq_false, if_false, hp, not_false_eq_true, if_true]
  · intro pre l post c rest hsplit hpre hc hcl hs
    have hpren : ∀ x ∈ pre, x ≠ NUL := fun x hx => (hl x (by rw [hsplit]; simp [hx])).1
    have hbad := i_parse_literal_loop_bad env c rest hc l post hcl pre hpren s hs
    have hpk : peek s.js = peek lit := by
      cases pre with
      | nil => exact absurd rfl hpre
      | cons a t => rw [hs, hsplit]; rfl
    unfold i_parse_literal
    rw [e1]
    simp only [ne_eq, not_true_eq_false, if_false, hpk]
    rw [← hsplit] at hbad
    generalize i_parse_literal_loop env lit s = p at hbad
    obtain ⟨r2, s2⟩ := p
    simp only [] at hbad
    subst hbad
    exact ⟨s2, by simp⟩
  · intro c rest hca hs
    have hc0 := isalnum_ne_NUL hca
    have e2 := i_parse_literal_loop_ok env c rest hc0 lit (fun x hx => (hl x hx).1) s hs
    have hpk : peek s.js = peek lit := by
      cases lit with
      | nil => exact absurd rfl hne
      | cons a t => rw [hs]; rfl
    unfold i_parse_literal
    rw [e1]
    simp only [ne_eq, not_true_eq_false, if_false, hpk, e2, peek_cons, hca, if_true]
  · intro c rest hc0 hca hs
    exact i_parse_literal_ok env lit hne hl c rest hc0 hca s hs fuel hf

/-- C21 on `null,`: the spelling is matched and the cursor is left on the
comma. -/
theorem C21_literal_lexer_witness :
    i_parse_literal envPlain 1 "null".toList (State.init "null,".toList 0)
      = some (XJS_OK, { State.init "null,".toList 0 with js := [','] }) :=
  (C21_literal_lexer envPlain "null".toList (Or.inr (Or.inr rfl)) (State.init "null,".toList 0)
    (by decide) 1 (Nat.le_refl 1)).2.2.2 ',' [] (by decide) (by decide) rfl

/-- A result of i_parse_string stays the result with more fuel. -/
theorem i_parse_string_runs (env : Env) (fuel : Nat) (c : XJSType) (b : Buf) (s : State)
    (x : Int × Buf × State) (h : i_parse_string env fuel c b s = some x) :
    ∀ f, fuel ≤ f → i_parse_string env f c b s = some x := by
  intro f hf
  obtain ⟨k, rfl⟩ : ∃ k, f = fuel + k := ⟨f - fuel, by omega⟩
  induction k with
  | zero => exact h
  | succ k ih => exact i_parse_string_mono env _ c b s x (ih (by omega))

/-- C22, amended: for every string literal with a non-empty body that holds
no raw backspace, form-feed, line-feed, carriage-return or tab and only
recognised escapes, and that is followed by at least one more character of
the input, i_parse_string started with an empty buffer (and an allocator
that grants) returns XJS_OK with the buffer holding exactly the characters
that stand between the two quotes, in order, followed by a NUL; an escape
sequence is kept as its source characters, the backslash and its body, and
is not decoded. -/
theorem C22_string_body_verbatim (env : Env) (hm : MemGrants env.mem_cb) (context : XJSType)
    (ws : List Char) (hws : isWs ws) (body : List StrItem) (hbody : ∀ it ∈ body, it.wf)
    (hne : body ≠ []) (x : Char) (r : List Char) (hx : x ≠ NUL) (s : State)
    (hs : s.js = ws ++ (strText body ++ x :: r)) :
    ∃ b' s', Runs (fun fuel => i_parse_string env fuel context Buf.empty s) (XJS_OK, b', s') ∧
      b'.data = bodyText body ++ [NUL] ∧ b'.cstr = some (bodyText body) ∧ s'.js = x :: r := by
  obtain ⟨b', s', hrun, hadv, h1, _⟩ :=
    i_parse_string_ok env hm context ws hws body hbody x r hx Buf.empty s hs
  obtain ⟨hp, hd⟩ := h1 hne
  have hd' : b'.data = bodyText body ++ [NUL] := by simpa [Buf.empty] using hd
  exact ⟨b', s', hrun, hd', Buf.cstr_of b' _ hp hd' (bodyText_ne_NUL body hbody), hadv.1⟩

/-- C22 on the literal `"a\né"` followed by a comma: the buffer holds the
ten characters between the quotes as they stand in the source, and a NUL. -/
theorem C22_string_body_verbatim_witness :
    ∃ b' s', Runs (fun fuel => i_parse_string envPlain fuel XJS_string Buf.empty
        (State.init "\"a\\n\\u00e9\",".toList 0)) (XJS_OK, b', s') ∧
      b'.data = "a\\n\\u00e9".toList ++ [NUL] ∧ b'.cstr = some "a\\n\\u00e9".toList ∧
      s'.js = [','] :=
  C22_string_body_verbatim envPlain memGrant_grants XJS_string [] (by simp [isWs])
    [.ch 'a', .esc 'n', .uni '0' '0' 'e' '9']
    (by
      intro it hit
      simp only [List.mem_cons, List.mem_singleton, List.not_mem_nil, or_false] at hit
      rcases hit with rfl | rfl | rfl
      · simp only [StrItem.wf]; decide
      · simp only [StrItem.wf]; decide
      · simp only [StrItem.wf]; decide)
    (by simp) ',' [] (by decide)
    (State.init "\"a\\n\\u00e9\",".toList 0) rfl

/-- C22 fails at the literal `"a"` that ends the input: i_parse_string
returns XJS_END, and the buffer holds the character without a NUL after
it. -/
theorem C22_string_at_end_of_input :
    (i_parse_string envPlain 10 XJS_string Buf.empty (State.init "\"a\"".toList 0)).map
        (fun x => (x.1, x.2.1.data)) = some (XJS_END, ['a']) ∧
      XJS_END ≠ XJS_OK := by
  decide!

/-- A string literal whose closing quote is missing, the input ending after
the opening quote and valid body characters: i_parse_string returns the
XJS_END of i_advance. -/
theorem missing_close_quote_end (env : Env) (hinp : env.inp_cb = none)
    (hm : MemGrants env.mem_cb) (context : XJSType) (ws : List Char) (hws : isWs ws)
    (body : List StrItem) (hbody : ∀ it ∈ body, it.wf) (b : Buf) (s : State)
    (hs : s.js = ws ++ '"' :: bodyText body) :
    ∃ b' s', Runs (fun fuel => i_parse_string env fuel context b s) (XJS_END, b', s') ∧
      s'.js = [] := by
  have hjs : s.js ≠ [] := by rw [hs]; simp
  have hfull : (cut ['"', ','] s).js = ws ++ (strText body ++ ',' :: []) := by
    simp only [cut, hs, strText, List.append_assoc, List.cons_append, List.nil_append]
  obtain ⟨bF, sF, ⟨N, hrun⟩, hadv, _, _⟩ :=
    i_parse_string_ok env hm context ws hws body hbody ',' [] (by decide) b (cut ['"', ','] s) hfull
  beta_reduce at hrun
  have hN := hrun N (Nat.le_refl N)
  rcases (i_parse_string_cut hinp ['"', ','] N context b hjs).partial_eq3 with
    ⟨b2, s2, hx, h2⟩ | ⟨heq, hne⟩
  · exact ⟨b2, s2, ⟨N, fun fuel hf => i_parse_string_runs env N _ _ _ _ hx fuel hf⟩, h2⟩
  · exfalso
    rw [hN] at heq
    cases hx : i_parse_string env N context b s with
    | none => rw [hx] at heq; cases heq
    | some x =>
      rw [hx] at heq
      obtain ⟨r1, b1, s1⟩ := x
      have h3 := hne r1 b1 s1 hx
      simp only [Option.map_some', Option.some.injEq] at heq
      have h4 : sF = cut ['"', ','] s1 := congrArg (fun y => y.2.2) heq
      have h5 : sF.js = s1.js ++ ['"', ','] := by rw [h4]; rfl
      rw [hadv.1] at h5
      have h6 := congrArg List.length h5
      simp only [List.length_cons, List.length_nil, List.length_append] at h6
      omega

/-- C23 fails on every input of its family: for a string literal whose
closing quote is missing, the input ending after the opening quote and zero
or more valid body characters (one buffer, no refill callback, an allocator
that grants), i_parse_string returns XJS_END, the status i_advance gives at
the end of the input, and not XJS_ERR_EXP_END_STRING: the test of line 348
is never reached with the cursor on the terminator. -/
theorem C23_missing_close_quote (env : Env) (hinp : env.inp_cb = none)
    (hm : MemGrants env.mem_cb) (context : XJSType) (ws : List Char) (hws : isWs ws)
    (body : List StrItem) (hbody : ∀ it ∈ body, it.wf) (b : Buf) (s : State)
    (hs : s.js = ws ++ '"' :: bodyText body) :
    ∃ b' s', Runs (fun fuel => i_parse_string env fuel context b s) (XJS_END, b', s') ∧
      s'.js = [] ∧ XJS_END ≠ XJS_ERR_EXP_END_STRING := by
  obtain ⟨b', s', hrun, hjs⟩ := missing_close_quote_end env hinp hm context ws hws body hbody b s hs
  exact ⟨b', s', hrun, hjs, by decide⟩

/-- C23 on the input `"abc`. -/
theorem C23_missing_close_quote_witness :
    ∃ b' s', Runs (fun fuel => i_parse_string envPlain fuel XJS_string Buf.empty
        (State.init "\"abc".toList 0)) (XJS_END, b', s') ∧
      s'.js = [] ∧ XJS_END ≠ XJS_ERR_EXP_END_STRING :=
  C23_missing_close_quote envPlain rfl memGrant_grants XJS_string [] (by simp [isWs])
    [.ch 'a', .ch 'b', .ch 'c']
    (by
      intro it hit
      simp only [List.mem_cons, List.mem_singleton, List.not_mem_nil, or_false] at hit
      rcases hit with rfl | rfl | rfl
      · simp only [StrItem.wf]; decide
      · simp only [StrItem.wf]; decide
      · simp only [StrItem.wf]; decide)
    Buf.empty (State.init "\"abc".toList 0) rfl

/-- The empty string literal in front of another character: no buffer is
requested and the buffer is left as it was, the state changes by the cursor
only. -/
theorem i_parse_string_empty (env : Env) (context : XJSType) (ws : List Char) (hws : isWs ws)
    (x : Char) (r : List Char) (hx : x ≠ NUL) (s : State)
    (hs : s.js = ws ++ '"' :: '"' :: x :: r) :
    ∀ fuel, ws.length + 1 ≤ fuel →
      i_parse_string env fuel context Buf.empty s
        = some (XJS_OK, Buf.empty, { s with js := x :: r }) := by
  intro fuel hf
  have e1 := i_eatwhite_skip env ws hws '"' ('"' :: x :: r) (by decide) (by decide) s hs fuel hf
  have e2 := i_advance0_cons2 env { s with js := '"' :: '"' :: x :: r } '"' '"' (x :: r) rfl
    (by decide) (by decide)
  have e3 := i_advance0_cons2 env { s with js := '"' :: x :: r } '"' x r rfl (by decide) hx
  obtain ⟨k, rfl⟩ : ∃ k, fuel = k + 1 := ⟨fuel - 1, by omega⟩
  unfold i_parse_string
  rw [e1]
  simp only [ne_eq, not_true_eq_false, if_false, peek_cons, e2]
  rw [i_parse_string_loop]
  simp only [peek_cons, ne_eq, not_true_eq_false, and_false, if_false, e3, terminate, Buf.empty]

/-- C30, amended: the empty string literal `""` followed by at least one
more character of the input: i_parse_string returns XJS_OK without
requesting a buffer, the value pointer is left NULL and the state changes by
the cursor only. So a string at a value position is delivered to the sink as
kind string with its body as value, the value being absent (NULL) exactly
when the body is empty; and the value of a member is delivered under the
body of its name, the name being absent (NULL) exactly when the body of the
name is empty. (One buffer, an allocator that grants, a sink that returns
XJS_OK.) -/
theorem C30_empty_string_is_null (env : Env) (he : GoodEnv env) :
    (∀ (context : XJSType) (ws : List Char) (x : Char) (r : List Char) (s : State),
      isWs ws → x ≠ NUL → s.js = ws ++ '"' :: '"' :: x :: r →
      Runs (fun fuel => i_parse_string env fuel context Buf.empty s)
        (XJS_OK, Buf.empty, { s with js := x :: r })) ∧
    (∀ (body : List StrItem) (ws : List Char) (d : Char) (r : List Char) (parent : Nat)
        (name : Option (List Char)) (s : State),
      (∀ it ∈ body, it.wf) → isWs ws → isDelim d → s.js = ws ++ (strText body ++ d :: r) →
      ∃ s', Runs (fun fuel => r_parse_any env fuel false parent name s) (XJS_OK, s') ∧
        s'.events = s.events ++
          [⟨parent, XJS_string, name, if body = [] then none else some (bodyText body)⟩]) ∧
    (∀ (ws0 : List Char) (members : JMembers) (top : Bool) (ws rest : List Char) (parent : Nat)
        (name : Option (List Char)) (s : State),
      isWs ws0 → members.wf → isWs ws →
      s.js = ws ++ ((JValue.obj ws0 members).text ++ rest) →
      ∃ s', Runs (fun fuel => r_parse_any env fuel top parent name s) (XJS_OK, s') ∧
        s'.events.map Event.view = s.events.map Event.view ++
          (XJS_object, name, none) :: (members.events ++ [(XJS_object_end, name, none)])) ∧
    (∀ (pre : List Char) (nm : List StrItem) (ws1 ws2 : List Char) (v : JValue)
        (post : List Char) (tl : JMembers),
      (JMembers.cons pre nm ws1 ws2 v post tl).events
        = v.events (if nm = [] then none else some (bodyText nm)) ++ tl.events) := by
  refine ⟨?_, ?_, ?_, ?_⟩
  · intro context ws x r s hws hx hs
    exact ⟨ws.length + 1, fun fuel hf => i_parse_string_empty env context ws hws x r hx s hs fuel hf⟩
  · intro body ws d r parent name s hbody hws hd hs
    obtain ⟨k, val, s', hev, hrun, _, hevs, _, _⟩ :=
      r_parse_any_scalar env he.2.1 ws hws (.str body) hbody rfl d r hd parent name s hs
    simp only [JValue.events, List.cons.injEq, Prod.mk.injEq, and_true, true_and] at hev
    obtain ⟨hk, hval⟩ := hev
    subst hk
    rw [he.2.2] at hrun
    refine ⟨s', hrun, ?_⟩
    rw [hevs, ← hval]
    rfl
  · intro ws0 members top ws rest parent name s hws0 hwf hws hs
    obtain ⟨s', hrun, hp⟩ := value_ok env he (.obj ws0 members) (by simp only [JValue.wf]; exact ⟨hws0, hwf⟩)
      top ws rest hws (fun h => by simp [JValue.isContainer] at h) parent name s hs
    refine ⟨s', hrun, ?_⟩
    rw [hp.2]
    simp only [JValue.events]
  · intro pre nm ws1 ws2 v post tl
    simp only [JMembers.events, bodyCstr]

/-- C30 on `[""]` and on the object with the one member `"":1`: the string
is delivered with a NULL value, the number with a NULL name. -/
theorem C30_empty_string_is_null_witness :
    (∃ s', Runs (fun fuel => r_parse_any envPlain fuel false 7 (some ['1'])
          (State.init "\"\"]".toList 0)) (XJS_OK, s') ∧
        s'.events = [⟨7, XJS_string, some ['1'], none⟩]) ∧
      (∃ s', Runs (fun fuel => r_parse_any envPlain fuel true 0 none
          (State.init "\x7b\"\":1\x7d".toList 0)) (XJS_OK, s') ∧
        s'.events.map Event.view =
          [(XJS_object, none, none), (XJS_number, none, some ['1']),
           (XJS_object_end, none, none)]) :=
  ⟨(C30_empty_string_is_null envPlain ⟨rfl, memGrant_grants, sinkOk_ok⟩).2.1 [] [] ']' [] 7
      (some ['1']) (State.init "\"\"]".toList 0) (by simp) (by simp [isWs])
      (Or.inr (Or.inr (Or.inl rfl))) rfl,
   (C30_empty_string_is_null envPlain ⟨rfl, memGrant_grants, sinkOk_ok⟩).2.2.1 []
      (.cons [] [] [] [] (.num ⟨false, ['1'], none, none⟩) [] .nil) true [] [] 0 none
      (State.init "\x7b\"\":1\x7d".toList 0) (by simp [isWs])
      (by
        simp only [JMembers.wf, JValue.wf, JNumber.wf, isWs, List.not_mem_nil, false_implies,
          implies_true, true_and, and_true]
        simp
        decide)
      (by simp [isWs]) rfl⟩

/-- C30 fails at the literal `""` that ends the input: i_parse_string
returns XJS_END (no buffer is requested). -/
theorem C30_empty_string_at_end_of_input :
    (i_parse_string envPlain 10 XJS_string Buf.empty (State.init "\"\"".toList 0)).map
        (fun x => (x.1, x.2.1.ptr, x.2.2.mem)) = some (XJS_END, 0, []) ∧
      XJS_END ≠ XJS_OK := by
  decide!

/-- The sign and the integer part of a number, in front of a character that
is not a digit: i_parse_number copies them and goes on with the fraction. -/
theorem number_int_run (env : Env) (hm : MemGrants env.mem_cb) (ws : List Char) (hws : isWs ws)
    (neg : Bool) (int : List Char) (hine : int ≠ []) (hid : ∀ c ∈ int, isdigit c = true)
    (hzero : peek int = '0' → int = ['0']) (y : Char) (r' : List Char) (hy0 : y ≠ NUL)
    (hyd : isdigit y = false) (b : Buf) (s : State)
    (hs : s.js = ws ++ ((if neg then ['-'] else []) ++ (int ++ y :: r'))) :
    ∃ b2 s2, b2.ptr ≠ 0 ∧ Adv s s2 (y :: r') ∧
      ∃ N, ∀ fuel, N ≤ fuel →
        i_parse_number env fuel b s = i_parse_number_frac env fuel b2 s2 := by
  obtain ⟨i0, i', hi⟩ : ∃ i0 i', int = i0 :: i' := by
    cases h : int with
    | nil => exact absurd h hine
    | cons a l => exact ⟨a, l, rfl⟩
  have hi0 : isdigit i0 = true := hid i0 (by simp [hi])
  have htail : ∀ (b1 : Buf) (s1 : State), s1.js = int ++ y :: r' →
      ∃ b2 s2, b2.ptr ≠ 0 ∧ Adv s1 s2 (y :: r') ∧
        ∃ N, ∀ fuel, N ≤ fuel →
          (match (if peek s1.js = '0' then some (i_assign env XJS_number b1 s1)
                 else if !isdigit (peek s1.js) then some (XJS_ERR_EXP_DIGIT, b1, s1)
                 else i_parse_number_digits env fuel b1 s1) with
          | none => none
          | some (r3, b3, s3) =>
            if r3 ≠ XJS_OK then some (r3, b3, s3) else i_parse_number_frac env fuel b3 s3)
          = i_parse_number_frac env fuel b2 s2 := by
    intro b1 s1 hs1
    by_cases h0 : i0 = '0'
    · have hint : int = ['0'] := hzero (by simp [hi, h0])
      rw [hint] at hs1
      simp only [List.singleton_append] at hs1
      obtain ⟨b2, s2, e2, hd2, hp2, ha2⟩ := i_assign_ok env hm XJS_number b1 s1 '0' y r' hs1
        (by decide) (by decide) hy0
      refine ⟨b2, s2, hp2, ha2, 0, fun fuel _ => ?_⟩
      simp only [hs1, peek_cons, if_true, e2, ne_eq, not_true_eq_false, if_false]
    · obtain ⟨b2, s2, hd2, hp2, _, ha2, hrun2⟩ :=
        i_parse_number_digits_run env hm y r' hy0 hyd int hid b1 s1 hs1
      refine ⟨b2, s2, hp2 hine, ha2, int.length + 1, fun fuel hf => ?_⟩
      have hpk : peek s1.js = i0 := by rw [hs1, hi]; rfl
      simp only [hpk, h0, if_false, hi0, Bool.not_true, Bool.false_eq_true,
        hrun2 fuel (by omega), ne_eq, not_true_eq_false]
  have hi0s : isspace i0 = false := by
    cases h : isspace i0 with
    | false => rfl
    | true =>
      rw [isspace_iff] at h
      rcases h with rfl | rfl | rfl | rfl | rfl | rfl <;> exact absurd hi0 (by decide)
  have hi0m : i0 ≠ '-' := by rintro rfl; exact absurd hi0 (by decide)
  cases neg with
  | false =>
    have htxt : (if false = true then ['-'] else []) ++ (int ++ y :: r')
        = i0 :: (i' ++ y :: r') := by simp [hi]
    rw [htxt] at hs
    have e1 := i_eatwhite_skip env ws hws i0 _ hi0s (isdigit_facts hi0).1 s hs
    obtain ⟨b', s', hp', ha', N, hrun⟩ := htail b
      { s with js := i0 :: (i' ++ y :: r') } (by simp [hi])
    refine ⟨b', s', hp', ⟨ha'.1, ha'.2.1, ha'.2.2.1, ha'.2.2.2⟩, N + ws.length + 1,
      fun fuel hf => ?_⟩
    unfold i_parse_number
    rw [e1 fuel (by omega)]
    simp only [ne_eq, not_true_eq_false, if_false, peek_cons, hi0m, hi0, Bool.not_true,
      Bool.false_eq_true]
    have := hrun fuel (by omega)
    simp only [peek_cons, hi0, Bool.not_true, Bool.false_eq_true, if_false] at this
    exact this
  | true =>
    have htxt : (if true = true then ['-'] else []) ++ (int ++ y :: r')
        = '-' :: i0 :: (i' ++ y :: r') := by simp [hi]
    rw [htxt] at hs
    have e1 := i_eatwhite_skip env ws hws '-' _ (by decide) (by decide) s hs
    obtain ⟨b1, s1, ea, hd1, hp1, ha1⟩ := i_assign_ok env hm XJS_number b
      { s with js := '-' :: i0 :: (i' ++ y :: r') } '-' i0 _ rfl
      (by decide) (by decide) (isdigit_facts hi0).1
    obtain ⟨b', s', hp', ha', N, hrun⟩ := htail b1 s1 (by rw [ha1.1, hi]; rfl)
    refine ⟨b', s', hp', ?_, N + ws.length + 1, fun fuel hf => ?_⟩
    · exact ⟨ha'.1, ha'.2.1.trans ha1.2.1, ha'.2.2.1.trans ha1.2.2.1, ha'.2.2.2.trans ha1.2.2.2⟩
    · unfold i_parse_number
      rw [e1 fuel (by omega)]
      simp only [ne_eq, not_true_eq_false, if_false, peek_cons, if_true, ea, ha1.1, hi0,
        Bool.not_true, Bool.false_eq_true]
      have := hrun fuel (by omega)
      simp only [ha1.1, peek_cons, hi0, Bool.not_true, Bool.false_eq_true, if_false] at this
      exact this

/-- A decimal point that no digit follows. -/
theorem i_parse_number_frac_bad (env : Env) (hm : MemGrants env.mem_cb) (x : Char)
    (r : List Char) (hx0 : x ≠ NUL) (hxd : isdigit x = false) (b : Buf) (s : State)
    (hs : s.js = '.' :: x :: r) :
    ∃ b' s', s'.js = x :: r ∧
      ∀ fuel, i_parse_number_frac env fuel b s = some (XJS_ERR_EXP_DIGIT, b', s') := by
  obtain ⟨b1, s1, e1, _, _, ha1⟩ := i_assign_ok env hm XJS_number b s '.' x r hs
    (by decide) (by decide) hx0
  refine ⟨b1, s1, ha1.1, fun fuel => ?_⟩
  unfold i_parse_number_frac
  simp only [hs, peek_cons, if_true, e1, ne_eq, not_true_eq_false, if_false, ha1.1, hxd,
    Bool.not_false]

/-- An exponent marker, with its optional sign, that no digit follows. -/
theorem i_parse_number_exp_bad (env : Env) (hm : MemGrants env.mem_cb) (m : Char)
    (hmk : m = 'e' ∨ m = 'E') (sg : Option Char) (x : Char) (r : List Char) (hx0 : x ≠ NUL)
    (hxd : isdigit x = false)
    (hsg : (sg = none ∧ x ≠ '+' ∧ x ≠ '-') ∨ sg = some '+' ∨ sg = some '-') (b : Buf)
    (s : State) (hs : s.js = m :: (sg.toList ++ x :: r)) :
    ∃ b' s', s'.js = x :: r ∧
      ∀ fuel, i_parse_number_exp env fuel b s = some (XJS_ERR_EXP_DIGIT, b', s') := by
  have hm0 : m ≠ NUL ∧ isctl5 m = false := by rcases hmk with rfl | rfl <;> decide
  rcases hsg with ⟨rfl, hxp, hxm⟩ | hg
  · simp only [Option.toList, List.nil_append] at hs
    obtain ⟨b1, s1, e1, _, _, ha1⟩ := i_assign_ok env hm XJS_number b s m x r hs hm0.1 hm0.2 hx0
    refine ⟨b1, s1, ha1.1, fun fuel => ?_⟩
    unfold i_parse_number_exp
    simp only [hs, peek_cons, hmk, if_true, e1, ne_eq, not_true_eq_false, if_false, ha1.1,
      hxp, hxm, or_self, hxd, Bool.not_false]
  · obtain ⟨g, rfl, hg'⟩ : ∃ g, sg = some g ∧ (g = '+' ∨ g = '-') := by
      rcases hg with rfl | rfl
      · exact ⟨'+', rfl, Or.inl rfl⟩
      · exact ⟨'-', rfl, Or.inr rfl⟩
    have hg0 : g ≠ NUL ∧ isctl5 g = false := by rcases hg' with rfl | rfl <;> decide
    simp only [Option.toList, List.cons_append, List.nil_append] at hs
    obtain ⟨b1, s1, e1, _, _, ha1⟩ := i_assign_ok env hm XJS_number b s m g _ hs hm0.1 hm0.2
      hg0.1
    obtain ⟨b2, s2, e2, _, _, ha2⟩ := i_assign_ok env hm XJS_number b1 s1 g x r ha1.1
      hg0.1 hg0.2 hx0
    refine ⟨b2, s2, ha2.1, fun fuel => ?_⟩
    unfold i_parse_number_exp
    simp only [hs, peek_cons, hmk, if_true, e1, ne_eq, not_true_eq_false, if_false, ha1.1,
      hg', e2, ha2.1, hxd, Bool.not_false]

/-- The fraction of a number, in front of a character that is neither a
digit nor a decimal point: i_parse_number_frac copies it and goes on with the
exponent. -/
theorem number_frac_run (env : Env) (hm : MemGrants env.mem_cb) (n : JNumber) (hn : n.wf)
    (y : Char) (r' : List Char) (hy0 : y ≠ NUL) (hyd : isdigit y = false) (hyp : y ≠ '.')
    (b : Buf) (s : State) (hs : s.js = n.fracText ++ y :: r') :
    ∃ b2 s2, s2.js = y :: r' ∧
      ∃ N, ∀ fuel, N ≤ fuel →
        i_parse_number_frac env fuel b s = i_parse_number_exp env fuel b2 s2 := by
  cases hfrac : n.frac with
  | none =>
    simp only [JNumber.fracText, hfrac, List.nil_append] at hs
    refine ⟨b, s, hs, 0, fun fuel _ => ?_⟩
    unfold i_parse_number_frac
    simp only [hs, peek_cons, hyp, if_false]
  | some f =>
    obtain ⟨hne, hfd⟩ := hn.2.2.2.1 f hfrac
    obtain ⟨f0, f', rfl⟩ : ∃ f0 f', f = f0 :: f' := by
      cases f with
      | nil => exact absurd rfl hne
      | cons a l => exact ⟨a, l, rfl⟩
    have hf0 : isdigit f0 = true := hfd f0 (by simp)
    simp only [JNumber.fracText, hfrac, List.cons_append] at hs
    obtain ⟨b1, s1, e1, hd1, hp1, ha1⟩ := i_assign_ok env hm XJS_number b s '.' f0 _ hs
      (by decide) (by decide) (isdigit_facts hf0).1
    obtain ⟨b2, s2, hd2, hp2, _, ha2, hrun2⟩ :=
      i_parse_number_digits_run env hm y r' hy0 hyd (f0 :: f') hfd b1 s1
        (by rw [ha1.1]; rfl)
    refine ⟨b2, s2, ha2.1, (f0 :: f').length + 1, fun fuel hf => ?_⟩
    unfold i_parse_number_frac
    simp only [hs, peek_cons, if_true, e1, ne_eq, not_true_eq_false, if_false, ha1.1, hf0,
      Bool.not_true, Bool.false_eq_true, hrun2 fuel (by omega)]

/-- C24: a number made of a sign, an integer part and, for the second case,
an optional fraction, all well formed, in which (1) a decimal point after the
integer part is followed by a character of the input that is not a digit, or
(2) an exponent marker `e` or `E`, with an optional sign, is followed by a
character of the input that is not a digit (and, when there is no sign, is
not a sign): with an allocator that grants, i_parse_number returns
XJS_ERR_EXP_DIGIT, the cursor on that character. -/
theorem C24_digit_expected (env : Env) (hm : MemGrants env.mem_cb) (ws : List Char)
    (hws : isWs ws) (n : JNumber) (hn : n.wf) (hexp : n.exp = none) (x : Char) (r : List Char)
    (hx0 : x ≠ NUL) (hxd : isdigit x = false) (b : Buf) (s : State) :
    (n.frac = none → s.js = ws ++ (n.text ++ '.' :: x :: r) →
      ∃ b' s', Runs (fun fuel => i_parse_number env fuel b s) (XJS_ERR_EXP_DIGIT, b', s') ∧
        s'.js = x :: r) ∧
    (∀ (m : Char) (sg : Option Char), (m = 'e' ∨ m = 'E') →
      ((sg = none ∧ x ≠ '+' ∧ x ≠ '-') ∨ sg = some '+' ∨ sg = some '-') →
      s.js = ws ++ (n.text ++ m :: (sg.toList ++ x :: r)) →
      ∃ b' s', Runs (fun fuel => i_parse_number env fuel b s) (XJS_ERR_EXP_DIGIT, b', s') ∧
        s'.js = x :: r) := by
  obtain ⟨hine, hid, hzero, _, _⟩ := hn
  have hn' : n.wf := ⟨hine, hid, hzero, ‹_›, ‹_›⟩
  constructor
  · intro hfrac hs
    have htxt : n.text ++ '.' :: x :: r
        = (if n.neg then ['-'] else []) ++ (n.int ++ '.' :: x :: r) := by
      simp [JNumber.text, JNumber.fracText, JNumber.expText, hfrac, hexp]
    rw [htxt] at hs
    obtain ⟨b2, s2, _, ha2, N, hrun⟩ := number_int_run env hm ws hws n.neg n.int hine hid hzero
      '.' (x :: r) (by decide) (by decide) b s hs
    obtain ⟨b3, s3, hjs3, e3⟩ := i_parse_number_frac_bad env hm x r hx0 hxd b2 s2 ha2.1
    refine ⟨b3, s3, ⟨N, fun fuel hf => ?_⟩, hjs3⟩
    show i_parse_number env fuel b s = _
    rw [hrun fuel hf]
    exact e3 fuel
  · intro m sg hmk hsg hs
    have hm0 : m ≠ NUL ∧ isdigit m = false ∧ m ≠ '.' := by rcases hmk with rfl | rfl <;> decide
    obtain ⟨z, rz, hz, hz0, hzd⟩ : ∃ z rz, n.fracText ++ m :: (sg.toList ++ x :: r) = z :: rz ∧
        z ≠ NUL ∧ isdigit z = false := by
      cases hfrac : n.frac with
      | none =>
        exact ⟨m, sg.toList ++ x :: r, by simp [JNumber.fracText, hfrac], hm0.1, hm0.2.1⟩
      | some f =>
        exact ⟨'.', f ++ m :: (sg.toList ++ x :: r), by simp [JNumber.fracText, hfrac],
          by decide, by decide⟩
    have htxt : n.text ++ m :: (sg.toList ++ x :: r)
        = (if n.neg then ['-'] else []) ++ (n.int ++ z :: rz) := by
      rw [← hz]
      simp [JNumber.text, JNumber.expText, hexp]
    rw [htxt] at hs
    obtain ⟨b2, s2, _, ha2, N, hrun⟩ := number_int_run env hm ws hws n.neg n.int hine hid hzero
      z rz hz0 hzd b s hs
    obtain ⟨b3, s3, hjs3, N3, hrun3⟩ := number_frac_run env hm n hn' m (sg.toList ++ x :: r)
      hm0.1 hm0.2.1 hm0.2.2 b2 s2 (by rw [ha2.1, hz])
    obtain ⟨b4, s4, hjs4, e4⟩ := i_parse_number_exp_bad env hm m hmk sg x r hx0 hxd hsg b3 s3
      hjs3
    refine ⟨b4, s4, ⟨N + N3, fun fuel hf => ?_⟩, hjs4⟩
    show i_parse_number env fuel b s = _
    rw [hrun fuel (by omega), hrun3 fuel (by omega)]
    exact e4 fuel

/-- C24 on `1.x` and on `-12.5e+x`. -/
theorem C24_digit_expected_witness :
    (∃ b' s', Runs (fun fuel => i_parse_number envPlain fuel Buf.empty
        (State.init "1.x".toList 0)) (XJS_ERR_EXP_DIGIT, b', s') ∧ s'.js = ['x']) ∧
      (∃ b' s', Runs (fun fuel => i_parse_number envPlain fuel Buf.empty
        (State.init "-12.5e+x".toList 0)) (XJS_ERR_EXP_DIGIT, b', s') ∧ s'.js = ['x']) :=
  ⟨(C24_digit_expected envPlain memGrant_grants [] (by simp [isWs]) ⟨false, ['1'], none, none⟩
      (by simp [JNumber.wf]; decide) rfl 'x' [] (by decide) (by decide) Buf.empty
      (State.init "1.x".toList 0)).1 rfl rfl,
   (C24_digit_expected envPlain memGrant_grants [] (by simp [isWs])
      ⟨true, ['1', '2'], some ['5'], none⟩
      (by simp [JNumber.wf]; decide) rfl 'x' [] (by decide) (by decide) Buf.empty
      (State.init "-12.5e+x".toList 0)).2 'e' (some '+') (Or.inl rfl) (Or.inr (Or.inl rfl)) rfl⟩

/-- C25 fails for i_parse_number at a minus sign that no digit follows: on
`-x` the lexer stores the sign (the buffer is requested and holds `-`), moves
the cursor past it, and then returns XJS_NOPE (lines 399 and 400). The string
lexer tried next goes on in the same buffer: `[-"a"]` is accepted and the
sink receives the string `-a`. -/
theorem C25_minus_consumed_before_nope :
    (i_parse_number envPlain 5 Buf.empty (State.init "-x".toList 0)).map
        (fun x => (x.1, x.2.1.data, x.2.2.js, x.2.2.mem))
        = some (XJS_NOPE, ['-'], ['x'], [⟨XJS_alloc, XJS_number, 0, 256⟩]) ∧
      (xjs_parse false none 20 (some "[-\"a\"]".toList) sinkOk none (some memGrant)).map
        (fun x => (x.1, x.2.2.events))
        = some (XJS_OK, [⟨0, XJS_array, none, none⟩,
            ⟨0, XJS_string, some ['1'], some ['-', 'a']⟩, ⟨0, XJS_array_end, none, none⟩]) := by
  decide!

/-- C26 fails, blocks enabled, at a block cut off right after its header:
on `(["a"]` and on `([]` the header array ends on the last character, the
loop of i_parse_block calls i_parse_array with the cursor on the terminator,
i_parse_array returns XJS_NOPE (line 196), and xjs_parse returns XJS_NOPE to
its caller, the cursor being at the end of the input. -/
theorem C26_nope_surfaces :
    (xjs_parse true none 20 (some "([\"a\"]".toList) sinkOk none (some memGrant)).map
        (fun x => (x.1, x.2.1)) = some (XJS_NOPE, some []) ∧
      (xjs_parse true none 20 (some "([]".toList) sinkOk none (some memGrant)).map
        (fun x => (x.1, x.2.1)) = some (XJS_NOPE, some []) := by
  decide!

/-- C27: lines 176 to 179 of xjs_parse. When r_parse_any has returned the
status `r` at the top level, whatever it is, and the white space after it
has been skipped (only when the cursor is not on the terminator), xjs_parse
returns XJS_ERR_MORE_INPUT if the cursor stands on a character other than
the terminator; if the cursor has reached the end of the input it returns
`r` itself, XJS_END being returned as XJS_OK. `*errpos` is the cursor. -/
theorem C27_more_input_overrides (blocks : Bool) (fallback : Option XJSMemCB) (fuel : Nat)
    (js : List Char) (node_cb : XJSNodeCB) (inp_cb : Option XJSInputCB) (mem_cb : XJSMemCB)
    (r e : Int) (s1 s2 : State)
    (h1 : r_parse_any ⟨blocks, node_cb, inp_cb, mem_cb⟩ fuel true 0 none (State.init js 0)
      = some (r, s1))
    (h2 : (if peek s1.js ≠ NUL then i_eatwhite ⟨blocks, node_cb, inp_cb, mem_cb⟩ fuel s1
           else some (XJS_OK, s1)) = some (e, s2)) :
    ∃ r', xjs_parse blocks fallback fuel (some js) node_cb inp_cb (some mem_cb)
        = some (r', some s2.js, s2) ∧
      (peek s2.js ≠ NUL → r' = XJS_ERR_MORE_INPUT) ∧
      (peek s2.js = NUL → r' = if r = XJS_END then XJS_OK else r) := by
  refine ⟨final_status r (peek s2.js), ?_, ?_, ?_⟩
  · simp only [xjs_parse, Option.isSome_some, if_true, xjs_parse_from, h1]
    rw [h2]
  · intro hne
    simp only [final_status, hne, ne_eq, not_false_eq_true, if_true]
    decide
  · intro heq
    simp only [final_status, heq, ne_eq, not_true_eq_false, if_false]

/-- C27 on `[1,]x`: the array parser fails on the trailing comma with
XJS_NOPE and leaves the cursor on the bracket; xjs_parse returns
XJS_ERR_MORE_INPUT. -/
theorem C27_more_input_overrides_witness :
    ∃ r', xjs_parse false none 20 (some "[1,]x".toList) sinkOk none (some memGrant)
        = some (r', some "]x".toList,
            { js := "]x".toList, calls := 0,
              events := [⟨0, XJS_array, none, none⟩, ⟨0, XJS_number, some ['1'], some ['1']⟩],
              mem := [⟨XJS_alloc, XJS_number, 0, 256⟩, ⟨XJS_free, XJS_number, 1, 0⟩,
                      ⟨XJS_free, XJS_unknown, 0, 0⟩],
              writes := [(0, 256), (1, 256)], hdrReads := [] }) ∧
      (peek "]x".toList ≠ NUL → r' = XJS_ERR_MORE_INPUT) ∧
      (peek "]x".toList = NUL → r' = if XJS_NOPE = XJS_END then XJS_OK else XJS_NOPE) :=
  C27_more_input_overrides false none 20 "[1,]x".toList sinkOk none memGrant XJS_NOPE XJS_OK
    { js := "]x".toList, calls := 0,
      events := [⟨0, XJS_array, none, none⟩, ⟨0, XJS_number, some ['1'], some ['1']⟩],
      mem := [⟨XJS_alloc, XJS_number, 0, 256⟩, ⟨XJS_free, XJS_number, 1, 0⟩,
              ⟨XJS_free, XJS_unknown, 0, 0⟩],
      writes := [(0, 256), (1, 256)], hdrReads := [] }
    { js := "]x".toList, calls := 0,
      events := [⟨0, XJS_array, none, none⟩, ⟨0, XJS_number, some ['1'], some ['1']⟩],
      mem := [⟨XJS_alloc, XJS_number, 0, 256⟩, ⟨XJS_free, XJS_number, 1, 0⟩,
              ⟨XJS_free, XJS_unknown, 0, 0⟩],
      writes := [(0, 256), (1, 256)], hdrReads := [] }
    (by decide!) (by decide!)

/-- C29: with no refill callback, on an input made of one or more white
space characters and nothing else xjs_parse returns XJS_OK, and on the empty
input it returns XJS_ERR_BAD_INPUT; in both cases the sink is not invoked
(no event is recorded, nor any call of the allocator), and the cursor is at
the end of the input. -/
theorem C29_blank_and_empty_input (blocks : Bool) (fallback : Option XJSMemCB)
    (node_cb : XJSNodeCB) (mem_cb : XJSMemCB) :
    (∀ ws, isWs ws → ws ≠ [] →
      Runs (fun fuel => xjs_parse blocks fallback fuel (some ws) node_cb none (some mem_cb))
        (XJS_OK, some [], State.init [] 0)) ∧
    Runs (fun fuel => xjs_parse blocks fallback fuel (some []) node_cb none (some mem_cb))
      (XJS_ERR_BAD_INPUT, some [], State.init [] 0) := by
  constructor
  · intro ws hws hne
    refine ⟨ws.length + 1, fun fuel hf => ?_⟩
    show xjs_parse blocks fallback fuel (some ws) node_cb none (some mem_cb) = _
    obtain ⟨k, rfl⟩ : ∃ k, fuel = k + 1 := ⟨fuel - 1, by omega⟩
    have e1 := i_eatwhite_to_end ⟨blocks, node_cb, none, mem_cb⟩ rfl ws hws hne
      (State.init ws 0) rfl k (by omega)
    simp only [xjs_parse, Option.isSome_some, if_true, xjs_parse_from, r_parse_any, e1]
    simp [final_status, State.init]
  · refine ⟨2, fun fuel hf => ?_⟩
    show xjs_parse blocks fallback fuel (some []) node_cb none (some mem_cb) = _
    obtain ⟨k, rfl⟩ : ∃ k, fuel = k + 2 := ⟨fuel - 2, by omega⟩
    simp only [xjs_parse, Option.isSome_some, if_true, xjs_parse_from, r_parse_any, i_eatwhite,
      State.init, peek_nil]
    simp [final_status, isspace, NUL]

/-- C29 on the input made of two blanks and a line feed. -/
theorem C29_blank_and_empty_input_witness :
    Runs (fun fuel => xjs_parse false none fuel (some "  \n".toList) sinkOk none (some memGrant))
      (XJS_OK, some [], State.init [] 0) :=
  (C29_blank_and_empty_input false none sinkOk memGrant).1 "  \n".toList
    (by unfold isWs; decide) (by decide)

/-! ## The events are well nested -/

theorem nesting_snoc (st : List XJSType) (evs : List Event) (e : Event) :
    nesting st (evs ++ [e]) = (nesting st evs).bind (fun st1 => nestStep st1 e.kind) := by
  induction evs generalizing st with
  | nil =>
    simp only [List.nil_append, nesting, Option.some_bind]
    cases nestStep st e.kind <;> rfl
  | cons a evs ih =>
    simp only [List.cons_append, nesting]
    cases nestStep st a.kind with
    | none => rfl
    | some st1 => exact ih st1

/-- A prefix of a sequence that is well nested so far is well nested so
far. -/
theorem nesting_prefix (st : List XJSType) (pre post : List Event) (x : List XJSType)
    (h : nesting st (pre ++ post) = some x) : ∃ y, nesting st pre = some y := by
  induction pre generalizing st with
  | nil => exact ⟨st, rfl⟩
  | cons a pre ih =>
    simp only [List.cons_append, nesting] at h ⊢
    cases hs : nestStep st a.kind with
    | none => rw [hs] at h; cases h
    | some st1 => rw [hs] at h; exact ih st1 h

theorem call_node_nest (env : Env) (np : Nat) (k : XJSType) (n v : Option (List Char))
    (s : State) (st st2 : List XJSType) (h : nesting [] s.events = some st)
    (hk : nestStep st k = some st2) :
    nesting [] (call_node env np k n v s).2.2.events = some st2 := by
  simp only [call_node]
  rw [nesting_snoc, h]
  exact hk

theorem NestRes.same {evs : List Event} {st : List XJSType} (h : nesting [] evs = some st)
    (r : Int) : NestRes evs r st := ⟨st, h, fun _ => rfl⟩

theorem NestRes.fail {evs : List Event} {st1 : List XJSType} (h : nesting [] evs = some st1)
    {r : Int} (hr : r ≠ XJS_OK) (st : List XJSType) : NestRes evs r st :=
  ⟨st1, h, fun e => absurd e hr⟩

theorem NestRes.weaken {evs : List Event} {r : Int} {st : List XJSType} (h : NestRes evs r st)
    {r2 : Int} (hr : r2 ≠ XJS_OK) (st2 : List XJSType) : NestRes evs r2 st2 := by
  obtain ⟨st1, h1, _⟩ := h
  exact ⟨st1, h1, fun e => absurd e hr⟩

theorem i_noend_ne {r : Int} (h : r ≠ XJS_OK) : i_noend r ≠ XJS_OK :=
  fun h0 => h (i_noend_ok h0)

theorem nestStep_open (st : List XJSType) (k c : XJSType) (hk : closerOf k = some c) :
    nestStep st k = some (k :: st) := by
  simp only [nestStep, hk, Option.isSome_some, if_true]

theorem array_end_kind_facts (k : XJSType) :
    closerOf (array_end_kind k) = none ∧ isEndKind (array_end_kind k) = true := by
  unfold array_end_kind
  split
  · decide
  · split <;> decide

theorem nestStep_close (st : List XJSType) (k c : XJSType) (hk : closerOf k = some c)
    (hc : closerOf c = none) (he : isEndKind c = true) : nestStep (k :: st) c = some st := by
  simp only [nestStep, hc, Option.isSome_none, Bool.false_eq_true, if_false, he, if_true, hk]

theorem nestStep_scalar (st : List XJSType) (k : XJSType) (hk : isScalarKind k ∨ k = XJS_name) :
    nestStep st k = some st := by
  rcases hk with (rfl | rfl | rfl | rfl | rfl) | rfl <;> rfl

theorem NestRes.open_ {evs : List Event} {r : Int} {st : List XJSType} (h : NestRes evs r st)
    (hr : r = XJS_OK) : nesting [] evs = some st := by
  obtain ⟨st1, h1, h2⟩ := h
  rw [h1, h2 hr]

theorem r_parse_any_nest (env : Env) (fuel : Nat) (ih : NestStep env fuel) :
    ∀ top p n s r s' st, nesting [] s.events = some st →
    r_parse_any env (fuel + 1) top p n s = some (r, s') → NestRes s'.events r st := by
  intro top p n s r s' st hs h
  rw [r_parse_any] at h
  split at h
  · cases h
  · rename_i r1 s1 heq
    have e1 := i_eatwhite_events env _ _ _ _ heq
    have hs1 : nesting [] s1.events = some st := by rw [e1]; exact hs
    split at h
    · cases h; exact NestRes.same hs1 _
    · split at h
      · exact ih.obj _ _ _ _ _ _ hs1 h
      · split at h
        · split at h
          · cases h
          · rename_i r2 H2 c2 s2 heq2
            cases h
            exact ih.arr _ _ _ _ _ _ _ _ _ _ _ (by decide) hs1 heq2
        · split at h
          · exact ih.blk _ _ _ _ _ _ hs1 h
          · split at h
            · cases h; exact NestRes.same hs1 _
            · split at h
              · cases h
              · rename_i r2 kind b s2 heq2
                have e2 := i_parse_value_events env _ _ _ _ _ _ _ heq2
                have hs2 : nesting [] s2.events = some st := by rw [e2]; exact hs1
                split at h
                · rename_i hok
                  subst hok
                  have hk := i_parse_value_kind env _ _ _ _ _ _ heq2
                  simp only [] at h
                  have e := Option.some.inj h
                  have e3 := congrArg Prod.fst e
                  have e4 := congrArg Prod.snd e
                  simp only [] at e3 e4
                  rw [← e3, ← e4, mem_free_events]
                  exact NestRes.same (call_node_nest env _ _ _ _ _ _ _ hs2
                    (nestStep_scalar st kind (Or.inl hk))) _
                · cases h
                  rw [mem_free_events]
                  exact NestRes.same hs2 _

theorem i_parse_array_nest (env : Env) (fuel : Nat) (ih : NestStep env fuel) :
    ∀ hdr k cnt p n s r H c s' st, closerOf k = some (array_end_kind k) →
    nesting [] s.events = some st →
    i_parse_array env (fuel + 1) hdr k cnt p n s = some (r, H, c, s') →
    NestRes s'.events r st := by
  intro hdr k cnt p n s r H c s' st hk hs h
  rw [i_parse_array] at h
  split at h
  · cases h
  · rename_i r1 s1 heq
    have e1 := i_eatwhite_events env _ _ _ _ heq
    have hs1 : nesting [] s1.events = some st := by rw [e1]; exact hs
    split at h
    · cases h; exact NestRes.same hs1 _
    · split at h
      · cases h; exact NestRes.same hs1 _
      · have hc := call_node_nest env p k n none s1 st (k :: st) hs1 (nestStep_open st k _ hk)
        simp only [] at h
        split at h
        · rename_i hne
          have e := Option.some.inj h
          have e3 := congrArg Prod.fst e
          have e4 := congrArg (fun x => x.2.2.2) e
          simp only [] at e3 e4
          rw [← e3, ← e4]
          exact NestRes.fail hc hne _
        · split at h
          · cases h
          · rename_i r3 s3 heq3
            have e3 := i_advance_events env _ _ _ _ _ heq3
            have hs3 : nesting [] s3.events = some (k :: st) := by rw [e3]; exact hc
            split at h
            · rename_i hne
              cases h
              exact NestRes.fail hs3 (i_noend_ne hne) _
            · exact ih.arrl _ _ _ _ _ _ _ _ _ _ _ _ _ _ _ hk hs3 h

theorem i_parse_object_nest (env : Env) (fuel : Nat) (ih : NestStep env fuel) :
    ∀ p n s r s' st, nesting [] s.events = some st →
    i_parse_object env (fuel + 1) p n s = some (r, s') → NestRes s'.events r st := by
  intro p n s r s' st hs h
  rw [i_parse_object] at h
  split at h
  · cases h; exact NestRes.same hs _
  · have hc := call_node_nest env p XJS_object n none s st (XJS_object :: st) hs
      (nestStep_open st XJS_object XJS_object_end rfl)
    simp only [] at h
    split at h
    · rename_i hne
      have e := Option.some.inj h
      have e3 := congrArg Prod.fst e
      have e4 := congrArg Prod.snd e
      simp only [] at e3 e4
      rw [← e3, ← e4]
      exact NestRes.fail hc hne _
    · split at h
      · cases h
      · rename_i r3 s3 heq3
        have e3 := i_advance_events env _ _ _ _ _ heq3
        have hs3 : nesting [] s3.events = some (XJS_object :: st) := by rw [e3]; exact hc
        split at h
        · rename_i hne
          cases h
          exact NestRes.fail hs3 hne _
        · exact ih.objl _ _ _ _ _ _ _ hs3 h

theorem i_parse_block_nest (env : Env) (fuel : Nat) (ih : NestStep env fuel) :
    ∀ p n s r s' st, nesting [] s.events = some st →
    i_parse_block env (fuel + 1) p n s = some (r, s') → NestRes s'.events r st := by
  intro p n s r s' st hs h
  rw [i_parse_block] at h
  split at h
  · cases h; exact NestRes.same hs _
  · have hc := call_node_nest env p XJS_block n none s st (XJS_block :: st) hs
      (nestStep_open st XJS_block XJS_block_end rfl)
    simp only [] at h
    split at h
    · rename_i hne
      have e := Option.some.inj h
      have e3 := congrArg Prod.fst e
      have e4 := congrArg Prod.snd e
      simp only [] at e3 e4
      rw [← e3, ← e4]
      exact NestRes.fail hc hne _
    · split at h
      · cases h
      · rename_i r3 s3 heq3
        have e3 := i_advance_events env _ _ _ _ _ heq3
        have hs3 : nesting [] s3.events = some (XJS_block :: st) := by rw [e3]; exact hc
        split at h
        · rename_i hne
          cases h
          exact NestRes.fail hs3 (i_noend_ne hne) _
        · split at h
          · cases h
          · rename_i r4 H4 c4 s4 heq4
            refine ih.blkl _ _ _ _ _ _ _ _ _ _ ?_ h
            split at heq4
            · exact ih.arr _ _ _ _ _ _ _ _ _ _ _ (by decide) hs3 heq4
            · cases heq4; exact NestRes.same hs3 _

theorem i_parse_object_loop_nest (env : Env) (fuel : Nat) (ih : NestStep env fuel) :
    ∀ i np n s r s' st, nesting [] s.events = some (XJS_object :: st) →
    i_parse_object_loop env (fuel + 1) i np n s = some (r, s') → NestRes s'.events r st := by
  intro i np n s r s' st hs h
  rw [i_parse_object_loop] at h
  split at h
  · split at h
    · cases h; exact NestRes.fail hs (by decide) _
    · generalize hx : (if i ≠ 0 then i_advance0 env s else (XJS_OK, s)) = p at h
      have e1 : p.2.events = s.events := by rw [← hx]; split <;> simp
      obtain ⟨r1, s1⟩ := p
      simp only [] at h e1
      have hs1 : nesting [] s1.events = some (XJS_object :: st) := by rw [e1]; exact hs
      split at h
      · rename_i hne
        cases h; exact NestRes.fail hs1 (i_noend_ne hne) _
      · split at h
        · cases h
        · rename_i r2 nb s2 heq2
          have e2 := i_parse_string_events env _ _ _ _ _ _ _ heq2
          have hs2 : nesting [] s2.events = some (XJS_object :: st) := by rw [e2]; exact hs1
          generalize hy : (if r2 = XJS_OK then i_eatwhite env fuel s2 else some (r2, s2)) = q at h
          cases q with
          | none => cases h
          | some q =>
            obtain ⟨r3, s3⟩ := q
            have e3 : s3.events = s2.events := by
              split at hy
              · exact i_eatwhite_events env _ _ _ _ hy
              · cases hy; rfl
            have hs3 : nesting [] s3.events = some (XJS_object :: st) := by rw [e3]; exact hs2
            simp only [] at h
            generalize hz : (if r3 = XJS_OK then
                (if peek s3.js ≠ ':' then (XJS_ERR_EXP_COLON, s3) else i_advance0 env s3)
                else (r3, s3)) = p4 at h
            have e4 : p4.2.events = s3.events := by
              rw [← hz]; split
              · split <;> simp
              · rfl
            obtain ⟨r4, s4⟩ := p4
            simp only [] at h e4
            have hs4 : nesting [] s4.events = some (XJS_object :: st) := by rw [e4]; exact hs3
            generalize hw : (if r4 = XJS_OK then r_parse_any env fuel false np nb.cstr s4
                else some (r4, s4)) = q5 at h
            cases q5 with
            | none => cases h
            | some q5 =>
              obtain ⟨r5, s5⟩ := q5
              have i5 : NestRes s5.events r5 (XJS_object :: st) := by
                split at hw
                · exact ih.any _ _ _ _ _ _ _ hs4 hw
                · cases hw; exact NestRes.same hs4 _
              simp only [] at h
              have e6 : (if nb.ptr ≠ 0 then mem_free env XJS_name nb.ptr s5 else s5).events
                  = s5.events := by split <;> rfl
              generalize (if nb.ptr ≠ 0 then mem_free env XJS_name nb.ptr s5 else s5) = s6 at h e6
              split at h
              · rename_i hne
                cases h
                rw [e6]
                exact i5.weaken (i_noend_ne hne) _
              · rename_i hok
                have hs6 : nesting [] s6.events = some (XJS_object :: st) := by
                  rw [e6]; exact i5.open_ (not_not.mp hok)
                split at h
                · cases h
                · rename_i r7 s7 heq7
                  have e7 := i_eatwhite_events env _ _ _ _ heq7
                  have hs7 : nesting [] s7.events = some (XJS_object :: st) := by
                    rw [e7]; exact hs6
                  split at h
                  · rename_i hne
                    cases h; exact NestRes.fail hs7 (i_noend_ne hne) _
                  · exact ih.objl _ _ _ _ _ _ _ hs7 h
  · have e1 := i_advance0_events env s
    generalize i_advance0 env s = p at h e1
    obtain ⟨r1, s1⟩ := p
    simp only [] at h e1
    have hs1 : nesting [] s1.events = some (XJS_object :: st) := by rw [e1]; exact hs
    have hc := call_node_nest env np XJS_object_end n none s1 _ st hs1
      (nestStep_close st XJS_object XJS_object_end rfl rfl rfl)
    split at h
    · rename_i hcond
      cases h; exact NestRes.fail hs1 hcond.1 _
    · have e := Option.some.inj h
      have e3 := congrArg Prod.fst e
      have e4 := congrArg Prod.snd e
      simp only [] at e3 e4
      rw [← e3, ← e4]
      exact NestRes.same hc _

theorem i_parse_array_loop_nest (env : Env) (fuel : Nat) (ih : NestStep env fuel) :
    ∀ hl H k hc cnt i tcnt np n s r H' c s' st, closerOf k = some (array_end_kind k) →
    nesting [] s.events = some (k :: st) →
    i_parse_array_loop env (fuel + 1) hl H k hc cnt i tcnt np n s = some (r, H', c, s') →
    NestRes s'.events r st := by
  intro hl H k hc cnt i tcnt np n s r H' c s' st hk hs h
  rw [i_parse_array_loop] at h
  by_cases hb : peek s.js ≠ ']'
  · rw [if_pos hb] at h
    by_cases hcm : i ≠ 0 ∧ peek s.js ≠ ','
    · rw [if_pos hcm] at h
      cases h; exact NestRes.fail hs (by decide) _
    rw [if_neg hcm] at h
    generalize hx : (if i ≠ 0 then i_advance0 env s else (XJS_OK, s)) = p at h
    have e1 : p.2.events = s.events := by rw [← hx]; split <;> simp
    obtain ⟨r1, s1⟩ := p
    dsimp only at h e1
    have hs1 : nesting [] s1.events = some (k :: st) := by rw [e1]; exact hs
    by_cases hr1 : r1 ≠ XJS_OK
    · rw [if_pos hr1] at h
      cases h; exact NestRes.fail hs1 (i_noend_ne hr1) _
    rw [if_neg hr1] at h
    by_cases hkb : k = XJS_block_header
    · rw [if_pos hkb] at h
      have eg := hdr_grow_events env hl H cnt tcnt s1
      generalize hdr_grow env hl H cnt tcnt s1 = g at h eg
      obtain ⟨hl1, H1, tcnt1, s2⟩ := g
      dsimp only at h eg
      have hs2 : nesting [] s2.events = some (k :: st) := by rw [eg]; exact hs1
      cases heq3 : i_parse_string env fuel XJS_name Buf.empty s2 with
      | none => rw [heq3] at h; cases h
      | some x3 =>
      obtain ⟨r2, v, s3⟩ := x3
      rw [heq3] at h
      dsimp only at h
      have e3 := i_parse_string_events env _ _ _ _ _ _ _ heq3
      have hs3 : nesting [] s3.events = some (k :: st) := by rw [e3]; exact hs2
      by_cases hr2 : r2 ≠ XJS_OK
      · rw [if_pos hr2] at h
        cases h; exact NestRes.fail hs3 (i_noend_ne hr2) _
      rw [if_neg hr2] at h
      have hcn := call_node_nest env np XJS_name (some (Nat.toDigits 10 (i + 1))) v.cstr
        s3 _ _ hs3 (nestStep_scalar (k :: st) XJS_name (Or.inr rfl))
      generalize call_node env np XJS_name (some (Nat.toDigits 10 (i + 1))) v.cstr s3 = cn
        at h hcn
      obtain ⟨r3, np1, s4⟩ := cn
      dsimp only at h hcn
      generalize hy : (if hl1 = true ∧ tcnt1 > cnt then (H1.store cnt (v.ptr, v.cstr), s4)
          else (H1, mem_free env XJS_name v.ptr s4)) = p5 at h
      have e5 : p5.2.events = s4.events := by rw [← hy]; split <;> rfl
      obtain ⟨H2, s5⟩ := p5
      dsimp only at h e5
      have hs5 : nesting [] s5.events = some (k :: st) := by rw [e5]; exact hcn
      by_cases hne : r3 ≠ XJS_OK
      · rw [if_pos hne] at h
        cases h
        exact NestRes.fail hs5 (i_noend_ne hne) _
      rw [if_neg hne] at h
      cases heq6 : i_eatwhite env fuel s5 with
      | none => rw [heq6] at h; cases h
      | some x6 =>
      obtain ⟨r6, s6⟩ := x6
      rw [heq6] at h
      dsimp only at h
      have e6 := i_eatwhite_events env _ _ _ _ heq6
      have hs6 : nesting [] s6.events = some (k :: st) := by rw [e6]; exact hs5
      by_cases hr6 : r6 ≠ XJS_OK
      · rw [if_pos hr6] at h
        cases h; exact NestRes.fail hs6 (i_noend_ne hr6) _
      rw [if_neg hr6] at h
      exact ih.arrl _ _ _ _ _ _ _ _ _ _ _ _ _ _ _ hk hs6 h
    rw [if_neg hkb] at h
    generalize hy : (if hl = false ∨ k = XJS_array then
        ((0, some (Nat.toDigits 10 (i + 1))), s1) else hdr_read env H cnt s1) = p2 at h
    have e2 : p2.2.events = s1.events := by rw [← hy]; split <;> rfl
    obtain ⟨nm, s2⟩ := p2
    dsimp only at h e2
    have hs2 : nesting [] s2.events = some (k :: st) := by rw [e2]; exact hs1
    cases heq3 : r_parse_any env fuel false np nm.2 s2 with
    | none => rw [heq3] at h; cases h
    | some x3 =>
    obtain ⟨r3, s3⟩ := x3
    rw [heq3] at h
    dsimp only at h
    have i3 := ih.any _ _ _ _ _ _ _ hs2 heq3
    by_cases hne : r3 ≠ XJS_OK
    · rw [if_pos hne] at h
      cases h
      exact i3.weaken (i_noend_ne hne) _
    rw [if_neg hne] at h
    have hs3 : nesting [] s3.events = some (k :: st) := i3.open_ (not_not.mp hne)
    cases heq4 : i_eatwhite env fuel s3 with
    | none => rw [heq4] at h; cases h
    | some x4 =>
    obtain ⟨r4, s4⟩ := x4
    rw [heq4] at h
    dsimp only at h
    have e4 := i_eatwhite_events env _ _ _ _ heq4
    have hs4 : nesting [] s4.events = some (k :: st) := by rw [e4]; exact hs3
    by_cases hr4 : r4 ≠ XJS_OK
    · rw [if_pos hr4] at h
      cases h; exact NestRes.fail hs4 (i_noend_ne hr4) _
    rw [if_neg hr4] at h
    exact ih.arrl _ _ _ _ _ _ _ _ _ _ _ _ _ _ _ hk hs4 h
  · rw [if_neg hb] at h
    have e1 := i_advance0_events env s
    generalize i_advance0 env s = p at h e1
    obtain ⟨r1, s1⟩ := p
    dsimp only at h e1
    have hs1 : nesting [] s1.events = some (k :: st) := by rw [e1]; exact hs
    have hcn := call_node_nest env np (array_end_kind k) n none s1 _ st hs1
      (nestStep_close st k (array_end_kind k) hk (array_end_kind_facts k).1
        (array_end_kind_facts k).2)
    split at h
    · rename_i hcond
      cases h; exact NestRes.fail hs1 (i_noend_ne hcond.1) _
    · have e := Option.some.inj h
      have e3 := congrArg Prod.fst e
      have e4 := congrArg (fun x => x.2.2.2) e
      simp only [] at e3 e4
      rw [← e3, ← e4]
      exact NestRes.same hcn _

theorem i_parse_block_loop_nest (env : Env) (fuel : Nat) (ih : NestStep env fuel) :
    ∀ r0 H cnt i np n s r s' st, NestRes s.events r0 (XJS_block :: st) →
    i_parse_block_loop env (fuel + 1) r0 H cnt i np n s = some (r, s') →
    NestRes s'.events r st := by
  intro r0 H cnt i np n s r s' st hi h
  rw [i_parse_block_loop] at h
  split at h
  · rename_i hcond
    have hs : nesting [] s.events = some (XJS_block :: st) := hi.open_ hcond.1
    split at h
    · cases h; exact NestRes.fail hs (by decide) _
    · generalize hx : (if i ≠ 0 then i_advance0 env s else (r0, s)) = p at h
      have e1 : p.2.events = s.events := by rw [← hx]; split <;> simp
      obtain ⟨r1, s1⟩ := p
      simp only [] at h e1
      have hs1 : nesting [] s1.events = some (XJS_block :: st) := by rw [e1]; exact hs
      generalize hy : (if r1 = XJS_OK then
          i_parse_array env fuel (some H) XJS_block_array (some 0) np none s1
          else some (r1, H, cnt, s1)) = q at h
      cases q with
      | none => cases h
      | some q =>
        obtain ⟨r2, H2, tmpcnt, s2⟩ := q
        simp only [] at h
        have i2 : NestRes s2.events r2 (XJS_block :: st) := by
          split at hy
          · exact ih.arr _ _ _ _ _ _ _ _ _ _ _ (by decide) hs1 hy
          · cases hy; exact NestRes.same hs1 _
        refine ih.blkl _ _ _ _ _ _ _ _ _ _ ?_ h
        obtain ⟨st1, h1, h2⟩ := i2
        refine ⟨st1, h1, fun h0 => h2 ?_⟩
        split at h0
        · exact absurd h0 (by decide)
        · exact h0
  · simp only [] at h
    have e1 := hdr_cleanup_events env H cnt s
    generalize hdr_cleanup env H cnt s = s1 at h e1
    split at h
    · rename_i hne
      cases h
      rw [e1]
      exact hi.weaken (i_noend_ne hne) _
    · rename_i hok
      have hs1 : nesting [] s1.events = some (XJS_block :: st) := by
        rw [e1]; exact hi.open_ (not_not.mp hok)
      have e2 := i_advance0_events env s1
      generalize i_advance0 env s1 = p at h e2
      obtain ⟨r2, s2⟩ := p
      simp only [] at h e2
      have hs2 : nesting [] s2.events = some (XJS_block :: st) := by rw [e2]; exact hs1
      have hcn := call_node_nest env np XJS_block_end n none s2 _ st hs2
        (nestStep_close st XJS_block XJS_block_end rfl rfl rfl)
      split at h
      · rename_i hcond
        cases h; exact NestRes.fail hs2 hcond.1 _
      · have e := Option.some.inj h
        have e3 := congrArg Prod.fst e
        have e4 := congrArg Prod.snd e
        simp only [] at e3 e4
        rw [← e3, ← e4]
        exact NestRes.same hcn _

/-- Whatever the fuel, the container parsers keep the events well nested. -/
theorem nestStep_all (env : Env) : ∀ fuel, NestStep env fuel := by
  intro fuel
  induction fuel with
  | zero =>
    refine ⟨?_, ?_, ?_, ?_, ?_, ?_, ?_⟩
    · intro top p n s r s' st _ h; rw [r_parse_any] at h; cases h
    · intro hdr k cnt p n s r H c s' st _ _ h; rw [i_parse_array] at h; cases h
    · intro hl H k hc cnt i tcnt np n s r H' c s' st _ _ h; rw [i_parse_array_loop] at h; cases h
    · intro p n s r s' st _ h; rw [i_parse_object] at h; cases h
    · intro i np n s r s' st _ h; rw [i_parse_object_loop] at h; cases h
    · intro p n s r s' st _ h; rw [i_parse_block] at h; cases h
    · intro r0 H cnt i np n s r s' st _ h; rw [i_parse_block_loop] at h; cases h
  | succ n ih =>
    exact ⟨r_parse_any_nest env n ih, i_parse_array_nest env n ih, i_parse_array_loop_nest env n ih,
      i_parse_object_nest env n ih, i_parse_object_loop_nest env n ih, i_parse_block_nest env n ih,
      i_parse_block_loop_nest env n ih⟩

theorem xjs_parse_from_nest (env : Env) (fuel : Nat) (s : State) (r : Int)
    (e : Option (List Char)) (s' : State) (hs : s.events = [])
    (h : xjs_parse_from env fuel s = some (r, e, s')) : ∃ st, nesting [] s'.events = some st := by
  unfold xjs_parse_from at h
  split at h
  · cases h
  · rename_i r1 s1 heq
    obtain ⟨st1, h1, _⟩ := (nestStep_all env fuel).any _ _ _ _ _ _ []
      (by rw [hs]; rfl) heq
    generalize hy : (if peek s1.js ≠ NUL then i_eatwhite env fuel s1 else some (XJS_OK, s1)) = q at h
    cases q with
    | none => cases h
    | some q =>
      obtain ⟨r2, s2⟩ := q
      have e2 : s2.events = s1.events := by
        split at hy
        · exact i_eatwhite_events env _ _ _ _ hy
        · cases hy; rfl
      simp only [] at h
      cases h
      rw [e2]
      exact ⟨st1, h1⟩

/-- C28: in every run of xjs_parse that returns, whatever the input, the
sink, the refill callback, the allocator and the status returned, the
sequence of events delivered to the sink is a prefix of a well nested
sequence, and so is every prefix of it: read from the start, each end event
(object end, array end, block end, header end, record end) closes the most
recent start event still open and is of the kind that matches it, and no
end event comes without an open start event. -/
theorem C28_events_well_nested (blocks : Bool) (fallback : Option XJSMemCB) (fuel : Nat)
    (json : Option (List Char)) (node_cb : XJSNodeCB) (inp_cb : Option XJSInputCB)
    (mem_cb : Option XJSMemCB) (r : Int) (errpos : Option (List Char)) (s : State)
    (h : xjs_parse blocks fallback fuel json node_cb inp_cb mem_cb = some (r, errpos, s)) :
    ∀ pre post, s.events = pre ++ post → ∃ st, nesting [] pre = some st := by
  have key : ∃ st, nesting [] s.events = some st := by
    unfold xjs_parse at h
    split at h
    · cases h; exact ⟨[], rfl⟩
    · rename_i m hm
      split at h
      · have h1 := xjs_parse_from_nest _ fuel _ _ _ _ rfl h
        exact h1
      · split at h
        · cases h; exact ⟨[], rfl⟩
        · split at h
          · cases h; exact ⟨[], rfl⟩
          · have h1 := xjs_parse_from_nest _ fuel _ _ _ _ rfl h
            exact h1
  intro pre post he
  obtain ⟨st, hst⟩ := key
  rw [he] at hst
  exact nesting_prefix [] pre post st hst

/-- C28 on `[{"a":[]},x`, a run that fails at the `x`: the object and the
inner array were closed in turn, the outer array is left open. -/
theorem C28_events_well_nested_witness :
    xjs_parse false none 30 (some "[\x7b\"a\":[]\x7d,x".toList) sinkOk none (some memGrant)
        = some (XJS_ERR_MORE_INPUT, some ['x'], nestRun) ∧
      nesting [] nestRun.events = some [XJS_array] ∧
      ∀ pre post, nestRun.events = pre ++ post → ∃ st, nesting [] pre = some st :=
  ⟨by decide!, by decide,
    C28_events_well_nested false none 30 (some "[\x7b\"a\":[]\x7d,x".toList) sinkOk none
      (some memGrant) XJS_ERR_MORE_INPUT (some ['x']) nestRun (by decide!)⟩

/-! ## Blocks: the header table and the empty block -/

/-- C31 fails at a record that has more elements than the header: on
`(["a"][1,2])` the header stores one name; the record array names its second
element by `(*hdr)[1]`, a slot that was never filled (index 1, one name
stored). The sink receives the number 2 under that slot. The arity test of
line 283 comes only after the record has been read to its end. -/
theorem C31_record_reads_unfilled_slot :
    (xjs_parse true none 30 (some "([\"a\"][1,2])".toList) sinkOk none (some memGrant)).map
        (fun x => x.2.2.hdrReads)
        = some [⟨0, 1, true⟩, ⟨1, 1, false⟩, ⟨0, 1, true⟩] ∧
      (xjs_parse true none 30 (some "([\"a\"][1,2])".toList) sinkOk none (some memGrant)).map
        (fun x => (x.2.2.events.map Event.kind).drop 4)
        = some [XJS_block_array, XJS_number, XJS_number, XJS_block_array_end] := by
  decide!

/-- C32: blocks enabled, the input `()`, a sink that returns XJS_OK, any
allocator: xjs_parse returns XJS_OK with the cursor at the end of the input;
the sink has received the block start and then the block end (under the
handle the sink left at the block start), and no call of the allocator was
made. The end of the input right after the closing parenthesis is
accepted. -/
theorem C32_empty_block (fallback : Option XJSMemCB) (node_cb : XJSNodeCB) (mem_cb : XJSMemCB)
    (hsink : SinkOk node_cb) :
    Runs (fun fuel => xjs_parse true fallback fuel (some "()".toList) node_cb none (some mem_cb))
      (XJS_OK, some [],
        { js := [], calls := 0,
          events := [⟨0, XJS_block, none, none⟩,
                     ⟨(node_cb [] ⟨0, XJS_block, none, none⟩).2, XJS_block_end, none, none⟩],
          mem := [], writes := [], hdrReads := [] }) := by
  refine ⟨4, fun fuel hf => ?_⟩
  show xjs_parse true fallback fuel (some "()".toList) node_cb none (some mem_cb) = _
  obtain ⟨k, rfl⟩ : ∃ k, fuel = k + 4 := ⟨fuel - 4, by omega⟩
  have h1 := hsink [] ⟨0, XJS_block, none, none⟩
  have h2 := hsink [⟨0, XJS_block, none, none⟩]
    ⟨(node_cb [] ⟨0, XJS_block, none, none⟩).2, XJS_block_end, none, none⟩
  simp [xjs_parse, xjs_parse_from, r_parse_any, i_parse_block, i_parse_block_loop, i_eatwhite,
    i_advance, i_advance0, call_node, hdr_cleanup, State.init, peek, isspace, NUL, final_status,
    h1, h2]

/-- C32 with the sink that accepts every event and the allocator that
grants. -/
theorem C32_empty_block_witness :
    Runs (fun fuel => xjs_parse true none fuel (some "()".toList) sinkOk none (some memGrant))
      (XJS_OK, some [],
        { js := [], calls := 0,
          events := [⟨0, XJS_block, none, none⟩, ⟨0, XJS_block_end, none, none⟩],
          mem := [], writes := [], hdrReads := [] }) :=
  C32_empty_block none sinkOk memGrant sinkOk_ok

/-! ## Termination: the cursor only moves forward

Without a refill callback the cursor is a suffix of the buffer handed to
xjs_parse; the lemmas below measure it by its length. -/

theorem i_advance0_len (env : Env) (hinp : env.inp_cb = none) (s : State) :
    (i_advance0 env s).2.js.length ≤ s.js.length ∧
      ((i_advance0 env s).1 = XJS_OK → (i_advance0 env s).2.js.length < s.js.length) := by
  obtain ⟨js, calls, events, mem, writes, hdrReads⟩ := s
  cases js with
  | nil => simp [i_advance0, hinp, peek]
  | cons c r =>
    by_cases hc : c = NUL
    · subst hc; simp [i_advance0, hinp, peek]
    · cases r with
      | nil => simp [i_advance0, hinp, hc, peek]
      | cons d r2 =>
        by_cases hd : d = NUL
        · subst hd; simp [i_advance0, hinp, hc, peek]
        · simp [i_advance0, hinp, hc, hd, peek]

theorem i_eatwhite_term (env : Env) (hinp : env.inp_cb = none) :
    ∀ (fuel : Nat) (s : State), s.js.length + 1 ≤ fuel →
      ∃ r s', i_eatwhite env fuel s = some (r, s') ∧ s'.js.length ≤ s.js.length := by
  intro fuel
  induction fuel with
  | zero => intro s h; omega
  | succ n ih =>
    intro s h
    rw [i_eatwhite]
    have ha := i_advance0_len env hinp s
    generalize i_advance0 env s = p at ha ⊢
    obtain ⟨r1, s1⟩ := p
    simp only [] at ha ⊢
    split
    · split
      · exact ⟨_, _, rfl, ha.1⟩
      · rename_i hok
        have hlt := ha.2 (not_not.mp hok)
        obtain ⟨r, s', e, hl⟩ := ih s1 (by omega)
        exact ⟨r, s', e, by omega⟩
    · exact ⟨_, _, rfl, Nat.le_refl _⟩

theorem i_advance_term (env : Env) (hinp : env.inp_cb = none) (fuel : Nat) (ew : Bool)
    (s : State) (h : s.js.length + 1 ≤ fuel) :
    ∃ r s', i_advance env fuel ew s = some (r, s') ∧ s'.js.length ≤ s.js.length ∧
      (r = XJS_OK → s'.js.length < s.js.length) := by
  unfold i_advance
  have ha := i_advance0_len env hinp s
  generalize i_advance0 env s = p at ha ⊢
  obtain ⟨r1, s1⟩ := p
  simp only [] at ha ⊢
  split
  · rename_i hne
    exact ⟨_, _, rfl, ha.1, fun h0 => absurd h0 hne⟩
  · rename_i hok
    have hlt := ha.2 (not_not.mp hok)
    split
    · obtain ⟨r, s', e, hl⟩ := i_eatwhite_term env hinp fuel s1 (by omega)
      exact ⟨r, s', e, by omega, fun _ => by omega⟩
    · exact ⟨_, _, rfl, ha.1, fun _ => hlt⟩

theorem i_assign_store_len (env : Env) (hinp : env.inp_cb = none) (b : Buf) (s : State) :
    (i_assign_store env b s).2.2.js.length ≤ s.js.length ∧
      ((i_assign_store env b s).1 = XJS_OK → (i_assign_store env b s).2.2.js.length < s.js.length) := by
  unfold i_assign_store
  simp only []
  split
  · exact ⟨Nat.le_refl _, fun h => absurd (show XJS_ERR_CONTROL_CHAR = XJS_OK from h) (by decide)⟩
  · exact i_advance0_len env hinp { s with writes := s.writes ++ [(b.used, b.mxsz)] }

theorem i_assign_len (env : Env) (hinp : env.inp_cb = none) (c : XJSType) (b : Buf) (s : State) :
    (i_assign env c b s).2.2.js.length ≤ s.js.length ∧
      ((i_assign env c b s).1 = XJS_OK → (i_assign env c b s).2.2.js.length < s.js.length) := by
  unfold i_assign
  simp only [call_mem]
  split
  · split
    · exact ⟨Nat.le_refl _, fun h => absurd (show XJS_ERR_MEM_ALLOC = XJS_OK from h) (by decide)⟩
    · exact i_assign_store_len env hinp _ _
  · exact i_assign_store_len env hinp _ _

theorem i_parse_escape_hex_len (env : Env) (hinp : env.inp_cb = none) (c : XJSType) :
    ∀ (n : Nat) (b : Buf) (s : State),
      (i_parse_escape_hex env c n b s).2.2.js.length ≤ s.js.length := by
  intro n
  induction n with
  | zero => intro b s; exact Nat.le_refl _
  | succ n ih =>
    intro b s
    rw [i_parse_escape_hex]
    have ha := i_assign_len env hinp c b s
    generalize i_assign env c b s = p at ha ⊢
    obtain ⟨r1, b1, s1⟩ := p
    simp only [] at ha ⊢
    split
    · exact Nat.le_refl _
    · split
      · exact ha.1
      · exact Nat.le_trans (ih b1 s1) ha.1

theorem i_parse_escape_len (env : Env) (hinp : env.inp_cb = none) (c : XJSType) (b : Buf)
    (s : State) :
    (i_parse_escape env c b s).2.2.js.length ≤ s.js.length ∧
      ((i_parse_escape env c b s).1 = XJS_OK → (i_parse_escape env c b s).2.2.js.length < s.js.length) := by
  unfold i_parse_escape
  have ha := i_assign_len env hinp c b s
  generalize i_assign env c b s = p at ha ⊢
  obtain ⟨r1, b1, s1⟩ := p
  simp only [] at ha ⊢
  split
  · exact ⟨Nat.le_refl _, fun h => absurd (show XJS_NOPE = XJS_OK from h) (by decide)⟩
  · split
    · rename_i hne
      exact ⟨ha.1, fun h0 => absurd h0 hne⟩
    · rename_i hok
      have hlt := ha.2 (not_not.mp hok)
      split
      · exact ⟨ha.1, fun h => absurd (show XJS_ERR_EXP_ESCAPE = XJS_OK from h) (by decide)⟩
      · have ha2 := i_assign_len env hinp c b1 s1
        generalize i_assign env c b1 s1 = p2 at ha2 ⊢
        obtain ⟨r2, b2, s2⟩ := p2
        simp only [] at ha2 ⊢
        split
        · rename_i hne2
          exact ⟨show s2.js.length ≤ s.js.length by omega, fun h0 => absurd h0 hne2⟩
        · split
          · have h3 := i_parse_escape_hex_len env hinp c 4 b2 s2
            exact ⟨by omega, fun _ => by omega⟩
          · exact ⟨show s2.js.length ≤ s.js.length by omega,
              fun _ => show s2.js.length < s.js.length by omega⟩

theorem i_parse_string_loop_term (env : Env) (hinp : env.inp_cb = none) (c : XJSType) :
    ∀ (fuel : Nat) (b : Buf) (s : State), s.js.length + 1 ≤ fuel →
      ∃ r b' s', i_parse_string_loop env c fuel b s = some (r, b', s') ∧
        s'.js.length ≤ s.js.length := by
  intro fuel
  induction fuel with
  | zero => intro b s h; omega
  | succ n ih =>
    intro b s h
    rw [i_parse_string_loop]
    split
    · have hp : (if peek s.js ≠ '\\' then i_assign env c b s
            else i_parse_escape env c b s).2.2.js.length ≤ s.js.length ∧
          ((if peek s.js ≠ '\\' then i_assign env c b s
            else i_parse_escape env c b s).1 = XJS_OK →
           (if peek s.js ≠ '\\' then i_assign env c b s
            else i_parse_escape env c b s).2.2.js.length < s.js.length) := by
        split
        · exact i_assign_len env hinp c b s
        · exact i_parse_escape_len env hinp c b s
      generalize (if peek s.js ≠ '\\' then i_assign env c b s
            else i_parse_escape env c b s) = p at hp ⊢
      obtain ⟨r1, b1, s1⟩ := p
      simp only [] at hp ⊢
      split
      · exact ⟨_, _, _, rfl, hp.1⟩
      · rename_i hok
        have hlt := hp.2 (not_not.mp hok)
        obtain ⟨r, b', s', e, hl⟩ := ih b1 s1 (by omega)
        exact ⟨r, b', s', e, by omega⟩
    · exact ⟨_, _, _, rfl, Nat.le_refl _⟩

theorem i_parse_string_term (env : Env) (hinp : env.inp_cb = none) (fuel : Nat) (c : XJSType)
    (b : Buf) (s : State) (h : s.js.length + 1 ≤ fuel) :
    ∃ r b' s', i_parse_string env fuel c b s = some (r, b', s') ∧ s'.js.length ≤ s.js.length ∧
      (r = XJS_OK → s'.js.length < s.js.length) := by
  unfold i_parse_string
  obtain ⟨r1, s1, e1, h1⟩ := i_eatwhite_term env hinp fuel s h
  rw [e1]
  simp only []
  split
  · rename_i hne
    exact ⟨_, _, _, rfl, h1, fun h0 => absurd h0 hne⟩
  · split
    · exact ⟨_, _, _, rfl, h1, fun h0 => absurd (show XJS_NOPE = XJS_OK from h0) (by decide)⟩
    · have ha := i_advance0_len env hinp s1
      generalize i_advance0 env s1 = p at ha ⊢
      obtain ⟨r2, s2⟩ := p
      simp only [] at ha ⊢
      split
      · rename_i hne
        exact ⟨_, _, _, rfl, show s2.js.length ≤ s.js.length by omega, fun h0 => absurd h0 hne⟩
      · rename_i hok
        have hlt := ha.2 (not_not.mp hok)
        obtain ⟨r3, b3, s3, e3, h3⟩ := i_parse_string_loop_term env hinp c fuel b s2 (by omega)
        rw [e3]
        simp only []
        split
        · rename_i hne
          exact ⟨_, _, _, rfl, show s3.js.length ≤ s.js.length by omega, fun h0 => absurd h0 hne⟩
        · split
          · exact ⟨_, _, _, rfl, show s3.js.length ≤ s.js.length by omega,
              fun h0 => absurd (show XJS_ERR_EXP_END_STRING = XJS_OK from h0) (by decide)⟩
          · have ha4 := i_advance0_len env hinp s3
            generalize i_advance0 env s3 = p4 at ha4 ⊢
            obtain ⟨r4, s4⟩ := p4
            simp only [] at ha4 ⊢
            split
            · rename_i hne
              exact ⟨_, _, _, rfl, show s4.js.length ≤ s.js.length by omega,
                fun h0 => absurd h0 hne⟩
            · have ht := terminate_js b3 s4
              exact ⟨_, _, _, rfl, show (terminate b3 s4).2.js.length ≤ s.js.length by
                  rw [ht]; omega,
                fun _ => show (terminate b3 s4).2.js.length < s.js.length by rw [ht]; omega⟩

theorem i_parse_literal_loop_len (env : Env) (hinp : env.inp_cb = none) :
    ∀ (lit : List Char) (s : State),
      (i_parse_literal_loop env lit s).2.js.length ≤ s.js.length ∧
        (lit ≠ [] → (i_parse_literal_loop env lit s).1 = XJS_OK →
          (i_parse_literal_loop env lit s).2.js.length < s.js.length) := by
  intro lit
  induction lit with
  | nil => intro s; exact ⟨Nat.le_refl _, fun h => absurd rfl h⟩
  | cons l rest ih =>
    intro s
    rw [i_parse_literal_loop]
    have ha := i_advance0_len env hinp s
    generalize i_advance0 env s = p at ha ⊢
    obtain ⟨r1, s1⟩ := p
    simp only [] at ha ⊢
    split
    · exact ⟨Nat.le_refl _,
        fun _ h => absurd (show XJS_ERR_BAD_LITERAL = XJS_OK from h) (by decide)⟩
    · split
      · rename_i hne
        exact ⟨ha.1, fun _ h0 => absurd h0 hne⟩
      · rename_i hok
        have hlt := ha.2 (not_not.mp hok)
        have h2 := (ih s1).1
        exact ⟨by omega, fun _ _ => by omega⟩

theorem i_parse_literal_term (env : Env) (hinp : env.inp_cb = none) (fuel : Nat)
    (lit : List Char) (hl : lit ≠ []) (s : State) (h : s.js.length + 1 ≤ fuel) :
    ∃ r s', i_parse_literal env fuel lit s = some (r, s') ∧ s'.js.length ≤ s.js.length ∧
      (r = XJS_OK → s'.js.length < s.js.length) := by
  unfold i_parse_literal
  obtain ⟨r1, s1, e1, h1⟩ := i_eatwhite_term env hinp fuel s h
  rw [e1]
  simp only []
  split
  · rename_i hne
    exact ⟨_, _, rfl, h1, fun h0 => absurd h0 hne⟩
  · split
    · exact ⟨_, _, rfl, h1, fun h0 => absurd (show XJS_NOPE = XJS_OK from h0) (by decide)⟩
    · have ha := i_parse_literal_loop_len env hinp lit s1
      generalize i_parse_literal_loop env lit s1 = p at ha ⊢
      obtain ⟨r2, s2⟩ := p
      simp only [] at ha ⊢
      split
      · rename_i hne
        exact ⟨_, _, rfl, show s2.js.length ≤ s.js.length by omega, fun h0 => absurd h0 hne⟩
      · rename_i hok
        have hlt := ha.2 hl (not_not.mp hok)
        split
        · exact ⟨_, _, rfl, show s2.js.length ≤ s.js.length by omega,
            fun h0 => absurd (show XJS_ERR_BAD_LITERAL = XJS_OK from h0) (by decide)⟩
        · exact ⟨_, _, rfl, show s2.js.length ≤ s.js.length by omega,
            fun _ => show s2.js.length < s.js.length by omega⟩

theorem i_parse_number_digits_term (env : Env) (hinp : env.inp_cb = none) :
    ∀ (fuel : Nat) (b : Buf) (s : State), s.js.length + 1 ≤ fuel →
      ∃ r b' s', i_parse_number_digits env fuel b s = some (r, b', s') ∧
        s'.js.length ≤ s.js.length ∧
        (isdigit (peek s.js) = true → r = XJS_OK → s'.js.length < s.js.length) := by
  intro fuel
  induction fuel with
  | zero => intro b s h; omega
  | succ n ih =>
    intro b s h
    rw [i_parse_number_digits]
    have ha := i_assign_len env hinp XJS_number b s
    generalize i_assign env XJS_number b s = p at ha ⊢
    obtain ⟨r1, b1, s1⟩ := p
    simp only [] at ha ⊢
    split
    · split
      · rename_i hne
        exact ⟨_, _, _, rfl, ha.1, fun _ h0 => absurd h0 hne⟩
      · rename_i hok
        have hlt := ha.2 (not_not.mp hok)
        obtain ⟨r, b', s', e, hl, _⟩ := ih b1 s1 (by omega)
        exact ⟨r, b', s', e, by omega, fun _ _ => by omega⟩
    · rename_i hnd
      exact ⟨_, _, _, rfl, Nat.le_refl _, fun hd _ => absurd hd hnd⟩

theorem i_parse_number_exp_term (env : Env) (hinp : env.inp_cb = none) (fuel : Nat) (b : Buf)
    (s : State) (h : s.js.length + 1 ≤ fuel) :
    ∃ r b' s', i_parse_number_exp env fuel b s = some (r, b', s') ∧
      s'.js.length ≤ s.js.length := by
  unfold i_parse_number_exp
  split
  · have ha := i_assign_len env hinp XJS_number b s
    generalize i_assign env XJS_number b s = p at ha ⊢
    obtain ⟨r1, b1, s1⟩ := p
    simp only [] at ha ⊢
    split
    · exact ⟨_, _, _, rfl, ha.1⟩
    · have hp : (if peek s1.js = '+' ∨ peek s1.js = '-' then i_assign env XJS_number b1 s1
            else (XJS_OK, b1, s1)).2.2.js.length ≤ s1.js.length := by
        split
        · exact (i_assign_len env hinp XJS_number b1 s1).1
        · exact Nat.le_refl _
      generalize (if peek s1.js = '+' ∨ peek s1.js = '-' then i_assign env XJS_number b1 s1
            else (XJS_OK, b1, s1)) = p2 at hp ⊢
      obtain ⟨r2, b2, s2⟩ := p2
      simp only [] at hp ⊢
      split
      · exact ⟨_, _, _, rfl, show s2.js.length ≤ s.js.length by omega⟩
      · split
        · exact ⟨_, _, _, rfl, show s2.js.length ≤ s.js.length by omega⟩
        · obtain ⟨r3, b3, s3, e3, h3, _⟩ :=
            i_parse_number_digits_term env hinp fuel b2 s2 (by omega)
          rw [e3]
          simp only []
          split
          · exact ⟨_, _, _, rfl, show s3.js.length ≤ s.js.length by omega⟩
          · have ht := terminate_js b3 s3
            exact ⟨_, _, _, rfl, show (terminate b3 s3).2.js.length ≤ s.js.length by
              rw [ht]; omega⟩
  · have ht := terminate_js b s
    exact ⟨_, _, _, rfl, show (terminate b s).2.js.length ≤ s.js.length by rw [ht]⟩

theorem i_parse_number_frac_term (env : Env) (hinp : env.inp_cb = none) (fuel : Nat) (b : Buf)
    (s : State) (h : s.js.length + 1 ≤ fuel) :
    ∃ r b' s', i_parse_number_frac env fuel b s = some (r, b', s') ∧
      s'.js.length ≤ s.js.length := by
  unfold i_parse_number_frac
  split
  · have ha := i_assign_len env hinp XJS_number b s
    generalize i_assign env XJS_number b s = p at ha ⊢
    obtain ⟨r1, b1, s1⟩ := p
    simp only [] at ha ⊢
    split
    · exact ⟨_, _, _, rfl, ha.1⟩
    · split
      · exact ⟨_, _, _, rfl, ha.1⟩
      · obtain ⟨r2, b2, s2, e2, h2, _⟩ :=
          i_parse_number_digits_term env hinp fuel b1 s1 (by omega)
        rw [e2]
        simp only []
        split
        · exact ⟨_, _, _, rfl, show s2.js.length ≤ s.js.length by omega⟩
        · obtain ⟨r3, b3, s3, e3, h3⟩ := i_parse_number_exp_term env hinp fuel b2 s2 (by omega)
          exact ⟨r3, b3, s3, e3, by omega⟩
  · exact i_parse_number_exp_term env hinp fuel b s h

theorem i_parse_number_term (env : Env) (hinp : env.inp_cb = none) (fuel : Nat) (b : Buf)
    (s : State) (h : s.js.length + 1 ≤ fuel) :
    ∃ r b' s', i_parse_number env fuel b s = some (r, b', s') ∧ s'.js.length ≤ s.js.length ∧
      (r = XJS_OK → s'.js.length < s.js.length) := by
  unfold i_parse_number
  obtain ⟨r1, s1, e1, h1⟩ := i_eatwhite_term env hinp fuel s h
  rw [e1]
  simp only []
  split
  · rename_i hne
    exact ⟨_, _, _, rfl, h1, fun h0 => absurd h0 hne⟩
  · have hp : (if peek s1.js = '-' then i_assign env XJS_number b s1
          else (XJS_OK, b, s1)).2.2.js.length ≤ s1.js.length := by
      split
      · exact (i_assign_len env hinp XJS_number b s1).1
      · exact Nat.le_refl _
    generalize (if peek s1.js = '-' then i_assign env XJS_number b s1
          else (XJS_OK, b, s1)) = p2 at hp ⊢
    obtain ⟨r2, b2, s2⟩ := p2
    simp only [] at hp ⊢
    split
    · rename_i hne
      exact ⟨_, _, _, rfl, show s2.js.length ≤ s.js.length by omega, fun h0 => absurd h0 hne⟩
    · split
      · exact ⟨_, _, _, rfl, show s2.js.length ≤ s.js.length by omega,
          fun h0 => absurd (show XJS_NOPE = XJS_OK from h0) (by decide)⟩
      · rename_i hd
        have hdig : isdigit (peek s2.js) = true := by simpa using hd
        have hq : ∃ r3 b3 s3,
            (if peek s2.js = '0' then some (i_assign env XJS_number b2 s2)
             else i_parse_number_digits env fuel b2 s2) = some (r3, b3, s3) ∧
            s3.js.length ≤ s2.js.length ∧ (r3 = XJS_OK → s3.js.length < s2.js.length) := by
          split
          · exact ⟨_, _, _, rfl, (i_assign_len env hinp XJS_number b2 s2).1,
              (i_assign_len env hinp XJS_number b2 s2).2⟩
          · obtain ⟨r3, b3, s3, e3, h3, h3'⟩ :=
              i_parse_number_digits_term env hinp fuel b2 s2 (by omega)
            exact ⟨r3, b3, s3, e3, h3, h3' hdig⟩
        obtain ⟨r3, b3, s3, e3, h3, h3'⟩ := hq
        rw [e3]
        simp only []
        split
        · rename_i hne
          exact ⟨_, _, _, rfl, show s3.js.length ≤ s.js.length by omega, fun h0 => absurd h0 hne⟩
        · rename_i hok
          have hlt := h3' (not_not.mp hok)
          obtain ⟨r4, b4, s4, e4, h4⟩ := i_parse_number_frac_term env hinp fuel b3 s3 (by omega)
          exact ⟨r4, b4, s4, e4, by omega, fun _ => by omega⟩

set_option maxHeartbeats 1000000 in
theorem i_parse_value_term (env : Env) (hinp : env.inp_cb = none) (fuel : Nat) (b : Buf)
    (s : State) (h : s.js.length + 1 ≤ fuel) :
    ∃ r k b' s', i_parse_value env fuel b s = some (r, k, b', s') ∧
      s'.js.length ≤ s.js.length ∧ (r = XJS_OK → s'.js.length < s.js.length) := by
  unfold i_parse_value
  obtain ⟨r0, s0, e0, h0⟩ := i_eatwhite_term env hinp fuel s h
  rw [e0]
  dsimp only
  by_cases hne : r0 ≠ XJS_OK
  · rw [if_pos hne]
    exact ⟨_, _, _, _, rfl, h0, fun hh => absurd hh hne⟩
  rw [if_neg hne]
  obtain ⟨r1, s1, e1, h1, h1'⟩ :=
    i_parse_literal_term env hinp fuel "true".toList (by decide) s0 (by omega)
  rw [e1]
  dsimp only
  by_cases hok1 : r1 = XJS_OK
  · rw [if_pos hok1]
    exact ⟨_, _, _, _, rfl, show s1.js.length ≤ s.js.length by omega,
      fun _ => show s1.js.length < s.js.length by have := h1' hok1; omega⟩
  rw [if_neg hok1]
  by_cases hn1 : r1 ≠ XJS_NOPE
  · rw [if_pos hn1]
    exact ⟨_, _, _, _, rfl, show s1.js.length ≤ s.js.length by omega, fun hh => absurd hh hok1⟩
  rw [if_neg hn1]
  obtain ⟨r2, s2, e2, h2, h2'⟩ :=
    i_parse_literal_term env hinp fuel "false".toList (by decide) s1 (by omega)
  rw [e2]
  dsimp only
  by_cases hok2 : r2 = XJS_OK
  · rw [if_pos hok2]
    exact ⟨_, _, _, _, rfl, show s2.js.length ≤ s.js.length by omega,
      fun _ => show s2.js.length < s.js.length by have := h2' hok2; omega⟩
  rw [if_neg hok2]
  by_cases hn2 : r2 ≠ XJS_NOPE
  · rw [if_pos hn2]
    exact ⟨_, _, _, _, rfl, show s2.js.length ≤ s.js.length by omega, fun hh => absurd hh hok2⟩
  rw [if_neg hn2]
  obtain ⟨r3, s3, e3, h3, h3'⟩ :=
    i_parse_literal_term env hinp fuel "null".toList (by decide) s2 (by omega)
  rw [e3]
  dsimp only
  by_cases hok3 : r3 = XJS_OK
  · rw [if_pos hok3]
    exact ⟨_, _, _, _, rfl, show s3.js.length ≤ s.js.length by omega,
      fun _ => show s3.js.length < s.js.length by have := h3' hok3; omega⟩
  rw [if_neg hok3]
  by_cases hn3 : r3 ≠ XJS_NOPE
  · rw [if_pos hn3]
    exact ⟨_, _, _, _, rfl, show s3.js.length ≤ s.js.length by omega, fun hh => absurd hh hok3⟩
  rw [if_neg hn3]
  obtain ⟨r4, b4, s4, e4, h4, h4'⟩ := i_parse_number_term env hinp fuel b s3 (by omega)
  rw [e4]
  dsimp only
  by_cases hok4 : r4 = XJS_OK
  · rw [if_pos hok4]
    exact ⟨_, _, _, _, rfl, show s4.js.length ≤ s.js.length by omega,
      fun _ => show s4.js.length < s.js.length by have := h4' hok4; omega⟩
  rw [if_neg hok4]
  by_cases hn4 : r4 ≠ XJS_NOPE
  · rw [if_pos hn4]
    exact ⟨_, _, _, _, rfl, show s4.js.length ≤ s.js.length by omega, fun hh => absurd hh hok4⟩
  rw [if_neg hn4]
  obtain ⟨r5, b5, s5, e5, h5, h5'⟩ :=
    i_parse_string_term env hinp fuel XJS_string b4 s4 (by omega)
  rw [e5]
  dsimp only
  by_cases hok5 : r5 = XJS_OK
  · rw [if_pos hok5]
    exact ⟨_, _, _, _, rfl, show s5.js.length ≤ s.js.length by omega,
      fun _ => show s5.js.length < s.js.length by have := h5' hok5; omega⟩
  · rw [if_neg hok5]
    exact ⟨_, _, _, _, rfl, show s5.js.length ≤ s.js.length by omega, fun hh => absurd hh hok5⟩

theorem hdr_grow_js (env : Env) (hl : Bool) (H : Hdr) (cnt tcnt : Nat) (s : State) :
    (hdr_grow env hl H cnt tcnt s).2.2.2.js = s.js := by
  unfold hdr_grow
  simp only [call_mem]
  repeat' split
  all_goals rfl

theorem r_parse_any_term (env : Env) (hinp : env.inp_cb = none) (fuel : Nat)
    (ih : TermStep env fuel) :
    ∀ top p n s, 3 * s.js.length + 4 ≤ fuel + 1 →
    ∃ r s', r_parse_any env (fuel + 1) top p n s = some (r, s') ∧ s'.js.length ≤ s.js.length ∧
      (r = XJS_OK → s'.js.length < s.js.length) := by
  intro top p n s h
  rw [r_parse_any]
  obtain ⟨r1, s1, e1, h1⟩ := i_eatwhite_term env hinp fuel s (by omega)
  rw [e1]
  dsimp only
  split
  · rename_i hne
    exact ⟨_, _, rfl, h1, fun h0 => absurd h0 hne⟩
  · split
    · obtain ⟨r, s', e, hl, hlt⟩ := ih.obj p n s1 (by omega)
      exact ⟨r, s', e, by omega, fun h0 => by have := hlt h0; omega⟩
    · split
      · obtain ⟨r, H, c, s', e, hl, hlt⟩ := ih.arr none XJS_array none p n s1 (by omega)
        rw [e]
        exact ⟨_, _, rfl, show s'.js.length ≤ s.js.length by omega,
          fun h0 => show s'.js.length < s.js.length by have := hlt h0; omega⟩
      · split
        · obtain ⟨r, s', e, hl, hlt⟩ := ih.blk p n s1 (by omega)
          exact ⟨r, s', e, by omega, fun h0 => by have := hlt h0; omega⟩
        · split
          · exact ⟨_, _, rfl, h1,
              fun h0 => absurd (show XJS_ERR_BAD_INPUT = XJS_OK from h0) (by decide)⟩
          · obtain ⟨r2, k, b, s2, e2, h2, h2'⟩ :=
              i_parse_value_term env hinp fuel Buf.empty s1 (by omega)
            rw [e2]
            dsimp only
            split
            · rename_i hok
              exact ⟨_, _, rfl, show s2.js.length ≤ s.js.length by omega,
                fun _ => show s2.js.length < s.js.length by have := h2' hok; omega⟩
            · rename_i hne
              exact ⟨_, _, rfl, show s2.js.length ≤ s.js.length by omega,
                fun h0 => absurd h0 hne⟩

theorem i_parse_array_term (env : Env) (hinp : env.inp_cb = none) (fuel : Nat)
    (ih : TermStep env fuel) :
    ∀ hdr k cnt p n s, 3 * s.js.length + 3 ≤ fuel + 1 →
    ∃ r H c s', i_parse_array env (fuel + 1) hdr k cnt p n s = some (r, H, c, s') ∧
      s'.js.length ≤ s.js.length ∧ (r = XJS_OK → s'.js.length < s.js.length) := by
  intro hdr k cnt p n s h
  rw [i_parse_array]
  obtain ⟨r1, s1, e1, h1⟩ := i_eatwhite_term env hinp fuel s (by omega)
  rw [e1]
  dsimp only
  split
  · rename_i hne
    exact ⟨_, _, _, _, rfl, h1, fun h0 => absurd h0 hne⟩
  · split
    · exact ⟨_, _, _, _, rfl, h1, fun h0 => absurd (show XJS_NOPE = XJS_OK from h0) (by decide)⟩
    · generalize hcn : call_node env p k n none s1 = cn
      have hjs : cn.2.2.js.length = s1.js.length := by rw [← hcn]; rfl
      obtain ⟨r2, np, s2⟩ := cn
      dsimp only at hjs ⊢
      split
      · rename_i hne
        exact ⟨_, _, _, _, rfl, show s2.js.length ≤ s.js.length by omega, fun h0 => absurd h0 hne⟩
      · obtain ⟨r3, s3, e3, h3, h3'⟩ := i_advance_term env hinp fuel true s2 (by omega)
        rw [e3]
        dsimp only
        split
        · rename_i hne
          exact ⟨_, _, _, _, rfl, show s3.js.length ≤ s.js.length by omega,
            fun h0 => absurd h0 (i_noend_ne hne)⟩
        · rename_i hok
          have hlt := h3' (not_not.mp hok)
          obtain ⟨r, H, c, s', e, hl⟩ := ih.arrl
            (hdr.isSome && !(decide (k = XJS_block_array) && decide ((hdr.getD ⟨0, []⟩).ptr = 0)))
            (hdr.getD ⟨0, []⟩) k cnt.isSome 0 0 0 np n s3 (by omega)
          exact ⟨r, H, c, s', e, by omega, fun _ => by omega⟩

theorem i_parse_object_term (env : Env) (hinp : env.inp_cb = none) (fuel : Nat)
    (ih : TermStep env fuel) :
    ∀ p n s, 3 * s.js.length + 3 ≤ fuel + 1 →
    ∃ r s', i_parse_object env (fuel + 1) p n s = some (r, s') ∧ s'.js.length ≤ s.js.length ∧
      (r = XJS_OK → s'.js.length < s.js.length) := by
  intro p n s h
  rw [i_parse_object]
  split
  · exact ⟨_, _, rfl, Nat.le_refl _,
      fun h0 => absurd (show XJS_NOPE = XJS_OK from h0) (by decide)⟩
  · generalize hcn : call_node env p XJS_object n none s = cn
    have hjs : cn.2.2.js.length = s.js.length := by rw [← hcn]; rfl
    obtain ⟨r2, np, s2⟩ := cn
    dsimp only at hjs ⊢
    split
    · rename_i hne
      exact ⟨_, _, rfl, show s2.js.length ≤ s.js.length by omega, fun h0 => absurd h0 hne⟩
    · obtain ⟨r3, s3, e3, h3, h3'⟩ := i_advance_term env hinp fuel true s2 (by omega)
      rw [e3]
      dsimp only
      split
      · rename_i hne
        exact ⟨_, _, rfl, show s3.js.length ≤ s.js.length by omega, fun h0 => absurd h0 hne⟩
      · rename_i hok
        have hlt := h3' (not_not.mp hok)
        obtain ⟨r, s', e, hl⟩ := ih.objl 0 np n s3 (by omega)
        exact ⟨r, s', e, by omega, fun _ => by omega⟩

theorem i_parse_block_term (env : Env) (hinp : env.inp_cb = none) (fuel : Nat)
    (ih : TermStep env fuel) :
    ∀ p n s, 3 * s.js.length + 3 ≤ fuel + 1 →
    ∃ r s', i_parse_block env (fuel + 1) p n s = some (r, s') ∧ s'.js.length ≤ s.js.length ∧
      (r = XJS_OK → s'.js.length < s.js.length) := by
  intro p n s h
  rw [i_parse_block]
  split
  · exact ⟨_, _, rfl, Nat.le_refl _,
      fun h0 => absurd (show XJS_NOPE = XJS_OK from h0) (by decide)⟩
  · generalize hcn : call_node env p XJS_block n none s = cn
    have hjs : cn.2.2.js.length = s.js.length := by rw [← hcn]; rfl
    obtain ⟨r2, np, s2⟩ := cn
    dsimp only at hjs ⊢
    split
    · rename_i hne
      exact ⟨_, _, rfl, show s2.js.length ≤ s.js.length by omega, fun h0 => absurd h0 hne⟩
    · obtain ⟨r3, s3, e3, h3, h3'⟩ := i_advance_term env hinp fuel true s2 (by omega)
      rw [e3]
      dsimp only
      split
      · rename_i hne
        exact ⟨_, _, rfl, show s3.js.length ≤ s.js.length by omega,
          fun h0 => absurd h0 (i_noend_ne hne)⟩
      · rename_i hok
        have hlt := h3' (not_not.mp hok)
        have hq : ∃ r4 H c s4,
            (if peek s3.js ≠ ')' then
               i_parse_array env fuel (some ⟨0, []⟩) XJS_block_header (some 0) np none s3
             else some (XJS_OK, ⟨0, []⟩, 0, s3)) = some (r4, H, c, s4) ∧
            s4.js.length ≤ s3.js.length := by
          split
          · obtain ⟨r, H, c, s', e, hl, _⟩ :=
              ih.arr (some ⟨0, []⟩) XJS_block_header (some 0) np none s3 (by omega)
            exact ⟨r, H, c, s', e, hl⟩
          · exact ⟨_, _, _, _, rfl, Nat.le_refl _⟩
        obtain ⟨r4, H, c, s4, e4, h4⟩ := hq
        rw [e4]
        dsimp only
        obtain ⟨r, s', e, hl⟩ := ih.blkl r4 H c 0 np n s4 (by omega) (fun _ => by omega)
        exact ⟨r, s', e, by omega, fun _ => by omega⟩

theorem i_parse_array_loop_term (env : Env) (hinp : env.inp_cb = none) (fuel : Nat)
    (ih : TermStep env fuel) :
    ∀ hl H k hc cnt i tcnt np n s, 3 * s.js.length + 5 ≤ fuel + 1 →
    ∃ r H' c s', i_parse_array_loop env (fuel + 1) hl H k hc cnt i tcnt np n s
        = some (r, H', c, s') ∧ s'.js.length ≤ s.js.length := by
  intro hl H k hc cnt i tcnt np n s h
  rw [i_parse_array_loop]
  by_cases hb : peek s.js ≠ ']'
  · rw [if_pos hb]
    by_cases hcm : i ≠ 0 ∧ peek s.js ≠ ','
    · rw [if_pos hcm]
      exact ⟨_, _, _, _, rfl, Nat.le_refl _⟩
    rw [if_neg hcm]
    have hp : (if i ≠ 0 then i_advance0 env s else (XJS_OK, s)).2.js.length ≤ s.js.length := by
      split
      · exact (i_advance0_len env hinp s).1
      · exact Nat.le_refl _
    generalize (if i ≠ 0 then i_advance0 env s else (XJS_OK, s)) = p at hp ⊢
    obtain ⟨r1, s1⟩ := p
    dsimp only at hp ⊢
    by_cases hr1 : r1 ≠ XJS_OK
    · rw [if_pos hr1]
      exact ⟨_, _, _, _, rfl, hp⟩
    rw [if_neg hr1]
    by_cases hk : k = XJS_block_header
    · rw [if_pos hk]
      generalize hg : hdr_grow env hl H cnt tcnt s1 = g
      have hgj : g.2.2.2.js.length = s1.js.length := by
        rw [← hg, hdr_grow_js]
      obtain ⟨hl1, H1, tcnt1, s2⟩ := g
      dsimp only at hgj ⊢
      obtain ⟨r2, v, s3, e3, h3, h3'⟩ :=
        i_parse_string_term env hinp fuel XJS_name Buf.empty s2 (by omega)
      rw [e3]
      dsimp only
      by_cases hr2 : r2 ≠ XJS_OK
      · rw [if_pos hr2]
        exact ⟨_, _, _, _, rfl, show s3.js.length ≤ s.js.length by omega⟩
      rw [if_neg hr2]
      have hlt := h3' (not_not.mp hr2)
      generalize hcn : call_node env np XJS_name (some (Nat.toDigits 10 (i + 1))) v.cstr s3
        = cn
      have hcj : cn.2.2.js.length = s3.js.length := by rw [← hcn]; rfl
      obtain ⟨r3, np1, s4⟩ := cn
      dsimp only at hcj ⊢
      have hp5 : (if hl1 = true ∧ tcnt1 > cnt then (H1.store cnt (v.ptr, v.cstr), s4)
          else (H1, mem_free env XJS_name v.ptr s4)).2.js.length = s4.js.length := by
        split <;> rfl
      generalize (if hl1 = true ∧ tcnt1 > cnt then (H1.store cnt (v.ptr, v.cstr), s4)
          else (H1, mem_free env XJS_name v.ptr s4)) = p5 at hp5 ⊢
      obtain ⟨H2, s5⟩ := p5
      dsimp only at hp5 ⊢
      by_cases hr3 : r3 ≠ XJS_OK
      · rw [if_pos hr3]
        exact ⟨_, _, _, _, rfl, show s5.js.length ≤ s.js.length by omega⟩
      rw [if_neg hr3]
      obtain ⟨r6, s6, e6, h6⟩ := i_eatwhite_term env hinp fuel s5 (by omega)
      rw [e6]
      dsimp only
      by_cases hr6 : r6 ≠ XJS_OK
      · rw [if_pos hr6]
        exact ⟨_, _, _, _, rfl, show s6.js.length ≤ s.js.length by omega⟩
      rw [if_neg hr6]
      obtain ⟨r, H', c, s', e, hl'⟩ := ih.arrl hl1 H2 k hc
        (if hc then cnt + 1 else cnt) (i + 1) tcnt1 np1 n s6 (by omega)
      exact ⟨r, H', c, s', e, by omega⟩
    rw [if_neg hk]
    have hp2 : (if hl = false ∨ k = XJS_array then
        ((0, some (Nat.toDigits 10 (i + 1))), s1) else hdr_read env H cnt s1).2.js.length
          = s1.js.length := by
      split <;> rfl
    generalize (if hl = false ∨ k = XJS_array then
        ((0, some (Nat.toDigits 10 (i + 1))), s1) else hdr_read env H cnt s1) = p2 at hp2 ⊢
    obtain ⟨nm, s2⟩ := p2
    dsimp only at hp2 ⊢
    obtain ⟨r3, s3, e3, h3, h3'⟩ := ih.any false np nm.2 s2 (by omega)
    rw [e3]
    dsimp only
    by_cases hr3 : r3 ≠ XJS_OK
    · rw [if_pos hr3]
      exact ⟨_, _, _, _, rfl, show s3.js.length ≤ s.js.length by omega⟩
    rw [if_neg hr3]
    have hlt := h3' (not_not.mp hr3)
    obtain ⟨r4, s4, e4, h4⟩ := i_eatwhite_term env hinp fuel s3 (by omega)
    rw [e4]
    dsimp only
    by_cases hr4 : r4 ≠ XJS_OK
    · rw [if_pos hr4]
      exact ⟨_, _, _, _, rfl, show s4.js.length ≤ s.js.length by omega⟩
    rw [if_neg hr4]
    obtain ⟨r, H', c, s', e, hl'⟩ := ih.arrl hl H k hc
      (if hc then cnt + 1 else cnt) (i + 1) tcnt np n s4 (by omega)
    exact ⟨r, H', c, s', e, by omega⟩
  · rw [if_neg hb]
    have ha := i_advance0_len env hinp s
    generalize i_advance0 env s = p at ha ⊢
    obtain ⟨r1, s1⟩ := p
    dsimp only at ha ⊢
    split
    · exact ⟨_, _, _, _, rfl, ha.1⟩
    · exact ⟨_, _, _, _, rfl, show s1.js.length ≤ s.js.length from ha.1⟩

theorem i_parse_object_loop_term (env : Env) (hinp : env.inp_cb = none) (fuel : Nat)
    (ih : TermStep env fuel) :
    ∀ i np n s, 3 * s.js.length + 5 ≤ fuel + 1 →
    ∃ r s', i_parse_object_loop env (fuel + 1) i np n s = some (r, s') ∧
      s'.js.length ≤ s.js.length := by
  intro i np n s h
  rw [i_parse_object_loop]
  split
  · split
    · exact ⟨_, _, rfl, Nat.le_refl _⟩
    · have hp : (if i ≠ 0 then i_advance0 env s else (XJS_OK, s)).2.js.length ≤ s.js.length := by
        split
        · exact (i_advance0_len env hinp s).1
        · exact Nat.le_refl _
      generalize (if i ≠ 0 then i_advance0 env s else (XJS_OK, s)) = p at hp ⊢
      obtain ⟨r1, s1⟩ := p
      dsimp only at hp ⊢
      split
      · exact ⟨_, _, rfl, hp⟩
      · obtain ⟨r2, nb, s2, e2, h2, _⟩ :=
          i_parse_string_term env hinp fuel XJS_name Buf.empty s1 (by omega)
        rw [e2]
        dsimp only
        have hq : ∃ r3 s3, (if r2 = XJS_OK then i_eatwhite env fuel s2 else some (r2, s2))
            = some (r3, s3) ∧ s3.js.length ≤ s2.js.length := by
          split
          · exact i_eatwhite_term env hinp fuel s2 (by omega)
          · exact ⟨_, _, rfl, Nat.le_refl _⟩
        obtain ⟨r3, s3, e3, h3⟩ := hq
        rw [e3]
        dsimp only
        have hp4 : (if r3 = XJS_OK then
              (if peek s3.js ≠ ':' then (XJS_ERR_EXP_COLON, s3) else i_advance0 env s3)
              else (r3, s3)).2.js.length ≤ s3.js.length := by
          split
          · split
            · exact Nat.le_refl _
            · exact (i_advance0_len env hinp s3).1
          · exact Nat.le_refl _
        generalize (if r3 = XJS_OK then
              (if peek s3.js ≠ ':' then (XJS_ERR_EXP_COLON, s3) else i_advance0 env s3)
              else (r3, s3)) = p4 at hp4 ⊢
        obtain ⟨r4, s4⟩ := p4
        dsimp only at hp4 ⊢
        have hq5 : ∃ r5 s5, (if r4 = XJS_OK then r_parse_any env fuel false np nb.cstr s4
              else some (r4, s4)) = some (r5, s5) ∧ s5.js.length ≤ s4.js.length ∧
            (r5 = XJS_OK → s5.js.length < s4.js.length) := by
          split
          · exact ih.any false np nb.cstr s4 (by omega)
          · rename_i hne
            exact ⟨_, _, rfl, Nat.le_refl _, fun h0 => absurd h0 hne⟩
        obtain ⟨r5, s5, e5, h5, h5'⟩ := hq5
        rw [e5]
        dsimp only
        have h6 : (if nb.ptr ≠ 0 then mem_free env XJS_name nb.ptr s5 else s5).js.length
            = s5.js.length := by split <;> rfl
        generalize (if nb.ptr ≠ 0 then mem_free env XJS_name nb.ptr s5 else s5) = s6 at h6 ⊢
        split
        · exact ⟨_, _, rfl, show s6.js.length ≤ s.js.length by omega⟩
        · rename_i hok
          have hlt := h5' (not_not.mp hok)
          obtain ⟨r7, s7, e7, h7⟩ := i_eatwhite_term env hinp fuel s6 (by omega)
          rw [e7]
          dsimp only
          split
          · exact ⟨_, _, rfl, show s7.js.length ≤ s.js.length by omega⟩
          · obtain ⟨r, s', e, hl'⟩ := ih.objl (i + 1) np n s7 (by omega)
            exact ⟨r, s', e, by omega⟩
  · have ha := i_advance0_len env hinp s
    generalize i_advance0 env s = p at ha ⊢
    obtain ⟨r1, s1⟩ := p
    dsimp only at ha ⊢
    split
    · exact ⟨_, _, rfl, ha.1⟩
    · exact ⟨_, _, rfl, show s1.js.length ≤ s.js.length from ha.1⟩

theorem i_parse_block_loop_term (env : Env) (hinp : env.inp_cb = none) (fuel : Nat)
    (ih : TermStep env fuel) :
    ∀ r0 H cnt i np n s, 1 ≤ fuel + 1 → (r0 = XJS_OK → 3 * s.js.length + 5 ≤ fuel + 1) →
    ∃ r s', i_parse_block_loop env (fuel + 1) r0 H cnt i np n s = some (r, s') ∧
      s'.js.length ≤ s.js.length := by
  intro r0 H cnt i np n s _ h
  rw [i_parse_block_loop]
  split
  · rename_i hcond
    have hf := h hcond.1
    split
    · exact ⟨_, _, rfl, Nat.le_refl _⟩
    · have hp : (if i ≠ 0 then i_advance0 env s else (r0, s)).2.js.length ≤ s.js.length := by
        split
        · exact (i_advance0_len env hinp s).1
        · exact Nat.le_refl _
      generalize (if i ≠ 0 then i_advance0 env s else (r0, s)) = p at hp ⊢
      obtain ⟨r1, s1⟩ := p
      dsimp only at hp ⊢
      have hq : ∃ r2 H2 t s2, (if r1 = XJS_OK then
            i_parse_array env fuel (some H) XJS_block_array (some 0) np none s1
            else some (r1, H, cnt, s1)) = some (r2, H2, t, s2) ∧
          s2.js.length ≤ s1.js.length ∧ (r2 = XJS_OK → s2.js.length < s1.js.length) := by
        split
        · exact ih.arr (some H) XJS_block_array (some 0) np none s1 (by omega)
        · rename_i hne
          exact ⟨_, _, _, _, rfl, Nat.le_refl _, fun h0 => absurd h0 hne⟩
      obtain ⟨r2, H2, t, s2, e2, h2, h2'⟩ := hq
      rw [e2]
      dsimp only
      obtain ⟨r, s', e, hl'⟩ := ih.blkl
        (if r2 = XJS_OK ∧ t ≠ cnt then XJS_ERR_BLOCK_ARRAY_SIZE else r2) H2 cnt (i + 1) np n s2
        (by omega)
        (fun h0 => by
          have hr2 : r2 = XJS_OK := by
            split at h0
            · exact absurd h0 (by decide)
            · exact h0
          have := h2' hr2
          omega)
      exact ⟨r, s', e, by omega⟩
  · dsimp only
    have hc : (hdr_cleanup env H cnt s).js.length = s.js.length := by rw [hdr_cleanup_js]
    generalize hdr_cleanup env H cnt s = s1 at hc ⊢
    split
    · exact ⟨_, _, rfl, by omega⟩
    · have ha := i_advance0_len env hinp s1
      generalize i_advance0 env s1 = p at ha ⊢
      obtain ⟨r1, s2⟩ := p
      dsimp only at ha ⊢
      split
      · exact ⟨_, _, rfl, show s2.js.length ≤ s.js.length by omega⟩
      · exact ⟨_, _, rfl, show s2.js.length ≤ s.js.length by omega⟩

/-- Without a refill callback the container parsers return, given fuel in
proportion to the length of the input left. -/
theorem termStep_all (env : Env) (hinp : env.inp_cb = none) : ∀ fuel, TermStep env fuel := by
  intro fuel
  induction fuel with
  | zero =>
    refine ⟨?_, ?_, ?_, ?_, ?_, ?_, ?_⟩
    · intro top p n s h; omega
    · intro hdr k cnt p n s h; omega
    · intro hl H k hc cnt i tcnt np n s h; omega
    · intro p n s h; omega
    · intro i np n s h; omega
    · intro p n s h; omega
    · intro r0 H cnt i np n s h; omega
  | succ n ih =>
    exact ⟨r_parse_any_term env hinp n ih, i_parse_array_term env hinp n ih,
      i_parse_array_loop_term env hinp n ih, i_parse_object_term env hinp n ih,
      i_parse_object_loop_term env hinp n ih, i_parse_block_term env hinp n ih,
      i_parse_block_loop_term env hinp n ih⟩

theorem xjs_parse_from_term (env : Env) (hinp : env.inp_cb = none) (fuel : Nat) (s : State)
    (h : 3 * s.js.length + 4 ≤ fuel) :
    ∃ r e s', xjs_parse_from env fuel s = some (r, e, s') ∧ s'.js.length ≤ s.js.length := by
  unfold xjs_parse_from
  obtain ⟨r1, s1, e1, h1, _⟩ := (termStep_all env hinp fuel).any true 0 none s h
  rw [e1]
  dsimp only
  have hq : ∃ r2 s2, (if peek s1.js ≠ NUL then i_eatwhite env fuel s1 else some (XJS_OK, s1))
      = some (r2, s2) ∧ s2.js.length ≤ s1.js.length := by
    split
    · exact i_eatwhite_term env hinp fuel s1 (by omega)
    · exact ⟨_, _, rfl, Nat.le_refl _⟩
  obtain ⟨r2, s2, e2, h2⟩ := hq
  rw [e2]
  exact ⟨_, _, _, rfl, show s2.js.length ≤ s.js.length by omega⟩

/-- C33: termination. For every input passed as one buffer, with no refill
callback, whatever the sink and the allocator (and whether blocks are
enabled), xjs_parse returns as soon as the fuel is at least three times the
length of the input plus four. One unit of fuel is spent by every call of a
container parser or of the dispatcher and by every iteration of the loop of
an array, an object or a block, so their number along any path of the run,
the depth of the recursion included, is bounded in proportion to the length
of the input: an iteration that is followed by another one has moved the
cursor forwards by at least one character, and the cursor never moves
backwards (it ends at most as far from the end of the buffer as it
started). -/
theorem C33_termination (blocks : Bool) (fallback : Option XJSMemCB) (js : List Char)
    (node_cb : XJSNodeCB) (mem_cb : Option XJSMemCB) (fuel : Nat)
    (h : 3 * js.length + 4 ≤ fuel) :
    ∃ r e s, xjs_parse blocks fallback fuel (some js) node_cb none mem_cb = some (r, e, s) ∧
      s.js.length ≤ js.length := by
  unfold xjs_parse
  split
  · exact ⟨_, _, _, rfl, Nat.le_refl _⟩
  · rename_i m _
    exact xjs_parse_from_term ⟨blocks, node_cb, none, m⟩ rfl fuel (State.init js 0) h

/-- C33 on the document of the worked example, 30 characters: the run
returns with fuel 94. -/
theorem C33_termination_witness :
    ∃ r e s, xjs_parse false none 94 (some "\x7b\"a\":1,\"b\":[true,false,null]\x7d".toList)
        sinkOk none (some memGrant) = some (r, e, s) ∧
      s.js.length ≤ "\x7b\"a\":1,\"b\":[true,false,null]\x7d".toList.length :=
  C33_termination false none "\x7b\"a\":1,\"b\":[true,false,null]\x7d".toList sinkOk
    (some memGrant) 94 (by decide)

/-! ## A run fed in chunks against the run on one buffer: numbers, values and containers -/

/-- The fraction of a number and what follows it, fed in chunks. -/
theorem i_parse_number_frac_sim {env : Env} {cs : List (List Char)} (hs : Sim env cs) (fuel : Nat)
    (b : Buf) {t : State} (ht : StreamInv cs t) :
    i_parse_number_frac env.noRefill fuel b (whole cs t)
        = (i_parse_number_frac env fuel b t).map (fun x => (x.1, x.2.1, whole cs x.2.2)) ∧
      ∀ x, i_parse_number_frac env fuel b t = some x → StreamInv cs x.2.2 := by
  have h1 := i_assign_sim hs XJS_number b ht
  have h3 := i_parse_number_digits_sim hs fuel (i_assign env XJS_number b t).2.1 h1.2
  unfold i_parse_number_frac
  simp only [peek_whole ht, h1.1]
  split
  · split
    · exact ⟨rfl, fun x hx => by cases hx; exact h1.2⟩
    · simp only [peek_whole h1.2]
      split
      · exact ⟨rfl, fun x hx => by cases hx; exact h1.2⟩
      · rw [h3.1]
        cases he3 : i_parse_number_digits env fuel (i_assign env XJS_number b t).2.1
            (i_assign env XJS_number b t).2.2 with
        | none => exact ⟨rfl, fun x hx => by cases hx⟩
        | some x3 =>
          obtain ⟨r3, b3, t3⟩ := x3
          have ht3 : StreamInv cs t3 := h3.2 _ he3
          simp only [Option.map_some']
          split
          · exact ⟨rfl, fun x hx => by cases hx; exact ht3⟩
          · exact i_parse_number_exp_sim hs fuel b3 ht3
  · exact i_parse_number_exp_sim hs fuel b ht

/-- The integer part of a number and what follows it, fed in chunks. -/
theorem number_int_sim {env : Env} {cs : List (List Char)} (hs : Sim env cs) (fuel : Nat)
    (b2 : Buf) {s2 : State} (ht : StreamInv cs s2) :
    (if !isdigit (peek s2.js) then some (XJS_NOPE, b2, whole cs s2)
      else
        match (if peek s2.js = '0' then some (i_assign env.noRefill XJS_number b2 (whole cs s2))
               else if !isdigit (peek s2.js) then some (XJS_ERR_EXP_DIGIT, b2, whole cs s2)
               else i_parse_number_digits env.noRefill fuel b2 (whole cs s2)) with
        | none => none
        | some (r3, b3, s3) =>
          if r3 ≠ XJS_OK then some (r3, b3, s3)
          else i_parse_number_frac env.noRefill fuel b3 s3)
      = (if !isdigit (peek s2.js) then some (XJS_NOPE, b2, s2)
          else
            match (if peek s2.js = '0' then some (i_assign env XJS_number b2 s2)
                   else if !isdigit (peek s2.js) then some (XJS_ERR_EXP_DIGIT, b2, s2)
                   else i_parse_number_digits env fuel b2 s2) with
            | none => none
            | some (r3, b3, s3) =>
              if r3 ≠ XJS_OK then some (r3, b3, s3)
              else i_parse_number_frac env fuel b3 s3).map
            (fun x : Int × Buf × State => (x.1, x.2.1, whole cs x.2.2)) ∧
      ∀ x, (if !isdigit (peek s2.js) then some (XJS_NOPE, b2, s2)
          else
            match (if peek s2.js = '0' then some (i_assign env XJS_number b2 s2)
                   else if !isdigit (peek s2.js) then some (XJS_ERR_EXP_DIGIT, b2, s2)
                   else i_parse_number_digits env fuel b2 s2) with
            | none => none
            | some (r3, b3, s3) =>
              if r3 ≠ XJS_OK then some (r3, b3, s3)
              else i_parse_number_frac env fuel b3 s3) = some x → StreamInv cs x.2.2 := by
  split
  · exact ⟨rfl, fun x hx => by cases hx; exact ht⟩
  · rename_i hd
    by_cases h0 : peek s2.js = '0'
    · have h1 := i_assign_sim hs XJS_number b2 ht
      simp only [h0, if_true, h1.1]
      split
      · exact ⟨rfl, fun x hx => by cases hx; exact h1.2⟩
      · exact i_parse_number_frac_sim hs fuel _ h1.2
    · have h3 := i_parse_number_digits_sim hs fuel b2 ht
      simp only [h0, if_false, hd, Bool.false_eq_true, h3.1]
      cases he3 : i_parse_number_digits env fuel b2 s2 with
      | none => exact ⟨rfl, fun x hx => by cases hx⟩
      | some x3 =>
        obtain ⟨r3, b3, t3⟩ := x3
        have ht3 : StreamInv cs t3 := h3.2 _ he3
        simp only [Option.map_some']
        split
        · exact ⟨rfl, fun x hx => by cases hx; exact ht3⟩
        · exact i_parse_number_frac_sim hs fuel b3 ht3

theorem i_parse_number_sim {env : Env} {cs : List (List Char)} (hs : Sim env cs) (fuel : Nat)
    (b : Buf) {t : State} (ht : StreamInv cs t) :
    i_parse_number env.noRefill fuel b (whole cs t)
        = (i_parse_number env fuel b t).map (fun x => (x.1, x.2.1, whole cs x.2.2)) ∧
      ∀ x, i_parse_number env fuel b t = some x → StreamInv cs x.2.2 := by
  have h1 := i_eatwhite_sim hs fuel ht
  unfold i_parse_number
  rw [h1.1]
  cases he : i_eatwhite env fuel t with
  | none => exact ⟨rfl, fun x hx => by cases hx⟩
  | some x =>
    obtain ⟨r1, t1⟩ := x
    have ht1 : StreamInv cs t1 := h1.2 _ he
    have h2 := i_assign_sim hs XJS_number b ht1
    simp only [Option.map_some', peek_whole ht1]
    split
    · exact ⟨rfl, fun x hx => by cases hx; exact ht1⟩
    · by_cases hm : peek t1.js = '-'
      · simp only [hm, if_true, h2.1]
        split
        · exact ⟨rfl, fun x hx => by cases hx; exact h2.2⟩
        · simp only [peek_whole h2.2]
          exact number_int_sim hs fuel _ h2.2
      · simp only [hm, if_false, peek_whole ht1, ne_eq, not_true_eq_false]
        exact number_int_sim hs fuel b ht1

theorem i_parse_value_sim {env : Env} {cs : List (List Char)} (hs : Sim env cs) (fuel : Nat)
    (b : Buf) {t : State} (ht : StreamInv cs t) :
    i_parse_value env.noRefill fuel b (whole cs t)
        = (i_parse_value env fuel b t).map (fun x => (x.1, x.2.1, x.2.2.1, whole cs x.2.2.2)) ∧
      ∀ x, i_parse_value env fuel b t = some x → StreamInv cs x.2.2.2 := by
  have h0 := i_eatwhite_sim hs fuel ht
  unfold i_parse_value
  rw [h0.1]
  cases he : i_eatwhite env fuel t with
  | none => exact ⟨rfl, fun x hx => by cases hx⟩
  | some x =>
  obtain ⟨r0, t0⟩ := x
  have ht0 : StreamInv cs t0 := h0.2 _ he
  dsimp only [Option.map_some']
  by_cases hc0 : r0 ≠ XJS_OK
  · rw [if_pos hc0, if_pos hc0]
    exact ⟨rfl, fun x hx => by cases hx; exact ht0⟩
  rw [if_neg hc0, if_neg hc0]
  have h1 := i_parse_literal_sim hs fuel "true".toList ht0
  rw [h1.1]
  cases he1 : i_parse_literal env fuel "true".toList t0 with
  | none => exact ⟨rfl, fun x hx => by cases hx⟩
  | some x =>
  obtain ⟨r1, t1⟩ := x
  have ht1 : StreamInv cs t1 := h1.2 _ he1
  dsimp only [Option.map_some']
  by_cases hok1 : r1 = XJS_OK
  · rw [if_pos hok1, if_pos hok1]
    exact ⟨rfl, fun x hx => by cases hx; exact ht1⟩
  rw [if_neg hok1, if_neg hok1]
  by_cases hn1 : r1 ≠ XJS_NOPE
  · rw [if_pos hn1, if_pos hn1]
    exact ⟨rfl, fun x hx => by cases hx; exact ht1⟩
  rw [if_neg hn1, if_neg hn1]
  have h2 := i_parse_literal_sim hs fuel "false".toList ht1
  rw [h2.1]
  cases he2 : i_parse_literal env fuel "false".toList t1 with
  | none => exact ⟨rfl, fun x hx => by cases hx⟩
  | some x =>
  obtain ⟨r2, t2⟩ := x
  have ht2 : StreamInv cs t2 := h2.2 _ he2
  dsimp only [Option.map_some']
  by_cases hok2 : r2 = XJS_OK
  · rw [if_pos hok2, if_pos hok2]
    exact ⟨rfl, fun x hx => by cases hx; exact ht2⟩
  rw [if_neg hok2, if_neg hok2]
  by_cases hn2 : r2 ≠ XJS_NOPE
  · rw [if_pos hn2, if_pos hn2]
    exact ⟨rfl, fun x hx => by cases hx; exact ht2⟩
  rw [if_neg hn2, if_neg hn2]
  have h3 := i_parse_literal_sim hs fuel "null".toList ht2
  rw [h3.1]
  cases he3 : i_parse_literal env fuel "null".toList t2 with
  | none => exact ⟨rfl, fun x hx => by cases hx⟩
  | some x =>
  obtain ⟨r3, t3⟩ := x
  have ht3 : StreamInv cs t3 := h3.2 _ he3
  dsimp only [Option.map_some']
  by_cases hok3 : r3 = XJS_OK
  · rw [if_pos hok3, if_pos hok3]
    exact ⟨rfl, fun x hx => by cases hx; exact ht3⟩
  rw [if_neg hok3, if_neg hok3]
  by_cases hn3 : r3 ≠ XJS_NOPE
  · rw [if_pos hn3, if_pos hn3]
    exact ⟨rfl, fun x hx => by cases hx; exact ht3⟩
  rw [if_neg hn3, if_neg hn3]
  have h4 := i_parse_number_sim hs fuel b ht3
  rw [h4.1]
  cases he4 : i_parse_number env fuel b t3 with
  | none => exact ⟨rfl, fun x hx => by cases hx⟩
  | some x =>
  obtain ⟨r4, b4, t4⟩ := x
  have ht4 : StreamInv cs t4 := h4.2 _ he4
  dsimp only [Option.map_some']
  by_cases hok4 : r4 = XJS_OK
  · rw [if_pos hok4, if_pos hok4]
    exact ⟨rfl, fun x hx => by cases hx; exact ht4⟩
  rw [if_neg hok4, if_neg hok4]
  by_cases hn4 : r4 ≠ XJS_NOPE
  · rw [if_pos hn4, if_pos hn4]
    exact ⟨rfl, fun x hx => by cases hx; exact ht4⟩
  rw [if_neg hn4, if_neg hn4]
  have h5 := i_parse_string_sim hs fuel XJS_string b4 ht4
  rw [h5.1]
  cases he5 : i_parse_string env fuel XJS_string b4 t4 with
  | none => exact ⟨rfl, fun x hx => by cases hx⟩
  | some x =>
  obtain ⟨r5, b5, t5⟩ := x
  have ht5 : StreamInv cs t5 := h5.2 _ he5
  dsimp only [Option.map_some']
  by_cases hok5 : r5 = XJS_OK
  · rw [if_pos hok5, if_pos hok5]
    exact ⟨rfl, fun x hx => by cases hx; exact ht5⟩
  · rw [if_neg hok5, if_neg hok5]
    exact ⟨rfl, fun x hx => by cases hx; exact ht5⟩


theorem SimRes2.ret2 {cs : List (List Char)} {r : Int} {t : State} (h : StreamInv cs t) :
    SimRes2 cs (some (r, whole cs t)) (some (r, t)) :=
  ⟨rfl, fun v hv => by cases hv; exact h⟩

theorem SimRes2.none2 {cs : List (List Char)} : SimRes2 cs none none :=
  ⟨rfl, fun v hv => by cases hv⟩

theorem SimRes4.ret4 {cs : List (List Char)} {r : Int} {H : Hdr} {c : Nat} {t : State}
    (h : StreamInv cs t) : SimRes4 cs (some (r, H, c, whole cs t)) (some (r, H, c, t)) :=
  ⟨rfl, fun v hv => by cases hv; exact h⟩

theorem SimRes4.none4 {cs : List (List Char)} : SimRes4 cs none none :=
  ⟨rfl, fun v hv => by cases hv⟩

theorem r_parse_any_sim {env : Env} {cs : List (List Char)} (hs : Sim env cs) (fuel : Nat)
    (ih : SimStep env cs fuel) :
    ∀ top p n t, StreamInv cs t →
    SimRes2 cs (r_parse_any env.noRefill (fuel + 1) top p n (whole cs t))
      (r_parse_any env (fuel + 1) top p n t) := by
  intro top p n t ht
  rw [r_parse_any, r_parse_any]
  have h0 := i_eatwhite_sim hs fuel ht
  rw [h0.1]
  cases he : i_eatwhite env fuel t with
  | none => exact SimRes2.none2
  | some x =>
  obtain ⟨r0, t0⟩ := x
  have ht0 : StreamInv cs t0 := h0.2 _ he
  dsimp only [Option.map_some']
  by_cases hc0 : r0 ≠ XJS_OK
  · rw [if_pos hc0, if_pos hc0]
    exact SimRes2.ret2 ht0
  rw [if_neg hc0, if_neg hc0, peek_whole ht0, noRefill_blocks]
  by_cases hb : peek t0.js = '{'
  · rw [if_pos hb, if_pos hb]
    exact ih.obj _ _ _ ht0
  rw [if_neg hb, if_neg hb]
  by_cases ha : peek t0.js = '['
  · rw [if_pos ha, if_pos ha]
    have h1 := ih.arr none XJS_array none p n t0 ht0
    rw [h1.1]
    cases he1 : i_parse_array env fuel none XJS_array none p n t0 with
    | none => exact SimRes2.none2
    | some x =>
      obtain ⟨r1, H1, c1, t1⟩ := x
      exact SimRes2.ret2 (h1.2 _ he1)
  rw [if_neg ha, if_neg ha]
  by_cases hbl : env.blocks = true ∧ peek t0.js = '('
  · rw [if_pos hbl, if_pos hbl]
    exact ih.blk _ _ _ ht0
  rw [if_neg hbl, if_neg hbl]
  by_cases htop : top = true
  · rw [if_pos htop, if_pos htop]
    exact SimRes2.ret2 ht0
  rw [if_neg htop, if_neg htop]
  have h2 := i_parse_value_sim hs fuel Buf.empty ht0
  rw [h2.1]
  cases he2 : i_parse_value env fuel Buf.empty t0 with
  | none => exact SimRes2.none2
  | some x =>
  obtain ⟨r1, kind, b, t1⟩ := x
  have ht1 : StreamInv cs t1 := h2.2 _ he2
  dsimp only [Option.map_some']
  by_cases hok : r1 = XJS_OK
  · rw [if_pos hok, if_pos hok]
    exact SimRes2.ret2 (r := (call_node env p kind n b.cstr t1).1)
      (t := mem_free env kind b.ptr (call_node env p kind n b.cstr t1).2.2) ht1
  · rw [if_neg hok, if_neg hok]
    exact SimRes2.ret2 (t := mem_free env kind b.ptr t1) ht1

theorem i_parse_array_sim {env : Env} {cs : List (List Char)} (hs : Sim env cs) (fuel : Nat)
    (ih : SimStep env cs fuel) :
    ∀ hdr k cnt p n t, StreamInv cs t →
    SimRes4 cs (i_parse_array env.noRefill (fuel + 1) hdr k cnt p n (whole cs t))
      (i_parse_array env (fuel + 1) hdr k cnt p n t) := by
  intro hdr k cnt p n t ht
  rw [i_parse_array, i_parse_array]
  have h0 := i_eatwhite_sim hs fuel ht
  rw [h0.1]
  cases he : i_eatwhite env fuel t with
  | none => exact SimRes4.none4
  | some x =>
  obtain ⟨r0, t0⟩ := x
  have ht0 : StreamInv cs t0 := h0.2 _ he
  dsimp only [Option.map_some']
  by_cases hc0 : r0 ≠ XJS_OK
  · rw [if_pos hc0, if_pos hc0]
    exact SimRes4.ret4 ht0
  rw [if_neg hc0, if_neg hc0, peek_whole ht0]
  by_cases hb : peek t0.js ≠ '['
  · rw [if_pos hb, if_pos hb]
    exact SimRes4.ret4 ht0
  rw [if_neg hb, if_neg hb, call_node_sim]
  have ht2 : StreamInv cs (call_node env p k n none t0).2.2 := ht0
  generalize call_node env p k n none t0 = cn at ht2 ⊢
  obtain ⟨r2, np, t2⟩ := cn
  dsimp only at ht2 ⊢
  by_cases hr2 : r2 ≠ XJS_OK
  · rw [if_pos hr2, if_pos hr2]
    exact SimRes4.ret4 ht2
  rw [if_neg hr2, if_neg hr2]
  have h3 := i_advance_sim hs fuel true ht2
  rw [h3.1]
  cases he3 : i_advance env fuel true t2 with
  | none => exact SimRes4.none4
  | some x =>
  obtain ⟨r3, t3⟩ := x
  have ht3 : StreamInv cs t3 := h3.2 _ he3
  dsimp only [Option.map_some']
  by_cases hr3 : r3 ≠ XJS_OK
  · rw [if_pos hr3, if_pos hr3]
    exact SimRes4.ret4 ht3
  rw [if_neg hr3, if_neg hr3]
  exact ih.arrl _ _ _ _ _ _ _ _ _ _ ht3

theorem i_parse_object_sim {env : Env} {cs : List (List Char)} (hs : Sim env cs) (fuel : Nat)
    (ih : SimStep env cs fuel) :
    ∀ p n t, StreamInv cs t →
    SimRes2 cs (i_parse_object env.noRefill (fuel + 1) p n (whole cs t))
      (i_parse_object env (fuel + 1) p n t) := by
  intro p n t ht
  rw [i_parse_object, i_parse_object, peek_whole ht]
  by_cases hb : peek t.js ≠ '{'
  · rw [if_pos hb, if_pos hb]
    exact SimRes2.ret2 ht
  rw [if_neg hb, if_neg hb, call_node_sim]
  have ht1 : StreamInv cs (call_node env p XJS_object n none t).2.2 := ht
  generalize call_node env p XJS_object n none t = cn at ht1 ⊢
  obtain ⟨r1, np, t1⟩ := cn
  dsimp only at ht1 ⊢
  by_cases hr1 : r1 ≠ XJS_OK
  · rw [if_pos hr1, if_pos hr1]
    exact SimRes2.ret2 ht1
  rw [if_neg hr1, if_neg hr1]
  have h2 := i_advance_sim hs fuel true ht1
  rw [h2.1]
  cases he2 : i_advance env fuel true t1 with
  | none => exact SimRes2.none2
  | some x =>
  obtain ⟨r2, t2⟩ := x
  have ht2 : StreamInv cs t2 := h2.2 _ he2
  dsimp only [Option.map_some']
  by_cases hr2 : r2 ≠ XJS_OK
  · rw [if_pos hr2, if_pos hr2]
    exact SimRes2.ret2 ht2
  rw [if_neg hr2, if_neg hr2]
  exact ih.objl _ _ _ _ ht2

theorem i_parse_block_sim {env : Env} {cs : List (List Char)} (hs : Sim env cs) (fuel : Nat)
    (ih : SimStep env cs fuel) :
    ∀ p n t, StreamInv cs t →
    SimRes2 cs (i_parse_block env.noRefill (fuel + 1) p n (whole cs t))
      (i_parse_block env (fuel + 1) p n t) := by
  intro p n t ht
  rw [i_parse_block, i_parse_block, peek_whole ht]
  by_cases hb : peek t.js ≠ '('
  · rw [if_pos hb, if_pos hb]
    exact SimRes2.ret2 ht
  rw [if_neg hb, if_neg hb, call_node_sim]
  have ht1 : StreamInv cs (call_node env p XJS_block n none t).2.2 := ht
  generalize call_node env p XJS_block n none t = cn at ht1 ⊢
  obtain ⟨r1, np, t1⟩ := cn
  dsimp only at ht1 ⊢
  by_cases hr1 : r1 ≠ XJS_OK
  · rw [if_pos hr1, if_pos hr1]
    exact SimRes2.ret2 ht1
  rw [if_neg hr1, if_neg hr1]
  have h2 := i_advance_sim hs fuel true ht1
  rw [h2.1]
  cases he2 : i_advance env fuel true t1 with
  | none => exact SimRes2.none2
  | some x =>
  obtain ⟨r2, t2⟩ := x
  have ht2 : StreamInv cs t2 := h2.2 _ he2
  dsimp only [Option.map_some']
  by_cases hr2 : r2 ≠ XJS_OK
  · rw [if_pos hr2, if_pos hr2]
    exact SimRes2.ret2 ht2
  rw [if_neg hr2, if_neg hr2, peek_whole ht2]
  have h3 : SimRes4 cs
      (if peek t2.js ≠ ')' then
        i_parse_array env.noRefill fuel (some ⟨0, []⟩) XJS_block_header (some 0) np none
          (whole cs t2)
       else some (XJS_OK, ⟨0, []⟩, 0, whole cs t2))
      (if peek t2.js ≠ ')' then
        i_parse_array env fuel (some ⟨0, []⟩) XJS_block_header (some 0) np none t2
       else some (XJS_OK, ⟨0, []⟩, 0, t2)) := by
    by_cases hp : peek t2.js ≠ ')'
    · rw [if_pos hp, if_pos hp]
      exact ih.arr _ _ _ _ _ _ ht2
    · rw [if_neg hp, if_neg hp]
      exact SimRes4.ret4 ht2
  rw [h3.1]
  generalize hq : (if peek t2.js ≠ ')' then
        i_parse_array env fuel (some ⟨0, []⟩) XJS_block_header (some 0) np none t2
       else some (XJS_OK, ⟨0, []⟩, 0, t2)) = q at h3 ⊢
  cases q with
  | none => exact SimRes2.none2
  | some x =>
  obtain ⟨r3, H, cnt, t3⟩ := x
  have ht3 : StreamInv cs t3 := h3.2 _ rfl
  dsimp only [Option.map_some']
  exact ih.blkl _ _ _ _ _ _ _ ht3

/-- The advance over the comma that separates two elements. -/
theorem comma_advance_sim {env : Env} {cs : List (List Char)} (hs : Sim env cs) (i : Nat)
    (r : Int) {t : State} (ht : StreamInv cs t) :
    (if i ≠ 0 then i_advance0 env.noRefill (whole cs t) else (r, whole cs t))
        = ((if i ≠ 0 then i_advance0 env t else (r, t)).1,
            whole cs (if i ≠ 0 then i_advance0 env t else (r, t)).2) ∧
      StreamInv cs (if i ≠ 0 then i_advance0 env t else (r, t)).2 := by
  by_cases hi : i ≠ 0
  · rw [if_pos hi, if_pos hi]
    exact i_advance0_sim hs ht
  · rw [if_neg hi, if_neg hi]
    exact ⟨rfl, ht⟩

theorem i_parse_array_loop_sim {env : Env} {cs : List (List Char)} (hs : Sim env cs) (fuel : Nat)
    (ih : SimStep env cs fuel) :
    ∀ hl H k hc cnt i tcnt np n t, StreamInv cs t →
    SimRes4 cs (i_parse_array_loop env.noRefill (fuel + 1) hl H k hc cnt i tcnt np n (whole cs t))
      (i_parse_array_loop env (fuel + 1) hl H k hc cnt i tcnt np n t) := by
  intro hl H k hc cnt i tcnt np n t ht
  rw [i_parse_array_loop, i_parse_array_loop, peek_whole ht]
  by_cases hb : peek t.js ≠ ']'
  · rw [if_pos hb, if_pos hb]
    by_cases hcm : i ≠ 0 ∧ peek t.js ≠ ','
    · rw [if_pos hcm, if_pos hcm]
      exact SimRes4.ret4 ht
    rw [if_neg hcm, if_neg hcm]
    have h1 := comma_advance_sim hs i XJS_OK ht
    rw [h1.1]
    have ht1 := h1.2
    generalize (if i ≠ 0 then i_advance0 env t else (XJS_OK, t)) = p at ht1 ⊢
    obtain ⟨r1, t1⟩ := p
    dsimp only at ht1 ⊢
    by_cases hr1 : r1 ≠ XJS_OK
    · rw [if_pos hr1, if_pos hr1]
      exact SimRes4.ret4 ht1
    rw [if_neg hr1, if_neg hr1]
    by_cases hk : k = XJS_block_header
    · rw [if_pos hk, if_pos hk, hdr_grow_sim]
      have ht2 : StreamInv cs (hdr_grow env hl H cnt tcnt t1).2.2.2 :=
        (hdr_grow_streamInv env cs hl H cnt tcnt t1).mpr ht1
      generalize hdr_grow env hl H cnt tcnt t1 = g at ht2 ⊢
      obtain ⟨hl1, H1, tcnt1, t2⟩ := g
      dsimp only at ht2 ⊢
      have h3 := i_parse_string_sim hs fuel XJS_name Buf.empty ht2
      rw [h3.1]
      cases he3 : i_parse_string env fuel XJS_name Buf.empty t2 with
      | none => exact SimRes4.none4
      | some x =>
      obtain ⟨r2, v, t3⟩ := x
      have ht3 : StreamInv cs t3 := h3.2 _ he3
      dsimp only [Option.map_some']
      by_cases hr2 : r2 ≠ XJS_OK
      · rw [if_pos hr2, if_pos hr2]
        exact SimRes4.ret4 ht3
      rw [if_neg hr2, if_neg hr2, call_node_sim]
      have ht4 : StreamInv cs
          (call_node env np XJS_name (some (Nat.toDigits 10 (i + 1))) v.cstr t3).2.2 := ht3
      generalize call_node env np XJS_name (some (Nat.toDigits 10 (i + 1))) v.cstr t3 = cn
        at ht4 ⊢
      obtain ⟨r3, np1, t4⟩ := cn
      dsimp only at ht4 ⊢
      have h5 : (if hl1 = true ∧ tcnt1 > cnt then (H1.store cnt (v.ptr, v.cstr), whole cs t4)
            else (H1, mem_free env.noRefill XJS_name v.ptr (whole cs t4)))
          = ((if hl1 = true ∧ tcnt1 > cnt then (H1.store cnt (v.ptr, v.cstr), t4)
              else (H1, mem_free env XJS_name v.ptr t4)).1,
             whole cs (if hl1 = true ∧ tcnt1 > cnt then (H1.store cnt (v.ptr, v.cstr), t4)
              else (H1, mem_free env XJS_name v.ptr t4)).2) ∧
          StreamInv cs (if hl1 = true ∧ tcnt1 > cnt then (H1.store cnt (v.ptr, v.cstr), t4)
              else (H1, mem_free env XJS_name v.ptr t4)).2 := by
        by_cases hst : hl1 = true ∧ tcnt1 > cnt
        · rw [if_pos hst, if_pos hst]
          exact ⟨rfl, ht4⟩
        · rw [if_neg hst, if_neg hst]
          exact ⟨rfl, ht4⟩
      rw [h5.1]
      have ht5 := h5.2
      generalize (if hl1 = true ∧ tcnt1 > cnt then (H1.store cnt (v.ptr, v.cstr), t4)
              else (H1, mem_free env XJS_name v.ptr t4)) = p5 at ht5 ⊢
      obtain ⟨H2, t5⟩ := p5
      dsimp only at ht5 ⊢
      by_cases hr3 : r3 ≠ XJS_OK
      · rw [if_pos hr3, if_pos hr3]
        exact SimRes4.ret4 ht5
      rw [if_neg hr3, if_neg hr3]
      have h6 := i_eatwhite_sim hs fuel ht5
      rw [h6.1]
      cases he6 : i_eatwhite env fuel t5 with
      | none => exact SimRes4.none4
      | some x =>
      obtain ⟨r6, t6⟩ := x
      have ht6 : StreamInv cs t6 := h6.2 _ he6
      dsimp only [Option.map_some']
      by_cases hr6 : r6 ≠ XJS_OK
      · rw [if_pos hr6, if_pos hr6]
        exact SimRes4.ret4 ht6
      rw [if_neg hr6, if_neg hr6]
      exact ih.arrl _ _ _ _ _ _ _ _ _ _ ht6
    rw [if_neg hk, if_neg hk]
    have h2 : (if hl = false ∨ k = XJS_array then
            ((0, some (Nat.toDigits 10 (i + 1))), whole cs t1)
          else hdr_read env.noRefill H cnt (whole cs t1))
        = ((if hl = false ∨ k = XJS_array then
              (((0 : Nat), some (Nat.toDigits 10 (i + 1))), t1)
            else hdr_read env H cnt t1).1,
           whole cs (if hl = false ∨ k = XJS_array then
              (((0 : Nat), some (Nat.toDigits 10 (i + 1))), t1)
            else hdr_read env H cnt t1).2) ∧
        StreamInv cs (if hl = false ∨ k = XJS_array then
              (((0 : Nat), some (Nat.toDigits 10 (i + 1))), t1)
            else hdr_read env H cnt t1).2 := by
      by_cases hpl : hl = false ∨ k = XJS_array
      · rw [if_pos hpl, if_pos hpl]
        exact ⟨rfl, ht1⟩
      · rw [if_neg hpl, if_neg hpl]
        exact ⟨rfl, ht1⟩
    rw [h2.1]
    have ht2 := h2.2
    generalize (if hl = false ∨ k = XJS_array then
              (((0 : Nat), some (Nat.toDigits 10 (i + 1))), t1)
            else hdr_read env H cnt t1) = p2 at ht2 ⊢
    obtain ⟨nm, t2⟩ := p2
    dsimp only at ht2 ⊢
    have h3 := ih.any false np nm.2 t2 ht2
    rw [h3.1]
    cases he3 : r_parse_any env fuel false np nm.2 t2 with
    | none => exact SimRes4.none4
    | some x =>
    obtain ⟨r3, t3⟩ := x
    have ht3 : StreamInv cs t3 := h3.2 _ he3
    dsimp only [Option.map_some']
    by_cases hr3 : r3 ≠ XJS_OK
    · rw [if_pos hr3, if_pos hr3]
      exact SimRes4.ret4 ht3
    rw [if_neg hr3, if_neg hr3]
    have h4 := i_eatwhite_sim hs fuel ht3
    rw [h4.1]
    cases he4 : i_eatwhite env fuel t3 with
    | none => exact SimRes4.none4
    | some x =>
    obtain ⟨r4, t4⟩ := x
    have ht4 : StreamInv cs t4 := h4.2 _ he4
    dsimp only [Option.map_some']
    by_cases hr4 : r4 ≠ XJS_OK
    · rw [if_pos hr4, if_pos hr4]
      exact SimRes4.ret4 ht4
    rw [if_neg hr4, if_neg hr4]
    exact ih.arrl _ _ _ _ _ _ _ _ _ _ ht4
  · rw [if_neg hb, if_neg hb]
    have h1 := i_advance0_sim hs ht
    rw [h1.1]
    have ht1 := h1.2
    generalize i_advance0 env t = p at ht1 ⊢
    obtain ⟨r1, t1⟩ := p
    dsimp only at ht1 ⊢
    by_cases hc : r1 ≠ XJS_OK ∧ r1 ≠ XJS_END
    · rw [if_pos hc, if_pos hc]
      exact SimRes4.ret4 ht1
    · rw [if_neg hc, if_neg hc]
      exact SimRes4.ret4 (r := (call_node env np (array_end_kind k) n none t1).1)
        (t := (call_node env np (array_end_kind k) n none t1).2.2) ht1

theorem i_parse_object_loop_sim {env : Env} {cs : List (List Char)} (hs : Sim env cs) (fuel : Nat)
    (ih : SimStep env cs fuel) :
    ∀ i np n t, StreamInv cs t →
    SimRes2 cs (i_parse_object_loop env.noRefill (fuel + 1) i np n (whole cs t))
      (i_parse_object_loop env (fuel + 1) i np n t) := by
  intro i np n t ht
  rw [i_parse_object_loop, i_parse_object_loop, peek_whole ht]
  by_cases hb : peek t.js ≠ '}'
  · rw [if_pos hb, if_pos hb]
    by_cases hcm : i ≠ 0 ∧ peek t.js ≠ ','
    · rw [if_pos hcm, if_pos hcm]
      exact SimRes2.ret2 ht
    rw [if_neg hcm, if_neg hcm]
    have h1 := comma_advance_sim hs i XJS_OK ht
    rw [h1.1]
    have ht1 := h1.2
    generalize (if i ≠ 0 then i_advance0 env t else (XJS_OK, t)) = p at ht1 ⊢
    obtain ⟨r1, t1⟩ := p
    dsimp only at ht1 ⊢
    by_cases hr1 : r1 ≠ XJS_OK
    · rw [if_pos hr1, if_pos hr1]
      exact SimRes2.ret2 ht1
    rw [if_neg hr1, if_neg hr1]
    have h2 := i_parse_string_sim hs fuel XJS_name Buf.empty ht1
    rw [h2.1]
    cases he2 : i_parse_string env fuel XJS_name Buf.empty t1 with
    | none => exact SimRes2.none2
    | some x =>
    obtain ⟨r2, nb, t2⟩ := x
    have ht2 : StreamInv cs t2 := h2.2 _ he2
    dsimp only [Option.map_some']
    -- the white space after the name
    have h3 : SimRes2 cs
        (if r2 = XJS_OK then i_eatwhite env.noRefill fuel (whole cs t2)
          else some (r2, whole cs t2))
        (if r2 = XJS_OK then i_eatwhite env fuel t2 else some (r2, t2)) := by
      by_cases hok : r2 = XJS_OK
      · rw [if_pos hok, if_pos hok]
        exact i_eatwhite_sim hs fuel ht2
      · rw [if_neg hok, if_neg hok]
        exact SimRes2.ret2 ht2
    rw [h3.1]
    generalize (if r2 = XJS_OK then i_eatwhite env fuel t2 else some (r2, t2)) = q3 at h3 ⊢
    cases q3 with
    | none => exact SimRes2.none2
    | some x =>
    obtain ⟨r3, t3⟩ := x
    have ht3 : StreamInv cs t3 := h3.2 _ rfl
    dsimp only [Option.map_some']
    rw [peek_whole ht3]
    -- the colon
    have h4 : (if r3 = XJS_OK then
          (if peek t3.js ≠ ':' then (XJS_ERR_EXP_COLON, whole cs t3)
            else i_advance0 env.noRefill (whole cs t3))
          else (r3, whole cs t3))
        = ((if r3 = XJS_OK then
              (if peek t3.js ≠ ':' then (XJS_ERR_EXP_COLON, t3) else i_advance0 env t3)
            else (r3, t3)).1,
           whole cs (if r3 = XJS_OK then
              (if peek t3.js ≠ ':' then (XJS_ERR_EXP_COLON, t3) else i_advance0 env t3)
            else (r3, t3)).2) ∧
        StreamInv cs (if r3 = XJS_OK then
              (if peek t3.js ≠ ':' then (XJS_ERR_EXP_COLON, t3) else i_advance0 env t3)
            else (r3, t3)).2 := by
      by_cases hok : r3 = XJS_OK
      · rw [if_pos hok, if_pos hok]
        by_cases hcl : peek t3.js ≠ ':'
        · rw [if_pos hcl, if_pos hcl]
          exact ⟨rfl, ht3⟩
        · rw [if_neg hcl, if_neg hcl]
          exact i_advance0_sim hs ht3
      · rw [if_neg hok, if_neg hok]
        exact ⟨rfl, ht3⟩
    rw [h4.1]
    have ht4 := h4.2
    generalize (if r3 = XJS_OK then
              (if peek t3.js ≠ ':' then (XJS_ERR_EXP_COLON, t3) else i_advance0 env t3)
            else (r3, t3)) = p4 at ht4 ⊢
    obtain ⟨r4, t4⟩ := p4
    dsimp only at ht4 ⊢
    -- the value
    have h5 : SimRes2 cs
        (if r4 = XJS_OK then r_parse_any env.noRefill fuel false np nb.cstr (whole cs t4)
          else some (r4, whole cs t4))
        (if r4 = XJS_OK then r_parse_any env fuel false np nb.cstr t4 else some (r4, t4)) := by
      by_cases hok : r4 = XJS_OK
      · rw [if_pos hok, if_pos hok]
        exact ih.any _ _ _ _ ht4
      · rw [if_neg hok, if_neg hok]
        exact SimRes2.ret2 ht4
    rw [h5.1]
    generalize (if r4 = XJS_OK then r_parse_any env fuel false np nb.cstr t4 else some (r4, t4))
      = q5 at h5 ⊢
    cases q5 with
    | none => exact SimRes2.none2
    | some x =>
    obtain ⟨r5, t5⟩ := x
    have ht5 : StreamInv cs t5 := h5.2 _ rfl
    dsimp only [Option.map_some']
    -- the name is released
    have h6 : (if nb.ptr ≠ 0 then mem_free env.noRefill XJS_name nb.ptr (whole cs t5)
          else whole cs t5)
        = whole cs (if nb.ptr ≠ 0 then mem_free env XJS_name nb.ptr t5 else t5) ∧
        StreamInv cs (if nb.ptr ≠ 0 then mem_free env XJS_name nb.ptr t5 else t5) := by
      by_cases hp : nb.ptr ≠ 0
      · rw [if_pos hp, if_pos hp]
        exact ⟨rfl, ht5⟩
      · rw [if_neg hp, if_neg hp]
        exact ⟨rfl, ht5⟩
    rw [h6.1]
    have ht6 := h6.2
    generalize (if nb.ptr ≠ 0 then mem_free env XJS_name nb.ptr t5 else t5) = t6 at ht6 ⊢
    by_cases hr5 : r5 ≠ XJS_OK
    · rw [if_pos hr5, if_pos hr5]
      exact SimRes2.ret2 ht6
    rw [if_neg hr5, if_neg hr5]
    have h7 := i_eatwhite_sim hs fuel ht6
    rw [h7.1]
    cases he7 : i_eatwhite env fuel t6 with
    | none => exact SimRes2.none2
    | some x =>
    obtain ⟨r7, t7⟩ := x
    have ht7 : StreamInv cs t7 := h7.2 _ he7
    dsimp only [Option.map_some']
    by_cases hr7 : r7 ≠ XJS_OK
    · rw [if_pos hr7, if_pos hr7]
      exact SimRes2.ret2 ht7
    rw [if_neg hr7, if_neg hr7]
    exact ih.objl _ _ _ _ ht7
  · rw [if_neg hb, if_neg hb]
    have h1 := i_advance0_sim hs ht
    rw [h1.1]
    have ht1 := h1.2
    generalize i_advance0 env t = p at ht1 ⊢
    obtain ⟨r1, t1⟩ := p
    dsimp only at ht1 ⊢
    by_cases hc : r1 ≠ XJS_OK ∧ r1 ≠ XJS_END
    · rw [if_pos hc, if_pos hc]
      exact SimRes2.ret2 ht1
    · rw [if_neg hc, if_neg hc]
      exact SimRes2.ret2 (r := (call_node env np XJS_object_end n none t1).1)
        (t := (call_node env np XJS_object_end n none t1).2.2) ht1

theorem i_parse_block_loop_sim {env : Env} {cs : List (List Char)} (hs : Sim env cs) (fuel : Nat)
    (ih : SimStep env cs fuel) :
    ∀ r0 H cnt i np n t, StreamInv cs t →
    SimRes2 cs (i_parse_block_loop env.noRefill (fuel + 1) r0 H cnt i np n (whole cs t))
      (i_parse_block_loop env (fuel + 1) r0 H cnt i np n t) := by
  intro r0 H cnt i np n t ht
  rw [i_parse_block_loop, i_parse_block_loop, peek_whole ht]
  by_cases hb : r0 = XJS_OK ∧ peek t.js ≠ ')'
  · rw [if_pos hb, if_pos hb]
    by_cases hcm : i ≠ 0 ∧ peek t.js ≠ ','
    · rw [if_pos hcm, if_pos hcm]
      exact SimRes2.ret2 ht
    rw [if_neg hcm, if_neg hcm]
    have h1 := comma_advance_sim hs i r0 ht
    rw [h1.1]
    have ht1 := h1.2
    generalize (if i ≠ 0 then i_advance0 env t else (r0, t)) = p at ht1 ⊢
    obtain ⟨r1, t1⟩ := p
    dsimp only at ht1 ⊢
    have h2 : SimRes4 cs
        (if r1 = XJS_OK then
            i_parse_array env.noRefill fuel (some H) XJS_block_array (some 0) np none (whole cs t1)
          else some (r1, H, cnt, whole cs t1))
        (if r1 = XJS_OK then i_parse_array env fuel (some H) XJS_block_array (some 0) np none t1
          else some (r1, H, cnt, t1)) := by
      by_cases hok : r1 = XJS_OK
      · rw [if_pos hok, if_pos hok]
        exact ih.arr _ _ _ _ _ _ ht1
      · rw [if_neg hok, if_neg hok]
        exact SimRes4.ret4 ht1
    rw [h2.1]
    generalize (if r1 = XJS_OK then
        i_parse_array env fuel (some H) XJS_block_array (some 0) np none t1
          else some (r1, H, cnt, t1)) = q2 at h2 ⊢
    cases q2 with
    | none => exact SimRes2.none2
    | some x =>
    obtain ⟨r2, H2, tmpcnt, t2⟩ := x
    have ht2 : StreamInv cs t2 := h2.2 _ rfl
    dsimp only [Option.map_some']
    exact ih.blkl _ _ _ _ _ _ _ ht2
  · rw [if_neg hb, if_neg hb, hdr_cleanup_sim]
    have ht1 : StreamInv cs (hdr_cleanup env H cnt t) :=
      (hdr_cleanup_streamInv env cs H cnt t).mpr ht
    generalize hdr_cleanup env H cnt t = t1 at ht1 ⊢
    dsimp only
    by_cases hr0 : r0 ≠ XJS_OK
    · rw [if_pos hr0, if_pos hr0]
      exact SimRes2.ret2 ht1
    rw [if_neg hr0, if_neg hr0]
    have h2 := i_advance0_sim hs ht1
    rw [h2.1]
    have ht2 := h2.2
    generalize i_advance0 env t1 = p at ht2 ⊢
    obtain ⟨r1, t2⟩ := p
    dsimp only at ht2 ⊢
    by_cases hc : r1 ≠ XJS_OK ∧ r1 ≠ XJS_END
    · rw [if_pos hc, if_pos hc]
      exact SimRes2.ret2 ht2
    · rw [if_neg hc, if_neg hc]
      exact SimRes2.ret2 (r := (call_node env np XJS_block_end n none t2).1)
        (t := (call_node env np XJS_block_end n none t2).2.2) ht2

/-- The container parsers do the same on one buffer as fed in chunks,
whatever the fuel. -/
theorem simStep_all {env : Env} {cs : List (List Char)} (hs : Sim env cs) :
    ∀ fuel, SimStep env cs fuel := by
  intro fuel
  induction fuel with
  | zero =>
    refine ⟨?_, ?_, ?_, ?_, ?_, ?_, ?_⟩
    · intro top p n t _; rw [r_parse_any, r_parse_any]; exact SimRes2.none2
    · intro hdr k cnt p n t _; rw [i_parse_array, i_parse_array]; exact SimRes4.none4
    · intro hl H k hc cnt i tcnt np n t _
      rw [i_parse_array_loop, i_parse_array_loop]; exact SimRes4.none4
    · intro p n t _; rw [i_parse_object, i_parse_object]; exact SimRes2.none2
    · intro i np n t _; rw [i_parse_object_loop, i_parse_object_loop]; exact SimRes2.none2
    · intro p n t _; rw [i_parse_block, i_parse_block]; exact SimRes2.none2
    · intro r0 H cnt i np n t _
      rw [i_parse_block_loop, i_parse_block_loop]; exact SimRes2.none2
  | succ n ih =>
    exact ⟨r_parse_any_sim hs n ih, i_parse_array_sim hs n ih, i_parse_array_loop_sim hs n ih,
      i_parse_object_sim hs n ih, i_parse_object_loop_sim hs n ih, i_parse_block_sim hs n ih,
      i_parse_block_loop_sim hs n ih⟩

/-- The entry point from the call of r_parse_any on does the same on one
buffer as fed in chunks; `*errpos` is the cursor of each run. -/
theorem xjs_parse_from_sim {env : Env} {cs : List (List Char)} (hs : Sim env cs) (fuel : Nat)
    {t : State} (ht : StreamInv cs t) :
    xjs_parse_from env.noRefill fuel (whole cs t)
      = (xjs_parse_from env fuel t).map
          (fun x => (x.1, some (whole cs x.2.2).js, whole cs x.2.2)) := by
  unfold xjs_parse_from
  have h1 := (simStep_all hs fuel).any true 0 none t ht
  rw [h1.1]
  cases he : r_parse_any env fuel true 0 none t with
  | none => rfl
  | some x =>
  obtain ⟨r, t1⟩ := x
  have ht1 : StreamInv cs t1 := h1.2 _ he
  dsimp only [Option.map_some']
  rw [peek_whole ht1]
  have h2 : SimRes2 cs
      (if peek t1.js ≠ NUL then i_eatwhite env.noRefill fuel (whole cs t1)
        else some (XJS_OK, whole cs t1))
      (if peek t1.js ≠ NUL then i_eatwhite env fuel t1 else some (XJS_OK, t1)) := by
    by_cases hp : peek t1.js ≠ NUL
    · rw [if_pos hp, if_pos hp]
      exact i_eatwhite_sim hs fuel ht1
    · rw [if_neg hp, if_neg hp]
      exact SimRes2.ret2 ht1
  rw [h2.1]
  generalize (if peek t1.js ≠ NUL then i_eatwhite env fuel t1 else some (XJS_OK, t1)) = q at h2 ⊢
  cases q with
  | none => rfl
  | some x =>
  obtain ⟨r2, t2⟩ := x
  have ht2 : StreamInv cs t2 := h2.2 _ rfl
  dsimp only [Option.map_some']
  rw [peek_whole ht2]

/-- C2 fails at the empty text: cut into no chunk at all, it makes the
refill callback signal XJS_END at its first call, the call of line 172, and
xjs_parse returns that status, whereas the empty text passed as one buffer is
answered XJS_ERR_BAD_INPUT; neither run emits an event. -/
theorem C2_empty_text_differs :
    (xjs_parse false none 5 (some ([] : List (List Char)).join) sinkOk none
        (some memGrant)).map (fun x => (x.1, x.2.2.events)) = some (XJS_ERR_BAD_INPUT, []) ∧
    (xjs_parse false none 5 none sinkOk (some (refillOf [])) (some memGrant)).map
        (fun x => (x.1, x.2.2.events)) = some (XJS_END, []) ∧
    GoodChunks [] ∧ XJS_ERR_BAD_INPUT ≠ XJS_END := by
  refine ⟨by decide!, by decide!, ?_, by decide⟩
  intro c hc
  cases hc

/-- C2, for a text that is not empty: let the text be cut in any way into
chunks that are not empty and hold no terminator, and let the refill callback
deliver them one per call and signal XJS_END at every call once they are used
up. Then with the fuel of three steps a character of the text and four more
both runs return, the run fed by the callback and the run on the whole text
passed as one buffer, and they return the same status after the same events,
whatever the sink and the allocator. The cuts may fall anywhere, inside an
escape sequence, a number or a literal too. -/
theorem C2_streaming_equivalence (blocks : Bool) (fallback : Option XJSMemCB)
    (node_cb : XJSNodeCB) (mem_cb : Option XJSMemCB) (cs : List (List Char))
    (hgood : GoodChunks cs) (hne : cs ≠ []) (fuel : Nat) (hfuel : 3 * cs.join.length + 4 ≤ fuel) :
    ∃ r e1 s1 e2 s2,
      xjs_parse blocks fallback fuel (some cs.join) node_cb none mem_cb = some (r, e1, s1) ∧
      xjs_parse blocks fallback fuel none node_cb (some (refillOf cs)) mem_cb
        = some (r, e2, s2) ∧
      s2.events = s1.events := by
  cases hm : (if mem_cb.isSome then mem_cb else fallback) with
  | none =>
    refine ⟨XJS_ERR_MEM_MISSING, none, State.init cs.join 0, none, State.init [] 0, ?_, ?_, rfl⟩
    · unfold xjs_parse
      rw [hm]
      rfl
    · unfold xjs_parse
      rw [hm]
      rfl
  | some m =>
    obtain ⟨c0, rest, rfl⟩ := List.exists_cons_of_ne_nil hne
    have hc0 := hgood c0 (List.mem_cons_self _ _)
    have hs : Sim ⟨blocks, node_cb, some (refillOf (c0 :: rest)), m⟩ (c0 :: rest) := ⟨hgood, rfl⟩
    have ht : StreamInv (c0 :: rest) (State.init c0 1) := ⟨hc0.2, fun h => absurd h hc0.1⟩
    have hw : whole (c0 :: rest) (State.init c0 1) = State.init (c0 :: rest).join 0 := by
      simp [whole, State.init]
    obtain ⟨r, e, s1, h1, _⟩ := xjs_parse_from_term
      (Env.noRefill ⟨blocks, node_cb, some (refillOf (c0 :: rest)), m⟩) rfl fuel
      (State.init (c0 :: rest).join 0) hfuel
    have h2 := xjs_parse_from_sim hs fuel ht
    rw [hw, h1] at h2
    cases hx : xjs_parse_from ⟨blocks, node_cb, some (refillOf (c0 :: rest)), m⟩ fuel
        (State.init c0 1) with
    | none => rw [hx] at h2; cases h2
    | some x =>
      obtain ⟨r', e2, s2⟩ := x
      rw [hx] at h2
      have e0 := Option.some.inj h2
      have er : r = r' := congrArg Prod.fst e0
      have es : s1 = whole (c0 :: rest) s2 := congrArg (fun x => x.2.2) e0
      refine ⟨r, e, s1, e2, s2, ?_, ?_, ?_⟩
      · unfold xjs_parse
        rw [hm]
        exact h1
      · unfold xjs_parse
        rw [hm]
        have hcb : refillOf (c0 :: rest) 0 = (XJS_OK, c0) := by simp [refillOf]
        dsimp only
        rw [hcb, if_neg (show ¬(((XJS_OK, c0) : Int × List Char).1 ≠ XJS_OK) from fun h => h rfl), er]
        exact hx
      · rw [es]
        rfl

/-- C2 on the array `["ab\u0041cd"]` cut inside the escape sequence, after
the backslash. -/
theorem C2_streaming_equivalence_witness :
    GoodChunks ["[\"ab\\".toList, "u0041cd\"]".toList] ∧
    ∃ r e1 s1 e2 s2,
      xjs_parse false none 100 (some (["[\"ab\\".toList, "u0041cd\"]".toList].join)) sinkOk none
        (some memGrant) = some (r, e1, s1) ∧
      xjs_parse false none 100 none sinkOk
        (some (refillOf ["[\"ab\\".toList, "u0041cd\"]".toList])) (some memGrant)
        = some (r, e2, s2) ∧
      s2.events = s1.events :=
  have hg : GoodChunks ["[\"ab\\".toList, "u0041cd\"]".toList] := by
    intro c hc
    simp only [List.mem_cons, List.mem_singleton, List.not_mem_nil, or_false] at hc
    rcases hc with rfl | rfl <;> decide
  ⟨hg, C2_streaming_equivalence false none sinkOk (some memGrant) _ hg (by simp) 100 (by decide)⟩

/-- White space that ends the buffer: the dispatcher returns XJS_END on the
terminator. -/
theorem r_parse_any_ws_end (env : Env) (hinp : env.inp_cb = none) (ws : List Char)
    (hws : isWs ws) (hne : ws ≠ []) (top : Bool) (np : Nat) (nm : Option (List Char))
    (s : State) (hs : s.js = ws) :
    ∀ fuel, ws.length + 1 ≤ fuel →
      r_parse_any env fuel top np nm s = some (XJS_END, { s with js := [] }) := by
  intro fuel hf
  obtain ⟨f, rfl⟩ : ∃ f, fuel = f + 1 := ⟨fuel - 1, by omega⟩
  rw [r_parse_any, i_eatwhite_to_end env hinp ws hws hne s hs f (by omega)]
  simp only [ne_eq, show ¬ (XJS_END = XJS_OK) by decide, not_false_eq_true, if_true]

/-- The advance over a character that only white space follows, white space
that ends the buffer: XJS_END on the terminator. -/
theorem i_advance_ew_end (env : Env) (hinp : env.inp_cb = none) (c : Char) (hc : c ≠ NUL)
    (ws : List Char) (hws : isWs ws) (s : State) (hs : s.js = c :: ws) :
    ∀ fuel, ws.length + 1 ≤ fuel →
      i_advance env fuel true s = some (XJS_END, { s with js := [] }) := by
  intro fuel hf
  unfold i_advance
  cases ws with
  | nil =>
    rw [i_advance0_last env s c hinp hs hc]
    simp only [ne_eq, show ¬ (XJS_END = XJS_OK) by decide, not_false_eq_true, if_true]
  | cons d wr =>
    have hd : d ≠ NUL := isspace_ne_NUL (hws d (List.mem_cons_self _ _))
    rw [i_advance0_cons2 env s c d wr hs hc hd]
    simp only [ne_eq, not_true_eq_false, if_false, if_true]
    exact i_eatwhite_to_end env hinp (d :: wr) hws (by simp) { s with js := d :: wr } rfl fuel
      (by simp at hf ⊢; omega)

/-- The array loop at the end of the input after the comma that follows the
elements read so far, and the white space after it: XJS_ERR_BAD_INPUT. -/
theorem arr_loop_end_after_comma (env : Env) (hinp : env.inp_cb = none) (i : Nat) (hi : i ≠ 0)
    (pre : List Char) (hpre : isWs pre) (np : Nat) (name : Option (List Char)) (s : State)
    (hs : s.js = ',' :: pre) :
    ∃ H cnt s', Runs (fun fuel => i_parse_array_loop env fuel false ⟨0, []⟩ XJS_array false 0
        i 0 np name s) (XJS_ERR_BAD_INPUT, H, cnt, s') ∧ s'.js = [] := by
  have hpk : peek s.js = ',' := by rw [hs]; rfl
  cases pre with
  | nil =>
    refine ⟨⟨0, []⟩, 0, { s with js := [] }, ⟨1, fun fuel hf => ?_⟩, rfl⟩
    obtain ⟨f, rfl⟩ : ∃ f, fuel = f + 1 := ⟨fuel - 1, by omega⟩
    show i_parse_array_loop env (f + 1) false ⟨0, []⟩ XJS_array false 0 i 0 np name s = _
    rw [i_parse_array_loop]
    simp only [hpk, ne_eq, show ¬ ((',' : Char) = ']') by decide, not_false_eq_true, if_true, hi,
      not_true_eq_false, and_false, if_false, i_advance0_last env s ',' hinp hs (by decide),
      show ¬ (XJS_END = XJS_OK) by decide]
    rfl
  | cons d wr =>
    have hd : d ≠ NUL := isspace_ne_NUL (hpre d (List.mem_cons_self _ _))
    refine ⟨⟨0, []⟩, 0, { s with js := [] }, ⟨wr.length + 3, fun fuel hf => ?_⟩, rfl⟩
    obtain ⟨f, rfl⟩ : ∃ f, fuel = f + 1 := ⟨fuel - 1, by omega⟩
    show i_parse_array_loop env (f + 1) false ⟨0, []⟩ XJS_array false 0 i 0 np name s = _
    rw [i_parse_array_loop]
    simp only [hpk, ne_eq, show ¬ ((',' : Char) = ']') by decide, not_false_eq_true, if_true, hi,
      not_true_eq_false, and_false, if_false, i_advance0_cons2 env s ',' d wr hs (by decide) hd,
      show ¬ (XJS_array = XJS_block_header) by decide, true_or,
      r_parse_any_ws_end env hinp (d :: wr) hpre (by simp) false np _ { s with js := d :: wr } rfl f
        (by simp; omega),
      show ¬ (XJS_END = XJS_OK) by decide]
    rfl

/-- The array loop at the end of the input after a well formed element and
white space, not empty, after it: XJS_ERR_BAD_INPUT. -/
theorem arr_loop_end_after_value (env : Env) (he : GoodEnv env) (items : JItems)
    (pre : List Char) (hpre : isWs pre) (v : JValue) (hv : v.wf) (post : List Char)
    (hpost : isWs post) (hpne : post ≠ []) (np : Nat) (name : Option (List Char)) (s : State)
    (hs : s.js = items.holeSep pre ++ (v.text ++ post)) :
    ∃ H cnt s', Runs (fun fuel => i_parse_array_loop env fuel false ⟨0, []⟩ XJS_array false 0
        items.length 0 np name s) (XJS_ERR_BAD_INPUT, H, cnt, s') ∧ s'.js = [] := by
  rw [JItems.holeSep_items_eq] at hs
  obtain ⟨x, xr, hx, hx0, _, hxb, _⟩ := value_head v hv post
  rw [hx] at hs
  obtain ⟨ws, s1, hws, hs1, _, hpk, hcomma, hadv⟩ :=
    array_loop_comma env pre hpre items.length x xr hx0 (fun _ => hxb) s hs
  obtain ⟨d, pr, hd⟩ : ∃ d pr, post = d :: pr := by
    cases post with
    | nil => exact absurd rfl hpne
    | cons d pr => exact ⟨d, pr, rfl⟩
  have hdel : isDelim d := Or.inl (hpost d (by rw [hd]; exact List.mem_cons_self _ _))
  obtain ⟨s2, ⟨N, hrun⟩, hp2⟩ := value_ok env he v hv false ws post hws
    (fun _ => ⟨rfl, d, pr, hd, hdel⟩) np (some (Nat.toDigits 10 (items.length + 1))) s1
    (by rw [hs1, hx])
  beta_reduce at hrun
  have e3 := i_eatwhite_to_end env he.1 post hpost hpne s2 hp2.1
  refine ⟨⟨0, []⟩, 0, { s2 with js := [] }, ⟨N + post.length + 1, fun fuel hf => ?_⟩, rfl⟩
  obtain ⟨f, rfl⟩ : ∃ f, fuel = f + 1 := ⟨fuel - 1, by omega⟩
  show i_parse_array_loop env (f + 1) false ⟨0, []⟩ XJS_array false 0 items.length 0 np name s = _
  rw [i_parse_array_loop]
  simp only [hpk, if_true, hcomma, if_false, hadv, ne_eq, not_true_eq_false,
    show ¬ (XJS_array = XJS_block_header) by decide, true_or, hrun f (by omega),
    e3 f (by omega), show ¬ (XJS_END = XJS_OK) by decide, not_false_eq_true]
  rfl

/-- An array returns the status with which its loop stops after well formed
elements; what follows them may be empty when there is an element. -/
theorem arr_of_loop_gen (env : Env) (he : GoodEnv env) (ws0 : List Char) (items : JItems)
    (pre : List Char) (Y : List Char) (hws0 : isWs ws0) (hwf : items.wf)
    (hY : items.length = 0 → ∃ y yr, Y = y :: yr ∧ y ≠ NUL ∧ isspace y = false) (r : Int)
    (js' : List Char)
    (hloop : ∀ (np : Nat) (name : Option (List Char)) (s : State),
      s.js = items.holeSep pre ++ Y →
      ∃ H cnt s', Runs (fun fuel => i_parse_array_loop env fuel false ⟨0, []⟩ XJS_array false 0
        items.length 0 np name s) (r, H, cnt, s') ∧ s'.js = js') :
    ∀ (top : Bool) (ws : List Char), isWs ws → ∀ (parent : Nat) (name : Option (List Char))
      (s : State), s.js = ws ++ arrUpTo ws0 items pre Y →
      ∃ s', Runs (fun fuel => r_parse_any env fuel top parent name s) (r, s') ∧ s'.js = js' := by
  intro top ws hws parent name s hs
  have hhead : ∃ x t, items.text true ++ (items.holeSep pre ++ Y) = x :: t ∧ x ≠ NUL ∧
      isspace x = false := by
    cases items with
    | nil =>
      obtain ⟨y, yr, rfl, hy0, hys⟩ := hY rfl
      exact ⟨y, yr, by simp [JItems.text, JItems.holeSep], hy0, hys⟩
    | cons p v q tl =>
      simp only [JItems.wf] at hwf
      obtain ⟨x, xr, hx, hx0, hxs, _⟩ := value_head v hwf.2.1
        (q ++ (tl.text false ++ (',' :: pre ++ Y)))
      exact ⟨x, xr, by simp [JItems.text, JItems.holeSep, ← hx], hx0, hxs⟩
  obtain ⟨x, t, hx, hx0, hxs⟩ := hhead
  have hs' : s.js = ws ++ '[' :: (ws0 ++ x :: t) := by rw [hs, ← hx]; rfl
  have e0 := i_eatwhite_skip env ws hws '[' _ (by decide) (by decide) s hs'
  have e1 := i_eatwhite_skip env [] (by simp [isWs]) '[' (ws0 ++ x :: t) (by decide) (by decide)
    { s with js := '[' :: (ws0 ++ x :: t) } rfl
  have e2 := i_advance_ew_ok env
    { s with js := '[' :: (ws0 ++ x :: t), events := s.events ++ [⟨parent, XJS_array, name, none⟩] }
    '[' ws0 hws0 x t rfl (by decide) hx0 hxs
  have hl : ∃ H cnt s', Runs (fun fuel => i_parse_array_loop env fuel false ⟨0, []⟩ XJS_array
      false 0 0 0 (env.node_cb s.events ⟨parent, XJS_array, name, none⟩).2 name
      { s with js := x :: t, events := s.events ++ [⟨parent, XJS_array, name, none⟩] })
      (r, H, cnt, s') ∧ s'.js = js' := by
    cases hitems : items with
    | nil =>
      subst hitems
      obtain ⟨H, cnt, s', hrun, h1⟩ := hloop
        (env.node_cb s.events ⟨parent, XJS_array, name, none⟩).2 name
        { s with js := x :: t, events := s.events ++ [⟨parent, XJS_array, name, none⟩] }
        (by simp [← hx, JItems.text])
      exact ⟨H, cnt, s', by simpa [JItems.length] using hrun, h1⟩
    | cons p v q tl =>
      subst hitems
      obtain ⟨s1, hp1, hk⟩ := items_run env he _ hwf 0 ',' (pre ++ Y)
        (env.node_cb s.events ⟨parent, XJS_array, name, none⟩).2 name
        { s with js := x :: t, events := s.events ++ [⟨parent, XJS_array, name, none⟩] }
        (Or.inl rfl) (by simp [← hx, JItems.holeSep])
      obtain ⟨H, cnt, s', hrun, h1⟩ := hloop
        (env.node_cb s.events ⟨parent, XJS_array, name, none⟩).2 name s1
        (by rw [hp1.1]; simp [JItems.holeSep])
      exact ⟨H, cnt, s', hk _ (by simpa using hrun), h1⟩
  obtain ⟨H, cnt, s', ⟨N3, hrun3⟩, h1⟩ := hl
  beta_reduce at hrun3
  have hok : ∀ h e, (env.node_cb h e).1 = XJS_OK := he.2.2
  refine ⟨s', ⟨N3 + ws.length + ws0.length + 3, fun fuel hf => ?_⟩, h1⟩
  obtain ⟨f, rfl⟩ : ∃ f, fuel = f + 1 := ⟨fuel - 1, by omega⟩
  obtain ⟨g, rfl⟩ : ∃ g, f = g + 1 := ⟨f - 1, by omega⟩
  show r_parse_any env (g + 1 + 1) top parent name s = _
  rw [r_parse_any, e0 (g + 1) (by omega)]
  simp only [ne_eq, not_true_eq_false, if_false, peek_cons,
    show ¬ (('[' : Char) = '\x7b') by decide, if_true]
  rw [i_parse_array, e1 g (by simp; omega)]
  simp only [ne_eq, not_true_eq_false, if_false, peek_cons, call_node, hok, e2 g (by omega)]
  simp only [Option.isSome_none, Bool.false_and, Option.getD_none]
  rw [hrun3 g (by omega)]

/-- An array cut off by the end of the input after its opening bracket and
white space: the advance past the bracket meets the end, and the status is
XJS_ERR_BAD_INPUT. -/
theorem arr_open_end (env : Env) (he : GoodEnv env) (ws0 : List Char) (hws0 : isWs ws0)
    (top : Bool) (ws : List Char) (hws : isWs ws) (parent : Nat) (name : Option (List Char))
    (s : State) (hs : s.js = ws ++ '[' :: ws0) :
    ∃ s', Runs (fun fuel => r_parse_any env fuel top parent name s) (XJS_ERR_BAD_INPUT, s') ∧
      s'.js = [] := by
  have e0 := i_eatwhite_skip env ws hws '[' _ (by decide) (by decide) s hs
  have e1 := i_eatwhite_skip env [] (by simp [isWs]) '[' ws0 (by decide) (by decide)
    { s with js := '[' :: ws0 } rfl
  have e2 := i_advance_ew_end env he.1 '[' (by decide) ws0 hws0
    { s with js := '[' :: ws0, events := s.events ++ [⟨parent, XJS_array, name, none⟩] } rfl
  have hok : ∀ h e, (env.node_cb h e).1 = XJS_OK := he.2.2
  refine ⟨{ s with js := [], events := s.events ++ [⟨parent, XJS_array, name, none⟩] },
    ⟨ws.length + ws0.length + 3, fun fuel hf => ?_⟩, rfl⟩
  obtain ⟨f, rfl⟩ : ∃ f, fuel = f + 1 := ⟨fuel - 1, by omega⟩
  obtain ⟨g, rfl⟩ : ∃ g, f = g + 1 := ⟨f - 1, by omega⟩
  show r_parse_any env (g + 1 + 1) top parent name s = _
  rw [r_parse_any, e0 (g + 1) (by omega)]
  simp only [ne_eq, not_true_eq_false, if_false, peek_cons,
    show ¬ (('[' : Char) = '\x7b') by decide, if_true]
  rw [i_parse_array, e1 g (by simp; omega)]
  simp only [ne_eq, not_true_eq_false, if_false, peek_cons, call_node, hok, e2 g (by omega),
    show ¬ (XJS_END = XJS_OK) by decide, not_false_eq_true, if_true]
  rfl

/-- An object cut off by the end of the input after its opening brace and
white space: i_parse_object returns the XJS_END of the advance as it is. -/
theorem obj_open_end (env : Env) (he : GoodEnv env) (ws0 : List Char) (hws0 : isWs ws0)
    (top : Bool) (ws : List Char) (hws : isWs ws) (parent : Nat) (name : Option (List Char))
    (s : State) (hs : s.js = ws ++ '\x7b' :: ws0) :
    ∃ s', Runs (fun fuel => r_parse_any env fuel top parent name s) (XJS_END, s') ∧
      s'.js = [] := by
  have e0 := i_eatwhite_skip env ws hws '\x7b' _ (by decide) (by decide) s hs
  have e2 := i_advance_ew_end env he.1 '\x7b' (by decide) ws0 hws0
    { s with js := '\x7b' :: ws0, events := s.events ++ [⟨parent, XJS_object, name, none⟩] } rfl
  have hok : ∀ h e, (env.node_cb h e).1 = XJS_OK := he.2.2
  refine ⟨{ s with js := [], events := s.events ++ [⟨parent, XJS_object, name, none⟩] },
    ⟨ws.length + ws0.length + 3, fun fuel hf => ?_⟩, rfl⟩
  obtain ⟨f, rfl⟩ : ∃ f, fuel = f + 1 := ⟨fuel - 1, by omega⟩
  obtain ⟨g, rfl⟩ : ∃ g, f = g + 1 := ⟨f - 1, by omega⟩
  show r_parse_any env (g + 1 + 1) top parent name s = _
  rw [r_parse_any, e0 (g + 1) (by omega)]
  simp only [ne_eq, not_true_eq_false, if_false, peek_cons, if_true]
  rw [i_parse_object]
  simp only [ne_eq, not_true_eq_false, if_false, peek_cons, call_node, hok, e2 g (by omega),
    show ¬ (XJS_END = XJS_OK) by decide, not_false_eq_true, if_true]

/-- A string literal cut off by the end of the input, the end right after
its closing quote included: i_parse_string returns XJS_END on the
terminator. -/
theorem cut_string_end (env : Env) (hinp : env.inp_cb = none) (hm : MemGrants env.mem_cb)
    (context : XJSType) (ws : List Char) (hws : isWs ws) (T : List Char) (hT : CutStr T)
    (b : Buf) (s : State) (hs : s.js = ws ++ T) :
    ∃ b' s', Runs (fun fuel => i_parse_string env fuel context b s) (XJS_END, b', s') ∧
      s'.js = [] := by
  obtain ⟨hT0, body, q, hbody, hq⟩ := hT
  have hjs : s.js ≠ [] := by
    rw [hs]
    intro h
    exact hT0 (List.append_eq_nil.mp h).2
  have hfull : (cut (q ++ [',']) s).js = ws ++ (strText body ++ ',' :: []) := by
    simp only [cut, hs, ← hq, List.append_assoc]
  obtain ⟨bF, sF, ⟨N, hrun⟩, hadv, _, _⟩ :=
    i_parse_string_ok env hm context ws hws body hbody ',' [] (by decide) b (cut (q ++ [',']) s)
      hfull
  beta_reduce at hrun
  have hN := hrun N (Nat.le_refl N)
  rcases (i_parse_string_cut hinp (q ++ [',']) N context b hjs).partial_eq3 with
    ⟨b2, s2, hx, h2⟩ | ⟨heq, hne⟩
  · exact ⟨b2, s2, ⟨N, fun fuel hf => i_parse_string_runs env N _ _ _ _ hx fuel hf⟩, h2⟩
  · exfalso
    rw [hN] at heq
    cases hx : i_parse_string env N context b s with
    | none => rw [hx] at heq; cases heq
    | some x =>
      rw [hx] at heq
      obtain ⟨r1, b1, s1⟩ := x
      have h3 := hne r1 b1 s1 hx
      simp only [Option.map_some', Option.some.injEq] at heq
      have h4 : sF = cut (q ++ [',']) s1 := congrArg (fun y => y.2.2) heq
      have h5 : sF.js = s1.js ++ (q ++ [',']) := by rw [h4]; rfl
      rw [hadv.1] at h5
      have h6 := congrArg List.length h5
      simp only [List.length_cons, List.length_nil, List.length_append] at h6
      have h7 : 0 < s1.js.length := List.length_pos.mpr h3
      omega

theorem cut_string_head {T : List Char} (hT : CutStr T) : ∃ tr, T = '"' :: tr := by
  obtain ⟨hT0, body, q, _, hq⟩ := hT
  cases T with
  | nil => exact absurd rfl hT0
  | cons a tr =>
    simp only [strText, List.cons_append, List.cons.injEq] at hq
    exact ⟨tr, by rw [hq.1]⟩

/-- White space that ends the buffer where a string is wanted: XJS_END on the
terminator, nothing stored. -/
theorem i_parse_string_ws_end (env : Env) (hinp : env.inp_cb = none) (ws : List Char)
    (hws : isWs ws) (hne : ws ≠ []) (c : XJSType) (b : Buf) (s : State) (hs : s.js = ws) :
    ∀ fuel, ws.length ≤ fuel →
      i_parse_string env fuel c b s = some (XJS_END, b, { s with js := [] }) := by
  intro fuel hf
  unfold i_parse_string
  rw [i_eatwhite_to_end env hinp ws hws hne s hs fuel hf]
  simp only [ne_eq, show ¬ (XJS_END = XJS_OK) by decide, not_false_eq_true, if_true]

/-- The object loop at the end of the input after the comma that follows the
members read so far, and the white space after it: XJS_ERR_BAD_INPUT. -/
theorem obj_loop_end_after_comma (env : Env) (hinp : env.inp_cb = none) (i : Nat) (hi : i ≠ 0)
    (pre : List Char) (hpre : isWs pre) (np : Nat) (name : Option (List Char)) (s : State)
    (hs : s.js = ',' :: pre) :
    ∃ s', Runs (fun fuel => i_parse_object_loop env fuel i np name s) (XJS_ERR_BAD_INPUT, s') ∧
      s'.js = [] := by
  have hpk : peek s.js = ',' := by rw [hs]; rfl
  cases pre with
  | nil =>
    refine ⟨{ s with js := [] }, ⟨1, fun fuel hf => ?_⟩, rfl⟩
    obtain ⟨f, rfl⟩ : ∃ f, fuel = f + 1 := ⟨fuel - 1, by omega⟩
    show i_parse_object_loop env (f + 1) i np name s = _
    rw [i_parse_object_loop]
    simp only [hpk, ne_eq, show ¬ ((',' : Char) = '\x7d') by decide, not_false_eq_true, if_true,
      hi, not_true_eq_false, and_false, if_false, i_advance0_last env s ',' hinp hs (by decide),
      show ¬ (XJS_END = XJS_OK) by decide]
    rfl
  | cons d wr =>
    have hd : d ≠ NUL := isspace_ne_NUL (hpre d (List.mem_cons_self _ _))
    refine ⟨{ s with js := [] }, ⟨wr.length + 3, fun fuel hf => ?_⟩, rfl⟩
    obtain ⟨f, rfl⟩ : ∃ f, fuel = f + 1 := ⟨fuel - 1, by omega⟩
    show i_parse_object_loop env (f + 1) i np name s = _
    rw [i_parse_object_loop]
    simp only [hpk, ne_eq, show ¬ ((',' : Char) = '\x7d') by decide, not_false_eq_true, if_true,
      hi, not_true_eq_false, and_false, if_false,
      i_advance0_cons2 env s ',' d wr hs (by decide) hd,
      i_parse_string_ws_end env hinp (d :: wr) hpre (by simp) XJS_name Buf.empty
        { s with js := d :: wr } rfl f (by simp; omega),
      show ¬ (XJS_END = XJS_OK) by decide, show Buf.empty.ptr = 0 from rfl]
    rfl

/-- The object loop at the end of the input inside the name of a member, or
right after its closing quote: XJS_ERR_BAD_INPUT. -/
theorem obj_loop_end_in_name (env : Env) (he : GoodEnv env) (members : JMembers)
    (pre : List Char) (hpre : isWs pre) (T : List Char) (hT : CutStr T) (np : Nat)
    (name : Option (List Char)) (s : State) (hs : s.js = members.holeSep pre ++ T) :
    ∃ s', Runs (fun fuel => i_parse_object_loop env fuel members.length np name s)
        (XJS_ERR_BAD_INPUT, s') ∧ s'.js = [] := by
  rw [JMembers.holeSep_members_eq] at hs
  obtain ⟨tr, rfl⟩ := cut_string_head hT
  obtain ⟨ws, s1, hws, hs1, _, hpk, hcomma, hadv⟩ :=
    object_loop_comma env pre hpre members.length '"' tr (by decide) (fun _ => by decide) s hs
  obtain ⟨nb, s2, ⟨N2, hrun2⟩, hjs2⟩ := cut_string_end env he.1 he.2.1 XJS_name ws hws _ hT
    Buf.empty s1 hs1
  beta_reduce at hrun2
  refine ⟨if nb.ptr ≠ 0 then mem_free env XJS_name nb.ptr s2 else s2,
    ⟨N2 + 1, fun fuel hf => ?_⟩, ?_⟩
  · obtain ⟨f, rfl⟩ : ∃ f, fuel = f + 1 := ⟨fuel - 1, by omega⟩
    show i_parse_object_loop env (f + 1) members.length np name s = _
    rw [i_parse_object_loop]
    simp only [hpk, if_true, hcomma, if_false, hadv, ne_eq, not_true_eq_false,
      hrun2 f (by omega), show ¬ (XJS_END = XJS_OK) by decide, not_false_eq_true]
    rfl
  · split
    · exact hjs2
    · exact hjs2

/-- The object loop at the end of the input in the white space after the
name of a member: XJS_ERR_BAD_INPUT. -/
theorem obj_loop_end_after_name (env : Env) (he : GoodEnv env) (members : JMembers)
    (pre : List Char) (hpre : isWs pre) (nm : List StrItem) (hnm : ∀ it ∈ nm, it.wf)
    (ws1 : List Char) (hws1 : isWs ws1) (hne : ws1 ≠ []) (np : Nat) (name : Option (List Char))
    (s : State) (hs : s.js = members.holeSep pre ++ (strText nm ++ ws1)) :
    ∃ s', Runs (fun fuel => i_parse_object_loop env fuel members.length np name s)
        (XJS_ERR_BAD_INPUT, s') ∧ s'.js = [] := by
  rw [JMembers.holeSep_members_eq] at hs
  have hs0 : s.js = (if members.length = 0 then [] else ',' :: pre) ++
      '"' :: (bodyText nm ++ '"' :: ws1) := by
    rw [hs]; simp [strText]
  obtain ⟨ws, s1, hws, hs1, _, hpk, hcomma, hadv⟩ :=
    object_loop_comma env pre hpre members.length '"' _ (by decide) (fun _ => by decide) s hs0
  obtain ⟨z, zr, hz⟩ : ∃ z zr, ws1 = z :: zr := by
    cases ws1 with
    | nil => exact absurd rfl hne
    | cons z zr => exact ⟨z, zr, rfl⟩
  have hz0 : z ≠ NUL := isspace_ne_NUL (hws1 z (by rw [hz]; exact List.mem_cons_self _ _))
  obtain ⟨nb, s2, ⟨N2, hrun2⟩, ha2, _, _⟩ := i_parse_string_ok env he.2.1 XJS_name ws hws
    nm hnm z zr hz0 Buf.empty s1 (by rw [hs1, ← hz]; simp [strText])
  beta_reduce at hrun2
  have e3 := i_eatwhite_to_end env he.1 ws1 hws1 hne s2 (by rw [ha2.1, hz])
  refine ⟨if nb.ptr ≠ 0 then mem_free env XJS_name nb.ptr { s2 with js := [] }
      else { s2 with js := [] },
    ⟨N2 + ws1.length + 1, fun fuel hf => ?_⟩, ?_⟩
  · obtain ⟨f, rfl⟩ : ∃ f, fuel = f + 1 := ⟨fuel - 1, by omega⟩
    show i_parse_object_loop env (f + 1) members.length np name s = _
    rw [i_parse_object_loop]
    simp only [hpk, if_true, hcomma, if_false, hadv, ne_eq, not_true_eq_false,
      hrun2 f (by omega), e3 f (by omega), show ¬ (XJS_END = XJS_OK) by decide,
      not_false_eq_true]
    rfl
  · split
    · rfl
    · rfl

/-- The object loop at the end of the input after the colon of a member and
the white space after it: XJS_ERR_BAD_INPUT. -/
theorem obj_loop_end_after_colon (env : Env) (he : GoodEnv env) (members : JMembers)
    (pre : List Char) (hpre : isWs pre) (nm : List StrItem) (hnm : ∀ it ∈ nm, it.wf)
    (ws1 ws2 : List Char) (hws1 : isWs ws1) (hws2 : isWs ws2) (np : Nat)
    (name : Option (List Char)) (s : State)
    (hs : s.js = members.holeSep pre ++ (strText nm ++ (ws1 ++ ':' :: ws2))) :
    ∃ s', Runs (fun fuel => i_parse_object_loop env fuel members.length np name s)
        (XJS_ERR_BAD_INPUT, s') ∧ s'.js = [] := by
  rw [JMembers.holeSep_members_eq] at hs
  have hs0 : s.js = (if members.length = 0 then [] else ',' :: pre) ++
      '"' :: (bodyText nm ++ '"' :: (ws1 ++ ':' :: ws2)) := by
    rw [hs]; simp [strText]
  obtain ⟨ws, s1, hws, hs1, _, hpk, hcomma, hadv⟩ :=
    object_loop_comma env pre hpre members.length '"' _ (by decide) (fun _ => by decide) s hs0
  obtain ⟨z, zr, hz, hz0⟩ := head_ne_NUL ws1 (fun c hc => isspace_ne_NUL (hws1 c hc)) ':'
    ws2 (by decide)
  obtain ⟨nb, s2, ⟨N2, hrun2⟩, ha2, _, _⟩ := i_parse_string_ok env he.2.1 XJS_name ws hws
    nm hnm z zr hz0 Buf.empty s1 (by rw [hs1, ← hz]; simp [strText])
  beta_reduce at hrun2
  have e3 := i_eatwhite_skip env ws1 hws1 ':' _ (by decide) (by decide) s2 (by rw [ha2.1, hz])
  cases ws2 with
  | nil =>
    have e4 := i_advance0_last env { s2 with js := [':'] } ':' he.1 rfl (by decide)
    refine ⟨if nb.ptr ≠ 0 then mem_free env XJS_name nb.ptr { s2 with js := [] }
        else { s2 with js := [] },
      ⟨N2 + ws1.length + 2, fun fuel hf => ?_⟩, ?_⟩
    · obtain ⟨f, rfl⟩ : ∃ f, fuel = f + 1 := ⟨fuel - 1, by omega⟩
      show i_parse_object_loop env (f + 1) members.length np name s = _
      rw [i_parse_object_loop]
      simp only [hpk, if_true, hcomma, if_false, hadv, ne_eq, not_true_eq_false,
        hrun2 f (by omega), e3 f (by omega), peek_cons, e4,
        show ¬ (XJS_END = XJS_OK) by decide, not_false_eq_true]
      rfl
    · split
      · rfl
      · rfl
  | cons d wr =>
    have hd : d ≠ NUL := isspace_ne_NUL (hws2 d (List.mem_cons_self _ _))
    have e4 := i_advance0_cons2 env { s2 with js := ':' :: d :: wr } ':' d wr rfl (by decide) hd
    have e5 := r_parse_any_ws_end env he.1 (d :: wr) hws2 (by simp) false np nb.cstr
      { s2 with js := d :: wr } rfl
    refine ⟨if nb.ptr ≠ 0 then mem_free env XJS_name nb.ptr { s2 with js := [] }
        else { s2 with js := [] },
      ⟨N2 + ws1.length + wr.length + 3, fun fuel hf => ?_⟩, ?_⟩
    · obtain ⟨f, rfl⟩ : ∃ f, fuel = f + 1 := ⟨fuel - 1, by omega⟩
      show i_parse_object_loop env (f + 1) members.length np name s = _
      rw [i_parse_object_loop]
      simp only [hpk, if_true, hcomma, if_false, hadv, ne_eq, not_true_eq_false,
        hrun2 f (by omega), e3 f (by omega), peek_cons, e4, e5 f (by simp; omega),
        show ¬ (XJS_END = XJS_OK) by decide, not_false_eq_true]
      rfl
    · split
      · rfl
      · rfl

/-- The object loop at the end of the input after the value of a member and
white space, not empty, after it: XJS_ERR_BAD_INPUT. -/
theorem obj_loop_end_after_value (env : Env) (he : GoodEnv env) (members : JMembers)
    (pre : List Char) (hpre : isWs pre) (nm : List StrItem) (hnm : ∀ it ∈ nm, it.wf)
    (ws1 ws2 : List Char) (hws1 : isWs ws1) (hws2 : isWs ws2) (v : JValue) (hv : v.wf)
    (post : List Char) (hpost : isWs post) (hpne : post ≠ []) (np : Nat)
    (name : Option (List Char)) (s : State)
    (hs : s.js = members.holeSep pre ++
      (strText nm ++ (ws1 ++ (':' :: (ws2 ++ (v.text ++ post)))))) :
    ∃ s', Runs (fun fuel => i_parse_object_loop env fuel members.length np name s)
        (XJS_ERR_BAD_INPUT, s') ∧ s'.js = [] := by
  rw [JMembers.holeSep_members_eq] at hs
  obtain ⟨x, xr, hx, hx0, _⟩ := value_head v hv post
  rw [hx] at hs
  have hs0 : s.js = (if members.length = 0 then [] else ',' :: pre) ++
      '"' :: (bodyText nm ++ '"' :: (ws1 ++ (':' :: (ws2 ++ x :: xr)))) := by
    rw [hs]; simp [strText]
  obtain ⟨ws, s1, hws, hs1, _, hpk, hcomma, hadv⟩ :=
    object_loop_comma env pre hpre members.length '"' _ (by decide) (fun _ => by decide) s hs0
  obtain ⟨y, yr, hy, hy0⟩ := head_ne_NUL ws2 (fun c hc => isspace_ne_NUL (hws2 c hc)) x xr hx0
  obtain ⟨z, zr, hz, hz0⟩ := head_ne_NUL ws1 (fun c hc => isspace_ne_NUL (hws1 c hc)) ':'
    (ws2 ++ x :: xr) (by decide)
  obtain ⟨nb, s2, ⟨N2, hrun2⟩, ha2, _, _⟩ := i_parse_string_ok env he.2.1 XJS_name ws hws
    nm hnm z zr hz0 Buf.empty s1 (by rw [hs1, ← hz]; simp [strText])
  beta_reduce at hrun2
  have e3 := i_eatwhite_skip env ws1 hws1 ':' _ (by decide) (by decide) s2 (by rw [ha2.1, hz])
  have e4 := i_advance0_cons2 env { s2 with js := ':' :: (ws2 ++ x :: xr) }
    ':' y yr (by simp [hy]) (by decide) hy0
  obtain ⟨d, pr, hd⟩ : ∃ d pr, post = d :: pr := by
    cases post with
    | nil => exact absurd rfl hpne
    | cons d pr => exact ⟨d, pr, rfl⟩
  have hdel : isDelim d := Or.inl (hpost d (by rw [hd]; exact List.mem_cons_self _ _))
  obtain ⟨s5, ⟨N5, hrun5⟩, hp5⟩ := value_ok env he v hv false ws2 post hws2
    (fun _ => ⟨rfl, d, pr, hd, hdel⟩) np nb.cstr { s2 with js := y :: yr }
    (by simp [← hy, hx])
  beta_reduce at hrun5
  have h6 : (if nb.ptr ≠ 0 then mem_free env XJS_name nb.ptr s5 else s5).js = post := by
    split
    · exact hp5.1
    · exact hp5.1
  have e6 := i_eatwhite_to_end env he.1 post hpost hpne _ h6
  refine ⟨{ (if nb.ptr ≠ 0 then mem_free env XJS_name nb.ptr s5 else s5) with js := [] },
    ⟨N2 + N5 + ws1.length + post.length + 2, fun fuel hf => ?_⟩, rfl⟩
  obtain ⟨f, rfl⟩ : ∃ f, fuel = f + 1 := ⟨fuel - 1, by omega⟩
  show i_parse_object_loop env (f + 1) members.length np name s = _
  rw [i_parse_object_loop]
  simp only [hpk, if_true, hcomma, if_false, hadv, ne_eq, not_true_eq_false,
    hrun2 f (by omega), e3 f (by omega), peek_cons, e4, hrun5 f (by omega)]
  simp only [ne_eq] at e6
  rw [e6 f (by omega)]
  simp only [show ¬ (XJS_END = XJS_OK) by decide, not_false_eq_true, if_true]
  rfl

/-- An object returns the status with which its loop stops after well formed
members; what follows them may be empty when there is a member. -/
theorem obj_of_loop_gen (env : Env) (he : GoodEnv env) (ws0 : List Char) (members : JMembers)
    (pre : List Char) (Y : List Char) (hws0 : isWs ws0) (hwf : members.wf)
    (hY : members.length = 0 → ∃ y yr, Y = y :: yr ∧ y ≠ NUL ∧ isspace y = false) (r : Int)
    (js' : List Char)
    (hloop : ∀ (np : Nat) (name : Option (List Char)) (s : State),
      s.js = members.holeSep pre ++ Y →
      ∃ s', Runs (fun fuel => i_parse_object_loop env fuel members.length np name s) (r, s') ∧
        s'.js = js') :
    ∀ (top : Bool) (ws : List Char), isWs ws → ∀ (parent : Nat) (name : Option (List Char))
      (s : State), s.js = ws ++ '\x7b' :: (ws0 ++ (members.text true ++ (members.holeSep pre ++ Y))) →
      ∃ s', Runs (fun fuel => r_parse_any env fuel top parent name s) (r, s') ∧ s'.js = js' := by
  intro top ws hws parent name s hs
  have hhead : ∃ x t, members.text true ++ (members.holeSep pre ++ Y) = x :: t ∧ x ≠ NUL ∧
      isspace x = false := by
    cases members with
    | nil =>
      obtain ⟨y, yr, rfl, hy0, hys⟩ := hY rfl
      exact ⟨y, yr, by simp [JMembers.text, JMembers.holeSep], hy0, hys⟩
    | cons p nm w1 w2 v q tl =>
      exact ⟨'"', _, by simp [JMembers.text, strText]; rfl, by decide, by decide⟩
  obtain ⟨x, t, hx, hx0, hxs⟩ := hhead
  have hs' : s.js = ws ++ '\x7b' :: (ws0 ++ x :: t) := by rw [hs, ← hx]
  have e0 := i_eatwhite_skip env ws hws '\x7b' _ (by decide) (by decide) s hs'
  have e2 := i_advance_ew_ok env
    { s with js := '\x7b' :: (ws0 ++ x :: t),
             events := s.events ++ [⟨parent, XJS_object, name, none⟩] }
    '\x7b' ws0 hws0 x t rfl (by decide) hx0 hxs
  have hl : ∃ s', Runs (fun fuel => i_parse_object_loop env fuel 0
      (env.node_cb s.events ⟨parent, XJS_object, name, none⟩).2 name
      { s with js := x :: t, events := s.events ++ [⟨parent, XJS_object, name, none⟩] })
      (r, s') ∧ s'.js = js' := by
    cases hmem : members with
    | nil =>
      subst hmem
      obtain ⟨s', hrun, h1⟩ := hloop
        (env.node_cb s.events ⟨parent, XJS_object, name, none⟩).2 name
        { s with js := x :: t, events := s.events ++ [⟨parent, XJS_object, name, none⟩] }
        (by simp [← hx, JMembers.text])
      exact ⟨s', by simpa [JMembers.length] using hrun, h1⟩
    | cons p nm w1 w2 v q tl =>
      subst hmem
      obtain ⟨s1, hp1, hk⟩ := members_run env he _ hwf 0 ',' (pre ++ Y)
        (env.node_cb s.events ⟨parent, XJS_object, name, none⟩).2 name
        { s with js := x :: t, events := s.events ++ [⟨parent, XJS_object, name, none⟩] }
        (Or.inl rfl) (by simp [← hx, JMembers.holeSep])
      obtain ⟨s', hrun, h1⟩ := hloop
        (env.node_cb s.events ⟨parent, XJS_object, name, none⟩).2 name s1
        (by rw [hp1.1]; simp [JMembers.holeSep])
      exact ⟨s', hk _ (by simpa using hrun), h1⟩
  obtain ⟨s', ⟨N3, hrun3⟩, h1⟩ := hl
  beta_reduce at hrun3
  have hok : ∀ h e, (env.node_cb h e).1 = XJS_OK := he.2.2
  refine ⟨s', ⟨N3 + ws.length + ws0.length + 3, fun fuel hf => ?_⟩, h1⟩
  obtain ⟨f, rfl⟩ : ∃ f, fuel = f + 1 := ⟨fuel - 1, by omega⟩
  obtain ⟨g, rfl⟩ : ∃ g, f = g + 1 := ⟨f - 1, by omega⟩
  show r_parse_any env (g + 1 + 1) top parent name s = _
  rw [r_parse_any, e0 (g + 1) (by omega)]
  simp only [ne_eq, not_true_eq_false, if_false, peek_cons, if_true]
  rw [i_parse_object]
  simp only [ne_eq, not_true_eq_false, if_false, peek_cons, call_node, hok, e2 g (by omega)]
  rw [hrun3 g (by omega)]

theorem cut_here_head {X : List Char} (h : CutHere X) :
    ∃ x xr, X = x :: xr ∧ x ≠ NUL ∧ isspace x = false ∧ x ≠ ']' := by
  rcases h with h | ⟨ws0, items, pre, Y, _, _, _, _, rfl⟩ | ⟨ws0, members, pre, Y, _, _, _, _, rfl⟩
  · obtain ⟨x, xr, h1, h2, h3, h4, _⟩ := cut_scalar_head h
    exact ⟨x, xr, h1, h2, h3, h4⟩
  · exact ⟨'[', _, rfl, by decide, by decide, by decide⟩
  · exact ⟨'\x7b', _, rfl, by decide, by decide, by decide⟩

theorem nested_here_head {X : List Char} (hX : Nested CutHere X) :
    ∃ x xr, X = x :: xr ∧ x ≠ NUL ∧ isspace x = false ∧ x ≠ ']' := by
  cases hX with
  | base X h => exact cut_here_head h
  | arr ws0 items pre X _ _ _ _ => exact ⟨'[', _, rfl, by decide, by decide, by decide⟩
  | obj ws0 members pre name ws1 ws2 X _ _ _ _ _ _ _ =>
    exact ⟨'\x7b', _, rfl, by decide, by decide, by decide⟩

/-- An array cut off between two tokens: XJS_ERR_BAD_INPUT on the
terminator. -/
theorem arr_cut_end (env : Env) (he : GoodEnv env) (X : List Char) (hX : ArrCut X)
    (top : Bool) (ws : List Char) (hws : isWs ws) (np : Nat) (nm : Option (List Char))
    (s : State) (hs : s.js = ws ++ X) :
    ∃ s', Runs (fun fuel => r_parse_any env fuel top np nm s) (XJS_ERR_BAD_INPUT, s') ∧
      s'.js = [] := by
  obtain ⟨ws0, items, pre, Y, hws0, hwf, hpre, hY, rfl⟩ := hX
  rcases hY with rfl | ⟨v, post, hv, hpost, hpne, rfl⟩
  · by_cases h0 : items.length = 0
    · have hnil : items = .nil := by
        cases items with
        | nil => rfl
        | cons _ _ _ _ => simp [JItems.length] at h0
      subst hnil
      exact arr_open_end env he ws0 hws0 top ws hws np nm s
        (by rw [hs]; simp [arrUpTo, JItems.text, JItems.holeSep])
    · refine arr_of_loop_gen env he ws0 items pre [] hws0 hwf (fun h => absurd h h0)
        XJS_ERR_BAD_INPUT [] ?_ top ws hws np nm s hs
      intro np' name' s' hs'
      rw [JItems.holeSep_items_eq, if_neg h0, List.append_nil] at hs'
      exact arr_loop_end_after_comma env he.1 items.length h0 pre hpre np' name' s' hs'
  · obtain ⟨x, xr, hx, hx0, hxs, _⟩ := value_head v hv post
    refine arr_of_loop_gen env he ws0 items pre (v.text ++ post) hws0 hwf
      (fun _ => ⟨x, xr, hx, hx0, hxs⟩) XJS_ERR_BAD_INPUT [] ?_ top ws hws np nm s hs
    intro np' name' s' hs'
    exact arr_loop_end_after_value env he items pre hpre v hv post hpost hpne np' name' s' hs'

/-- An object cut off outside the values of its members: XJS_END on the
terminator when nothing but white space follows the opening brace,
XJS_ERR_BAD_INPUT otherwise. -/
theorem obj_cut_end (env : Env) (he : GoodEnv env) (X : List Char) (hX : ObjCut X) :
    ∃ r, (r = XJS_END ∨ r = XJS_ERR_BAD_INPUT) ∧ (¬ BraceOnly X → r = XJS_ERR_BAD_INPUT) ∧
      ∀ (top : Bool) (ws : List Char), isWs ws → ∀ (np : Nat) (nm : Option (List Char))
        (s : State), s.js = ws ++ X →
        ∃ s', Runs (fun fuel => r_parse_any env fuel top np nm s) (r, s') ∧ s'.js = [] := by
  obtain ⟨ws0, members, pre, Y, hws0, hwf, hpre, hY, rfl⟩ := hX
  have hbad : ∀ (hYh : members.length = 0 → ∃ y yr, Y = y :: yr ∧ y ≠ NUL ∧ isspace y = false)
      (hloop : ∀ (np : Nat) (name : Option (List Char)) (s : State),
        s.js = members.holeSep pre ++ Y →
        ∃ s', Runs (fun fuel => i_parse_object_loop env fuel members.length np name s)
          (XJS_ERR_BAD_INPUT, s') ∧ s'.js = []),
      ∃ r, (r = XJS_END ∨ r = XJS_ERR_BAD_INPUT) ∧
        (¬ BraceOnly (objUpToMember ws0 members pre Y) → r = XJS_ERR_BAD_INPUT) ∧
        ∀ (top : Bool) (ws : List Char), isWs ws → ∀ (np : Nat) (nm : Option (List Char))
          (s : State), s.js = ws ++ objUpToMember ws0 members pre Y →
          ∃ s', Runs (fun fuel => r_parse_any env fuel top np nm s) (r, s') ∧ s'.js = [] := by
    intro hYh hloop
    refine ⟨XJS_ERR_BAD_INPUT, Or.inr rfl, fun _ => rfl, ?_⟩
    intro top ws hws np nm s hs
    exact obj_of_loop_gen env he ws0 members pre Y hws0 hwf hYh XJS_ERR_BAD_INPUT [] hloop
      top ws hws np nm s hs
  have hq : ∀ (nmI : List StrItem) (t : List Char),
      ∃ y yr, strText nmI ++ t = y :: yr ∧ y ≠ NUL ∧ isspace y = false :=
    fun nmI t => ⟨'"', _, by simp [strText]; rfl, by decide, by decide⟩
  rcases hY with rfl | hT | ⟨nmI, ws1, hnm, hws1, hne, rfl⟩ |
    ⟨nmI, ws1, ws2, hnm, hws1, hws2, rfl⟩ |
    ⟨nmI, ws1, ws2, v, post, hnm, hws1, hws2, hv, hpost, hpne, rfl⟩
  · by_cases h0 : members.length = 0
    · have hnil : members = .nil := by
        cases members with
        | nil => rfl
        | cons _ _ _ _ _ _ _ => simp [JMembers.length] at h0
      subst hnil
      refine ⟨XJS_END, Or.inl rfl, ?_, ?_⟩
      · intro hb
        exact absurd ⟨ws0, hws0, by simp [objUpToMember, JMembers.text, JMembers.holeSep]⟩ hb
      · intro top ws hws np nm s hs
        exact obj_open_end env he ws0 hws0 top ws hws np nm s
          (by rw [hs]; simp [objUpToMember, JMembers.text, JMembers.holeSep])
    · refine hbad (fun h => absurd h h0) ?_
      intro np' name' s' hs'
      rw [JMembers.holeSep_members_eq, if_neg h0, List.append_nil] at hs'
      exact obj_loop_end_after_comma env he.1 members.length h0 pre hpre np' name' s' hs'
  · obtain ⟨tr, rfl⟩ := cut_string_head hT
    refine hbad (fun _ => ⟨'"', tr, rfl, by decide, by decide⟩) ?_
    intro np' name' s' hs'
    exact obj_loop_end_in_name env he members pre hpre _ hT np' name' s' hs'
  · refine hbad (fun _ => hq nmI ws1) ?_
    intro np' name' s' hs'
    exact obj_loop_end_after_name env he members pre hpre nmI hnm ws1 hws1 hne np' name' s' hs'
  · refine hbad (fun _ => hq nmI _) ?_
    intro np' name' s' hs'
    exact obj_loop_end_after_colon env he members pre hpre nmI hnm ws1 ws2 hws1 hws2 np' name'
      s' hs'
  · refine hbad (fun _ => hq nmI _) ?_
    intro np' name' s' hs'
    exact obj_loop_end_after_value env he members pre hpre nmI hnm ws1 ws2 hws1 hws2 v hv post
      hpost hpne np' name' s' hs'

/-- At a value position, or at the top level for a container, the
dispatcher stops at the end of the input on a value that is cut off: with
XJS_END on a scalar and on an object of which only the opening brace and
white space is there, with XJS_ERR_BAD_INPUT on every other array or object,
the cut being anywhere but right after the closing bracket of an array or
object nested in it. -/
theorem nested_here_end (env : Env) (he : GoodEnv env) : ∀ X, Nested CutHere X →
    ∃ r, (r = XJS_END ∨ r = XJS_ERR_BAD_INPUT) ∧
      ((∃ xr, X = '[' :: xr ∨ X = '\x7b' :: xr) → ¬ BraceOnly X → r = XJS_ERR_BAD_INPUT) ∧
      ∀ (top : Bool), (top = true → ∃ xr, X = '[' :: xr ∨ X = '\x7b' :: xr) →
      ∀ (ws : List Char) (np : Nat) (nm : Option (List Char)) (s : State), isWs ws →
        s.js = ws ++ X →
        ∃ s', Runs (fun fuel => r_parse_any env fuel top np nm s) (r, s') ∧ s'.js = [] := by
  intro X hX
  induction hX with
  | base X h =>
    rcases h with h | h | h
    · refine ⟨XJS_END, Or.inl rfl, ?_, ?_⟩
      · rintro ⟨xr, hx | hx⟩ _
        · obtain ⟨x, xr', h1, _, _, _, h5, _⟩ := cut_scalar_head h
          rw [h1] at hx
          exact absurd (List.cons.inj hx).1 h5
        · obtain ⟨x, xr', h1, _, _, _, _, h6⟩ := cut_scalar_head h
          rw [h1] at hx
          exact absurd (List.cons.inj hx).1 h6
      · intro top htop ws np nm s hws hs
        cases top with
        | true =>
          obtain ⟨xr, hx | hx⟩ := htop rfl
          · obtain ⟨x, xr', h1, _, _, _, h5, _⟩ := cut_scalar_head h
            rw [h1] at hx
            exact absurd (List.cons.inj hx).1 h5
          · obtain ⟨x, xr', h1, _, _, _, _, h6⟩ := cut_scalar_head h
            rw [h1] at hx
            exact absurd (List.cons.inj hx).1 h6
        | false =>
          obtain ⟨s', hrun, hjs, _⟩ := cut_scalar_dispatch env he.1 he.2.1 ws hws X h np nm s hs
          exact ⟨s', hrun, hjs⟩
    · refine ⟨XJS_ERR_BAD_INPUT, Or.inr rfl, fun _ _ => rfl, ?_⟩
      intro top _ ws np nm s hws hs
      exact arr_cut_end env he X h top ws hws np nm s hs
    · obtain ⟨r, hr, hb, hd⟩ := obj_cut_end env he X h
      exact ⟨r, hr, fun _ hnb => hb hnb, fun top _ ws np nm s hws hs => hd top ws hws np nm s hs⟩
  | arr ws0 items pre X hws0 hwf hpre hin ih =>
    obtain ⟨r, hr, _, hd⟩ := ih
    obtain ⟨x, xr, rfl, hx0, hxs, hxb⟩ := nested_here_head hin
    have hrok : r ≠ XJS_OK := by rcases hr with rfl | rfl <;> decide
    have hno : i_noend r = XJS_ERR_BAD_INPUT := by rcases hr with rfl | rfl <;> decide
    have hloop := arr_loop_of_dispatch env items pre hpre x xr hx0 (fun _ => hxb) r hrok []
      (fun ws np nm s hws hs => hd false (fun h => absurd h (by decide)) ws np nm s hws hs)
    rw [hno] at hloop
    refine ⟨XJS_ERR_BAD_INPUT, Or.inr rfl, fun _ _ => rfl, ?_⟩
    intro top _ ws np nm s hws hs
    exact arr_of_loop env he ws0 items pre (x :: xr) hws0 hwf ⟨x, xr, rfl, hx0, hxs⟩
      XJS_ERR_BAD_INPUT [] hloop top ws hws np nm s hs
  | obj ws0 members pre name ws1 ws2 X hws0 hwf hpre hname hws1 hws2 hin ih =>
    obtain ⟨r, hr, _, hd⟩ := ih
    obtain ⟨x, xr, rfl, hx0, hxs, _⟩ := nested_here_head hin
    have hrok : r ≠ XJS_OK := by rcases hr with rfl | rfl <;> decide
    have hno : i_noend r = XJS_ERR_BAD_INPUT := by rcases hr with rfl | rfl <;> decide
    have hloop := obj_loop_of_dispatch env he members pre hpre name hname ws1 ws2 hws1 hws2 x xr
      hx0 r hrok []
      (fun ws np nm s hws hs => hd false (fun h => absurd h (by decide)) ws np nm s hws hs)
    rw [hno] at hloop
    refine ⟨XJS_ERR_BAD_INPUT, Or.inr rfl, fun _ _ => rfl, ?_⟩
    intro top _ ws np nm s hws hs
    exact obj_of_loop env he ws0 members pre _ hws0 hwf
      ⟨'"', _, by simp [strText]; rfl, by decide, by decide⟩
      XJS_ERR_BAD_INPUT [] hloop top ws hws np nm s hs

theorem JItems.snoc_items_text (pre : List Char) (v : JValue) (post : List Char) :
    ∀ (items : JItems) (first : Bool),
      (items.snoc pre v post).text first
        = items.text first ++
          ((if first = true ∧ items.length = 0 then [] else ',' :: pre) ++ (v.text ++ post))
  | .nil, first => by
    cases first <;> simp [JItems.snoc, JItems.text, JItems.length]
  | .cons p w q tl, first => by
    simp only [JItems.snoc, JItems.text, JItems.length, JItems.snoc_items_text pre v post tl false]
    simp

theorem JItems.snoc_items_wf (pre : List Char) (v : JValue) (post : List Char) (hpre : isWs pre)
    (hv : v.wf) (hpost : isWs post) : ∀ (items : JItems), items.wf → (items.snoc pre v post).wf
  | .nil, _ => by simp only [JItems.snoc, JItems.wf]; exact ⟨hpre, hv, hpost, trivial⟩
  | .cons p w q tl, h => by
    simp only [JItems.snoc, JItems.wf] at h ⊢
    exact ⟨h.1, h.2.1, h.2.2.1, JItems.snoc_items_wf pre v post hpre hv hpost tl h.2.2.2⟩

theorem JItems.snoc_items_length (pre : List Char) (v : JValue) (post : List Char) :
    ∀ (items : JItems), (items.snoc pre v post).length = items.length + 1
  | .nil => rfl
  | .cons p w q tl => by
    simp only [JItems.snoc, JItems.length, JItems.snoc_items_length pre v post tl]

theorem JMembers.snoc_members_text (pre : List Char) (nm : List StrItem) (ws1 ws2 : List Char)
    (v : JValue) (post : List Char) :
    ∀ (members : JMembers) (first : Bool),
      (members.snoc pre nm ws1 ws2 v post).text first
        = members.text first ++
          ((if first = true ∧ members.length = 0 then [] else ',' :: pre) ++
            (strText nm ++ (ws1 ++ (':' :: (ws2 ++ (v.text ++ post))))))
  | .nil, first => by
    cases first <;> simp [JMembers.snoc, JMembers.text, JMembers.length]
  | .cons p n w1 w2 w q tl, first => by
    simp only [JMembers.snoc, JMembers.text, JMembers.length,
      JMembers.snoc_members_text pre nm ws1 ws2 v post tl false]
    simp

theorem JMembers.snoc_members_wf (pre : List Char) (nm : List StrItem) (ws1 ws2 : List Char)
    (v : JValue) (post : List Char) (hpre : isWs pre) (hnm : ∀ it ∈ nm, it.wf) (hws1 : isWs ws1)
    (hws2 : isWs ws2) (hv : v.wf) (hpost : isWs post) :
    ∀ (members : JMembers), members.wf → (members.snoc pre nm ws1 ws2 v post).wf
  | .nil, _ => by
    simp only [JMembers.snoc, JMembers.wf]
    exact ⟨hpre, hnm, hws1, hws2, hv, hpost, trivial⟩
  | .cons p n w1 w2 w q tl, h => by
    simp only [JMembers.snoc, JMembers.wf] at h ⊢
    exact ⟨h.1, h.2.1, h.2.2.1, h.2.2.2.1, h.2.2.2.2.1, h.2.2.2.2.2.1,
      JMembers.snoc_members_wf pre nm ws1 ws2 v post hpre hnm hws1 hws2 hv hpost tl h.2.2.2.2.2.2⟩

theorem JMembers.snoc_members_length (pre : List Char) (nm : List StrItem) (ws1 ws2 : List Char)
    (v : JValue) (post : List Char) :
    ∀ (members : JMembers), (members.snoc pre nm ws1 ws2 v post).length = members.length + 1
  | .nil => rfl
  | .cons p n w1 w2 w q tl => by
    simp only [JMembers.snoc, JMembers.length, JMembers.snoc_members_length pre nm ws1 ws2 v post tl]

theorem isWs_left {a b : List Char} (h : isWs (a ++ b)) : isWs a :=
  fun c hc => h c (List.mem_append_left _ hc)

theorem JItems.holeSep_items_first (front : JItems) (pre : List Char) :
    front.holeSep pre = if decide (front.length = 0) = true then [] else ',' :: pre := by
  rw [JItems.holeSep_items_eq]
  simp

theorem JMembers.holeSep_members_first (front : JMembers) (pre : List Char) :
    front.holeSep pre = if decide (front.length = 0) = true then [] else ',' :: pre := by
  rw [JMembers.holeSep_members_eq]
  simp

theorem split_prefix {R q A B : List Char} (h : R ++ q = A ++ B) :
    (∃ a, A = R ++ a) ∨ (∃ b, b ≠ [] ∧ R = A ++ b ∧ b ++ q = B) := by
  rcases List.append_eq_append_iff.1 h with ⟨a, ha, _⟩ | ⟨b, hb, hbq⟩
  · exact Or.inl ⟨a, ha⟩
  · by_cases hb0 : b = []
    · subst hb0
      exact Or.inl ⟨[], by simpa using hb.symm⟩
    · exact Or.inr ⟨b, hb0, hb, hbq.symm⟩

theorem JItems.snoc_items_text_true (front : JItems) (pre : List Char) (v : JValue)
    (post d : List Char) :
    (front.snoc pre v post).text true ++ d
      = front.text true ++ (front.holeSep pre ++ (v.text ++ (post ++ d))) := by
  rw [JItems.snoc_items_text, JItems.holeSep_items_eq]
  simp

theorem JMembers.snoc_members_text_true (front : JMembers) (pre : List Char) (nm : List StrItem)
    (ws1 ws2 : List Char) (v : JValue) (post d : List Char) :
    (front.snoc pre nm ws1 ws2 v post).text true ++ d
      = front.text true ++ (front.holeSep pre ++
          (strText nm ++ (ws1 ++ (':' :: (ws2 ++ (v.text ++ (post ++ d))))))) := by
  rw [JMembers.snoc_members_text, JMembers.holeSep_members_eq]
  simp

theorem cover_scalar (v : JValue) (hc : v.isContainer = false) (hv : v.wf) : CoverV v :=
  fun P q h hP => Or.inl (Nested.base P (Or.inl ⟨hP, v, q, hv, hc, h⟩))

theorem cover_items_nil : CoverI .nil := by
  intro ws0 front _ _ R q hR hq h
  exfalso
  simp only [JItems.text, List.nil_append] at h
  cases R with
  | nil => exact hR rfl
  | cons r R1 =>
    cases q with
    | nil => exact hq rfl
    | cons c q1 =>
      have := congrArg List.length h
      simp at this

theorem cover_items_cons (pre : List Char) (v : JValue) (post : List Char) (tl : JItems)
    (hpre : isWs pre) (hv : v.wf) (hpost : isWs post) (ihv : CoverV v) (ihtl : CoverI tl) :
    CoverI (.cons pre v post tl) := by
  intro ws0 front hws0 hfront R q hR hq h
  simp only [JItems.text] at h
  rw [← JItems.holeSep_items_first front pre, List.append_assoc] at h
  rcases split_prefix h with ⟨a, ha⟩ | ⟨b, hb, rfl, h1⟩
  · cases front with
    | nil =>
      simp only [JItems.holeSep] at ha
      exact absurd (List.append_eq_nil.1 ha.symm).1 hR
    | cons p w q0 t =>
      simp only [JItems.holeSep] at ha
      cases R with
      | nil => exact absurd rfl hR
      | cons r R1 =>
        simp only [List.cons_append, List.cons.injEq] at ha
        obtain ⟨rfl, rfl⟩ := ha
        exact Or.inl (Nested.base _ (Or.inr (Or.inl ⟨ws0, .cons p w q0 t, R1, [], hws0, hfront,
          isWs_left hpre, Or.inl rfl, by simp [arrUpTo, JItems.holeSep]⟩)))
  · clear h
    rw [List.append_assoc] at h1
    rcases split_prefix h1 with ⟨a, ha⟩ | ⟨c, hc, rfl, h2⟩
    · rcases ihv b a ha.symm hb with h3 | h3
      · exact Or.inl (Nested.arr ws0 front pre b hws0 hfront hpre h3)
      · exact Or.inr (Nested.arr ws0 front pre b hws0 hfront hpre h3)
    · clear h1
      rw [List.append_assoc] at h2
      rcases split_prefix h2 with ⟨a, ha⟩ | ⟨d, hd, rfl, h3⟩
      · exact Or.inl (Nested.base _ (Or.inr (Or.inl ⟨ws0, front, pre, v.text ++ c, hws0, hfront,
          hpre, Or.inr ⟨v, c, hv, isWs_left (ha ▸ hpost), hc, rfl⟩, by simp [arrUpTo]⟩)))
      · have hlen : decide ((front.snoc pre v post).length = 0) = false := by
          simp [JItems.snoc_items_length]
        have := ihtl ws0 (front.snoc pre v post) hws0
          (JItems.snoc_items_wf pre v post hpre hv hpost front hfront) d q hd hq (by rw [hlen]; exact h3)
        rw [JItems.snoc_items_text_true] at this
        simpa using this

theorem cover_arr (ws0 : List Char) (items : JItems) (hws0 : isWs ws0) (hi : items.wf)
    (ih : CoverI items) : CoverV (.arr ws0 items) := by
  intro P q h hP
  by_cases hq : q = []
  · subst hq
    rw [List.append_nil] at h
    exact Or.inr (Nested.base _ ⟨.arr ws0 items, by simp only [JValue.wf]; exact ⟨hws0, hi⟩, rfl, h⟩)
  simp only [JValue.text] at h
  cases P with
  | nil => exact absurd rfl hP
  | cons p P1 =>
    simp only [List.cons_append, List.cons.injEq] at h
    obtain ⟨rfl, h⟩ := h
    rcases split_prefix h with ⟨a, ha⟩ | ⟨R, hR, rfl, h1⟩
    · exact Or.inl (Nested.base _ (Or.inr (Or.inl ⟨P1, .nil, [], [], isWs_left (ha ▸ hws0),
        trivial, (fun _ hc => absurd hc (List.not_mem_nil _)), Or.inl rfl, by simp [arrUpTo, JItems.text, JItems.holeSep]⟩)))
    · have := ih ws0 .nil hws0 trivial R q hR hq (by simpa [JItems.length] using h1)
      simpa [JItems.text] using this

theorem cover_members_nil : CoverM .nil := by
  intro ws0 front _ _ R q hR hq h
  exfalso
  simp only [JMembers.text, List.nil_append] at h
  cases R with
  | nil => exact hR rfl
  | cons r R1 =>
    cases q with
    | nil => exact hq rfl
    | cons c q1 =>
      have := congrArg List.length h
      simp at this

theorem cover_members_cons (pre : List Char) (nm : List StrItem) (ws1 ws2 : List Char)
    (v : JValue) (post : List Char) (tl : JMembers) (hpre : isWs pre) (hnm : ∀ it ∈ nm, it.wf)
    (hws1 : isWs ws1) (hws2 : isWs ws2) (hv : v.wf) (hpost : isWs post) (ihv : CoverV v)
    (ihtl : CoverM tl) : CoverM (.cons pre nm ws1 ws2 v post tl) := by
  intro ws0 front hws0 hfront R q hR hq h
  simp only [JMembers.text] at h
  rw [← JMembers.holeSep_members_first front pre, List.append_assoc] at h
  rcases split_prefix h with ⟨a, ha⟩ | ⟨b, hb, rfl, h1⟩
  · cases front with
    | nil =>
      simp only [JMembers.holeSep] at ha
      exact absurd (List.append_eq_nil.1 ha.symm).1 hR
    | cons p n w1 w2 w q0 t =>
      simp only [JMembers.holeSep] at ha
      cases R with
      | nil => exact absurd rfl hR
      | cons r R1 =>
        simp only [List.cons_append, List.cons.injEq] at ha
        obtain ⟨rfl, rfl⟩ := ha
        exact Or.inl (Nested.base _ (Or.inr (Or.inr ⟨ws0, .cons p n w1 w2 w q0 t, R1, [], hws0,
          hfront, isWs_left hpre, Or.inl rfl, by simp [objUpToMember, JMembers.holeSep]⟩)))
  · clear h
    rw [List.append_assoc] at h1
    rcases split_prefix h1 with ⟨a, ha⟩ | ⟨c, hc, rfl, h2⟩
    · exact Or.inl (Nested.base _ (Or.inr (Or.inr ⟨ws0, front, pre, b, hws0, hfront, hpre,
        Or.inr (Or.inl ⟨hb, nm, a, hnm, ha.symm⟩), by simp [objUpToMember]⟩)))
    · clear h1
      rw [List.append_assoc] at h2
      rcases split_prefix h2 with ⟨a, ha⟩ | ⟨d, hd, rfl, h3⟩
      · exact Or.inl (Nested.base _ (Or.inr (Or.inr ⟨ws0, front, pre, strText nm ++ c, hws0,
          hfront, hpre, Or.inr (Or.inr (Or.inl ⟨nm, c, hnm, isWs_left (ha ▸ hws1), hc, rfl⟩)),
          by simp [objUpToMember]⟩)))
      · clear h2
        cases d with
        | nil => exact absurd rfl hd
        | cons d0 d1 =>
          simp only [List.cons_append, List.cons.injEq] at h3
          obtain ⟨rfl, h3⟩ := h3
          rw [List.append_assoc] at h3
          rcases split_prefix h3 with ⟨a, ha⟩ | ⟨e, he, rfl, h4⟩
          · exact Or.inl (Nested.base _ (Or.inr (Or.inr ⟨ws0, front, pre,
              strText nm ++ (ws1 ++ ':' :: d1), hws0, hfront, hpre,
              Or.inr (Or.inr (Or.inr (Or.inl ⟨nm, ws1, d1, hnm, hws1, isWs_left (ha ▸ hws2),
                rfl⟩))), by simp [objUpToMember]⟩)))
          · clear h3
            rw [List.append_assoc] at h4
            rcases split_prefix h4 with ⟨a, ha⟩ | ⟨f, hf, rfl, h5⟩
            · rcases ihv e a ha.symm he with h6 | h6
              · have := Nested.obj ws0 front pre nm ws1 ws2 e hws0 hfront hpre hnm hws1 hws2 h6
                exact Or.inl (by simpa [objUpTo] using this)
              · have := Nested.obj ws0 front pre nm ws1 ws2 e hws0 hfront hpre hnm hws1 hws2 h6
                exact Or.inr (by simpa [objUpTo] using this)
            · clear h4
              rw [List.append_assoc] at h5
              rcases split_prefix h5 with ⟨a, ha⟩ | ⟨g, hg, rfl, h6⟩
              · exact Or.inl (Nested.base _ (Or.inr (Or.inr ⟨ws0, front, pre,
                  strText nm ++ (ws1 ++ (':' :: (ws2 ++ (v.text ++ f)))), hws0, hfront, hpre,
                  Or.inr (Or.inr (Or.inr (Or.inr ⟨nm, ws1, ws2, v, f, hnm, hws1, hws2, hv,
                    isWs_left (ha ▸ hpost), hf, rfl⟩))), by simp [objUpToMember]⟩)))
              · have hlen : decide ((front.snoc pre nm ws1 ws2 v post).length = 0) = false := by
                  simp [JMembers.snoc_members_length]
                have := ihtl ws0 (front.snoc pre nm ws1 ws2 v post) hws0
                  (JMembers.snoc_members_wf pre nm ws1 ws2 v post hpre hnm hws1 hws2 hv hpost front
                    hfront) g q hg hq (by rw [hlen]; exact h6)
                rw [JMembers.snoc_members_text_true] at this
                simpa using this

theorem cover_obj (ws0 : List Char) (members : JMembers) (hws0 : isWs ws0) (hi : members.wf)
    (ih : CoverM members) : CoverV (.obj ws0 members) := by
  intro P q h hP
  by_cases hq : q = []
  · subst hq
    rw [List.append_nil] at h
    exact Or.inr (Nested.base _
      ⟨.obj ws0 members, by simp only [JValue.wf]; exact ⟨hws0, hi⟩, rfl, h⟩)
  simp only [JValue.text] at h
  cases P with
  | nil => exact absurd rfl hP
  | cons p P1 =>
    simp only [List.cons_append, List.cons.injEq] at h
    obtain ⟨rfl, h⟩ := h
    rcases split_prefix h with ⟨a, ha⟩ | ⟨R, hR, rfl, h1⟩
    · exact Or.inl (Nested.base _ (Or.inr (Or.inr ⟨P1, .nil, [], [], isWs_left (ha ▸ hws0),
        trivial, (fun _ hc => absurd hc (List.not_mem_nil _)), Or.inl rfl,
        by simp [objUpToMember, JMembers.text, JMembers.holeSep]⟩)))
    · have := ih ws0 .nil hws0 trivial R q hR hq (by simpa [JMembers.length] using h1)
      simpa [JMembers.text] using this

mutual

/-- Every prefix of a well formed value is cut off by the end of the input
or ends right after a closing bracket. -/
theorem cover_value : ∀ (v : JValue), v.wf → CoverV v
  | .num n, h => cover_scalar (.num n) rfl h
  | .str b, h => cover_scalar (.str b) rfl h
  | .tru, h => cover_scalar .tru rfl h
  | .fls, h => cover_scalar .fls rfl h
  | .nul, h => cover_scalar .nul rfl h
  | .arr ws items, h => by
    simp only [JValue.wf] at h
    exact cover_arr ws items h.1 h.2 (cover_items items h.2)
  | .obj ws members, h => by
    simp only [JValue.wf] at h
    exact cover_obj ws members h.1 h.2 (cover_members members h.2)

theorem cover_items : ∀ (items : JItems), items.wf → CoverI items
  | .nil, _ => cover_items_nil
  | .cons pre v post tl, h => by
    simp only [JItems.wf] at h
    exact cover_items_cons pre v post tl h.1 h.2.1 h.2.2.1 (cover_value v h.2.1)
      (cover_items tl h.2.2.2)

theorem cover_members : ∀ (members : JMembers), members.wf → CoverM members
  | .nil, _ => cover_members_nil
  | .cons pre nm ws1 ws2 v post tl, h => by
    simp only [JMembers.wf] at h
    exact cover_members_cons pre nm ws1 ws2 v post tl h.1 h.2.1 h.2.2.1 h.2.2.2.1
      h.2.2.2.2.1 h.2.2.2.2.2.1 (cover_value v h.2.2.2.2.1) (cover_members tl h.2.2.2.2.2.2)

end

/-- A text that ends right after the closing bracket of an array or object
ends with a closing bracket. -/
theorem nested_closed_last {P : List Char} (h : Nested Closed P) :
    ∃ init c, P = init ++ [c] ∧ (c = ']' ∨ c = '\x7d') := by
  induction h with
  | base X hX =>
    obtain ⟨w, _, hc, rfl⟩ := hX
    cases w with
    | arr ws items => exact ⟨'[' :: (ws ++ items.text true), ']', by simp [JValue.text], Or.inl rfl⟩
    | obj ws members =>
      exact ⟨'\x7b' :: (ws ++ members.text true), '\x7d', by simp [JValue.text], Or.inr rfl⟩
    | num n => exact absurd hc (by simp [JValue.isContainer])
    | str b => exact absurd hc (by simp [JValue.isContainer])
    | tru => exact absurd hc (by simp [JValue.isContainer])
    | fls => exact absurd hc (by simp [JValue.isContainer])
    | nul => exact absurd hc (by simp [JValue.isContainer])
  | arr ws0 items pre X _ _ _ _ ih =>
    obtain ⟨init, c, rfl, hc⟩ := ih
    exact ⟨'[' :: (ws0 ++ (items.text true ++ (items.holeSep pre ++ init))), c,
      by simp [arrUpTo], hc⟩
  | obj ws0 members pre name ws1 ws2 X _ _ _ _ _ _ _ ih =>
    obtain ⟨init, c, rfl, hc⟩ := ih
    exact ⟨'\x7b' :: (ws0 ++ (members.text true ++ (members.holeSep pre ++
      (strText name ++ (ws1 ++ (':' :: (ws2 ++ init))))))), c, by simp [objUpTo], hc⟩

/-- C20, as amended: let the input be a prefix `P`, not empty, of a well
formed array or object, after white space. Unless `P` ends right after the
closing bracket of the document or of an array or object nested in it at any
depth, and unless `P` is the opening brace of the document followed by white
space only, xjs_parse returns XJS_ERR_BAD_INPUT with the cursor on the
terminator: wherever else the input ends (after an opening bracket, a comma,
a colon, a name, an element or a member and the white space after it, or
inside a name, a string, a number or a literal or right after it), the
end-of-input signal is promoted to malformed-input. One buffer, a sink that
returns XJS_OK, an allocator that grants. -/
theorem C20_end_inside_document (blocks : Bool) (fallback : Option XJSMemCB)
    (node_cb : XJSNodeCB) (mem_cb : XJSMemCB) (hsink : SinkOk node_cb) (hmem : MemGrants mem_cb)
    (v : JValue) (hv : v.wf) (hc : v.isContainer = true) (P q : List Char)
    (h : P ++ q = v.text) (hP : P ≠ []) (hclose : ¬ Nested Closed P) (hbrace : ¬ BraceOnly P)
    (lead : List Char) (hl : isWs lead) :
    ∃ s, Runs (fun fuel => xjs_parse blocks fallback fuel (some (lead ++ P)) node_cb none
        (some mem_cb)) (XJS_ERR_BAD_INPUT, some [], s) := by
  have hX : Nested CutHere P := (cover_value v hv P q h hP).resolve_right hclose
  have hopen : ∃ xr, P = '[' :: xr ∨ P = '\x7b' :: xr := by
    cases P with
    | nil => exact absurd rfl hP
    | cons p P1 =>
      cases v with
      | arr ws items =>
        simp only [JValue.text, List.cons_append, List.cons.injEq] at h
        exact ⟨P1, Or.inl (by rw [h.1])⟩
      | obj ws members =>
        simp only [JValue.text, List.cons_append, List.cons.injEq] at h
        exact ⟨P1, Or.inr (by rw [h.1])⟩
      | num n => exact absurd hc (by simp [JValue.isContainer])
      | str b => exact absurd hc (by simp [JValue.isContainer])
      | tru => exact absurd hc (by simp [JValue.isContainer])
      | fls => exact absurd hc (by simp [JValue.isContainer])
      | nul => exact absurd hc (by simp [JValue.isContainer])
  obtain ⟨r, _, hr, hd⟩ := nested_here_end ⟨blocks, node_cb, none, mem_cb⟩ ⟨rfl, hmem, hsink⟩ P hX
  have hr' := hr hopen hbrace
  subst hr'
  obtain ⟨s1, ⟨N, hrun⟩, hjs⟩ := hd true (fun _ => hopen) lead 0 none (State.init (lead ++ P) 0)
    hl rfl
  beta_reduce at hrun
  refine ⟨s1, ⟨N, fun fuel hf => ?_⟩⟩
  show xjs_parse blocks fallback fuel (some (lead ++ P)) node_cb none (some mem_cb) = _
  simp only [xjs_parse, Option.isSome_some, if_true, xjs_parse_from, hrun fuel hf, hjs, peek_nil,
    ne_eq, not_true_eq_false, if_false, final_status]
  simp

/-- C20, as amended, on the object with the member a whose value is the
array of 1 and 2, cut off after the comma of the array and a blank. -/
theorem C20_end_inside_document_witness :
    ∃ s, Runs (fun fuel => xjs_parse false none fuel
        (some "\x7b\"a\":[1, ".toList) sinkOk none (some memGrant))
        (XJS_ERR_BAD_INPUT, some [], s) :=
  C20_end_inside_document false none sinkOk memGrant sinkOk_ok memGrant_grants
    (.obj [] (.cons [] [StrItem.ch 'a'] [] []
      (.arr [] (.cons [] (.num ⟨false, ['1'], none, none⟩) []
        (.cons [' '] (.num ⟨false, ['2'], none, none⟩) [] .nil))) [] .nil))
    (by simp [JValue.wf, JItems.wf, JMembers.wf, isWs, JNumber.wf, StrItem.wf]; decide)
    rfl "\x7b\"a\":[1, ".toList "2]\x7d".toList (by decide) (by decide)
    (fun hn => by
      obtain ⟨init, c, hP, hc⟩ := nested_closed_last hn
      have h1 := congrArg List.getLast? hP
      rw [List.getLast?_concat] at h1
      rcases hc with rfl | rfl <;> exact absurd h1 (by decide))
    (fun hb => by
      obtain ⟨ws0, hws0, hP⟩ := hb
      have h1 : '"' ∈ ws0 := by
        have := (List.cons.inj hP).2
        rw [← this]; decide
      exact absurd (hws0 '"' h1) (by decide))
    [] (by simp [isWs])

/-- C20 as stated fails at the array cut off right after the closing bracket
of its first element, an empty array, and at the object cut off right after
the empty array that is the value of its member a: xjs_parse returns
XJS_ERR_EXP_COMMA, which is not XJS_ERR_BAD_INPUT. It fails at the object
cut off right after its opening brace, and after the blank that follows the
brace: xjs_parse returns XJS_OK. -/
theorem C20_end_not_promoted :
    (xjs_parse false none 20 (some "[[]".toList) sinkOk none (some memGrant)).map (fun x => x.1)
        = some XJS_ERR_EXP_COMMA ∧
      (xjs_parse false none 20 (some "\x7b\"a\":[]".toList) sinkOk none (some memGrant)).map
        (fun x => x.1) = some XJS_ERR_EXP_COMMA ∧
      (xjs_parse false none 20 (some "\x7b".toList) sinkOk none (some memGrant)).map
        (fun x => x.1) = some XJS_OK ∧
      (xjs_parse false none 20 (some "\x7b ".toList) sinkOk none (some memGrant)).map
        (fun x => x.1) = some XJS_OK ∧
      XJS_ERR_EXP_COMMA ≠ XJS_ERR_BAD_INPUT ∧ XJS_OK ≠ XJS_ERR_BAD_INPUT := by
  decide!

end XJS
